import Mathlib

/-!
# flatecut: cutting DEFLATE data to a maximum encoded length

A shallow embedding of `lib/flatecut/flatecut.go` (package `flatecut` of Wuffs)
and the properties of `Cut` established over it.

Conventions of the embedding.

* A byte slice is a `List Nat`; the bytes of a Go `[]byte` are below 256.
* `uint32` values are naturals, with the truncation `u32` written wherever the
  Go operation can wrap; `int32` values are integers wrapped by `wrap32`.
* Go `int` values that can be negative (`maxEncodedLen`, the `-1` sentinels,
  the returned lengths) are integers; the byte cursor `index` only ever grows
  while reading and is a natural.
* A Go function that mutates its receiver returns the new receiver.
* `Run α` is the outcome of running code: a returned value, a Go run-time
  panic (index out of range, `panic("unreachable")`), or the exhaustion of the
  fuel that bounds the unbounded `for` loops.
-/

namespace Flatecut

/-! ## Errors and outcomes -/

/-- The package-level error values. -/
inductive Error where
  | errMaxEncodedLenTooSmall
  | errInternalNoProgress
  | errInternalSomeProgress
  | errInvalidBadBlockLength
  | errInvalidBadBlockType
  | errInvalidBadCodeLengths
  | errInvalidBadHuffmanTree
  | errInvalidBadSymbol
  | errInvalidNoEndOfBlock
  | errInvalidNotEnoughData
  | errInvalidTooManyCodes
  deriving DecidableEq, Repr

open Error

/-- Outcome of running a piece of the program. -/
inductive Run (α : Type) where
  | ret : α → Run α
  | panic : Run α
  | outOfFuel : Run α
  deriving DecidableEq, Repr

/-- Sequencing: a panic or an exhausted fuel of the first part is the outcome
of the whole. -/
def Run.bind {α β : Type} (r : Run α) (f : α → Run β) : Run β :=
  match r with
  | Run.ret a => f a
  | Run.panic => Run.panic
  | Run.outOfFuel => Run.outOfFuel

/-- The outcome with `f` applied to the returned value. -/
def Run.map {α β : Type} (f : α → β) (r : Run α) : Run β :=
  r.bind (fun a => Run.ret (f a))

/-! ## Machine arithmetic -/

/-- Truncation to `uint32`. -/
def u32 (x : Nat) : Nat := x % 4294967296

/-- Subtraction of `uint32` values (wraps around). -/
def sub32 (a b : Nat) : Nat := (a % 4294967296 + 4294967296 - b % 4294967296) % 4294967296

/-- Truncation to `uint64`. -/
def u64 (x : Nat) : Nat := x % 18446744073709551616

/-- Subtraction of `uint64` values (wraps around). -/
def sub64 (a b : Nat) : Nat :=
  (a % 18446744073709551616 + 18446744073709551616 - b % 18446744073709551616)
    % 18446744073709551616

/-- The conversion `uint64(x)` of a Go `int`. -/
def toUint64 (x : Int) : Nat := (x % 18446744073709551616).toNat

/-- The conversion `uint32(x)` of a signed integer. -/
def toUint32 (x : Int) : Nat := (x % 4294967296).toNat

/-- Two's complement truncation of an integer to `int32`. -/
def wrap32 (x : Int) : Int := (x + 2147483648) % 4294967296 - 2147483648

/-- The conversion `int32(x)` of a `uint32`. -/
def toInt32 (x : Nat) : Int := wrap32 (x : Int)

/-- The conversion `uint8(x)`. -/
def u8 (x : Nat) : Nat := x % 256

/-! ## Constants and tables -/

def SmallestValidMaxEncodedLen : Int := 2

def maxCodeBits : Nat := 15

def maxNumCodes : Nat := 288

def mostNegativeInt32 : Int := -0x80000000

/-- The table `codeOrder` of RFC 1951 section 3.2.7. -/
def codeOrder : List Nat :=
  [16, 17, 18, 0, 8, 7, 9, 6, 10, 5, 11, 4, 12, 3, 13, 2, 14, 1, 15]

/-- Length bases, indexed by the literal/length symbol minus 256. -/
def lBases : List Int :=
  [mostNegativeInt32,
   3, 4, 5, 6, 7, 8, 9, 10, 11, 13, 15, 17, 19, 23, 27, 31,
   35, 43, 51, 59, 67, 83, 99, 115, 131, 163, 195, 227, 258,
   mostNegativeInt32, mostNegativeInt32]

def lExtras : List Nat :=
  [0,
   0, 0, 0, 0, 0, 0, 0, 0, 1, 1, 1, 1, 2, 2, 2, 2,
   3, 3, 3, 3, 4, 4, 4, 4, 5, 5, 5, 5, 0,
   0, 0]

def dBases : List Int :=
  [1, 2, 3, 4, 5, 7, 9, 13, 17, 25, 33, 49, 65, 97, 129, 193,
   257, 385, 513, 769, 1025, 1537, 2049, 3073, 4097, 6145, 8193, 12289, 16385, 24577,
   mostNegativeInt32, mostNegativeInt32]

def dExtras : List Nat :=
  [0, 0, 0, 0, 1, 1, 2, 2, 3, 3, 4, 4, 5, 5, 6, 6,
   7, 7, 8, 8, 9, 9, 10, 10, 11, 11, 12, 12, 13, 13,
   0, 0]

/-! ## The bit reader -/

/-- The `bitstream` struct: `bytes[index]` is the next byte to load into
`bits`, whose low `nBits` bits are the next bits of the stream. -/
structure bitstream where
  bytes : List Nat
  index : Nat
  bits : Nat
  nBits : Nat
  deriving DecidableEq, Repr

/-- The loop `for b.nBits < nBits { ... }` of `take`. The flag is `false` when
the loop returned at the end of the data. Every iteration adds 8 to `b.nBits`,
so the loop makes at most `nBits` iterations; the first argument is that
bound. -/
def bitstream.refill : Nat → bitstream → Nat → bitstream × Bool
  | 0, b, _ => (b, true)
  | k + 1, b, nBits =>
    if b.nBits < nBits then
      if b.index ≥ b.bytes.length then (b, false)
      else
        refill k
          { b with
            bits := b.bits ||| u32 (b.bytes.getD b.index 0 <<< b.nBits)
            nBits := u32 (b.nBits + 8)
            index := b.index + 1 }
          nBits
    else (b, true)

/-- The method `bitstream.take`: the returned integer and the stream after
the call. -/
def bitstream.take (b : bitstream) (nBits : Nat) : Int × bitstream :=
  match b.refill nBits nBits with
  | (b1, false) => (mostNegativeInt32, b1)
  | (b1, true) =>
    let mask := sub32 (u32 (1 <<< nBits)) 1
    let ret := b1.bits &&& mask
    (toInt32 ret, { b1 with bits := b1.bits >>> nBits, nBits := sub32 b1.nBits nBits })

/-! ## Huffman tables -/

/-- The `huffman` struct: `counts` has `maxCodeBits + 1` entries and `symbols`
has `maxNumCodes` entries. -/
structure huffman where
  counts : List Nat
  symbols : List Int
  deriving DecidableEq, Repr

/-- The zero value of `huffman`. -/
def huffman.zero : huffman :=
  { counts := List.replicate 16 0, symbols := List.replicate 288 0 }

/-- The statements of the loop of `decode` that read one bit of the stream:
the bit and the stream after it, or `none` at the end of the data. -/
def bitstream.nextBit (b : bitstream) : Option (Nat × bitstream) :=
  if b.nBits = 0 ∧ b.index ≥ b.bytes.length then none
  else
    let b1 : bitstream :=
      if b.nBits = 0 then
        { b with bits := b.bytes.getD b.index 0, nBits := 8, index := b.index + 1 }
      else b
    some (b1.bits &&& 1, { b1 with bits := b1.bits >>> 1, nBits := sub32 b1.nBits 1 })

/-- The loop of `decode`, entered with `i` and with `k` iterations left
(`i + k = maxCodeBits + 1`). Indexing `h.symbols` out of range panics. -/
def huffman.decodeLoop (h : huffman) :
    Nat → Nat → Nat → Nat → Nat → bitstream → Run (Int × bitstream)
  | 0, _, _, _, _, b => Run.ret (mostNegativeInt32, b)
  | k + 1, i, code, first, symIndex, b =>
    match b.nextBit with
    | none => Run.ret (mostNegativeInt32, b)
    | some (bit, b2) =>
      let code1 := code ||| bit
      let count := h.counts.getD i 0
      if code1 < u32 (count + first) then
        let j := sub32 (u32 (symIndex + code1)) first
        if j < maxNumCodes then Run.ret (h.symbols.getD j 0, b2) else Run.panic
      else
        decodeLoop h k (i + 1) (u32 (code1 <<< 1)) (u32 (u32 (first + count) <<< 1))
          (u32 (symIndex + count)) b2

/-- The method `huffman.decode`. -/
def huffman.decode (h : huffman) (b : bitstream) : Run (Int × bitstream) :=
  h.decodeLoop maxCodeBits 1 0 0 0 b

/-- The loop `for _, x := range lengths { h.counts[x]++ }`; an `x` above 15
indexes `h.counts` out of range. -/
def countLengths : List Nat → List Nat → Option (List Nat)
  | [], counts => some counts
  | x :: xs, counts =>
    if x < 16 then countLengths xs (counts.set x (u32 (counts.getD x 0 + 1))) else none

/-- The loop `for _, l := range lengths[endCode+1:]` counting into
`remainingForEndCode`. -/
def countEndCode (endCodeLength : Nat) : List Nat → Nat → Nat
  | [], r => r
  | l :: ls, r => countEndCode endCodeLength ls (if l = endCodeLength then u32 (r + 1) else r)

/-- The loop `for i := uint32(1); i <= maxCodeBits; i++` of `construct`, entered
with `i` and `k` iterations left. `none` is the return of
`errInvalidBadHuffmanTree` from inside the loop; otherwise the final
`(remaining, endCodeBits, endCodeNBits)`. The slice `lengths[endCode+1:]` is
only taken when `endCodeLength` is not zero, that is when `lengths` has more
than 256 entries. -/
def kraftLoop (counts lengths : List Nat) (endCodeLength : Nat) :
    Nat → Nat → Nat → Nat → Nat → Option (Nat × Nat × Nat)
  | 0, _, remaining, endCodeBits, endCodeNBits => some (remaining, endCodeBits, endCodeNBits)
  | k + 1, i, remaining, endCodeBits, endCodeNBits =>
    let remaining1 := u32 (remaining * 2)
    if remaining1 < counts.getD i 0 then none
    else
      let remaining2 := sub32 remaining1 (counts.getD i 0)
      if i = endCodeLength then
        let remainingForEndCode := countEndCode endCodeLength (lengths.drop 257) remaining2
        kraftLoop counts lengths endCodeLength k (i + 1) remaining2
          (sub32 (sub32 (u32 (1 <<< endCodeLength)) 1) remainingForEndCode) endCodeLength
      else
        kraftLoop counts lengths endCodeLength k (i + 1) remaining2 endCodeBits endCodeNBits

/-- The loop `for i := 1; i < maxCodeBits; i++ { offsets[i+1] = offsets[i] + h.counts[i] }`. -/
def offsetsLoop (counts : List Nat) : Nat → Nat → List Nat → List Nat
  | 0, _, offsets => offsets
  | k + 1, i, offsets =>
    offsetsLoop counts k (i + 1)
      (offsets.set (i + 1) (u32 (offsets.getD i 0 + counts.getD i 0)))

/-- The loop `for symbol, length := range lengths` of `construct`, entered at
`symbol`. Writing `h.symbols` out of range panics. -/
def placeSymbols : List Nat → Nat → List Nat → List Int → Option (List Int)
  | [], _, _, symbols => some symbols
  | length :: ls, symbol, offsets, symbols =>
    if length ≠ 0 then
      if offsets.getD length 0 < maxNumCodes then
        placeSymbols ls (symbol + 1)
          (offsets.set length (u32 (offsets.getD length 0 + 1)))
          (symbols.set (offsets.getD length 0) (toInt32 symbol))
      else none
    else placeSymbols ls (symbol + 1) offsets symbols

/-- The method `huffman.construct`: the table after the call, `endCodeBits`,
`endCodeNBits` and `retErr`. -/
def huffman.construct (h : huffman) (lengths : List Nat) :
    Run (huffman × Nat × Nat × Option Error) :=
  match countLengths lengths (List.replicate 16 0) with
  | none => Run.panic
  | some counts =>
    let h1 : huffman := { h with counts := counts }
    if counts.getD 0 0 = u32 lengths.length then
      Run.ret (h1, 0, 0, some errInvalidBadHuffmanTree)
    else
      let endCodeLength := if lengths.length > 256 then lengths.getD 256 0 else 0
      match kraftLoop counts lengths endCodeLength maxCodeBits 1 1 0 0 with
      | none => Run.ret (h1, 0, 0, some errInvalidBadHuffmanTree)
      | some (remaining, endCodeBits, endCodeNBits) =>
        if remaining ≠ 0 then Run.ret (h1, 0, 0, some errInvalidBadHuffmanTree)
        else
          let offsets := offsetsLoop counts 14 1 (List.replicate 16 0)
          match placeSymbols lengths 0 offsets h1.symbols with
          | none => Run.panic
          | some symbols =>
            Run.ret ({ h1 with symbols := symbols }, endCodeBits, endCodeNBits, none)

/-! ## The cutter -/

/-- The `cutter` struct. -/
structure cutter where
  bits : bitstream
  maxEncodedLen : Int
  decodedLen : Int
  endCodeBits : Nat
  endCodeNBits : Nat
  lHuff : huffman
  dHuff : huffman
  deriving DecidableEq, Repr

/-- What `Cut` leaves behind: the contents of `encoded` after the call and the
three returned values. -/
structure CutResult where
  encoded : List Nat
  encodedLen : Int
  decodedLen : Int
  retErr : Option Error
  deriving DecidableEq, Repr

/-- The read `bytes[i]` for a Go `int` index: `none` is the run-time panic. -/
def readByte (bytes : List Nat) (i : Int) : Option Nat :=
  if 0 ≤ i ∧ i < bytes.length then some (bytes.getD i.toNat 0) else none

/-- The function `cutEmpty`. -/
def cutEmpty (encoded : List Nat) (maxEncodedLen : Int) : Run CutResult :=
  if maxEncodedLen < SmallestValidMaxEncodedLen then Run.panic
  else if encoded.length < 2 then Run.panic
  else
    Run.ret
      { encoded := (encoded.set 0 0x03).set 1 0x00, encodedLen := 2, decodedLen := 0,
        retErr := none }

/-- The method `cutter.doStored`. -/
def cutter.doStored (c : cutter) : Run (cutter × Option Error) :=
  if c.maxEncodedLen - c.bits.index < 4 then Run.ret (c, some errInternalNoProgress)
  else if c.bits.bytes.length < c.bits.index + 4 then Run.panic
  else
    let length := c.bits.bytes.getD (c.bits.index + 0) 0
      ||| u32 (c.bits.bytes.getD (c.bits.index + 1) 0 <<< 8)
    let invLen := c.bits.bytes.getD (c.bits.index + 2) 0
      ||| u32 (c.bits.bytes.getD (c.bits.index + 3) 0 <<< 8)
    if u32 (length + invLen) ≠ 0xFFFF then Run.ret (c, some errInvalidBadBlockLength)
    else if wrap32 (c.decodedLen + toInt32 length) < 0 then
      Run.ret (c, some errInternalNoProgress)
    else
      let index := c.bits.index + 4
      let remaining : Int := c.maxEncodedLen - index
      if remaining ≥ length then
        Run.ret
          ({ c with
             bits := { c.bits with index := index + length, bits := 0, nBits := 0 }
             decodedLen := wrap32 (c.decodedLen + toInt32 length) }, none)
      else if remaining = 0 then Run.ret (c, some errInternalNoProgress)
      else
        let length1 := toUint32 remaining
        let invLen1 := sub32 0xFFFF length1
        let bytes1 :=
          (((c.bits.bytes.set (c.bits.index + 0) (u8 (length1 >>> 0))).set
            (c.bits.index + 1) (u8 (length1 >>> 8))).set
            (c.bits.index + 2) (u8 (invLen1 >>> 0))).set
            (c.bits.index + 3) (u8 (invLen1 >>> 8))
        Run.ret
          ({ c with
             bits := { bytes := bytes1, index := index + length1, bits := 0, nBits := 0 }
             decodedLen := wrap32 (c.decodedLen + toInt32 length1) },
           some errInternalSomeProgress)

/-- The loop of `cutter.writeEndCode`, entered with `j`; it returns the
stream after the loop. Indexing `bytes` out of range panics. -/
def cutter.writeEndCodeLoop (endCodeBits : Nat) : Nat → bitstream → Option bitstream
  | 0, b => some b
  | j + 1, b =>
    let b1 : bitstream :=
      if b.nBits = 0 then { b with index := b.index + 1, nBits := 8 } else b
    let b2 : bitstream := { b1 with nBits := sub32 b1.nBits 1 }
    let n := sub32 7 b2.nBits
    let bit := (endCodeBits >>> (sub32 (j + 1) 1)) &&& 1
    let mask := u32 (1 <<< n)
    match readByte b2.bytes ((b2.index : Int) - 1) with
    | none => none
    | some x =>
      let x1 := x &&& (255 ^^^ u8 mask)
      let x2 := x1 ||| u8 (u32 (mask * bit))
      writeEndCodeLoop endCodeBits j
        { b2 with bytes := b2.bytes.set ((b2.index : Int) - 1).toNat x2 }

/-- The method `cutter.writeEndCode`. -/
def cutter.writeEndCode (c : cutter) : Option cutter :=
  match cutter.writeEndCodeLoop c.endCodeBits c.endCodeNBits c.bits with
  | none => none
  | some b => some { c with bits := b }

/-- One pass through the body of the `for` loop of `doHuffman`, up to the
overflow check: either the body returned (`stop`: an error, or `nil` at the
end-of-block code), or a literal or a copy was read and the local `decodedLen`
has the given new value (`next`). -/
inductive SymbolStep where
  | stop : cutter → Option Error → SymbolStep
  | next : cutter → Int → SymbolStep
  deriving DecidableEq, Repr

/-- The part of the body of the loop of `doHuffman` that reads the distance of
a length/distance copy of `length` bytes. Indexing the tables out of range
panics. -/
def cutter.readDistance (c : cutter) (decodedLen length : Int) : Run SymbolStep :=
  (c.dHuff.decode c.bits).bind fun r =>
    let dSymbol := r.1
    let c3 : cutter := { c with bits := r.2 }
    if dSymbol < 0 then Run.ret (SymbolStep.stop c3 (some errInvalidBadSymbol))
    else if dSymbol ≥ 32 then Run.panic
    else
      let di := dSymbol.toNat
      let t2 := c3.bits.take (dExtras.getD di 0)
      let distance := wrap32 (dBases.getD di 0 + t2.1)
      let c4 : cutter := { c3 with bits := t2.2 }
      if distance < 0 then
        if dBases.getD di 0 < 0 then Run.ret (SymbolStep.stop c4 (some errInvalidBadSymbol))
        else Run.ret (SymbolStep.stop c4 (some errInvalidNotEnoughData))
      else Run.ret (SymbolStep.next c4 (wrap32 (decodedLen + length)))

/-- The branch `lSymbol > 256` of the body of the loop of `doHuffman`: a
length/distance copy. Indexing the tables out of range panics. -/
def cutter.readCopy (c : cutter) (decodedLen lSymbol : Int) : Run SymbolStep :=
  if lSymbol - 256 ≥ 32 then Run.panic
  else
    let li := (lSymbol - 256).toNat
    let t := c.bits.take (lExtras.getD li 0)
    let length := wrap32 (lBases.getD li 0 + t.1)
    let c2 : cutter := { c with bits := t.2 }
    if length < 0 then
      if lBases.getD li 0 < 0 then Run.ret (SymbolStep.stop c2 (some errInvalidBadSymbol))
      else Run.ret (SymbolStep.stop c2 (some errInvalidNotEnoughData))
    else c2.readDistance decodedLen length

/-- The first half of the body of the loop of `doHuffman`: one symbol is read. -/
def cutter.readSymbol (c : cutter) (decodedLen : Int) : Run SymbolStep :=
  (c.lHuff.decode c.bits).bind fun r =>
    let lSymbol := r.1
    let c1 : cutter := { c with bits := r.2 }
    if lSymbol < 0 then Run.ret (SymbolStep.stop c1 (some errInvalidBadSymbol))
    else if lSymbol < 256 then Run.ret (SymbolStep.next c1 (wrap32 (decodedLen + 1)))
    else if lSymbol > 256 then c1.readCopy decodedLen lSymbol
    else Run.ret (SymbolStep.stop c1 none)

/-- The code of `doHuffman` after its loop was left by `break`. -/
def cutter.afterBreak (c : cutter) (checkpointIndex : Int) (checkpointNBits : Nat) :
    Run (cutter × Option Error) :=
  if checkpointIndex < 0 then Run.ret (c, some errInternalNoProgress)
  else
    match cutter.writeEndCode
        { c with bits := { c.bits with index := checkpointIndex.toNat, nBits := checkpointNBits } }
    with
    | none => Run.panic
    | some c1 => Run.ret (c1, some errInternalSomeProgress)

/-- How one pass through the loop of `doHuffman` ends: `doHuffman` returns
(`exit`), or the loop goes on with the cutter, the new checkpoint and the
new local `decodedLen` (`again`). -/
inductive HuffmanStep where
  | exit : cutter → Option Error → HuffmanStep
  | again : cutter → Int → Nat → Int → HuffmanStep
  deriving DecidableEq, Repr

/-- The second half of the body of the loop of `doHuffman`, after a literal or
a copy was read: the overflow check, the budget check and the checkpoint. -/
def cutter.checkpoint (c1 : cutter) (checkpointIndex : Int) (checkpointNBits : Nat)
    (decodedLen1 : Int) : Run HuffmanStep :=
  if decodedLen1 < 0 then
    (c1.afterBreak checkpointIndex checkpointNBits).map fun r => HuffmanStep.exit r.1 r.2
  else
    let encodedBits := sub64 (u64 (8 * u64 c1.bits.index)) (u64 c1.bits.nBits)
    let maxEncodedBits := u64 (8 * toUint64 c1.maxEncodedLen)
    if u64 (encodedBits + u64 c1.endCodeNBits) > maxEncodedBits then
      (c1.afterBreak checkpointIndex checkpointNBits).map fun r => HuffmanStep.exit r.1 r.2
    else
      Run.ret (HuffmanStep.again { c1 with decodedLen := decodedLen1 } c1.bits.index
        c1.bits.nBits decodedLen1)

/-- One pass through the body of the loop of `doHuffman`, with what follows the
loop when the pass leaves it by `break`. -/
def cutter.huffmanStep (c : cutter) (checkpointIndex : Int) (checkpointNBits : Nat)
    (decodedLen : Int) : Run HuffmanStep :=
  (c.readSymbol decodedLen).bind fun s =>
    match s with
    | SymbolStep.stop c1 err => Run.ret (HuffmanStep.exit c1 err)
    | SymbolStep.next c1 decodedLen1 =>
      c1.checkpoint checkpointIndex checkpointNBits decodedLen1

/-- The `for` loop of `doHuffman` with what follows it; the first argument is
the fuel. -/
def cutter.huffmanLoop : Nat → cutter → Int → Nat → Int → Run (cutter × Option Error)
  | 0, _, _, _, _ => Run.outOfFuel
  | fuel + 1, c, checkpointIndex, checkpointNBits, decodedLen =>
    match c.huffmanStep checkpointIndex checkpointNBits decodedLen with
    | Run.panic => Run.panic
    | Run.outOfFuel => Run.outOfFuel
    | Run.ret (HuffmanStep.exit c1 err) => Run.ret (c1, err)
    | Run.ret (HuffmanStep.again c1 checkpointIndex1 checkpointNBits1 decodedLen1) =>
      huffmanLoop fuel c1 checkpointIndex1 checkpointNBits1 decodedLen1

/-- The method `cutter.doHuffman`; the first argument is the fuel of its loop. -/
def cutter.doHuffman (fuel : Nat) (c : cutter) (lLengths dLengths : List Nat) :
    Run (cutter × Option Error) :=
  match c.lHuff.construct lLengths with
  | Run.panic => Run.panic
  | Run.outOfFuel => Run.outOfFuel
  | Run.ret (lHuff, endCodeBits, endCodeNBits, err) =>
    let c1 : cutter :=
      { c with lHuff := lHuff, endCodeBits := endCodeBits, endCodeNBits := endCodeNBits }
    if err ≠ none then Run.ret (c1, err)
    else if c1.endCodeNBits = 0 then Run.ret (c1, some errInvalidNoEndOfBlock)
    else
      match c1.dHuff.construct dLengths with
      | Run.panic => Run.panic
      | Run.outOfFuel => Run.outOfFuel
      | Run.ret (dHuff, _, _, err1) =>
        let c2 : cutter := { c1 with dHuff := dHuff }
        if err1 ≠ none then Run.ret (c2, err1)
        else if (c2.bits.index : Int) > c2.maxEncodedLen then
          Run.ret (c2, some errInternalNoProgress)
        else c2.huffmanLoop fuel (-1) 0 c2.decodedLen

/-- The code lengths of the static Huffman block, RFC 1951 section 3.2.6. -/
def staticLengths : List Nat :=
  List.replicate 144 8 ++ List.replicate 112 9 ++ List.replicate 24 7 ++ List.replicate 8 8
    ++ List.replicate 32 5

/-- The method `cutter.doStaticHuffman`. -/
def cutter.doStaticHuffman (fuel : Nat) (c : cutter) : Run (cutter × Option Error) :=
  c.doHuffman fuel (staticLengths.take 288) (staticLengths.drop 288)

/-- The loop `for i := int32(0); i < numCodeLengths; i++` of `doDynamicHuffman`,
entered with `i` and `k` iterations left. It returns the stream, the lengths
and `false` when `errInvalidNotEnoughData` was returned from inside the
loop. Indexing `codeOrder` or `lengths` out of range panics. -/
def readCodeLengthLengths : Nat → Nat → bitstream → List Nat → Run (bitstream × List Nat × Bool)
  | 0, _, b, lengths => Run.ret (b, lengths, true)
  | k + 1, i, b, lengths =>
    let t := b.take 3
    if t.1 < 0 then Run.ret (t.2, lengths, false)
    else if i ≥ 19 then Run.panic
    else if codeOrder.getD i 0 ≥ lengths.length then Run.panic
    else
      readCodeLengthLengths k (i + 1) t.2 (lengths.set (codeOrder.getD i 0) (toUint32 t.1))

/-- The loop `for ; count > 0; count--` of `doDynamicHuffman`: it writes `value`
at `lengths[i]`, `lengths[i+1]`, ... and returns the lengths and the final
`i`. Indexing `lengths` out of range panics. -/
def repeatLength (value : Nat) : Nat → Int → List Nat → Option (List Nat × Int)
  | 0, i, lengths => some (lengths, i)
  | count + 1, i, lengths =>
    if 0 ≤ i ∧ i < lengths.length then
      repeatLength value count (wrap32 (i + 1)) (lengths.set i.toNat value)
    else none

/-- How one pass through the second loop of `doDynamicHuffman` ends: the
function returns an error (`stop`), or the loop goes on with the new lengths and
the new `i` (`next`). -/
inductive LengthStep where
  | stop : cutter → List Nat → Error → LengthStep
  | next : cutter → List Nat → Int → LengthStep
  deriving DecidableEq, Repr

/-- The cutter at the end of a pass through the second loop of
`doDynamicHuffman`. -/
def LengthStep.cutter : LengthStep → cutter
  | LengthStep.stop c _ _ => c
  | LengthStep.next c _ _ => c

/-- The code of the second loop of `doDynamicHuffman` that follows its `switch`,
run for the symbols 16, 17 and 18: `count` is the value computed by the
`switch`, a base plus the bits taken. -/
def cutter.repeatTail (c : cutter) (n i : Int) (lengths : List Nat) (value : Nat)
    (count : Int) : Run LengthStep :=
  if count < 0 then Run.ret (LengthStep.stop c lengths errInvalidNotEnoughData)
  else if wrap32 (i + count) > n then
    Run.ret (LengthStep.stop c lengths errInvalidBadCodeLengths)
  else
    match repeatLength value count.toNat i lengths with
    | none => Run.panic
    | some (lengths1, i1) => Run.ret (LengthStep.next c lengths1 i1)

/-- One pass through the body of the second loop of `doDynamicHuffman`, with
`n = numLCodes + numDCodes`. -/
def cutter.readCodeLength (c : cutter) (n i : Int) (lengths : List Nat) : Run LengthStep :=
  (c.lHuff.decode c.bits).bind fun r =>
    let symbol := r.1
    let c1 : cutter := { c with bits := r.2 }
    if symbol < 0 then Run.ret (LengthStep.stop c1 lengths errInvalidBadCodeLengths)
    else if symbol = 16 then
      if i = 0 then Run.ret (LengthStep.stop c1 lengths errInvalidBadCodeLengths)
      else
        match readByte lengths (i - 1) with
        | none => Run.panic
        | some value =>
          let t := c1.bits.take 2
          cutter.repeatTail { c1 with bits := t.2 } n i lengths value (wrap32 (3 + t.1))
    else if symbol = 17 then
      let t := c1.bits.take 3
      cutter.repeatTail { c1 with bits := t.2 } n i lengths 0 (wrap32 (3 + t.1))
    else if symbol = 18 then
      let t := c1.bits.take 7
      cutter.repeatTail { c1 with bits := t.2 } n i lengths 0 (wrap32 (11 + t.1))
    else if 0 ≤ i ∧ i < lengths.length then
      Run.ret (LengthStep.next c1 (lengths.set i.toNat (toUint32 symbol)) (wrap32 (i + 1)))
    else Run.panic

/-- The loop `for i := int32(0); i < (numLCodes + numDCodes);` of
`doDynamicHuffman`, entered with `i`; `n` is `numLCodes + numDCodes` and the
first argument is the fuel. It returns the cutter, the lengths and the error
returned from inside the loop, if any. -/
def cutter.readCodeLengths :
    Nat → cutter → Int → Int → List Nat → Run (cutter × List Nat × Option Error)
  | 0, _, _, _, _ => Run.outOfFuel
  | fuel + 1, c, n, i, lengths =>
    if i < n then
      match c.readCodeLength n i lengths with
      | Run.panic => Run.panic
      | Run.outOfFuel => Run.outOfFuel
      | Run.ret (LengthStep.stop c1 lengths1 err) => Run.ret (c1, lengths1, some err)
      | Run.ret (LengthStep.next c1 lengths1 i1) => readCodeLengths fuel c1 n i1 lengths1
    else Run.ret (c, lengths, none)

/-- The code of `doDynamicHuffman` that follows the check of the counts: the
code lengths are read and `doHuffman` is called. -/
def cutter.doDynamicLengths (fuel : Nat) (c : cutter) (numLCodes numDCodes numCodeLengths : Int) :
    Run (cutter × Option Error) :=
  let n := wrap32 (numLCodes + numDCodes)
  (readCodeLengthLengths numCodeLengths.toNat 0 c.bits (List.replicate n.toNat 0)).bind fun r =>
    if r.2.2 = false then Run.ret ({ c with bits := r.1 }, some errInvalidNotEnoughData)
    else
      (c.lHuff.construct r.2.1).bind fun h =>
        let c4 : cutter := { c with bits := r.1, lHuff := h.1 }
        if h.2.2.2 ≠ none then Run.ret (c4, h.2.2.2)
        else
          (c4.readCodeLengths fuel n 0 r.2.1).bind fun q =>
            if q.2.2 ≠ none then Run.ret (q.1, q.2.2)
            else
              q.1.doHuffman fuel (q.2.1.take numLCodes.toNat) (q.2.1.drop numLCodes.toNat)

/-- The method `cutter.doDynamicHuffman`; the first argument is the fuel of the
unbounded loops. -/
def cutter.doDynamicHuffman (fuel : Nat) (c : cutter) : Run (cutter × Option Error) :=
  let t1 := c.bits.take 5
  let numLCodes := wrap32 (257 + t1.1)
  if numLCodes < 0 then Run.ret ({ c with bits := t1.2 }, some errInvalidNotEnoughData)
  else
    let t2 := t1.2.take 5
    let numDCodes := wrap32 (1 + t2.1)
    if numDCodes < 0 then Run.ret ({ c with bits := t2.2 }, some errInvalidNotEnoughData)
    else
      let t3 := t2.2.take 4
      let numCodeLengths := wrap32 (4 + t3.1)
      if numCodeLengths < 0 then Run.ret ({ c with bits := t3.2 }, some errInvalidNotEnoughData)
      else if numLCodes > 286 ∨ numDCodes > 30 then
        Run.ret ({ c with bits := t3.2 }, some errInvalidTooManyCodes)
      else
        cutter.doDynamicLengths fuel { c with bits := t3.2 } numLCodes numDCodes numCodeLengths

/-- The statement `c.bits.bytes[finalBlockIndex-1] |= uint8(mask)` of `cut`, with
`mask` the bit `7 - finalBlockNBits`. -/
def setFinalBit (bytes : List Nat) (finalBlockIndex : Int) (finalBlockNBits : Nat) :
    Option (List Nat) :=
  let n := sub32 7 finalBlockNBits
  let mask := u32 (1 <<< n)
  match readByte bytes (finalBlockIndex - 1) with
  | none => none
  | some x => some (bytes.set (finalBlockIndex - 1).toNat (x ||| u8 mask))

/-- The code of `cut` after its loop, for the cursor `(index, nBits)`: the high
`nBits` bits of `bytes[index-1]` are cleared and the lengths are returned. -/
def cutEpilogue (bytes : List Nat) (index : Int) (nBits : Nat) (decodedLen : Int) :
    Run CutResult :=
  if nBits ≠ 0 then
    let mask := sub32 (u32 (1 <<< sub32 8 nBits)) 1
    match readByte bytes (index - 1) with
    | none => Run.panic
    | some x =>
      Run.ret
        { encoded := bytes.set (index - 1).toNat (x &&& u8 mask), encodedLen := index,
          decodedLen := decodedLen, retErr := none }
  else Run.ret { encoded := bytes, encodedLen := index, decodedLen := decodedLen, retErr := none }

/-- The dispatch `switch blockType` of `cut` for the block types 0, 1 and 2. -/
def cutter.doBlock (fuel : Nat) (c : cutter) (blockType : Int) : Run (cutter × Option Error) :=
  if blockType = 0 then c.doStored
  else if blockType = 1 then c.doStaticHuffman fuel
  else if blockType = 2 then c.doDynamicHuffman fuel
  else Run.ret (c, none)

/-- How one pass through the loop of `cut` ends: the loop goes on with the
cutter and the new `prevFinalBlockIndex` and `prevFinalBlockNBits` (the
`continue`), or `cut` returns. -/
inductive CutStep where
  | again : cutter → Int → Nat → CutStep
  | done : CutResult → CutStep
  deriving DecidableEq, Repr

/-- The statement `switch err` of `cut`, and for the passes that leave the loop
the code after the loop. -/
def cutter.afterBlock (c1 : cutter) (err : Option Error) (finalBlock : Int)
    (finalBlockIndex : Int) (finalBlockNBits : Nat)
    (prevFinalBlockIndex : Int) (prevFinalBlockNBits : Nat) : Run CutStep :=
  match err with
  | none =>
    if finalBlock = 0 then Run.ret (CutStep.again c1 finalBlockIndex finalBlockNBits)
    else
      (cutEpilogue c1.bits.bytes c1.bits.index c1.bits.nBits c1.decodedLen).map CutStep.done
  | some errInternalNoProgress =>
    if prevFinalBlockIndex < 0 then
      (cutEmpty c1.bits.bytes c1.maxEncodedLen).map CutStep.done
    else
      let nBits := u32 (finalBlockNBits + 1)
      match setFinalBit c1.bits.bytes prevFinalBlockIndex prevFinalBlockNBits with
      | none => Run.panic
      | some bytes =>
        if nBits = 8 then
          (cutEpilogue bytes (finalBlockIndex - 1) 0 c1.decodedLen).map CutStep.done
        else (cutEpilogue bytes finalBlockIndex nBits c1.decodedLen).map CutStep.done
  | some errInternalSomeProgress =>
    match setFinalBit c1.bits.bytes finalBlockIndex finalBlockNBits with
    | none => Run.panic
    | some bytes =>
      (cutEpilogue bytes c1.bits.index c1.bits.nBits c1.decodedLen).map CutStep.done
  | some err =>
    Run.ret (CutStep.done { encoded := c1.bits.bytes, encodedLen := 0, decodedLen := 0,
                            retErr := some err })

/-- One pass through the body of the loop of `cut`; `fuel` is handed to the
loops of the block readers. -/
def cutter.cutStep (fuel : Nat) (c : cutter) (prevFinalBlockIndex : Int)
    (prevFinalBlockNBits : Nat) : Run CutStep :=
  let t1 := c.bits.take 1
  let finalBlock := t1.1
  if finalBlock < 0 then
    Run.ret (CutStep.done { encoded := t1.2.bytes, encodedLen := 0, decodedLen := 0,
                            retErr := some errInvalidNotEnoughData })
  else
    let finalBlockIndex : Int := t1.2.index
    let finalBlockNBits := t1.2.nBits
    let t2 := t1.2.take 2
    let blockType := t2.1
    if blockType < 0 then
      Run.ret (CutStep.done { encoded := t2.2.bytes, encodedLen := 0, decodedLen := 0,
                              retErr := some errInvalidNotEnoughData })
    else if blockType = 3 then
      Run.ret (CutStep.done { encoded := t2.2.bytes, encodedLen := 0, decodedLen := 0,
                              retErr := some errInvalidBadBlockType })
    else
      (cutter.doBlock fuel { c with bits := t2.2 } blockType).bind fun r =>
        cutter.afterBlock r.1 r.2 finalBlock finalBlockIndex finalBlockNBits
          prevFinalBlockIndex prevFinalBlockNBits

/-- The loop of the method `cutter.cut`. The first argument is the fuel handed
to the loops of the block readers, the second the fuel of this loop. -/
def cutter.cutLoop (fuel : Nat) : Nat → cutter → Int → Nat → Run CutResult
  | 0, _, _, _ => Run.outOfFuel
  | k + 1, c, prevFinalBlockIndex, prevFinalBlockNBits =>
    match c.cutStep fuel prevFinalBlockIndex prevFinalBlockNBits with
    | Run.panic => Run.panic
    | Run.outOfFuel => Run.outOfFuel
    | Run.ret (CutStep.done r) => Run.ret r
    | Run.ret (CutStep.again c1 finalBlockIndex finalBlockNBits) =>
      cutLoop fuel k c1 finalBlockIndex finalBlockNBits

/-- The value of `maxEncodedLen` after the two clamps of `Cut` (to `1 << 30`
and to `len(encoded)`). -/
def clampMaxEncodedLen (encoded : List Nat) (maxEncodedLen : Int) : Int :=
  let maxEncodedLen1 : Int :=
    if toUint64 maxEncodedLen > 1073741824 then 1073741824 else maxEncodedLen
  if maxEncodedLen1 > encoded.length then encoded.length else maxEncodedLen1

/-- The composite literal `cutter{bits: bitstream{bytes: encoded}, maxEncodedLen:
maxEncodedLen}` of `Cut`. -/
def cutter.start (encoded : List Nat) (maxEncodedLen : Int) : cutter :=
  { bits := { bytes := encoded, index := 0, bits := 0, nBits := 0 }
    maxEncodedLen := maxEncodedLen
    decodedLen := 0
    endCodeBits := 0
    endCodeNBits := 0
    lHuff := huffman.zero
    dHuff := huffman.zero }

/-- The method `cutter.cut`; the argument is the fuel. -/
def cutter.cut (fuel : Nat) (c : cutter) : Run CutResult :=
  cutter.cutLoop fuel fuel c (-1) 0

/-- The function `Cut`, with the fuel of the loops as first argument: the
contents of `encoded` after the call and the returned values. -/
def CutFuel (fuel : Nat) (encoded : List Nat) (maxEncodedLen : Int) : Run CutResult :=
  if maxEncodedLen < SmallestValidMaxEncodedLen then
    Run.ret { encoded := encoded, encodedLen := 0, decodedLen := 0,
              retErr := some errMaxEncodedLenTooSmall }
  else if clampMaxEncodedLen encoded maxEncodedLen < SmallestValidMaxEncodedLen then
    Run.ret { encoded := encoded, encodedLen := 0, decodedLen := 0,
              retErr := some errInvalidNotEnoughData }
  else (cutter.start encoded (clampMaxEncodedLen encoded maxEncodedLen)).cut fuel

/-- The function `Cut`. Every pass through a loop of the program consumes at
least one bit of `encoded`, so `8 * len(encoded) + 8` passes are enough fuel. -/
def Cut (encoded : List Nat) (maxEncodedLen : Int) : Run CutResult :=
  CutFuel (8 * encoded.length + 8) encoded maxEncodedLen

/-! ## Bit-level view of a byte slice

The vocabulary in which the properties of the reader and of the cutter are
stated: the stream of bits of a byte slice, least significant bit of each byte
first. -/

/-- Bit `q` of the stream: bit `q % 8` (LSB = 0) of the byte `q / 8`. -/
def bitAt (bytes : List Nat) (q : Nat) : Nat :=
  bytes.getD (q / 8) 0 / 2 ^ (q % 8) % 2

/-- The number made of the `n` stream bits from position `p` on, the first
bit being the least significant. -/
def bitsVal (bytes : List Nat) (p : Nat) : Nat → Nat
  | 0 => 0
  | n + 1 => bitAt bytes p + 2 * bitsVal bytes (p + 1) n

/-- The bit position of a reader: the number of bits consumed so far. -/
def bitstream.pos (b : bitstream) : Nat := 8 * b.index - b.nBits

/-- The reader over `bytes` standing at bit position `p`: the byte holding
bit `p - 1` is the last one loaded, and the rest of it is buffered. -/
def cursorAt (bytes : List Nat) (p : Nat) : bitstream :=
  { bytes := bytes
    index := (p + 7) / 8
    bits := bitsVal bytes p (8 * ((p + 7) / 8) - p)
    nBits := 8 * ((p + 7) / 8) - p }

/-- The invariant of the reader: the buffered bits are the next `nBits` bits of
the stream. -/
def bitstream.Ok (b : bitstream) : Prop :=
  b.nBits ≤ 8 * b.index ∧ b.index ≤ b.bytes.length ∧
    b.bits = bitsVal b.bytes (8 * b.index - b.nBits) b.nBits

/-- Every entry of the slice is a byte. -/
def IsBytes (bytes : List Nat) : Prop := ∀ x ∈ bytes, x < 256

/-- The 16-bit little-endian field held by the bytes `i` and `i + 1`. -/
def le16 (bytes : List Nat) (i : Nat) : Nat := bytes.getD i 0 + 256 * bytes.getD (i + 1) 0

/-- The slice with the 16-bit value `v` written little-endian at the bytes `i`
and `i + 1`. -/
def setLe16 (bytes : List Nat) (i v : Nat) : List Nat :=
  (bytes.set i (v % 256)).set (i + 1) (v / 256 % 256)

/-- The cutter at the end of a pass through the loop of `doHuffman`. -/
def SymbolStep.cutter : SymbolStep → cutter
  | SymbolStep.stop c _ => c
  | SymbolStep.next c _ => c

/-- The cutter with another budget. -/
def cutter.withBudget (c : cutter) (m : Int) : cutter := { c with maxEncodedLen := m }

/-- The step with another budget in its cutter. -/
def SymbolStep.withBudget (s : SymbolStep) (m : Int) : SymbolStep :=
  match s with
  | SymbolStep.stop c err => SymbolStep.stop (c.withBudget m) err
  | SymbolStep.next c d => SymbolStep.next (c.withBudget m) d

/-- The step with another budget in its cutter. -/
def LengthStep.withBudget (s : LengthStep) (m : Int) : LengthStep :=
  match s with
  | LengthStep.stop c l err => LengthStep.stop (c.withBudget m) l err
  | LengthStep.next c l i => LengthStep.next (c.withBudget m) l i

/-! ## RFC 1951: the format

The reference decoder, written from the text of RFC 1951 and not from the
program: it is what "a valid DEFLATE stream decompressing to `U`" means in the
properties below. Positions are bit positions in the byte slice, bit 0 being
the least significant bit of byte 0 (section 3.1.1). -/

/-- The value of the `n`-bit Huffman code that starts at bit `p`: Huffman codes
are packed starting with their most significant bit (section 3.1.1). -/
def Rfc1951.codeVal (bytes : List Nat) (p : Nat) : Nat → Nat
  | 0 => 0
  | n + 1 => 2 * codeVal bytes p n + bitAt bytes (p + n)

/-- Step 1 of section 3.2.2: the number of codes of length `n`, with
`bl_count[0] = 0`. -/
def Rfc1951.blCount (lengths : List Nat) (n : Nat) : Nat :=
  if n = 0 then 0 else lengths.count n

/-- Step 2 of section 3.2.2: the smallest code of length `n`. -/
def Rfc1951.nextCode (lengths : List Nat) : Nat → Nat
  | 0 => 0
  | n + 1 => 2 * (nextCode lengths n + blCount lengths n)

/-- Step 3 of section 3.2.2: the code of the symbol `s`; the codes of one
length are consecutive values, in the order of the symbols. -/
def Rfc1951.codeOf (lengths : List Nat) (s : Nat) : Nat :=
  nextCode lengths (lengths.getD s 0) + (lengths.take s).count (lengths.getD s 0)

/-- Base lengths of the length codes 257..285 (section 3.2.5). -/
def Rfc1951.lengthBase : List Nat :=
  [3, 4, 5, 6, 7, 8, 9, 10, 11, 13, 15, 17, 19, 23, 27, 31,
   35, 43, 51, 59, 67, 83, 99, 115, 131, 163, 195, 227, 258]

/-- Extra bits of the length codes 257..285 (section 3.2.5). -/
def Rfc1951.lengthExtra : List Nat :=
  [0, 0, 0, 0, 0, 0, 0, 0, 1, 1, 1, 1, 2, 2, 2, 2,
   3, 3, 3, 3, 4, 4, 4, 4, 5, 5, 5, 5, 0]

/-- The value of `first` in the pass `i` of the loop of `decode`: the smallest
code of length `i`. -/
def huffman.firstCode (counts : List Nat) : Nat → Nat
  | 0 => 0
  | i + 1 => if i = 0 then 0 else 2 * (firstCode counts i + counts.getD i 0)

/-- The value of `symIndex` in the pass `i` of the loop of `decode`: the number
of codes shorter than `i`. -/
def huffman.symStart (counts : List Nat) : Nat → Nat
  | 0 => 0
  | i + 1 => if i = 0 then 0 else symStart counts i + counts.getD i 0

/-- What `decode` returns for the reader at bit `p`, as a function of the bits:
the symbol and the position of the reader after the call. The passes `i`,
`i + 1`, ... (`k` of them) are left. -/
def huffman.decodeAt (h : huffman) (bytes : List Nat) (p : Nat) : Nat → Nat → Run (Int × Nat)
  | 0, i => Run.ret (mostNegativeInt32, p + (i - 1))
  | k + 1, i =>
    if 8 * bytes.length < p + i then Run.ret (mostNegativeInt32, p + (i - 1))
    else if Rfc1951.codeVal bytes p i < firstCode h.counts i + h.counts.getD i 0 then
      if symStart h.counts i + Rfc1951.codeVal bytes p i - firstCode h.counts i < maxNumCodes then
        Run.ret
          (h.symbols.getD (symStart h.counts i + Rfc1951.codeVal bytes p i - firstCode h.counts i) 0,
            p + i)
      else Run.panic
    else decodeAt h bytes p k (i + 1)

/-- The literal/length table of a static Huffman block, as `construct` leaves
it: 24 codes of 7 bits, 152 of 8 bits and 112 of 9 bits. -/
def staticLHuff : huffman :=
  { counts := [0, 0, 0, 0, 0, 0, 0, 24, 152, 112, 0, 0, 0, 0, 0, 0]
    symbols :=
      ((List.range 24).map fun i => ((256 + i : Nat) : Int))
        ++ ((List.range 144).map fun i => ((i : Nat) : Int))
        ++ ((List.range 8).map fun i => ((280 + i : Nat) : Int))
        ++ ((List.range 112).map fun i => ((144 + i : Nat) : Int)) }

/-- The distance table of a static Huffman block, as `construct` leaves it when
the entries of `symbols` from 32 on were zero: 32 codes of 5 bits. -/
def staticDHuff : huffman :=
  { counts := [0, 0, 0, 0, 0, 32, 0, 0, 0, 0, 0, 0, 0, 0, 0, 0]
    symbols := ((List.range 32).map fun i => ((i : Nat) : Int)) ++ List.replicate 256 0 }

/-! ## Vocabulary for Huffman tables -/

/-- The Kraft sum of the code lengths, scaled by `2^15`: the sum of
`2^(15 - l)` over the non-zero lengths `l`. -/
def kraftSum (lengths : List Nat) : Nat :=
  ((lengths.filter (fun l => l ≠ 0)).map (fun l => 2 ^ (15 - l))).sum

/-- The Kraft sum of the codes of at most `i` bits, scaled by `2^i`. -/
def kraftAt (lengths : List Nat) : Nat → Nat
  | 0 => 0
  | i + 1 => 2 * kraftAt lengths i + lengths.count (i + 1)

/-- The number of codes shorter than `i` bits. -/
def symStartL (lengths : List Nat) : Nat → Nat
  | 0 => 0
  | i + 1 => if i = 0 then 0 else symStartL lengths i + lengths.count i

/-- The index of the symbol `s` in the table `symbols` after `construct`: the
symbols are sorted by length and, within one length, by value. -/
def symPos (lengths : List Nat) (s : Nat) : Nat :=
  symStartL lengths (lengths.getD s 0) + (lengths.take s).count (lengths.getD s 0)

/-- The table `h` is what `construct` builds from the code lengths `L` of a
complete code: the counts of the lengths and the symbols sorted by length and
value. -/
def TableOk (h : huffman) (L : List Nat) : Prop :=
  (∀ x ∈ L, x ≤ 15) ∧ L.length ≤ 320 ∧ (L.filter (fun l => l ≠ 0)).length ≤ 288 ∧
    kraftAt L 15 = 2 ^ 15 ∧ (∀ i, h.counts.getD i 0 = L.count i) ∧
    h.symbols.length = 288 ∧
    ∀ s, s < L.length → L.getD s 0 ≠ 0 → h.symbols.getD (symPos L s) 0 = (s : Int)

/-! ## The program with the shift amounts checked

The shift amounts `7 - finalBlockNBits` and `8 - c.bits.nBits` of `cut` and
`7 - c.bits.nBits` of `writeEndCode` are unsigned: Go wraps them around when the
bit count is above 7 (above 8 in the second one). The definitions of this section
are the ones above with one change: a subtraction that would wrap around there
is a failure, like an index out of range. Everything that does not reach one
of the three statements is shared with the definitions above. -/

/-- The loop of `cutter.writeEndCode` with `n := 7 - c.bits.nBits` checked. -/
def cutter.writeEndCodeLoopChecked (endCodeBits : Nat) : Nat → bitstream → Option bitstream
  | 0, b => some b
  | j + 1, b =>
    let b1 : bitstream :=
      if b.nBits = 0 then { b with index := b.index + 1, nBits := 8 } else b
    let b2 : bitstream := { b1 with nBits := sub32 b1.nBits 1 }
    if 7 < b2.nBits then none
    else
      let n := sub32 7 b2.nBits
      let bit := (endCodeBits >>> (sub32 (j + 1) 1)) &&& 1
      let mask := u32 (1 <<< n)
      match readByte b2.bytes ((b2.index : Int) - 1) with
      | none => none
      | some x =>
        let x1 := x &&& (255 ^^^ u8 mask)
        let x2 := x1 ||| u8 (u32 (mask * bit))
        writeEndCodeLoopChecked endCodeBits j
          { b2 with bytes := b2.bytes.set ((b2.index : Int) - 1).toNat x2 }

/-- The method `cutter.writeEndCode`, checked. -/
def cutter.writeEndCodeChecked (c : cutter) : Option cutter :=
  match cutter.writeEndCodeLoopChecked c.endCodeBits c.endCodeNBits c.bits with
  | none => none
  | some b => some { c with bits := b }

/-- The code of `doHuffman` after its loop was left by `break`, checked. -/
def cutter.afterBreakChecked (c : cutter) (checkpointIndex : Int) (checkpointNBits : Nat) :
    Run (cutter × Option Error) :=
  if checkpointIndex < 0 then Run.ret (c, some errInternalNoProgress)
  else
    match cutter.writeEndCodeChecked
        { c with bits := { c.bits with index := checkpointIndex.toNat, nBits := checkpointNBits } }
    with
    | none => Run.panic
    | some c1 => Run.ret (c1, some errInternalSomeProgress)

/-- The second half of the body of the loop of `doHuffman`, checked. -/
def cutter.checkpointChecked (c1 : cutter) (checkpointIndex : Int) (checkpointNBits : Nat)
    (decodedLen1 : Int) : Run HuffmanStep :=
  if decodedLen1 < 0 then
    (c1.afterBreakChecked checkpointIndex checkpointNBits).map fun r => HuffmanStep.exit r.1 r.2
  else
    let encodedBits := sub64 (u64 (8 * u64 c1.bits.index)) (u64 c1.bits.nBits)
    let maxEncodedBits := u64 (8 * toUint64 c1.maxEncodedLen)
    if u64 (encodedBits + u64 c1.endCodeNBits) > maxEncodedBits then
      (c1.afterBreakChecked checkpointIndex checkpointNBits).map fun r =>
        HuffmanStep.exit r.1 r.2
    else
      Run.ret (HuffmanStep.again { c1 with decodedLen := decodedLen1 } c1.bits.index
        c1.bits.nBits decodedLen1)

/-- One pass through the body of the loop of `doHuffman`, checked. -/
def cutter.huffmanStepChecked (c : cutter) (checkpointIndex : Int) (checkpointNBits : Nat)
    (decodedLen : Int) : Run HuffmanStep :=
  (c.readSymbol decodedLen).bind fun s =>
    match s with
    | SymbolStep.stop c1 err => Run.ret (HuffmanStep.exit c1 err)
    | SymbolStep.next c1 decodedLen1 =>
      c1.checkpointChecked checkpointIndex checkpointNBits decodedLen1

/-- The `for` loop of `doHuffman` with what follows it, checked. -/
def cutter.huffmanLoopChecked : Nat → cutter → Int → Nat → Int → Run (cutter × Option Error)
  | 0, _, _, _, _ => Run.outOfFuel
  | fuel + 1, c, checkpointIndex, checkpointNBits, decodedLen =>
    match c.huffmanStepChecked checkpointIndex checkpointNBits decodedLen with
    | Run.panic => Run.panic
    | Run.outOfFuel => Run.outOfFuel
    | Run.ret (HuffmanStep.exit c1 err) => Run.ret (c1, err)
    | Run.ret (HuffmanStep.again c1 checkpointIndex1 checkpointNBits1 decodedLen1) =>
      huffmanLoopChecked fuel c1 checkpointIndex1 checkpointNBits1 decodedLen1

/-- The method `cutter.doHuffman`, checked. -/
def cutter.doHuffmanChecked (fuel : Nat) (c : cutter) (lLengths dLengths : List Nat) :
    Run (cutter × Option Error) :=
  match c.lHuff.construct lLengths with
  | Run.panic => Run.panic
  | Run.outOfFuel => Run.outOfFuel
  | Run.ret (lHuff, endCodeBits, endCodeNBits, err) =>
    let c1 : cutter :=
      { c with lHuff := lHuff, endCodeBits := endCodeBits, endCodeNBits := endCodeNBits }
    if err ≠ none then Run.ret (c1, err)
    else if c1.endCodeNBits = 0 then Run.ret (c1, some errInvalidNoEndOfBlock)
    else
      match c1.dHuff.construct dLengths with
      | Run.panic => Run.panic
      | Run.outOfFuel => Run.outOfFuel
      | Run.ret (dHuff, _, _, err1) =>
        let c2 : cutter := { c1 with dHuff := dHuff }
        if err1 ≠ none then Run.ret (c2, err1)
        else if (c2.bits.index : Int) > c2.maxEncodedLen then
          Run.ret (c2, some errInternalNoProgress)
        else c2.huffmanLoopChecked fuel (-1) 0 c2.decodedLen

/-- The method `cutter.doStaticHuffman`, checked. -/
def cutter.doStaticHuffmanChecked (fuel : Nat) (c : cutter) : Run (cutter × Option Error) :=
  c.doHuffmanChecked fuel (staticLengths.take 288) (staticLengths.drop 288)

/-- The code of `doDynamicHuffman` that follows the check of the counts,
checked. -/
def cutter.doDynamicLengthsChecked (fuel : Nat) (c : cutter)
    (numLCodes numDCodes numCodeLengths : Int) : Run (cutter × Option Error) :=
  let n := wrap32 (numLCodes + numDCodes)
  (readCodeLengthLengths numCodeLengths.toNat 0 c.bits (List.replicate n.toNat 0)).bind fun r =>
    if r.2.2 = false then Run.ret ({ c with bits := r.1 }, some errInvalidNotEnoughData)
    else
      (c.lHuff.construct r.2.1).bind fun h =>
        let c4 : cutter := { c with bits := r.1, lHuff := h.1 }
        if h.2.2.2 ≠ none then Run.ret (c4, h.2.2.2)
        else
          (c4.readCodeLengths fuel n 0 r.2.1).bind fun q =>
            if q.2.2 ≠ none then Run.ret (q.1, q.2.2)
            else
              q.1.doHuffmanChecked fuel (q.2.1.take numLCodes.toNat)
                (q.2.1.drop numLCodes.toNat)

/-- The method `cutter.doDynamicHuffman`, checked. -/
def cutter.doDynamicHuffmanChecked (fuel : Nat) (c : cutter) : Run (cutter × Option Error) :=
  let t1 := c.bits.take 5
  let numLCodes := wrap32 (257 + t1.1)
  if numLCodes < 0 then Run.ret ({ c with bits := t1.2 }, some errInvalidNotEnoughData)
  else
    let t2 := t1.2.take 5
    let numDCodes := wrap32 (1 + t2.1)
    if numDCodes < 0 then Run.ret ({ c with bits := t2.2 }, some errInvalidNotEnoughData)
    else
      let t3 := t2.2.take 4
      let numCodeLengths := wrap32 (4 + t3.1)
      if numCodeLengths < 0 then Run.ret ({ c with bits := t3.2 }, some errInvalidNotEnoughData)
      else if numLCodes > 286 ∨ numDCodes > 30 then
        Run.ret ({ c with bits := t3.2 }, some errInvalidTooManyCodes)
      else
        cutter.doDynamicLengthsChecked fuel { c with bits := t3.2 } numLCodes numDCodes
          numCodeLengths

/-- The statement `c.bits.bytes[finalBlockIndex-1] |= uint8(mask)` of `cut`, with
`n := 7 - finalBlockNBits` checked. -/
def setFinalBitChecked (bytes : List Nat) (finalBlockIndex : Int) (finalBlockNBits : Nat) :
    Option (List Nat) :=
  if 7 < finalBlockNBits then none else setFinalBit bytes finalBlockIndex finalBlockNBits

/-- The code of `cut` after its loop, with `8 - c.bits.nBits` checked. -/
def cutEpilogueChecked (bytes : List Nat) (index : Int) (nBits : Nat) (decodedLen : Int) :
    Run CutResult :=
  if 8 < nBits then Run.panic else cutEpilogue bytes index nBits decodedLen

/-- The dispatch `switch blockType` of `cut`, checked. -/
def cutter.doBlockChecked (fuel : Nat) (c : cutter) (blockType : Int) :
    Run (cutter × Option Error) :=
  if blockType = 0 then c.doStored
  else if blockType = 1 then c.doStaticHuffmanChecked fuel
  else if blockType = 2 then c.doDynamicHuffmanChecked fuel
  else Run.ret (c, none)

/-- The statement `switch err` of `cut` and the code after the loop, checked. -/
def cutter.afterBlockChecked (c1 : cutter) (err : Option Error) (finalBlock : Int)
    (finalBlockIndex : Int) (finalBlockNBits : Nat)
    (prevFinalBlockIndex : Int) (prevFinalBlockNBits : Nat) : Run CutStep :=
  match err with
  | none =>
    if finalBlock = 0 then Run.ret (CutStep.again c1 finalBlockIndex finalBlockNBits)
    else
      (cutEpilogueChecked c1.bits.bytes c1.bits.index c1.bits.nBits c1.decodedLen).map
        CutStep.done
  | some errInternalNoProgress =>
    if prevFinalBlockIndex < 0 then
      (cutEmpty c1.bits.bytes c1.maxEncodedLen).map CutStep.done
    else
      let nBits := u32 (finalBlockNBits + 1)
      match setFinalBitChecked c1.bits.bytes prevFinalBlockIndex prevFinalBlockNBits with
      | none => Run.panic
      | some bytes =>
        if nBits = 8 then
          (cutEpilogueChecked bytes (finalBlockIndex - 1) 0 c1.decodedLen).map CutStep.done
        else (cutEpilogueChecked bytes finalBlockIndex nBits c1.decodedLen).map CutStep.done
  | some errInternalSomeProgress =>
    match setFinalBitChecked c1.bits.bytes finalBlockIndex finalBlockNBits with
    | none => Run.panic
    | some bytes =>
      (cutEpilogueChecked bytes c1.bits.index c1.bits.nBits c1.decodedLen).map CutStep.done
  | some err =>
    Run.ret (CutStep.done { encoded := c1.bits.bytes, encodedLen := 0, decodedLen := 0,
                            retErr := some err })

/-- One pass through the body of the loop of `cut`, checked. -/
def cutter.cutStepChecked (fuel : Nat) (c : cutter) (prevFinalBlockIndex : Int)
    (prevFinalBlockNBits : Nat) : Run CutStep :=
  let t1 := c.bits.take 1
  let finalBlock := t1.1
  if finalBlock < 0 then
    Run.ret (CutStep.done { encoded := t1.2.bytes, encodedLen := 0, decodedLen := 0,
                            retErr := some errInvalidNotEnoughData })
  else
    let finalBlockIndex : Int := t1.2.index
    let finalBlockNBits := t1.2.nBits
    let t2 := t1.2.take 2
    let blockType := t2.1
    if blockType < 0 then
      Run.ret (CutStep.done { encoded := t2.2.bytes, encodedLen := 0, decodedLen := 0,
                              retErr := some errInvalidNotEnoughData })
    else if blockType = 3 then
      Run.ret (CutStep.done { encoded := t2.2.bytes, encodedLen := 0, decodedLen := 0,
                              retErr := some errInvalidBadBlockType })
    else
      (cutter.doBlockChecked fuel { c with bits := t2.2 } blockType).bind fun r =>
        cutter.afterBlockChecked r.1 r.2 finalBlock finalBlockIndex finalBlockNBits
          prevFinalBlockIndex prevFinalBlockNBits

/-- The loop of the method `cutter.cut`, checked. -/
def cutter.cutLoopChecked (fuel : Nat) : Nat → cutter → Int → Nat → Run CutResult
  | 0, _, _, _ => Run.outOfFuel
  | k + 1, c, prevFinalBlockIndex, prevFinalBlockNBits =>
    match c.cutStepChecked fuel prevFinalBlockIndex prevFinalBlockNBits with
    | Run.panic => Run.panic
    | Run.outOfFuel => Run.outOfFuel
    | Run.ret (CutStep.done r) => Run.ret r
    | Run.ret (CutStep.again c1 finalBlockIndex finalBlockNBits) =>
      cutLoopChecked fuel k c1 finalBlockIndex finalBlockNBits

/-- The function `Cut` with the three shift amounts checked, with the fuel of
the loops as first argument. -/
def CutFuelChecked (fuel : Nat) (encoded : List Nat) (maxEncodedLen : Int) : Run CutResult :=
  if maxEncodedLen < SmallestValidMaxEncodedLen then
    Run.ret { encoded := encoded, encodedLen := 0, decodedLen := 0,
              retErr := some errMaxEncodedLenTooSmall }
  else if clampMaxEncodedLen encoded maxEncodedLen < SmallestValidMaxEncodedLen then
    Run.ret { encoded := encoded, encodedLen := 0, decodedLen := 0,
              retErr := some errInvalidNotEnoughData }
  else
    cutter.cutLoopChecked fuel fuel
      (cutter.start encoded (clampMaxEncodedLen encoded maxEncodedLen)) (-1) 0

/-- The function `Cut` with the three shift amounts checked: it fails where
`Cut` indexes out of range or reaches the `panic` of `cutEmpty`, and also where
one of the shift amounts `7 - nBits` and `8 - nBits` would wrap around. -/
def CutChecked (encoded : List Nat) (maxEncodedLen : Int) : Run CutResult :=
  CutFuelChecked (8 * encoded.length + 8) encoded maxEncodedLen

end Flatecut

/-! # Properties -/

namespace Flatecut

open Error

/-! ## Machine arithmetic -/

theorem u32_of_lt {x : Nat} (h : x < 4294967296) : u32 x = x := Nat.mod_eq_of_lt h

theorem sub32_of_le {a b : Nat} (h : b ≤ a) (ha : a < 4294967296) : sub32 a b = a - b := by
  unfold sub32
  rw [Nat.mod_eq_of_lt ha, Nat.mod_eq_of_lt (lt_of_le_of_lt h ha)]
  omega

theorem wrap32_of_range {x : Int} (h1 : -2147483648 ≤ x) (h2 : x < 2147483648) : wrap32 x = x := by
  unfold wrap32
  omega

theorem toInt32_of_lt {x : Nat} (h : x < 2147483648) : toInt32 x = (x : Int) := by
  unfold toInt32
  exact wrap32_of_range (by omega) (by omega)

theorem two_pow_le_of_le {n m : Nat} (h : n ≤ m) : 2 ^ n ≤ 2 ^ m :=
  Nat.pow_le_pow_right (by decide) h

theorem two_pow_lt_u32 {n : Nat} (h : n < 32) : 2 ^ n < 4294967296 := by
  have := Nat.pow_lt_pow_right (a := 2) (by decide) h
  simpa using this

/-- The mask `(uint32(1) << n) - 1`. -/
theorem mask_eq {n : Nat} (h : n < 32) : sub32 (u32 (1 <<< n)) 1 = 2 ^ n - 1 := by
  have h2 := two_pow_lt_u32 h
  have h3 : 0 < 2 ^ n := Nat.two_pow_pos _
  rw [Nat.one_shiftLeft, u32_of_lt h2, sub32_of_le (by omega) h2]

/-! ## Bits of a byte slice -/

theorem bitAt_lt (bytes : List Nat) (q : Nat) : bitAt bytes q < 2 := by
  unfold bitAt
  omega

theorem bitsVal_lt (bytes : List Nat) (p n : Nat) : bitsVal bytes p n < 2 ^ n := by
  induction n generalizing p with
  | zero => simp [bitsVal]
  | succ n ih =>
    have h1 := bitAt_lt bytes p
    have h2 := ih (p + 1)
    rw [bitsVal, Nat.pow_succ]
    omega

theorem bitsVal_add (bytes : List Nat) (p m n : Nat) :
    bitsVal bytes p (m + n) = bitsVal bytes p m + 2 ^ m * bitsVal bytes (p + m) n := by
  induction m generalizing p with
  | zero => simp [bitsVal]
  | succ m ih =>
    rw [show m + 1 + n = (m + n) + 1 by omega, bitsVal, bitsVal, ih (p + 1), Nat.pow_succ,
      show p + 1 + m = p + (m + 1) by omega]
    ring

theorem bitsVal_mod (bytes : List Nat) (p m n : Nat) :
    bitsVal bytes p (m + n) % 2 ^ m = bitsVal bytes p m := by
  rw [bitsVal_add, Nat.add_mul_mod_self_left, Nat.mod_eq_of_lt (bitsVal_lt bytes p m)]

theorem bitsVal_div (bytes : List Nat) (p m n : Nat) :
    bitsVal bytes p (m + n) / 2 ^ m = bitsVal bytes (p + m) n := by
  rw [bitsVal_add, Nat.add_mul_div_left _ _ (Nat.two_pow_pos _),
    Nat.div_eq_of_lt (bitsVal_lt bytes p m), Nat.zero_add]

/-- The bits of a byte from bit `r` on. -/
theorem bitsVal_in_byte (bytes : List Nat) (i r n : Nat) (h : r + n = 8)
    (hx : bytes.getD i 0 < 256) :
    bitsVal bytes (8 * i + r) n = bytes.getD i 0 / 2 ^ r := by
  induction n generalizing r with
  | zero =>
    have hr : r = 8 := by omega
    subst hr
    simp only [bitsVal]
    exact (Nat.div_eq_of_lt (by simpa using hx)).symm
  | succ n ih =>
    have h3 := ih (r + 1) (by omega)
    rw [bitsVal, show 8 * i + r + 1 = 8 * i + (r + 1) by omega, h3, bitAt,
      show (8 * i + r) / 8 = i by omega, show (8 * i + r) % 8 = r by omega, Nat.pow_succ,
      ← Nat.div_div_eq_div_mul]
    omega

theorem bitsVal_byte (bytes : List Nat) (i : Nat) (hx : bytes.getD i 0 < 256) :
    bitsVal bytes (8 * i) 8 = bytes.getD i 0 := by
  have := bitsVal_in_byte bytes i 0 8 (by omega) hx
  simpa using this

theorem IsBytes.getD_lt {bytes : List Nat} (h : IsBytes bytes) (i : Nat) :
    bytes.getD i 0 < 256 := by
  rw [List.getD_eq_getElem?_getD]
  cases hi : bytes[i]? with
  | none => simp
  | some x =>
    simp only [Option.getD_some]
    exact h x (List.getElem?_mem hi)


/-! ## The bit reader -/

theorem or_shiftLeft_eq_add {a x m : Nat} (h : a < 2 ^ m) : a ||| x <<< m = a + 2 ^ m * x := by
  rw [Nat.shiftLeft_eq, Nat.mul_comm x, Nat.lor_comm, ← Nat.mul_add_lt_is_or h, Nat.add_comm]

/-- One pass of the refill loop keeps the invariant and the position. -/
theorem bitstream.Ok.load {b : bitstream} (hb : b.Ok) (hwf : IsBytes b.bytes)
    (hn : b.nBits ≤ 24) (hi : b.index < b.bytes.length) :
    bitstream.Ok
      { b with
        bits := b.bits ||| u32 (b.bytes.getD b.index 0 <<< b.nBits)
        nBits := u32 (b.nBits + 8)
        index := b.index + 1 } := by
  obtain ⟨h1, h2, h3⟩ := hb
  have hx := hwf.getD_lt b.index
  have h4 : b.bytes.getD b.index 0 <<< b.nBits < 4294967296 := by
    rw [Nat.shiftLeft_eq]
    calc b.bytes.getD b.index 0 * 2 ^ b.nBits < 256 * 2 ^ b.nBits :=
          Nat.mul_lt_mul_of_pos_right hx (Nat.two_pow_pos _)
      _ ≤ 256 * 2 ^ 24 := Nat.mul_le_mul_left _ (two_pow_le_of_le hn)
      _ = 4294967296 := by norm_num
  refine ⟨?_, ?_, ?_⟩
  · simp only [u32]; omega
  · simp only; omega
  · simp only
    rw [u32_of_lt h4, u32_of_lt (by omega), h3,
      or_shiftLeft_eq_add (bitsVal_lt _ _ _),
      show 8 * (b.index + 1) - (b.nBits + 8) = 8 * b.index - b.nBits by omega,
      bitsVal_add, show 8 * b.index - b.nBits + b.nBits = 8 * b.index by omega,
      bitsVal_byte _ _ hx]

theorem bitstream.refill_bytes (k n : Nat) (b : bitstream) :
    (b.refill k n).1.bytes = b.bytes := by
  induction k generalizing b with
  | zero => simp [bitstream.refill]
  | succ k ih =>
    rw [bitstream.refill]
    split_ifs
    · rfl
    · rw [ih]
    · rfl

/-- The refill loop when the stream has the bits asked for. -/
theorem bitstream.refill_ok (k n : Nat) (b : bitstream) (hb : b.Ok) (hwf : IsBytes b.bytes)
    (hn : n ≤ 25) (hk : n ≤ b.nBits + 8 * k) (hlen : b.pos + n ≤ 8 * b.bytes.length) :
    ∃ b1, b.refill k n = (b1, true) ∧ b1.Ok ∧ b1.pos = b.pos ∧ b1.bytes = b.bytes ∧
      n ≤ b1.nBits ∧ (b1.nBits = b.nBits ∨ b1.nBits < n + 8) := by
  induction k generalizing b with
  | zero =>
    exact ⟨b, by simp [bitstream.refill], hb, rfl, rfl, by omega, Or.inl rfl⟩
  | succ k ih =>
    rw [bitstream.refill]
    by_cases h1 : b.nBits < n
    · have hb' := hb
      obtain ⟨h2, h3, h4⟩ := hb'
      have hi : b.index < b.bytes.length := by
        unfold bitstream.pos at hlen
        omega
      rw [if_pos h1, if_neg (by omega)]
      have hok := hb.load hwf (by omega) hi
      have h5 : u32 (b.nBits + 8) = b.nBits + 8 := u32_of_lt (by omega)
      obtain ⟨b1, e1, e2, e3, e4, e5, e6⟩ := ih _ hok hwf
        (by simp only [h5]; omega)
        (by simp only [bitstream.pos, h5]; unfold bitstream.pos at hlen; omega)
      refine ⟨b1, e1, e2, ?_, e4, e5, ?_⟩
      · rw [e3]; simp only [bitstream.pos, h5]; omega
      · right
        rcases e6 with e6 | e6
        · rw [e6]; simp only [h5]; omega
        · exact e6
    · rw [if_neg h1]
      exact ⟨b, rfl, hb, rfl, rfl, by omega, Or.inl rfl⟩

/-- The refill loop when the stream ends before the bits asked for. -/
theorem bitstream.refill_eof (k n : Nat) (b : bitstream) (h2 : b.nBits ≤ 8 * b.index)
    (h3 : b.index ≤ b.bytes.length) (hn : n ≤ 25)
    (hk : n ≤ b.nBits + 8 * k) (hlen : 8 * b.bytes.length < b.pos + n) :
    (b.refill k n).2 = false := by
  induction k generalizing b with
  | zero =>
    unfold bitstream.pos at hlen
    omega
  | succ k ih =>
    unfold bitstream.pos at hlen
    rw [bitstream.refill]
    have h1 : b.nBits < n := by omega
    rw [if_pos h1]
    by_cases hi : b.index ≥ b.bytes.length
    · rw [if_pos hi]
    · rw [if_neg hi]
      have h5 : u32 (b.nBits + 8) = b.nBits + 8 := u32_of_lt (by omega)
      apply ih
      · simp only [h5]; omega
      · simp only; omega
      · simp only [h5]; omega
      · simp only [bitstream.pos, h5]; omega


theorem cursorAt_pos (bytes : List Nat) (p : Nat) : (cursorAt bytes p).pos = p := by
  simp only [bitstream.pos, cursorAt]
  omega

theorem cursorAt_ok (bytes : List Nat) (p : Nat) (h : p ≤ 8 * bytes.length) :
    (cursorAt bytes p).Ok := by
  refine ⟨?_, ?_, ?_⟩
  · simp only [cursorAt]; omega
  · simp only [cursorAt]; omega
  · simp only [cursorAt]
    rw [show 8 * ((p + 7) / 8) - (8 * ((p + 7) / 8) - p) = p by omega]

theorem cursorAt_nBits_le (bytes : List Nat) (p : Nat) : (cursorAt bytes p).nBits ≤ 7 := by
  simp only [cursorAt]; omega

theorem bitstream.Ok.eq_cursorAt {b : bitstream} (hb : b.Ok) (h7 : b.nBits ≤ 7) :
    b = cursorAt b.bytes b.pos := by
  obtain ⟨h1, h2, h3⟩ := hb
  have hi : (8 * b.index - b.nBits + 7) / 8 = b.index := by omega
  have hn : 8 * b.index - (8 * b.index - b.nBits) = b.nBits := by omega
  cases b with
  | mk bytes index bits nBits =>
    simp only [cursorAt, bitstream.pos] at *
    simp only [hi, hn, ← h3]

theorem bitstream.take_bytes (b : bitstream) (n : Nat) : (b.take n).2.bytes = b.bytes := by
  have h := bitstream.refill_bytes n n b
  unfold bitstream.take
  split
  · next b1 heq => rw [heq] at h; exact h
  · next b1 heq => rw [heq] at h; exact h

/-- `take` in terms of the bits of the stream. -/
theorem take_cursorAt (bytes : List Nat) (p n : Nat) (hwf : IsBytes bytes) (hn : n ≤ 25)
    (hlen : p + n ≤ 8 * bytes.length) :
    (cursorAt bytes p).take n = ((bitsVal bytes p n : Int), cursorAt bytes (p + n)) := by
  have hok := cursorAt_ok bytes p (by omega)
  have h7 := cursorAt_nBits_le bytes p
  obtain ⟨b1, e1, e2, e3, e4, e5, e6⟩ :=
    bitstream.refill_ok n n (cursorAt bytes p) hok hwf hn (by omega)
      (by rw [cursorAt_pos]; exact hlen)
  have h8 : b1.nBits - n ≤ 7 := by omega
  rw [cursorAt_pos] at e3
  have e4 : b1.bytes = bytes := e4
  unfold bitstream.take
  rw [e1]
  simp only
  obtain ⟨o1, o2, o3⟩ := e2
  unfold bitstream.pos at e3
  rw [e3, e4] at o3
  have hb : n + (b1.nBits - n) = b1.nBits := by omega
  have hmod : bitsVal bytes p b1.nBits % 2 ^ n = bitsVal bytes p n := by
    have := bitsVal_mod bytes p n (b1.nBits - n)
    rwa [hb] at this
  have hdiv : bitsVal bytes p b1.nBits / 2 ^ n = bitsVal bytes (p + n) (b1.nBits - n) := by
    have := bitsVal_div bytes p n (b1.nBits - n)
    rwa [hb] at this
  have hlt : bitsVal bytes p n < 2 ^ 25 :=
    lt_of_lt_of_le (bitsVal_lt bytes p n) (two_pow_le_of_le hn)
  rw [mask_eq (by omega), Nat.and_pow_two_sub_one_eq_mod, o3, hmod,
    toInt32_of_lt (by omega), sub32_of_le e5 (by omega), Nat.shiftRight_eq_div_pow, hdiv]
  congr 1
  simp only [cursorAt, e4]
  have hi : (p + n + 7) / 8 = b1.index := by omega
  rw [hi, show 8 * b1.index - (p + n) = b1.nBits - n by omega]

/-- `take` at the end of the data returns the sentinel. -/
theorem take_cursorAt_eof (bytes : List Nat) (p n : Nat) (hn : n ≤ 25)
    (hp : p ≤ 8 * bytes.length) (hlen : 8 * bytes.length < p + n) :
    ((cursorAt bytes p).take n).1 = mostNegativeInt32 := by
  have hok := cursorAt_ok bytes p hp
  have h7 := cursorAt_nBits_le bytes p
  have h := bitstream.refill_eof n n (cursorAt bytes p) hok.1 hok.2.1 hn (by omega)
    (by rw [cursorAt_pos]; exact hlen)
  unfold bitstream.take
  split
  · rfl
  · next b1 heq => rw [heq] at h; simp at h

/-! ## The driver: clamping and the block header -/

theorem clampMaxEncodedLen_spec (encoded : List Nat) (M : Int) (hM : 2 ≤ M) :
    clampMaxEncodedLen encoded M ≤ encoded.length ∧ clampMaxEncodedLen encoded M ≤ M ∧
      (∀ t : Int, t ≤ 1073741824 → t ≤ M → t ≤ encoded.length →
        t ≤ clampMaxEncodedLen encoded M) ∧
      (M ≤ encoded.length → M ≤ 1073741824 → clampMaxEncodedLen encoded M = M) := by
  unfold clampMaxEncodedLen toUint64
  simp only
  refine ⟨?_, ?_, fun t h1 h2 h3 => ?_, fun h1 h2 => ?_⟩ <;> split_ifs <;> omega

theorem CutFuel_eq (fuel : Nat) (encoded : List Nat) (M : Int) (hM : 2 ≤ M)
    (hlen : 2 ≤ encoded.length) :
    CutFuel fuel encoded M
      = (cutter.start encoded (clampMaxEncodedLen encoded M)).cut fuel := by
  have h := (clampMaxEncodedLen_spec encoded M hM).2.2.1 2 (by omega) hM (by omega)
  unfold CutFuel
  rw [if_neg (by simp only [SmallestValidMaxEncodedLen]; omega),
    if_neg (by simp only [SmallestValidMaxEncodedLen]; omega)]

theorem start_bits (encoded : List Nat) (M : Int) :
    (cutter.start encoded M).bits = cursorAt encoded 0 := by
  simp [cutter.start, cursorAt, bitsVal]

theorem bitsVal_one (bytes : List Nat) (p : Nat) : bitsVal bytes p 1 = bitAt bytes p := by
  simp [bitsVal]

/-- The two `take`s that read a block header from bit position `p`. -/
theorem cutStep_header (fuel : Nat) (c : cutter) (pfi : Int) (pfn : Nat) (p : Nat)
    (hwf : IsBytes c.bits.bytes) (hc : c.bits = cursorAt c.bits.bytes p)
    (hlen : p + 3 ≤ 8 * c.bits.bytes.length) :
    c.cutStep fuel pfi pfn =
      if bitsVal c.bits.bytes (p + 1) 2 = 3 then
        Run.ret (CutStep.done { encoded := c.bits.bytes, encodedLen := 0, decodedLen := 0,
                                retErr := some errInvalidBadBlockType })
      else
        (cutter.doBlock fuel { c with bits := cursorAt c.bits.bytes (p + 3) }
          (bitsVal c.bits.bytes (p + 1) 2)).bind fun r =>
            cutter.afterBlock r.1 r.2 (bitAt c.bits.bytes p)
              (cursorAt c.bits.bytes (p + 1)).index (cursorAt c.bits.bytes (p + 1)).nBits
              pfi pfn := by
  have e1 : c.bits.take 1 = ((bitAt c.bits.bytes p : Int), cursorAt c.bits.bytes (p + 1)) := by
    conv => lhs; rw [hc]
    rw [take_cursorAt _ _ _ hwf (by omega) (by omega), bitsVal_one]
  have e2 : (cursorAt c.bits.bytes (p + 1)).take 2
      = ((bitsVal c.bits.bytes (p + 1) 2 : Int), cursorAt c.bits.bytes (p + 3)) := by
    rw [take_cursorAt _ _ _ hwf (by omega) (by omega)]
  unfold cutter.cutStep
  simp only [e1, e2]
  have h4 : ¬ ((bitAt c.bits.bytes p : Int) < 0) := by omega
  have h5 : ¬ ((bitsVal c.bits.bytes (p + 1) 2 : Int) < 0) := by omega
  rw [if_neg h4, if_neg h5]
  have h6 : ((bitsVal c.bits.bytes (p + 1) 2 : Int) = 3) ↔ bitsVal c.bits.bytes (p + 1) 2 = 3 := by
    omega
  simp only [h6]
  rfl

theorem cutLoop_succ (fuel k : Nat) (c : cutter) (pfi : Int) (pfn : Nat) :
    cutter.cutLoop fuel (k + 1) c pfi pfn =
      (c.cutStep fuel pfi pfn).bind fun s =>
        match s with
        | CutStep.done r => Run.ret r
        | CutStep.again c1 i n => cutter.cutLoop fuel k c1 i n := by
  rw [cutter.cutLoop]
  cases h : c.cutStep fuel pfi pfn with
  | ret s => cases s <;> rfl
  | panic => rfl
  | outOfFuel => rfl

theorem cutLoop_done (fuel k : Nat) (c : cutter) (pfi : Int) (pfn : Nat) (r : CutResult)
    (h : c.cutStep fuel pfi pfn = Run.ret (CutStep.done r)) :
    cutter.cutLoop fuel (k + 1) c pfi pfn = Run.ret r := by
  rw [cutter.cutLoop, h]

theorem cutLoop_again (fuel k : Nat) (c : cutter) (pfi : Int) (pfn : Nat) (c1 : cutter)
    (i : Int) (n : Nat)
    (h : c.cutStep fuel pfi pfn = Run.ret (CutStep.again c1 i n)) :
    cutter.cutLoop fuel (k + 1) c pfi pfn = cutter.cutLoop fuel k c1 i n := by
  rw [cutter.cutLoop, h]

theorem bitsVal_two (bytes : List Nat) (p : Nat) :
    bitsVal bytes p 2 = bitAt bytes p + 2 * bitAt bytes (p + 1) := by
  simp [bitsVal]

theorem blockType_first (X : List Nat) : bitsVal X 1 2 = X.getD 0 0 / 2 % 4 := by
  rw [bitsVal_two]
  simp only [bitAt]
  norm_num
  omega

theorem Cut_eq_cutLoop (X : List Nat) (M : Int) (hM : 2 ≤ M) (hlen : 2 ≤ X.length) :
    Cut X M = cutter.cutLoop (8 * X.length + 8) (8 * X.length + 7 + 1)
      (cutter.start X (clampMaxEncodedLen X M)) (-1) 0 := by
  unfold Cut
  rw [CutFuel_eq _ _ _ hM hlen]
  rfl

/-- C10. A first block header with BTYPE = 3 (bits 1 and 2 of the first byte both
set) makes `Cut` return `(0, 0)` and `errInvalidBadBlockType`, for every buffer
of at least two bytes and every `maxEncodedLen` of at least 2; the buffer is
left as it was. -/
theorem Cut_bad_block_type (X : List Nat) (M : Int) (hX : IsBytes X) (hlen : 2 ≤ X.length)
    (hM : 2 ≤ M) (h3 : X.getD 0 0 / 2 % 4 = 3) :
    Cut X M = Run.ret { encoded := X, encodedLen := 0, decodedLen := 0,
                        retErr := some errInvalidBadBlockType } := by
  rw [Cut_eq_cutLoop X M hM hlen]
  apply cutLoop_done
  rw [cutStep_header _ _ _ _ 0 hX (start_bits _ _) (by simp only [cutter.start]; omega)]
  simp only [cutter.start, Nat.zero_add]
  rw [if_pos (by rw [blockType_first]; exact h3)]

theorem Cut_bad_block_type_witness :
    Cut [0x07, 0x00] 2 = Run.ret { encoded := [0x07, 0x00], encodedLen := 0, decodedLen := 0,
                                   retErr := some errInvalidBadBlockType } :=
  Cut_bad_block_type [0x07, 0x00] 2 (by unfold IsBytes; decide) (by decide) (by decide) (by decide)


theorem cursorAt_three_index (X : List Nat) : (cursorAt X 3).index = 1 := by
  simp [cursorAt]

theorem cursorAt_bytes (X : List Nat) (p : Nat) : (cursorAt X p).bytes = X := rfl

/-- C9. When the first block of the buffer is a stored block whose 16-bit fields
`len` and `nlen` do not add up to `0xFFFF`, `Cut` returns `(0, 0)` and
`errInvalidBadBlockLength`, for every buffer of at least 5 bytes and every
`maxEncodedLen` of at least 5. -/
theorem Cut_bad_block_length (X : List Nat) (M : Int) (hX : IsBytes X) (hlen : 5 ≤ X.length)
    (hM : 5 ≤ M) (h0 : X.getD 0 0 / 2 % 4 = 0)
    (hne : (X.getD 1 0 ||| X.getD 2 0 <<< 8) + (X.getD 3 0 ||| X.getD 4 0 <<< 8) ≠ 0xFFFF) :
    Cut X M = Run.ret { encoded := X, encodedLen := 0, decodedLen := 0,
                        retErr := some errInvalidBadBlockLength } := by
  have hc := (clampMaxEncodedLen_spec X M (by omega)).2.2.1 5 (by omega) hM (by omega)
  have hb : ∀ i, X.getD i 0 <<< 8 < 65536 := by
    intro i
    have := hX.getD_lt i
    rw [Nat.shiftLeft_eq]
    omega
  have ho : ∀ i j, X.getD i 0 ||| X.getD j 0 <<< 8 < 65536 := by
    intro i j
    exact Nat.or_lt_two_pow (n := 16) (by have := hX.getD_lt i; omega) (hb j)
  rw [Cut_eq_cutLoop X M (by omega) (by omega)]
  apply cutLoop_done
  rw [cutStep_header _ _ _ _ 0 hX (start_bits _ _) (by simp only [cutter.start]; omega)]
  simp only [cutter.start, Nat.zero_add]
  rw [if_neg (by rw [blockType_first]; omega), blockType_first, h0]
  simp only [cutter.doBlock, Nat.cast_zero, if_true, cutter.doStored, cursorAt_three_index,
    cursorAt_bytes]
  rw [if_neg (by push_cast; omega), if_neg (by omega)]
  simp only [Nat.add_zero, show 1 + 1 = 2 by rfl, show 1 + 2 = 3 by rfl, show 1 + 3 = 4 by rfl]
  have e2 : u32 (X.getD 2 0 <<< 8) = X.getD 2 0 <<< 8 := u32_of_lt (by have := hb 2; omega)
  have e4 : u32 (X.getD 4 0 <<< 8) = X.getD 4 0 <<< 8 := u32_of_lt (by have := hb 4; omega)
  have e5 : u32 ((X.getD 1 0 ||| X.getD 2 0 <<< 8) + (X.getD 3 0 ||| X.getD 4 0 <<< 8))
      = (X.getD 1 0 ||| X.getD 2 0 <<< 8) + (X.getD 3 0 ||| X.getD 4 0 <<< 8) :=
    u32_of_lt (by have := ho 1 2; have := ho 3 4; omega)
  rw [e2, e4, e5, if_pos hne]
  rfl

theorem Cut_bad_block_length_witness :
    Cut [0x00, 0x05, 0x00, 0x00, 0x00] 5
      = Run.ret { encoded := [0x00, 0x05, 0x00, 0x00, 0x00], encodedLen := 0, decodedLen := 0,
                  retErr := some errInvalidBadBlockLength } :=
  Cut_bad_block_length [0x00, 0x05, 0x00, 0x00, 0x00] 5 (by unfold IsBytes; decide) (by decide)
    (by decide) (by decide) (by decide)

/-! ## Stored blocks -/

theorem le16_lt {bytes : List Nat} (h : IsBytes bytes) (i : Nat) : le16 bytes i < 65536 := by
  have h1 := h.getD_lt i
  have h2 := h.getD_lt (i + 1)
  unfold le16
  omega

theorem or_shift8_eq_le16 {bytes : List Nat} (h : IsBytes bytes) (i : Nat) :
    bytes.getD i 0 ||| u32 (bytes.getD (i + 1) 0 <<< 8) = le16 bytes i := by
  have h1 := h.getD_lt i
  have h2 := h.getD_lt (i + 1)
  rw [u32_of_lt (by rw [Nat.shiftLeft_eq]; omega), or_shiftLeft_eq_add (by omega)]
  rfl

theorem setLe16_eq (bytes : List Nat) (i R S : Nat) :
    (((bytes.set i (u8 (R >>> 0))).set (i + 1) (u8 (R >>> 8))).set (i + 2) (u8 (S >>> 0))).set
      (i + 3) (u8 (S >>> 8)) = setLe16 (setLe16 bytes i R) (i + 2) S := by
  unfold setLe16 u8
  rw [Nat.shiftRight_zero, Nat.shiftRight_zero, Nat.shiftRight_eq_div_pow,
    Nat.shiftRight_eq_div_pow]

/-- The method `doStored` by cases, for a cutter whose budget lies within the
buffer. -/
theorem doStored_eq (c : cutter) (hwf : IsBytes c.bits.bytes)
    (hD : 0 ≤ c.decodedLen ∧ c.decodedLen < 2147483648)
    (hM : c.maxEncodedLen ≤ c.bits.bytes.length) :
    c.doStored =
      if c.maxEncodedLen - c.bits.index < 4 then Run.ret (c, some errInternalNoProgress)
      else if le16 c.bits.bytes c.bits.index + le16 c.bits.bytes (c.bits.index + 2) ≠ 65535 then
        Run.ret (c, some errInvalidBadBlockLength)
      else if 2147483648 ≤ c.decodedLen + le16 c.bits.bytes c.bits.index then
        Run.ret (c, some errInternalNoProgress)
      else if (le16 c.bits.bytes c.bits.index : Int) ≤ c.maxEncodedLen - (c.bits.index + 4) then
        Run.ret
          ({ c with
             bits := { c.bits with index := c.bits.index + 4 + le16 c.bits.bytes c.bits.index,
                                   bits := 0, nBits := 0 }
             decodedLen := c.decodedLen + le16 c.bits.bytes c.bits.index }, none)
      else if c.maxEncodedLen - (c.bits.index + 4) = 0 then
        Run.ret (c, some errInternalNoProgress)
      else
        Run.ret
          ({ c with
             bits := { bytes := setLe16
                         (setLe16 c.bits.bytes c.bits.index
                           (c.maxEncodedLen - (c.bits.index + 4)).toNat)
                         (c.bits.index + 2) (65535 - (c.maxEncodedLen - (c.bits.index + 4)).toNat)
                       index := c.maxEncodedLen.toNat, bits := 0, nBits := 0 }
             decodedLen := c.decodedLen + (c.maxEncodedLen - (c.bits.index + 4)) },
           some errInternalSomeProgress) := by
  have hl := le16_lt hwf c.bits.index
  have hl2 := le16_lt hwf (c.bits.index + 2)
  unfold cutter.doStored
  by_cases h1 : c.maxEncodedLen - c.bits.index < 4
  · rw [if_pos h1, if_pos h1]
  rw [if_neg h1, if_neg h1, if_neg (by omega)]
  simp only [Nat.add_zero]
  rw [or_shift8_eq_le16 hwf,
    show c.bits.bytes.getD (c.bits.index + 2) 0
        ||| u32 (c.bits.bytes.getD (c.bits.index + 3) 0 <<< 8)
      = le16 c.bits.bytes (c.bits.index + 2) from or_shift8_eq_le16 hwf (c.bits.index + 2),
    u32_of_lt (by omega)]
  by_cases h2 : le16 c.bits.bytes c.bits.index + le16 c.bits.bytes (c.bits.index + 2) ≠ 65535
  · rw [if_pos h2, if_pos h2]
  rw [if_neg h2, if_neg h2, toInt32_of_lt (by omega)]
  by_cases h3 : 2147483648 ≤ c.decodedLen + le16 c.bits.bytes c.bits.index
  · rw [if_pos h3, if_pos (by unfold wrap32; omega)]
  rw [if_neg h3, if_neg (by unfold wrap32; omega), wrap32_of_range (by omega) (by omega)]
  by_cases h4 : (le16 c.bits.bytes c.bits.index : Int) ≤ c.maxEncodedLen - (c.bits.index + 4)
  · rw [if_pos h4, if_pos (by push_cast; omega)]
  rw [if_neg h4, if_neg (by push_cast; omega)]
  by_cases h5 : c.maxEncodedLen - (c.bits.index + 4) = 0
  · rw [if_pos h5, if_pos (by push_cast; omega)]
  rw [if_neg h5, if_neg (by push_cast; omega)]
  obtain ⟨R, hR⟩ : ∃ R : Nat, c.maxEncodedLen = ((c.bits.index + 4 + R : Nat) : Int) :=
    ⟨(c.maxEncodedLen - (c.bits.index + 4)).toNat, by omega⟩
  have hR1 : R < 65536 := by omega
  have hR0 : 0 < R := by omega
  have hw : wrap32 (c.decodedLen + (R : Int)) = c.decodedLen + (R : Int) :=
    wrap32_of_range (by omega) (by omega)
  have e0 : c.maxEncodedLen - ((c.bits.index + 4 : Nat) : Int) = (R : Int) := by omega
  have e0' : c.maxEncodedLen - ((c.bits.index : Int) + 4) = (R : Int) := by omega
  have e1 : c.maxEncodedLen.toNat = c.bits.index + 4 + R := by omega
  have hu : toUint32 (R : Int) = R := by unfold toUint32; omega
  have hs : sub32 65535 R = 65535 - R := sub32_of_le (by omega) (by omega)
  have ht : toInt32 R = (R : Int) := toInt32_of_lt (by omega)
  rw [e0, e0', e1, hu, hs, ht, hw, setLe16_eq, Int.toNat_ofNat]

theorem getD_append_hdr (A B : List Nat) (n j : Nat) (hA : A.length = n) :
    (A ++ B).getD (n + j) 0 = B.getD j 0 := by
  rw [List.getD_append_right _ _ _ _ (by omega)]
  congr 1
  omega

theorem set_append_hdr (A B : List Nat) (n j v : Nat) (hA : A.length = n) :
    (A ++ B).set (n + j) v = A ++ B.set j v := by
  rw [List.set_append_right _ _ (by omega)]
  congr 2
  omega

theorem bitAt_byte (X : List Nat) (i r : Nat) (hr : r < 8) :
    bitAt X (8 * i + r) = X.getD i 0 / 2 ^ r % 2 := by
  unfold bitAt
  rw [show (8 * i + r) / 8 = i by omega, show (8 * i + r) % 8 = r by omega]

theorem cursorAt_aligned (X : List Nat) (i : Nat) :
    cursorAt X (8 * i) = { bytes := X, index := i, bits := 0, nBits := 0 } := by
  unfold cursorAt
  rw [show (8 * i + 7) / 8 = i by omega, show 8 * i - 8 * i = 0 by omega]
  rfl

theorem setLe16_length (bytes : List Nat) (i v : Nat) :
    (setLe16 bytes i v).length = bytes.length := by
  simp [setLe16]

theorem getD_setLe16 (bytes : List Nat) (i v j : Nat) (h1 : j ≠ i) (h2 : j ≠ i + 1) :
    (setLe16 bytes i v).getD j 0 = bytes.getD j 0 := by
  unfold setLe16
  rw [List.getD_eq_getElem?_getD, List.getD_eq_getElem?_getD,
    List.getElem?_set_ne (by omega), List.getElem?_set_ne (by omega)]

/-- The final-bit patch of `cut` by cases. -/
theorem setFinalBit_eq (bytes : List Nat) (i : Int) (n : Nat) (hi : 1 ≤ i)
    (hlen : i ≤ bytes.length) (hn : n ≤ 7) :
    setFinalBit bytes i n
      = some (bytes.set (i - 1).toNat (bytes.getD (i - 1).toNat 0 ||| 2 ^ (7 - n))) := by
  unfold setFinalBit readByte
  have h1 : (0 : Int) ≤ i - 1 ∧ i - 1 < bytes.length := by omega
  have h3 : 2 ^ (7 - n) ≤ 2 ^ 7 := two_pow_le_of_le (by omega)
  have h4 : u8 (u32 (1 <<< sub32 7 n)) = 2 ^ (7 - n) := by
    rw [sub32_of_le hn (by omega), Nat.one_shiftLeft, u32_of_lt (by omega)]
    exact Nat.mod_eq_of_lt (by omega)
  simp only [h1, h4, and_self, if_true]

theorem cutEpilogue_aligned (bytes : List Nat) (index d : Int) :
    cutEpilogue bytes index 0 d
      = Run.ret { encoded := bytes, encodedLen := index, decodedLen := d, retErr := none } := by
  simp [cutEpilogue]

/-- Two stored blocks of 100 bytes each, the second one final, cut at 150 bytes: the
first block is kept whole and the second one is cut down to 40 bytes. -/
theorem Cut_two_stored_aux (X : List Nat) (hX : IsBytes X) (hlen : X.length = 210)
    (g0 : X.getD 0 0 = 0) (g1 : le16 X 1 = 100) (g3 : le16 X 3 = 65435)
    (g105 : X.getD 105 0 = 1) (g106 : le16 X 106 = 100) (g108 : le16 X 108 = 65435) :
    Cut X 150 = Run.ret ⟨(setLe16 (setLe16 X 106 40) 108 65495).set 105 1, 150, 140, none⟩ := by
  have hclamp : clampMaxEncodedLen X 150 = 150 :=
    (clampMaxEncodedLen_spec X 150 (by omega)).2.2.2 (by omega) (by omega)
  rw [Cut_eq_cutLoop X 150 (by omega) (by omega), hclamp]
  -- the first block: a stored block that fits
  have b0 : bitAt X 0 = 0 := by
    have := bitAt_byte X 0 0 (by omega)
    rw [g0] at this
    exact this
  have s1 : (cutter.start X 150).cutStep (8 * X.length + 8) (-1) 0
      = Run.ret (CutStep.again (cutter.mk ⟨X, 105, 0, 0⟩ 150 100 0 0 huffman.zero huffman.zero) 1 7) := by
    rw [cutStep_header _ _ _ _ 0 hX (start_bits _ _) (by simp only [cutter.start]; omega)]
    simp only [cutter.start, Nat.zero_add]
    rw [if_neg (by rw [blockType_first]; omega), blockType_first, g0, b0]
    simp only [cutter.doBlock, Nat.zero_div, Nat.zero_mod, Nat.cast_zero, if_true]
    rw [doStored_eq _ hX (by simp) (by simp only [cursorAt_bytes]; omega)]
    simp only [cursorAt_three_index, cursorAt_bytes, g1, g3]
    norm_num [Run.bind, cutter.afterBlock, cursorAt]
  rw [cutLoop_again _ _ _ _ _ _ _ _ s1]
  -- the second block: a stored block cut short
  have b840 : bitAt X 840 = 1 := by
    have := bitAt_byte X 105 0 (by omega)
    rw [g105] at this
    exact this
  have t841 : bitsVal X 841 2 = 0 := by
    have e1 := bitAt_byte X 105 1 (by omega)
    have e2 := bitAt_byte X 105 2 (by omega)
    rw [g105] at e1 e2
    rw [bitsVal_two, show 841 = 8 * 105 + 1 by rfl, e1, show 8 * 105 + 1 + 1 = 8 * 105 + 2 by rfl, e2]
    norm_num
  have s2 : cutter.cutStep (8 * X.length + 8) (cutter.mk ⟨X, 105, 0, 0⟩ 150 100 0 0 huffman.zero huffman.zero) 1 7
      = Run.ret (CutStep.done ⟨(setLe16 (setLe16 X 106 40) 108 65495).set 105 1, 150, 140, none⟩) := by
    rw [cutStep_header _ _ _ _ 840 hX (by simp only [cutter.start]; exact (cursorAt_aligned X 105).symm)
      (by simp only [cutter.start]; omega)]
    simp only [cutter.start]
    rw [if_neg (by rw [t841]; omega), t841, b840]
    simp only [cutter.doBlock, Nat.cast_zero, if_true]
    rw [doStored_eq _ hX (by simp) (by simp only [cursorAt_bytes]; omega)]
    simp only [cursorAt_bytes, cursorAt, Nat.reduceAdd, Nat.reduceDiv, g106, g108]
    norm_num [Run.bind, cutter.afterBlock]
    simp only [Int.reduceToNat, Nat.reduceSub]
    rw [setFinalBit_eq _ 106 7 (by omega) (by simp only [setLe16_length]; omega) (by omega)]
    simp only [Int.reduceSub, Int.reduceToNat]
    rw [getD_setLe16 _ _ _ _ (by omega) (by omega), getD_setLe16 _ _ _ _ (by omega) (by omega),
      g105]
    simp only [cutEpilogue_aligned, Run.map, Run.bind]
    rfl
  rw [cutLoop_done _ _ _ _ _ _ s2]


theorem getD_hdr3 (a b c e f : Nat) (t : List Nat) : ([a, b, c, e, f] ++ t).getD 3 0 = e := rfl

theorem getD_hdr4 (a b c e f : Nat) (t : List Nat) : ([a, b, c, e, f] ++ t).getD 4 0 = f := rfl

theorem two_stored_isBytes (d1 d2 : List Nat) (a b c e f : Nat) (hb1 : IsBytes d1)
    (hb2 : IsBytes d2) (ha : a < 256) (hb : b < 256) (hc : c < 256) (he : e < 256)
    (hf : f < 256) :
    IsBytes ([0x00, 100, 0, 0x9B, 0xFF] ++ d1 ++ [a, b, c, e, f] ++ d2) := by
  intro x hx
  simp only [List.mem_append, List.mem_cons, List.mem_singleton, List.not_mem_nil, or_false] at hx
  rcases hx with ((hx | hx) | hx) | hx
  · omega
  · exact hb1 x hx
  · omega
  · exact hb2 x hx

/-- C7, as the code has it. For the 210-byte stream of two stored blocks of 100
bytes each (the second one final) and `maxEncodedLen = 150`, `Cut` keeps the
first block, cuts the second block down to the 40 bytes that fit (its `len`
field becomes 40 and its `nlen` field `0xFFD7`) and returns
`(encodedLen, decodedLen) = (150, 140)`. -/
theorem Cut_two_stored_blocks_150 (d1 d2 : List Nat) (h1 : d1.length = 100)
    (h2 : d2.length = 100) (hb1 : IsBytes d1) (hb2 : IsBytes d2) :
    Cut ([0x00, 100, 0, 0x9B, 0xFF] ++ d1 ++ [0x01, 100, 0, 0x9B, 0xFF] ++ d2) 150
      = Run.ret { encoded := [0x00, 100, 0, 0x9B, 0xFF] ++ d1 ++ [0x01, 40, 0, 0xD7, 0xFF] ++ d2,
                  encodedLen := 150, decodedLen := 140, retErr := none } := by
  have hA : ([0x00, 100, 0, 0x9B, 0xFF] ++ d1).length = 105 := by simp [h1]
  have hout : [0x00, 100, 0, 0x9B, 0xFF] ++ d1 ++ [0x01, 40, 0, 0xD7, 0xFF] ++ d2
      = (setLe16 (setLe16 ([0x00, 100, 0, 0x9B, 0xFF] ++ d1 ++ [0x01, 100, 0, 0x9B, 0xFF] ++ d2)
          106 40) 108 65495).set 105 1 := by
    simp only [setLe16, List.append_assoc ([0x00, 100, 0, 0x9B, 0xFF] ++ d1)]
    rw [set_append_hdr _ _ 105 1 _ hA, set_append_hdr _ _ 105 2 _ hA, set_append_hdr _ _ 105 3 _ hA,
      set_append_hdr _ _ 105 4 _ hA, set_append_hdr _ _ 105 0 _ hA]
    rfl
  rw [hout]
  apply Cut_two_stored_aux
  · exact two_stored_isBytes d1 d2 _ _ _ _ _ hb1 hb2 (by omega) (by omega) (by omega) (by omega)
      (by omega)
  · simp [h1, h2]
  · rfl
  · rfl
  · unfold le16
    rw [List.append_assoc, List.append_assoc, getD_hdr3, getD_hdr4]
  · rw [List.append_assoc, getD_append_hdr _ _ 105 0 hA]; rfl
  · unfold le16
    rw [List.append_assoc, getD_append_hdr _ _ 105 1 hA, getD_append_hdr _ _ 105 2 hA]; rfl
  · unfold le16
    rw [List.append_assoc, getD_append_hdr _ _ 105 3 hA, getD_append_hdr _ _ 105 4 hA,
      getD_hdr3, getD_hdr4]


theorem Cut_two_stored_blocks_150_witness :
    Cut ([0x00, 100, 0, 0x9B, 0xFF] ++ List.replicate 100 0x41
          ++ [0x01, 100, 0, 0x9B, 0xFF] ++ List.replicate 100 0x42) 150
      = Run.ret { encoded := [0x00, 100, 0, 0x9B, 0xFF] ++ List.replicate 100 0x41
                    ++ [0x01, 40, 0, 0xD7, 0xFF] ++ List.replicate 100 0x42,
                  encodedLen := 150, decodedLen := 140, retErr := none } :=
  Cut_two_stored_blocks_150 (List.replicate 100 0x41) (List.replicate 100 0x42)
    (by simp) (by simp)
    (by intro x hx; rw [List.eq_of_mem_replicate hx]; decide)
    (by intro x hx; rw [List.eq_of_mem_replicate hx]; decide)

/-- C7, counterexample. On two stored blocks of 100 zero bytes each, `Cut` with
`maxEncodedLen = 150` returns `(150, 140)`, not `(105, 100)`: the second block is
cut down to 40 bytes instead of being dropped. -/
theorem Cut_two_stored_blocks_150_counterexample :
    (Cut ([0x00, 100, 0, 0x9B, 0xFF] ++ List.replicate 100 0
          ++ [0x01, 100, 0, 0x9B, 0xFF] ++ List.replicate 100 0) 150).map
        (fun r => (r.encodedLen, r.decodedLen, r.retErr))
      = Run.ret (150, 140, none) := by
  decide!

/-- C8, as the code has it. On the 2-byte buffer `0x00 0x00` `Cut` returns no
error for any `maxEncodedLen` of at least 2: the stored block makes no
progress within the budget, so the buffer is overwritten with the empty stream
`0x03 0x00` and `(2, 0)` is returned. -/
theorem Cut_two_zero_bytes (M : Int) (hM : 2 ≤ M) :
    Cut [0x00, 0x00] M
      = Run.ret { encoded := [0x03, 0x00], encodedLen := 2, decodedLen := 0, retErr := none } := by
  have h : clampMaxEncodedLen [0x00, 0x00] M = 2 := by
    have h1 := clampMaxEncodedLen_spec [0x00, 0x00] M hM
    have h2 := h1.2.2.1 2 (by omega) hM (by simp)
    have h3 := h1.1
    simp only [List.length_cons, List.length_nil] at h3
    omega
  unfold Cut
  rw [CutFuel_eq _ _ _ hM (by simp), h]
  decide!

theorem Cut_two_zero_bytes_witness :
    Cut [0x00, 0x00] 1000
      = Run.ret { encoded := [0x03, 0x00], encodedLen := 2, decodedLen := 0, retErr := none } :=
  Cut_two_zero_bytes 1000 (by decide)

/-- C8, counterexample. `Cut` on `0x00 0x00` with `maxEncodedLen = 2` returns
`nil`, not `errInvalidNotEnoughData`. -/
theorem Cut_two_zero_bytes_counterexample :
    (Cut [0x00, 0x00] 2).map (fun r => r.retErr) = Run.ret none := by
  decide!

/-- C2, evaluated at the failing input. The buffer holds an empty non-final
stored block followed by an empty final static Huffman block; with
`maxEncodedLen = 6` the end-of-block code of the second block ends in byte 7 and
`Cut` returns `encodedLen = 7`. -/
theorem Cut_encodedLen_exceeds_budget :
    Cut [0x00, 0x00, 0x00, 0xFF, 0xFF, 0x03, 0x00] 6
      = Run.ret { encoded := [0x00, 0x00, 0x00, 0xFF, 0xFF, 0x03, 0x00], encodedLen := 7,
                  decodedLen := 0, retErr := none } := by
  decide!

/-! ## Which code writes to the buffer -/

theorem nextBit_bytes (b : bitstream) (bit : Nat) (b1 : bitstream)
    (e : b.nextBit = some (bit, b1)) : b1.bytes = b.bytes := by
  unfold bitstream.nextBit at e
  split_ifs at e with h1 h2
  · simp only [Option.some.injEq, Prod.mk.injEq] at e
    rw [← e.2]
  · simp only [Option.some.injEq, Prod.mk.injEq] at e
    rw [← e.2]

theorem decodeLoop_bytes (h : huffman) (k i code first symIndex : Nat) (b : bitstream)
    (s : Int) (b1 : bitstream)
    (e : h.decodeLoop k i code first symIndex b = Run.ret (s, b1)) : b1.bytes = b.bytes := by
  induction k generalizing i code first symIndex b with
  | zero =>
    simp only [huffman.decodeLoop, Run.ret.injEq, Prod.mk.injEq] at e
    rw [← e.2]
  | succ k ih =>
    rw [huffman.decodeLoop] at e
    cases hn : b.nextBit with
    | none =>
      rw [hn] at e
      simp only [Run.ret.injEq, Prod.mk.injEq] at e
      rw [← e.2]
    | some r =>
      obtain ⟨bit, b2⟩ := r
      rw [hn] at e
      simp only at e
      have hb := nextBit_bytes b bit b2 hn
      split_ifs at e
      · simp only [Run.ret.injEq, Prod.mk.injEq] at e
        rw [← e.2, hb]
      · rw [ih _ _ _ _ _ e, hb]

theorem decode_bytes (h : huffman) (b : bitstream) (s : Int) (b1 : bitstream)
    (e : h.decode b = Run.ret (s, b1)) : b1.bytes = b.bytes :=
  decodeLoop_bytes h _ _ _ _ _ b s b1 e

theorem doStored_bytes (c c1 : cutter) (err : Option Error)
    (e : c.doStored = Run.ret (c1, err)) (hne : err ≠ some errInternalSomeProgress) :
    c1.bits.bytes = c.bits.bytes := by
  unfold cutter.doStored at e
  simp only at e
  split_ifs at e <;> simp only [Run.ret.injEq, Prod.mk.injEq] at e <;>
    first
    | (exact absurd e.2.symm hne)
    | (rw [← e.1])

theorem cutEpilogue_retErr (bytes : List Nat) (index : Int) (nBits : Nat) (d : Int)
    (r : CutResult) (e : cutEpilogue bytes index nBits d = Run.ret r) : r.retErr = none := by
  unfold cutEpilogue at e
  split_ifs at e
  · split at e
    · exact absurd e (by simp)
    · simp only [Run.ret.injEq] at e
      rw [← e]
  · simp only [Run.ret.injEq] at e
    rw [← e]

theorem cutEmpty_retErr (bytes : List Nat) (M : Int) (r : CutResult)
    (e : cutEmpty bytes M = Run.ret r) : r.retErr = none := by
  unfold cutEmpty at e
  split_ifs at e
  simp only [Run.ret.injEq] at e
  rw [← e]

theorem Run.map_eq_ret {α β : Type} (f : α → β) (r : Run α) (y : β)
    (e : r.map f = Run.ret y) : ∃ x, r = Run.ret x ∧ f x = y := by
  cases r with
  | ret x => exact ⟨x, rfl, by simpa [Run.map, Run.bind] using e⟩
  | panic => simp [Run.map, Run.bind] at e
  | outOfFuel => simp [Run.map, Run.bind] at e

theorem Run.bind_eq_ret {α β : Type} (r : Run α) (f : α → Run β) (y : β)
    (e : r.bind f = Run.ret y) : ∃ x, r = Run.ret x ∧ f x = Run.ret y := by
  cases r with
  | ret x => exact ⟨x, rfl, by simpa [Run.bind] using e⟩
  | panic => simp [Run.bind] at e
  | outOfFuel => simp [Run.bind] at e

/-- What `afterBlock` does with the result of a block reader: it goes on with the
same cutter after a non-final block, and an error is returned with `(0, 0)`
and the buffer of the cutter. -/
theorem afterBlock_spec (c1 : cutter) (err : Option Error) (fb fbi : Int) (fbn : Nat)
    (pfi : Int) (pfn : Nat) (s : CutStep)
    (e : cutter.afterBlock c1 err fb fbi fbn pfi pfn = Run.ret s) :
    (∀ c2 i n, s = CutStep.again c2 i n → err = none ∧ c2 = c1) ∧
    (∀ r, s = CutStep.done r → r.retErr ≠ none →
      err ≠ some errInternalSomeProgress ∧ r.encodedLen = 0 ∧ r.decodedLen = 0 ∧
        r.encoded = c1.bits.bytes) := by
  unfold cutter.afterBlock at e
  split at e
  · split_ifs at e
    · simp only [Run.ret.injEq] at e
      subst e
      exact ⟨fun c2 i n h => by simp only [CutStep.again.injEq] at h; exact ⟨rfl, h.1.symm⟩,
        fun r h => by simp at h⟩
    · obtain ⟨x, hx, hs⟩ := Run.map_eq_ret _ _ _ e
      subst hs
      refine ⟨fun c2 i n h => by simp at h, fun r h hr => ?_⟩
      simp only [CutStep.done.injEq] at h
      subst h
      exact absurd (cutEpilogue_retErr _ _ _ _ _ hx) hr
  · split_ifs at e
    · obtain ⟨x, hx, hs⟩ := Run.map_eq_ret _ _ _ e
      subst hs
      refine ⟨fun c2 i n h => by simp at h, fun r h hr => ?_⟩
      simp only [CutStep.done.injEq] at h
      subst h
      exact absurd (cutEmpty_retErr _ _ _ hx) hr
    · simp only at e
      split at e
      · simp at e
      · split_ifs at e <;>
        · obtain ⟨x, hx, hs⟩ := Run.map_eq_ret _ _ _ e
          subst hs
          refine ⟨fun c2 i n h => by simp at h, fun r h hr => ?_⟩
          simp only [CutStep.done.injEq] at h
          subst h
          exact absurd (cutEpilogue_retErr _ _ _ _ _ hx) hr
  · split at e
    · simp at e
    · obtain ⟨x, hx, hs⟩ := Run.map_eq_ret _ _ _ e
      subst hs
      refine ⟨fun c2 i n h => by simp at h, fun r h hr => ?_⟩
      simp only [CutStep.done.injEq] at h
      subst h
      exact absurd (cutEpilogue_retErr _ _ _ _ _ hx) hr
  · next err1 h1 h2 =>
    simp only [Run.ret.injEq] at e
    subst e
    refine ⟨fun c2 i n h => by simp at h, fun r h hr => ?_⟩
    simp only [CutStep.done.injEq] at h
    subst h
    exact ⟨fun h => h2 (by simpa using h), rfl, rfl, rfl⟩

theorem readDistance_bytes (c : cutter) (d l : Int) (s : SymbolStep)
    (e : c.readDistance d l = Run.ret s) : s.cutter.bits.bytes = c.bits.bytes := by
  unfold cutter.readDistance at e
  obtain ⟨r, hr, e⟩ := Run.bind_eq_ret _ _ _ e
  obtain ⟨dSymbol, b3⟩ := r
  have hb := decode_bytes _ _ _ _ hr
  simp only at e
  split_ifs at e <;> simp only [Run.ret.injEq] at e <;> subst e <;>
    simp only [SymbolStep.cutter, bitstream.take_bytes] <;> exact hb

theorem readCopy_bytes (c : cutter) (d l : Int) (s : SymbolStep)
    (e : c.readCopy d l = Run.ret s) : s.cutter.bits.bytes = c.bits.bytes := by
  unfold cutter.readCopy at e
  simp only at e
  split_ifs at e
  · simp only [Run.ret.injEq] at e; subst e
    simp only [SymbolStep.cutter, bitstream.take_bytes]
  · simp only [Run.ret.injEq] at e; subst e
    simp only [SymbolStep.cutter, bitstream.take_bytes]
  · rw [readDistance_bytes _ _ _ _ e]
    simp only [bitstream.take_bytes]

theorem readSymbol_bytes (c : cutter) (d : Int) (s : SymbolStep)
    (e : c.readSymbol d = Run.ret s) : s.cutter.bits.bytes = c.bits.bytes := by
  unfold cutter.readSymbol at e
  obtain ⟨r, hr, e⟩ := Run.bind_eq_ret _ _ _ e
  obtain ⟨lSymbol, b1⟩ := r
  have hb := decode_bytes _ _ _ _ hr
  simp only at e
  split_ifs at e
  · simp only [Run.ret.injEq] at e; subst e; exact hb
  · simp only [Run.ret.injEq] at e; subst e; exact hb
  · rw [readCopy_bytes _ _ _ _ e]; exact hb
  · simp only [Run.ret.injEq] at e; subst e; exact hb

theorem afterBreak_bytes (c c1 : cutter) (ci : Int) (cn : Nat) (err : Option Error)
    (e : c.afterBreak ci cn = Run.ret (c1, err)) (hne : err ≠ some errInternalSomeProgress) :
    c1.bits.bytes = c.bits.bytes := by
  unfold cutter.afterBreak at e
  split_ifs at e
  · simp only [Run.ret.injEq, Prod.mk.injEq] at e
    rw [← e.1]
  · split at e
    · simp at e
    · simp only [Run.ret.injEq, Prod.mk.injEq] at e
      exact absurd e.2.symm hne

theorem checkpoint_bytes (c : cutter) (ci : Int) (cn : Nat) (d : Int) (s : HuffmanStep)
    (e : c.checkpoint ci cn d = Run.ret s) :
    (∀ c1 err, s = HuffmanStep.exit c1 err → err ≠ some errInternalSomeProgress →
      c1.bits.bytes = c.bits.bytes) ∧
    (∀ c1 i n d1, s = HuffmanStep.again c1 i n d1 → c1.bits.bytes = c.bits.bytes) := by
  unfold cutter.checkpoint at e
  simp only at e
  split_ifs at e
  · obtain ⟨x, hx, hs⟩ := Run.map_eq_ret _ _ _ e
    subst hs
    refine ⟨fun c1 err h hne => ?_, fun _ _ _ _ h => by simp at h⟩
    simp only [HuffmanStep.exit.injEq] at h
    obtain ⟨h1, h2⟩ := h
    subst h1 h2
    exact afterBreak_bytes _ _ _ _ _ hx hne
  · obtain ⟨x, hx, hs⟩ := Run.map_eq_ret _ _ _ e
    subst hs
    refine ⟨fun c1 err h hne => ?_, fun _ _ _ _ h => by simp at h⟩
    simp only [HuffmanStep.exit.injEq] at h
    obtain ⟨h1, h2⟩ := h
    subst h1 h2
    exact afterBreak_bytes _ _ _ _ _ hx hne
  · simp only [Run.ret.injEq] at e
    subst e
    refine ⟨fun _ _ h => by simp at h, fun c1 i n d1 h => ?_⟩
    simp only [HuffmanStep.again.injEq] at h
    rw [← h.1]

theorem huffmanStep_bytes (c : cutter) (ci : Int) (cn : Nat) (d : Int) (s : HuffmanStep)
    (e : c.huffmanStep ci cn d = Run.ret s) :
    (∀ c1 err, s = HuffmanStep.exit c1 err → err ≠ some errInternalSomeProgress →
      c1.bits.bytes = c.bits.bytes) ∧
    (∀ c1 i n d1, s = HuffmanStep.again c1 i n d1 → c1.bits.bytes = c.bits.bytes) := by
  unfold cutter.huffmanStep at e
  obtain ⟨x, hx, e⟩ := Run.bind_eq_ret _ _ _ e
  have hb := readSymbol_bytes _ _ _ hx
  cases x with
  | stop c2 err2 =>
    simp only [Run.ret.injEq] at e
    subst e
    refine ⟨fun c1 err h _ => ?_, fun _ _ _ _ h => by simp at h⟩
    simp only [HuffmanStep.exit.injEq] at h
    rw [← h.1]
    exact hb
  | next c2 d2 =>
    simp only [SymbolStep.cutter] at hb
    obtain ⟨k1, k2⟩ := checkpoint_bytes _ _ _ _ _ e
    exact ⟨fun c1 err h hne => by rw [k1 c1 err h hne, hb],
      fun c1 i n d1 h => by rw [k2 c1 i n d1 h, hb]⟩

theorem huffmanLoop_bytes (fuel : Nat) (c c1 : cutter) (ci : Int) (cn : Nat) (d : Int)
    (err : Option Error) (e : c.huffmanLoop fuel ci cn d = Run.ret (c1, err))
    (hne : err ≠ some errInternalSomeProgress) : c1.bits.bytes = c.bits.bytes := by
  induction fuel generalizing c ci cn d with
  | zero => simp [cutter.huffmanLoop] at e
  | succ fuel ih =>
    rw [cutter.huffmanLoop] at e
    split at e
    · simp at e
    · simp at e
    · next c2 err2 h2 =>
      simp only [Run.ret.injEq, Prod.mk.injEq] at e
      obtain ⟨e1, e2⟩ := e
      subst e1 e2
      exact (huffmanStep_bytes _ _ _ _ _ h2).1 _ _ rfl hne
    · next c2 i2 n2 d2 h2 =>
      rw [ih _ _ _ _ e]
      exact (huffmanStep_bytes _ _ _ _ _ h2).2 _ _ _ _ rfl

theorem doHuffman_bytes (fuel : Nat) (c c1 : cutter) (l d : List Nat) (err : Option Error)
    (e : c.doHuffman fuel l d = Run.ret (c1, err)) (hne : err ≠ some errInternalSomeProgress) :
    c1.bits.bytes = c.bits.bytes := by
  unfold cutter.doHuffman at e
  cases hl : c.lHuff.construct l with
  | panic => rw [hl] at e; simp at e
  | outOfFuel => rw [hl] at e; simp at e
  | ret x =>
    obtain ⟨lh, ecb, ecn, err1⟩ := x
    rw [hl] at e
    simp only at e
    cases hd : c.dHuff.construct d with
    | panic => rw [hd] at e; split_ifs at e <;> simp at e <;> rw [← e.1]
    | outOfFuel => rw [hd] at e; split_ifs at e <;> simp at e <;> rw [← e.1]
    | ret y =>
      obtain ⟨dh, a1, a2, err2⟩ := y
      rw [hd] at e
      simp only at e
      split_ifs at e
      · simp only [Run.ret.injEq, Prod.mk.injEq] at e; rw [← e.1]
      · simp only [Run.ret.injEq, Prod.mk.injEq] at e; rw [← e.1]
      · simp only [Run.ret.injEq, Prod.mk.injEq] at e; rw [← e.1]
      · simp only [Run.ret.injEq, Prod.mk.injEq] at e; rw [← e.1]
      · rw [huffmanLoop_bytes _ _ _ _ _ _ _ e hne]

theorem readCodeLengthLengths_bytes (k i : Nat) (b b1 : bitstream) (l l1 : List Nat)
    (ok : Bool) (e : readCodeLengthLengths k i b l = Run.ret (b1, l1, ok)) :
    b1.bytes = b.bytes := by
  induction k generalizing i b l with
  | zero =>
    simp only [readCodeLengthLengths, Run.ret.injEq, Prod.mk.injEq] at e
    rw [← e.1]
  | succ k ih =>
    rw [readCodeLengthLengths] at e
    split_ifs at e
    · simp only [Run.ret.injEq, Prod.mk.injEq] at e
      rw [← e.1, bitstream.take_bytes]
    · rw [ih _ _ _ e, bitstream.take_bytes]

theorem repeatTail_bytes (c : cutter) (n i : Int) (l : List Nat) (value : Nat) (count : Int)
    (s : LengthStep) (e : c.repeatTail n i l value count = Run.ret s) :
    s.cutter = c := by
  unfold cutter.repeatTail at e
  split_ifs at e
  · simp only [Run.ret.injEq] at e; subst e; rfl
  · simp only [Run.ret.injEq] at e; subst e; rfl
  · split at e
    · simp at e
    · simp only [Run.ret.injEq] at e; subst e; rfl

theorem readCodeLength_bytes (c : cutter) (n i : Int) (l : List Nat) (s : LengthStep)
    (e : c.readCodeLength n i l = Run.ret s) : s.cutter.bits.bytes = c.bits.bytes := by
  unfold cutter.readCodeLength at e
  obtain ⟨r, hr, e⟩ := Run.bind_eq_ret _ _ _ e
  obtain ⟨symbol, b1⟩ := r
  have hb1 := decode_bytes _ _ _ _ hr
  simp only at e
  split_ifs at e
  · simp only [Run.ret.injEq] at e; subst e; exact hb1
  · simp only [Run.ret.injEq] at e; subst e; exact hb1
  · split at e
    · simp at e
    · rw [repeatTail_bytes _ _ _ _ _ _ _ e]
      simp only [bitstream.take_bytes]; exact hb1
  · rw [repeatTail_bytes _ _ _ _ _ _ _ e]
    simp only [bitstream.take_bytes]; exact hb1
  · rw [repeatTail_bytes _ _ _ _ _ _ _ e]
    simp only [bitstream.take_bytes]; exact hb1
  · simp only [Run.ret.injEq] at e; subst e; exact hb1

theorem readCodeLengths_bytes (fuel : Nat) (c c1 : cutter) (n i : Int) (l l1 : List Nat)
    (err : Option Error) (e : c.readCodeLengths fuel n i l = Run.ret (c1, l1, err)) :
    c1.bits.bytes = c.bits.bytes := by
  induction fuel generalizing c i l with
  | zero => simp [cutter.readCodeLengths] at e
  | succ fuel ih =>
    rw [cutter.readCodeLengths] at e
    split_ifs at e with h1
    · split at e
      · simp at e
      · simp at e
      · next c2 l2 err2 h2 =>
        have hb := readCodeLength_bytes _ _ _ _ _ h2
        simp only [Run.ret.injEq, Prod.mk.injEq] at e
        rw [← e.1]; exact hb
      · next c2 l2 i2 h2 =>
        have hb := readCodeLength_bytes _ _ _ _ _ h2
        rw [ih _ _ _ e]; exact hb
    · simp only [Run.ret.injEq, Prod.mk.injEq] at e
      rw [← e.1]

theorem doDynamicLengths_bytes (fuel : Nat) (c c1 : cutter) (nl nd ncl : Int)
    (err : Option Error) (e : c.doDynamicLengths fuel nl nd ncl = Run.ret (c1, err))
    (hne : err ≠ some errInternalSomeProgress) : c1.bits.bytes = c.bits.bytes := by
  unfold cutter.doDynamicLengths at e
  simp only at e
  obtain ⟨r, hr, e⟩ := Run.bind_eq_ret _ _ _ e
  obtain ⟨b4, l4, ok⟩ := r
  have hb4 := readCodeLengthLengths_bytes _ _ _ _ _ _ _ hr
  simp only at e
  split_ifs at e
  · simp only [Run.ret.injEq, Prod.mk.injEq] at e; rw [← e.1]; exact hb4
  · obtain ⟨h, hh, e⟩ := Run.bind_eq_ret _ _ _ e
    split_ifs at e
    · simp only [Run.ret.injEq, Prod.mk.injEq] at e; rw [← e.1]; exact hb4
    · obtain ⟨q, hq, e⟩ := Run.bind_eq_ret _ _ _ e
      obtain ⟨c5, l5, err5⟩ := q
      have hb5 := readCodeLengths_bytes _ _ _ _ _ _ _ _ hq
      simp only at e hb5
      split_ifs at e
      · simp only [Run.ret.injEq, Prod.mk.injEq] at e; rw [← e.1, hb5]; exact hb4
      · rw [doHuffman_bytes _ _ _ _ _ _ e hne, hb5]; exact hb4

theorem doDynamicHuffman_bytes (fuel : Nat) (c c1 : cutter)
    (err : Option Error) (e : c.doDynamicHuffman fuel = Run.ret (c1, err))
    (hne : err ≠ some errInternalSomeProgress) : c1.bits.bytes = c.bits.bytes := by
  unfold cutter.doDynamicHuffman at e
  simp only at e
  split_ifs at e
  · simp only [Run.ret.injEq, Prod.mk.injEq] at e; rw [← e.1]; simp only [bitstream.take_bytes]
  · simp only [Run.ret.injEq, Prod.mk.injEq] at e; rw [← e.1]; simp only [bitstream.take_bytes]
  · simp only [Run.ret.injEq, Prod.mk.injEq] at e; rw [← e.1]; simp only [bitstream.take_bytes]
  · simp only [Run.ret.injEq, Prod.mk.injEq] at e; rw [← e.1]; simp only [bitstream.take_bytes]
  · rw [doDynamicLengths_bytes _ _ _ _ _ _ _ e hne]; simp only [bitstream.take_bytes]

theorem doBlock_bytes (fuel : Nat) (c c1 : cutter) (t : Int)
    (err : Option Error) (e : c.doBlock fuel t = Run.ret (c1, err))
    (hne : err ≠ some errInternalSomeProgress) : c1.bits.bytes = c.bits.bytes := by
  unfold cutter.doBlock at e
  split_ifs at e
  · exact doStored_bytes _ _ _ e hne
  · exact doHuffman_bytes _ _ _ _ _ _ e hne
  · exact doDynamicHuffman_bytes _ _ _ _ e hne
  · simp only [Run.ret.injEq, Prod.mk.injEq] at e; rw [← e.1]

/-- One pass of the loop of `cut`: the loop goes on with the buffer as it was, and
an error is returned with `(0, 0)` and the buffer as it was. -/
theorem cutStep_spec (fuel : Nat) (c : cutter) (pfi : Int) (pfn : Nat) (s : CutStep)
    (e : c.cutStep fuel pfi pfn = Run.ret s) :
    (∀ c2 i n, s = CutStep.again c2 i n → c2.bits.bytes = c.bits.bytes) ∧
    (∀ r, s = CutStep.done r → r.retErr ≠ none →
      r.encodedLen = 0 ∧ r.decodedLen = 0 ∧ r.encoded = c.bits.bytes) := by
  unfold cutter.cutStep at e
  simp only at e
  split_ifs at e
  · simp only [Run.ret.injEq] at e; subst e
    exact ⟨fun _ _ _ h => by simp at h, fun r h _ => by
      simp only [CutStep.done.injEq] at h; subst h; simp [bitstream.take_bytes]⟩
  · simp only [Run.ret.injEq] at e; subst e
    exact ⟨fun _ _ _ h => by simp at h, fun r h _ => by
      simp only [CutStep.done.injEq] at h; subst h; simp [bitstream.take_bytes]⟩
  · simp only [Run.ret.injEq] at e; subst e
    exact ⟨fun _ _ _ h => by simp at h, fun r h _ => by
      simp only [CutStep.done.injEq] at h; subst h; simp [bitstream.take_bytes]⟩
  · obtain ⟨r, hr, e⟩ := Run.bind_eq_ret _ _ _ e
    obtain ⟨c1, err⟩ := r
    simp only at e
    have h := afterBlock_spec _ _ _ _ _ _ _ _ e
    refine ⟨fun c2 i n hs => ?_, fun r hs hne => ?_⟩
    · obtain ⟨h1, h2⟩ := h.1 c2 i n hs
      subst h1 h2
      have := doBlock_bytes _ _ _ _ _ hr (by simp)
      simpa [bitstream.take_bytes] using this
    · obtain ⟨h1, h2, h3, h4⟩ := h.2 r hs hne
      refine ⟨h2, h3, ?_⟩
      rw [h4]
      have := doBlock_bytes _ _ _ _ _ hr h1
      simpa [bitstream.take_bytes] using this

theorem cutLoop_error (fuel k : Nat) (c : cutter) (pfi : Int) (pfn : Nat) (r : CutResult)
    (e : cutter.cutLoop fuel k c pfi pfn = Run.ret r) (hne : r.retErr ≠ none) :
    r.encodedLen = 0 ∧ r.decodedLen = 0 ∧ r.encoded = c.bits.bytes := by
  induction k generalizing c pfi pfn with
  | zero => simp [cutter.cutLoop] at e
  | succ k ih =>
    rw [cutter.cutLoop] at e
    split at e
    · simp at e
    · simp at e
    · next r1 h1 =>
      simp only [Run.ret.injEq] at e
      subst e
      exact (cutStep_spec _ _ _ _ _ h1).2 _ rfl hne
    · next c1 i1 n1 h1 =>
      have := ih _ _ _ e
      rw [(cutStep_spec _ _ _ _ _ h1).1 _ _ _ rfl] at this
      exact this

/-- Error atomicity for any fuel. -/
theorem CutFuel_error (fuel : Nat) (X : List Nat) (M : Int) (r : CutResult)
    (e : CutFuel fuel X M = Run.ret r) (hne : r.retErr ≠ none) :
    r.encodedLen = 0 ∧ r.decodedLen = 0 ∧ r.encoded = X := by
  unfold CutFuel at e
  split_ifs at e
  · simp only [Run.ret.injEq] at e; subst e; exact ⟨rfl, rfl, rfl⟩
  · simp only [Run.ret.injEq] at e; subst e; exact ⟨rfl, rfl, rfl⟩
  · exact cutLoop_error _ _ _ _ _ _ e hne

/-- C6. Error atomicity: when `Cut` returns an error, for any buffer and any
`maxEncodedLen`, it returns `encodedLen = 0` and `decodedLen = 0` and every byte
of the buffer is as it was before the call. -/
theorem Cut_error_atomic (X : List Nat) (M : Int) (r : CutResult)
    (e : Cut X M = Run.ret r) (hne : r.retErr ≠ none) :
    r.encodedLen = 0 ∧ r.decodedLen = 0 ∧ r.encoded = X :=
  CutFuel_error _ X M r e hne

theorem Cut_error_atomic_witness :
    (CutResult.mk [0x00, 0x05, 0x00, 0x00, 0x00, 0x41] 0 0
        (some errInvalidBadBlockLength)).encodedLen = 0 ∧
      (CutResult.mk [0x00, 0x05, 0x00, 0x00, 0x00, 0x41] 0 0
        (some errInvalidBadBlockLength)).decodedLen = 0 ∧
      (CutResult.mk [0x00, 0x05, 0x00, 0x00, 0x00, 0x41] 0 0
        (some errInvalidBadBlockLength)).encoded = [0x00, 0x05, 0x00, 0x00, 0x00, 0x41] :=
  Cut_error_atomic [0x00, 0x05, 0x00, 0x00, 0x00, 0x41] 6
    (CutResult.mk [0x00, 0x05, 0x00, 0x00, 0x00, 0x41] 0 0 (some errInvalidBadBlockLength))
    (by decide!) (by decide)

/-! ## Code that does not look at the budget -/

theorem Run.map_ret {α β : Type} (f : α → β) (x : α) : (Run.ret x).map f = Run.ret (f x) := rfl

theorem Run.bind_ret {α β : Type} (f : α → Run β) (x : α) : (Run.ret x).bind f = f x := rfl

theorem Run.map_bind {α β γ : Type} (r : Run α) (f : α → Run β) (g : β → γ) :
    (r.bind f).map g = r.bind (fun x => (f x).map g) := by
  cases r <;> rfl

theorem readDistance_withBudget (c : cutter) (m d l : Int) :
    (c.withBudget m).readDistance d l = (c.readDistance d l).map (fun s => s.withBudget m) := by
  unfold cutter.readDistance
  rw [Run.map_bind]
  simp only [cutter.withBudget]
  congr 1
  funext r
  split_ifs <;> simp only [Run.map, Run.bind, SymbolStep.withBudget, cutter.withBudget]

theorem readCopy_withBudget (c : cutter) (m d l : Int) :
    (c.withBudget m).readCopy d l = (c.readCopy d l).map (fun s => s.withBudget m) := by
  unfold cutter.readCopy
  simp only [cutter.withBudget]
  split_ifs
  · rfl
  · simp only [Run.map, Run.bind, SymbolStep.withBudget, cutter.withBudget]
  · simp only [Run.map, Run.bind, SymbolStep.withBudget, cutter.withBudget]
  · have h := readDistance_withBudget
      { c with bits := (c.bits.take (lExtras.getD (l - 256).toNat 0)).2 } m d
      (wrap32 (lBases.getD (l - 256).toNat 0 + (c.bits.take (lExtras.getD (l - 256).toNat 0)).1))
    simp only [cutter.withBudget] at h
    exact h

theorem readSymbol_withBudget (c : cutter) (m d : Int) :
    (c.withBudget m).readSymbol d = (c.readSymbol d).map (fun s => s.withBudget m) := by
  unfold cutter.readSymbol
  rw [Run.map_bind]
  simp only [cutter.withBudget]
  congr 1
  funext r
  split_ifs
  · simp only [Run.map, Run.bind, SymbolStep.withBudget, cutter.withBudget]
  · simp only [Run.map, Run.bind, SymbolStep.withBudget, cutter.withBudget]
  · have h := readCopy_withBudget { c with bits := r.2 } m d r.1
    simp only [cutter.withBudget] at h
    exact h
  · simp only [Run.map, Run.bind, SymbolStep.withBudget, cutter.withBudget]

theorem afterBreak_withBudget (c : cutter) (m ci : Int) (cn : Nat) :
    (c.withBudget m).afterBreak ci cn
      = (c.afterBreak ci cn).map (fun r => (r.1.withBudget m, r.2)) := by
  unfold cutter.afterBreak
  split_ifs
  · rfl
  · simp only [cutter.writeEndCode, cutter.withBudget]
    cases cutter.writeEndCodeLoop c.endCodeBits c.endCodeNBits
        { bytes := c.bits.bytes, index := ci.toNat, bits := c.bits.bits, nBits := cn } <;> rfl

/-! ## The decoded length never decreases -/

theorem land_mask_lt (x n : Nat) (h : n < 32) : x &&& sub32 (u32 (1 <<< n)) 1 < 2 ^ n := by
  rw [mask_eq h, Nat.and_pow_two_sub_one_eq_mod]
  exact Nat.mod_lt _ (Nat.two_pow_pos n)

/-- The value returned by `take`: the sentinel or `n` bits. -/
theorem take_value (b : bitstream) (n : Nat) (hn : n ≤ 16) :
    (b.take n).1 = mostNegativeInt32 ∨ (0 ≤ (b.take n).1 ∧ (b.take n).1 < 2 ^ n) := by
  unfold bitstream.take
  split
  · left; rfl
  · next b1 _ =>
    right
    have h := land_mask_lt b1.bits n (by omega)
    have h2 : 2 ^ n ≤ 2 ^ 16 := two_pow_le_of_le hn
    simp only
    rw [toInt32_of_lt (by omega)]
    constructor
    · omega
    · exact_mod_cast h

theorem lTable (li : Nat) (h : li < 32) :
    lExtras.getD li 0 ≤ 5 ∧
      ((lBases.getD li 0 = mostNegativeInt32 ∧ lExtras.getD li 0 = 0) ∨
        (3 ≤ lBases.getD li 0 ∧ lBases.getD li 0 ≤ 258)) := by
  revert li
  decide

theorem take_zero (b : bitstream) : (b.take 0).1 = 0 := by
  have h : sub32 (u32 (1 <<< 0)) 1 = 0 := by decide
  simp only [bitstream.take, bitstream.refill, h, Nat.and_zero]
  decide

theorem readDistance_decodedLen (c : cutter) (d l : Int) (s : SymbolStep)
    (e : c.readDistance d l = Run.ret s) :
    s.cutter.decodedLen = c.decodedLen ∧ s.cutter.maxEncodedLen = c.maxEncodedLen ∧
      ∀ c1 d1, s = SymbolStep.next c1 d1 → d1 = wrap32 (d + l) := by
  unfold cutter.readDistance at e
  obtain ⟨r, hr, e⟩ := Run.bind_eq_ret _ _ _ e
  simp only at e
  split_ifs at e <;> simp only [Run.ret.injEq] at e <;> subst e <;>
    simp [SymbolStep.cutter]

theorem readCopy_decodedLen (c : cutter) (d l : Int) (s : SymbolStep)
    (e : c.readCopy d l = Run.ret s) :
    s.cutter.decodedLen = c.decodedLen ∧ s.cutter.maxEncodedLen = c.maxEncodedLen ∧
      ∀ c1 d1, s = SymbolStep.next c1 d1 → ∃ len : Int, 0 ≤ len ∧ len ≤ 289 ∧
        d1 = wrap32 (d + len) := by
  unfold cutter.readCopy at e
  simp only at e
  split_ifs at e with h1 h2 h3
  · simp only [Run.ret.injEq] at e; subst e; simp [SymbolStep.cutter]
  · simp only [Run.ret.injEq] at e; subst e; simp [SymbolStep.cutter]
  · obtain ⟨e1, e2, e3⟩ := readDistance_decodedLen _ _ _ _ e
    refine ⟨e1, e2, fun c1 d1 hs => ⟨_, ?_, ?_, e3 c1 d1 hs⟩⟩
    · omega
    · by_cases hl : 0 ≤ l - 256
      · have hli : (l - 256).toNat < 32 := by omega
        obtain ⟨t1, t2⟩ := lTable _ hli
        have hv := take_value c.bits _ (show lExtras.getD (l - 256).toNat 0 ≤ 16 by omega)
        have hp : (2 : Int) ^ lExtras.getD (l - 256).toNat 0 ≤ 2 ^ 5 :=
          pow_le_pow_right₀ (by norm_num) t1
        rcases t2 with ⟨t3, t4⟩ | ⟨t3, t4⟩
        · rw [t4, take_zero, t3] at h2
          exact absurd (by unfold wrap32 mostNegativeInt32; norm_num) h2
        · rcases hv with hv | ⟨hv1, hv2⟩
          · rw [hv] at h2
            exact absurd (by unfold wrap32 mostNegativeInt32; omega) h2
          · unfold wrap32
            rw [show (2 : Int) ^ 5 = 32 by norm_num] at hp
            omega
      · have hli : (l - 256).toNat = 0 := by omega
        rw [hli] at h2
        exact absurd (by rw [show lExtras.getD 0 0 = 0 from rfl, take_zero]; decide) h2

theorem readDistance_stop (c : cutter) (d l : Int) (c1 : cutter) (err : Option Error)
    (e : c.readDistance d l = Run.ret (SymbolStep.stop c1 err)) :
    err = some errInvalidBadSymbol ∨ err = some errInvalidNotEnoughData := by
  unfold cutter.readDistance at e
  obtain ⟨r, hr, e⟩ := Run.bind_eq_ret _ _ _ e
  simp only at e
  split_ifs at e <;> simp only [Run.ret.injEq, SymbolStep.stop.injEq] at e <;>
    first
    | exact Or.inl e.2.symm
    | exact Or.inr e.2.symm
    | exact absurd e (by simp)

theorem readCopy_stop (c : cutter) (d l : Int) (c1 : cutter) (err : Option Error)
    (e : c.readCopy d l = Run.ret (SymbolStep.stop c1 err)) :
    err = some errInvalidBadSymbol ∨ err = some errInvalidNotEnoughData := by
  unfold cutter.readCopy at e
  simp only at e
  split_ifs at e
  · simp only [Run.ret.injEq, SymbolStep.stop.injEq] at e; exact Or.inl e.2.symm
  · simp only [Run.ret.injEq, SymbolStep.stop.injEq] at e; exact Or.inr e.2.symm
  · exact readDistance_stop _ _ _ _ _ e

/-- The loop body of `doHuffman` returns `nil` or a public error, never one of the
two internal signals. -/
theorem readSymbol_stop (c : cutter) (d : Int) (c1 : cutter) (err : Option Error)
    (e : c.readSymbol d = Run.ret (SymbolStep.stop c1 err)) :
    err = none ∨ err = some errInvalidBadSymbol ∨ err = some errInvalidNotEnoughData := by
  unfold cutter.readSymbol at e
  obtain ⟨r, hr, e⟩ := Run.bind_eq_ret _ _ _ e
  simp only at e
  split_ifs at e
  · simp only [Run.ret.injEq, SymbolStep.stop.injEq] at e; exact Or.inr (Or.inl e.2.symm)
  · simp at e
  · exact Or.inr (readCopy_stop _ _ _ _ _ e)
  · simp only [Run.ret.injEq, SymbolStep.stop.injEq] at e; exact Or.inl e.2.symm

theorem readSymbol_decodedLen (c : cutter) (d : Int) (s : SymbolStep)
    (e : c.readSymbol d = Run.ret s) :
    s.cutter.decodedLen = c.decodedLen ∧ s.cutter.maxEncodedLen = c.maxEncodedLen ∧
      ∀ c1 d1, s = SymbolStep.next c1 d1 → ∃ len : Int, 0 ≤ len ∧ len ≤ 289 ∧
        d1 = wrap32 (d + len) := by
  unfold cutter.readSymbol at e
  obtain ⟨r, hr, e⟩ := Run.bind_eq_ret _ _ _ e
  simp only at e
  split_ifs at e
  · simp only [Run.ret.injEq] at e; subst e; simp [SymbolStep.cutter]
  · simp only [Run.ret.injEq] at e; subst e
    refine ⟨rfl, rfl, fun c1 d1 hs => ⟨1, by omega, by omega, ?_⟩⟩
    simp only [SymbolStep.next.injEq] at hs
    exact hs.2.symm
  · obtain ⟨a1, a2, a3⟩ := readCopy_decodedLen { c with bits := r.2 } d r.1 s e
    exact ⟨a1, a2, a3⟩
  · simp only [Run.ret.injEq] at e; subst e; simp [SymbolStep.cutter]

/-- A new local `decodedLen` is negative or not below the old one. -/
theorem wrap32_add_len (d len : Int) (h0 : 0 ≤ d) (h1 : d < 2147483648) (h2 : 0 ≤ len)
    (h3 : len ≤ 289) :
    wrap32 (d + len) < 0 ∨ (d ≤ wrap32 (d + len) ∧ wrap32 (d + len) < 2147483648) := by
  unfold wrap32
  omega

theorem writeEndCode_fields (c c1 : cutter) (e : c.writeEndCode = some c1) :
    c1.decodedLen = c.decodedLen ∧ c1.maxEncodedLen = c.maxEncodedLen := by
  unfold cutter.writeEndCode at e
  cases h : cutter.writeEndCodeLoop c.endCodeBits c.endCodeNBits c.bits with
  | none => rw [h] at e; simp at e
  | some b =>
    rw [h] at e
    simp only [Option.some.injEq] at e
    subst e
    exact ⟨rfl, rfl⟩

theorem afterBreak_spec (c c1 : cutter) (ci : Int) (cn : Nat) (err : Option Error)
    (e : c.afterBreak ci cn = Run.ret (c1, err)) :
    c1.decodedLen = c.decodedLen ∧ c1.maxEncodedLen = c.maxEncodedLen ∧
      (ci < 0 → err = some errInternalNoProgress) ∧
      (0 ≤ ci → err = some errInternalSomeProgress) := by
  unfold cutter.afterBreak at e
  split_ifs at e with h
  · simp only [Run.ret.injEq, Prod.mk.injEq] at e
    obtain ⟨e1, e2⟩ := e
    subst e1 e2
    exact ⟨rfl, rfl, fun _ => rfl, fun h' => absurd h' (by omega)⟩
  · cases hw : cutter.writeEndCode
        { c with bits := { c.bits with index := ci.toNat, nBits := cn } } with
    | none => rw [hw] at e; simp at e
    | some c2 =>
      rw [hw] at e
      simp only [Run.ret.injEq, Prod.mk.injEq] at e
      obtain ⟨e1, e2⟩ := e
      subst e1 e2
      obtain ⟨w1, w2⟩ := writeEndCode_fields _ _ hw
      exact ⟨w1, w2, fun h' => absurd h' h, fun _ => rfl⟩

theorem checkpoint_spec (c : cutter) (ci : Int) (cn : Nat) (d1 : Int) (s : HuffmanStep)
    (e : c.checkpoint ci cn d1 = Run.ret s) :
    (∀ c1 err, s = HuffmanStep.exit c1 err →
      c1.decodedLen = c.decodedLen ∧ c1.maxEncodedLen = c.maxEncodedLen ∧
        (ci < 0 → err = some errInternalNoProgress) ∧
        (0 ≤ ci → err = some errInternalSomeProgress)) ∧
    (∀ c1 i n d', s = HuffmanStep.again c1 i n d' →
      d' = d1 ∧ c1.decodedLen = d1 ∧ 0 ≤ i ∧ 0 ≤ d1 ∧ c1.maxEncodedLen = c.maxEncodedLen) := by
  unfold cutter.checkpoint at e
  simp only at e
  split_ifs at e with g1 g2
  · obtain ⟨x, hx, hs⟩ := Run.map_eq_ret _ _ _ e
    subst hs
    refine ⟨fun c1 err h => ?_, fun _ _ _ _ h => by simp at h⟩
    simp only [HuffmanStep.exit.injEq] at h
    obtain ⟨h1, h2⟩ := h
    subst h1 h2
    exact afterBreak_spec _ _ _ _ _ hx
  · obtain ⟨x, hx, hs⟩ := Run.map_eq_ret _ _ _ e
    subst hs
    refine ⟨fun c1 err h => ?_, fun _ _ _ _ h => by simp at h⟩
    simp only [HuffmanStep.exit.injEq] at h
    obtain ⟨h1, h2⟩ := h
    subst h1 h2
    exact afterBreak_spec _ _ _ _ _ hx
  · simp only [Run.ret.injEq] at e
    subst e
    refine ⟨fun _ _ h => by simp at h, fun c1 i n d' h => ?_⟩
    simp only [HuffmanStep.again.injEq] at h
    obtain ⟨h1, h2, h3, h4⟩ := h
    subst h1 h2 h3 h4
    exact ⟨rfl, rfl, by omega, by omega, rfl⟩

/-- One pass of the loop of `doHuffman` and the decoded length. -/
theorem huffmanStep_spec (c : cutter) (ci : Int) (cn : Nat) (d : Int) (s : HuffmanStep)
    (e : c.huffmanStep ci cn d = Run.ret s) (hd : d = c.decodedLen) (h0 : 0 ≤ d)
    (h1 : d < 2147483648) :
    (∀ c1 err, s = HuffmanStep.exit c1 err →
      c1.decodedLen = c.decodedLen ∧ c1.maxEncodedLen = c.maxEncodedLen ∧
        (0 ≤ ci → err ≠ some errInternalNoProgress)) ∧
    (∀ c1 i n d', s = HuffmanStep.again c1 i n d' →
      d' = c1.decodedLen ∧ c.decodedLen ≤ d' ∧ d' < 2147483648 ∧ 0 ≤ i ∧
        c1.maxEncodedLen = c.maxEncodedLen) := by
  unfold cutter.huffmanStep at e
  obtain ⟨x, hx, e⟩ := Run.bind_eq_ret _ _ _ e
  obtain ⟨r1, r2, r3⟩ := readSymbol_decodedLen _ _ _ hx
  cases x with
  | stop c2 err2 =>
    have r4 := readSymbol_stop _ _ _ _ hx
    simp only [Run.ret.injEq] at e
    subst e
    refine ⟨fun c1 err h => ?_, fun _ _ _ _ h => by simp at h⟩
    simp only [HuffmanStep.exit.injEq] at h
    obtain ⟨h1, h2⟩ := h
    subst h1 h2
    refine ⟨r1, r2, fun _ hc => ?_⟩
    rw [hc] at r4
    simp at r4
  | next c2 d2 =>
    simp only [SymbolStep.cutter] at r1 r2
    obtain ⟨len, l0, l1, l2⟩ := r3 c2 d2 rfl
    have hw := wrap32_add_len d len h0 h1 l0 l1
    rw [← l2] at hw
    obtain ⟨k1, k2⟩ := checkpoint_spec _ _ _ _ _ e
    refine ⟨fun c1 err h => ?_, fun c1 i n d' h => ?_⟩
    · obtain ⟨a1, a2, a3, a4⟩ := k1 c1 err h
      exact ⟨by omega, by omega, fun hci => by rw [a4 hci]; simp⟩
    · obtain ⟨a1, a2, a3, a4, a5⟩ := k2 c1 i n d' h
      exact ⟨by omega, by omega, by omega, a3, by omega⟩

/-- The loop of `doHuffman` never lowers the committed `decodedLen`, and it
reports no progress only when it has not committed anything. -/
theorem huffmanLoop_decodedLen (fuel : Nat) (c c1 : cutter) (ci : Int) (cn : Nat) (d : Int)
    (err : Option Error) (e : c.huffmanLoop fuel ci cn d = Run.ret (c1, err))
    (hd : d = c.decodedLen) (h0 : 0 ≤ d) (h1 : d < 2147483648) :
    c.decodedLen ≤ c1.decodedLen ∧ c1.decodedLen < 2147483648 ∧
      c1.maxEncodedLen = c.maxEncodedLen ∧
      (0 ≤ ci → err ≠ some errInternalNoProgress) ∧
      (err = some errInternalNoProgress → c1.decodedLen = c.decodedLen) := by
  induction fuel generalizing c ci cn d with
  | zero => simp [cutter.huffmanLoop] at e
  | succ fuel ih =>
    rw [cutter.huffmanLoop] at e
    split at e
    · simp at e
    · simp at e
    · next c2 err2 h2 =>
      simp only [Run.ret.injEq, Prod.mk.injEq] at e
      obtain ⟨e1, e2⟩ := e
      subst e1 e2
      obtain ⟨a1, a2, a3⟩ := (huffmanStep_spec _ _ _ _ _ h2 hd h0 h1).1 _ _ rfl
      exact ⟨by omega, by omega, a2, a3, fun _ => a1⟩
    · next c2 i2 n2 d2 h2 =>
      obtain ⟨a1, a2, a3, a4, a5⟩ := (huffmanStep_spec _ _ _ _ _ h2 hd h0 h1).2 _ _ _ _ rfl
      obtain ⟨i1, i2', i3, i4, i5⟩ := ih _ _ _ _ e a1 (by omega) a3
      have i4' := i4 a4
      exact ⟨by omega, i2', by omega, fun _ => i4', fun h => absurd h i4'⟩

/-! ## A larger budget -/

theorem withBudget_withBudget (c : cutter) (m1 m2 : Int) :
    (c.withBudget m1).withBudget m2 = c.withBudget m2 := rfl

theorem withBudget_decodedLen (c : cutter) (m : Int) :
    (c.withBudget m).decodedLen = c.decodedLen := rfl

theorem withBudget_self (c : cutter) (m : Int) (h : c.maxEncodedLen = m) :
    c.withBudget m = c := by
  subst h
  rfl

theorem budget_check_mono (x n : Nat) (m1 m2 : Int) (h0 : 0 ≤ m1) (h12 : m1 ≤ m2)
    (h2 : m2 ≤ 1073741824) (h : u64 (x + u64 n) > u64 (8 * toUint64 m2)) :
    u64 (x + u64 n) > u64 (8 * toUint64 m1) := by
  unfold u64 toUint64 at *
  omega

/-- The checkpoint code under the budgets `m1 ≤ m2`: a pass that goes on under
`m1` goes on under `m2`, and a pass that breaks under `m1` breaks the same way
under `m2` or goes on there. -/
theorem checkpoint_mono (m1 m2 : Int) (h0 : 0 ≤ m1) (h12 : m1 ≤ m2) (h2 : m2 ≤ 1073741824)
    (c : cutter) (ci : Int) (cn : Nat) (d1 : Int) (s : HuffmanStep)
    (e : (c.withBudget m1).checkpoint ci cn d1 = Run.ret s) :
    (∀ c1 i n d', s = HuffmanStep.again c1 i n d' →
      (c.withBudget m2).checkpoint ci cn d1
        = Run.ret (HuffmanStep.again (c1.withBudget m2) i n d')) ∧
    (∀ c1 err, s = HuffmanStep.exit c1 err →
      (c.withBudget m2).checkpoint ci cn d1 = Run.ret (HuffmanStep.exit (c1.withBudget m2) err) ∨
      ∃ c2 i n, (c.withBudget m2).checkpoint ci cn d1 = Run.ret (HuffmanStep.again c2 i n d1) ∧
        (err = some errInternalNoProgress ∨ err = some errInternalSomeProgress)) := by
  unfold cutter.checkpoint at e ⊢
  simp only [cutter.withBudget] at e ⊢
  by_cases g1 : d1 < 0
  · rw [if_pos g1] at e
    rw [if_pos g1]
    have e' : ((c.withBudget m1).afterBreak ci cn).map (fun r => HuffmanStep.exit r.1 r.2)
        = Run.ret s := e
    rw [afterBreak_withBudget] at e'
    obtain ⟨x, hx, hs⟩ := Run.map_eq_ret _ _ _ e'
    obtain ⟨y, hy, hxy⟩ := Run.map_eq_ret _ _ _ hx
    subst hs hxy
    refine ⟨fun _ _ _ _ h => by simp at h, fun c1 err h => Or.inl ?_⟩
    simp only [HuffmanStep.exit.injEq] at h
    obtain ⟨h1, h2⟩ := h
    subst h1 h2
    show ((c.withBudget m2).afterBreak ci cn).map (fun r => HuffmanStep.exit r.1 r.2) = _
    rw [afterBreak_withBudget, hy]
    rfl
  · rw [if_neg g1] at e
    rw [if_neg g1]
    by_cases g2 : u64 (sub64 (u64 (8 * u64 c.bits.index)) (u64 c.bits.nBits)
        + u64 c.endCodeNBits) > u64 (8 * toUint64 m1)
    · rw [if_pos g2] at e
      have e' : ((c.withBudget m1).afterBreak ci cn).map (fun r => HuffmanStep.exit r.1 r.2)
          = Run.ret s := e
      rw [afterBreak_withBudget] at e'
      obtain ⟨x, hx, hs⟩ := Run.map_eq_ret _ _ _ e'
      obtain ⟨y, hy, hxy⟩ := Run.map_eq_ret _ _ _ hx
      subst hs hxy
      obtain ⟨a1, a2, a3, a4⟩ := afterBreak_spec _ _ _ _ _ hy
      refine ⟨fun _ _ _ _ h => by simp at h, fun c1 err h => ?_⟩
      simp only [HuffmanStep.exit.injEq] at h
      obtain ⟨h1, h2⟩ := h
      subst h1 h2
      by_cases g3 : u64 (sub64 (u64 (8 * u64 c.bits.index)) (u64 c.bits.nBits)
          + u64 c.endCodeNBits) > u64 (8 * toUint64 m2)
      · left
        rw [if_pos g3]
        show ((c.withBudget m2).afterBreak ci cn).map (fun r => HuffmanStep.exit r.1 r.2) = _
        rw [afterBreak_withBudget, hy]
        rfl
      · right
        rw [if_neg g3]
        refine ⟨_, _, _, rfl, ?_⟩
        by_cases hc : ci < 0
        · exact Or.inl (a3 hc)
        · exact Or.inr (a4 (by omega))
    · rw [if_neg g2] at e
      have g3 : ¬ u64 (sub64 (u64 (8 * u64 c.bits.index)) (u64 c.bits.nBits)
          + u64 c.endCodeNBits) > u64 (8 * toUint64 m2) :=
        fun h => g2 (budget_check_mono _ _ _ _ h0 h12 h2 h)
      rw [if_neg g3]
      simp only [Run.ret.injEq] at e
      subst e
      refine ⟨fun c1 i n d' h => ?_, fun _ _ h => by simp at h⟩
      simp only [HuffmanStep.again.injEq] at h
      obtain ⟨h1, h2, h3, h4⟩ := h
      subst h1 h2 h3 h4
      rfl

theorem huffmanStep_mono (m1 m2 : Int) (h0 : 0 ≤ m1) (h12 : m1 ≤ m2) (h2 : m2 ≤ 1073741824)
    (c : cutter) (ci : Int) (cn : Nat) (d : Int) (s : HuffmanStep)
    (e : (c.withBudget m1).huffmanStep ci cn d = Run.ret s) :
    (∀ c1 i n d', s = HuffmanStep.again c1 i n d' →
      (c.withBudget m2).huffmanStep ci cn d
        = Run.ret (HuffmanStep.again (c1.withBudget m2) i n d')) ∧
    (∀ c1 err, s = HuffmanStep.exit c1 err →
      (c.withBudget m2).huffmanStep ci cn d = Run.ret (HuffmanStep.exit (c1.withBudget m2) err) ∨
      ∃ c2 i n d2, (c.withBudget m2).huffmanStep ci cn d = Run.ret (HuffmanStep.again c2 i n d2) ∧
        (err = some errInternalNoProgress ∨ err = some errInternalSomeProgress)) := by
  unfold cutter.huffmanStep at e ⊢
  rw [readSymbol_withBudget] at e ⊢
  obtain ⟨x, hx, e⟩ := Run.bind_eq_ret _ _ _ e
  obtain ⟨y, hy, hxy⟩ := Run.map_eq_ret _ _ _ hx
  subst hxy
  rw [hy]
  simp only [Run.map_ret, Run.bind_ret]
  cases y with
  | stop c' err' =>
    simp only [SymbolStep.withBudget, Run.ret.injEq] at e ⊢
    subst e
    refine ⟨fun _ _ _ _ h => by simp at h, fun c1 err h => Or.inl ?_⟩
    simp only [HuffmanStep.exit.injEq] at h
    obtain ⟨h1, h2⟩ := h
    subst h1 h2
    rfl
  | next c' d' =>
    simp only [SymbolStep.withBudget] at e ⊢
    obtain ⟨k1, k2⟩ := checkpoint_mono m1 m2 h0 h12 h2 _ _ _ _ _ e
    refine ⟨k1, fun c1 err h => ?_⟩
    rcases k2 c1 err h with k | ⟨c2, i, n, k, k'⟩
    · exact Or.inl k
    · exact Or.inr ⟨c2, i, n, d', k, k'⟩

/-- The loop of `doHuffman` under the budgets `m1 ≤ m2`: what is returned under
`m1`, other than the two internal signals, is returned under `m2` too, and after
some progress under `m1` there is at least as much progress under `m2`. -/
theorem huffmanLoop_mono (m1 m2 : Int) (h0 : 0 ≤ m1) (h12 : m1 ≤ m2) (h2 : m2 ≤ 1073741824)
    (fuel : Nat) (c c1 : cutter) (ci : Int) (cn : Nat) (d : Int) (e1 : Option Error)
    (e : (c.withBudget m1).huffmanLoop fuel ci cn d = Run.ret (c1, e1))
    (hd : d = c.decodedLen) (hd0 : 0 ≤ d) (hd1 : d < 2147483648) :
    (e1 ≠ some errInternalNoProgress → e1 ≠ some errInternalSomeProgress →
      (c.withBudget m2).huffmanLoop fuel ci cn d = Run.ret (c1.withBudget m2, e1)) ∧
    (e1 = some errInternalSomeProgress → ∀ c2 e2,
      (c.withBudget m2).huffmanLoop fuel ci cn d = Run.ret (c2, e2) →
        e2 ≠ some errInternalNoProgress ∧ c1.decodedLen ≤ c2.decodedLen) := by
  induction fuel generalizing c ci cn d with
  | zero => simp [cutter.huffmanLoop] at e
  | succ fuel ih =>
    rw [cutter.huffmanLoop] at e
    cases hs : (c.withBudget m1).huffmanStep ci cn d with
    | panic => rw [hs] at e; simp at e
    | outOfFuel => rw [hs] at e; simp at e
    | ret s =>
      rw [hs] at e
      obtain ⟨k1, k2⟩ := huffmanStep_mono m1 m2 h0 h12 h2 _ _ _ _ _ hs
      obtain ⟨p1, p2⟩ := huffmanStep_spec _ _ _ _ _ hs hd hd0 hd1
      cases s with
      | again c' i' n' d' =>
        simp only at e
        have k := k1 _ _ _ _ rfl
        obtain ⟨q1, q2, q3, q4, q5⟩ := p2 _ _ _ _ rfl
        have hc' : c'.withBudget m1 = c' := withBudget_self _ _ q5
        rw [← hc'] at e
        have := ih c' i' n' d' e q1 (by rw [withBudget_decodedLen] at q2; omega) q3
        refine ⟨fun n1 n2 => ?_, fun hsome c2 e2 h2' => ?_⟩
        · rw [cutter.huffmanLoop, k]
          exact this.1 n1 n2
        · rw [cutter.huffmanLoop, k] at h2'
          exact this.2 hsome c2 e2 h2'
      | exit c' err' =>
        simp only [Run.ret.injEq, Prod.mk.injEq] at e
        obtain ⟨x1, x2⟩ := e
        subst x1 x2
        obtain ⟨q1, q2, q3⟩ := p1 _ _ rfl
        rcases k2 _ _ rfl with k | ⟨c2', i2, n2, d2, k, k'⟩
        · refine ⟨fun _ _ => ?_, fun hsome c2 e2 h2' => ?_⟩
          · rw [cutter.huffmanLoop, k]
          · rw [cutter.huffmanLoop, k] at h2'
            simp only [Run.ret.injEq, Prod.mk.injEq] at h2'
            obtain ⟨y1, y2⟩ := h2'
            subst y1 y2
            rw [hsome]
            exact ⟨by simp, le_refl _⟩
        · refine ⟨fun n1 n2 => ?_, fun hsome c2 e2 h2' => ?_⟩
          · rcases k' with k' | k'
            · exact absurd k' n1
            · exact absurd k' n2
          · rw [cutter.huffmanLoop, k] at h2'
            simp only at h2'
            obtain ⟨r1, r2, r3, r4, r5⟩ :=
              (huffmanStep_spec _ _ _ _ _ k hd hd0 hd1).2 _ _ _ _ rfl
            obtain ⟨i1, i2', i3, i4, i5⟩ :=
              huffmanLoop_decodedLen _ _ _ _ _ _ _ h2' r1 (by
                rw [withBudget_decodedLen] at r2; omega) r3
            refine ⟨i4 r4, ?_⟩
            rw [withBudget_decodedLen] at r2 q1
            omega

/-- What `doHuffman` does to the decoded length and to the budget. -/
theorem doHuffman_spec (fuel : Nat) (c c1 : cutter) (l d : List Nat) (err : Option Error)
    (e : c.doHuffman fuel l d = Run.ret (c1, err))
    (h0 : 0 ≤ c.decodedLen) (h1 : c.decodedLen < 2147483648) :
    c.decodedLen ≤ c1.decodedLen ∧ c1.decodedLen < 2147483648 ∧
      c1.maxEncodedLen = c.maxEncodedLen ∧
      (err = some errInternalNoProgress → c1.decodedLen = c.decodedLen) := by
  unfold cutter.doHuffman at e
  cases hl : c.lHuff.construct l with
  | panic => rw [hl] at e; simp at e
  | outOfFuel => rw [hl] at e; simp at e
  | ret x =>
    obtain ⟨lh, eb, en, er⟩ := x
    rw [hl] at e
    simp only at e
    by_cases g1 : er ≠ none
    · rw [if_pos g1] at e
      simp only [Run.ret.injEq, Prod.mk.injEq] at e
      obtain ⟨x1, x2⟩ := e
      subst x1
      exact ⟨le_refl _, h1, rfl, fun _ => rfl⟩
    rw [if_neg g1] at e
    by_cases g2 : en = 0
    · rw [if_pos g2] at e
      simp only [Run.ret.injEq, Prod.mk.injEq] at e
      obtain ⟨x1, x2⟩ := e
      subst x1
      exact ⟨le_refl _, h1, rfl, fun _ => rfl⟩
    rw [if_neg g2] at e
    cases hdc : c.dHuff.construct d with
    | panic => rw [hdc] at e; simp at e
    | outOfFuel => rw [hdc] at e; simp at e
    | ret y =>
      obtain ⟨dh, _, _, err1⟩ := y
      rw [hdc] at e
      simp only at e
      by_cases g3 : err1 ≠ none
      · rw [if_pos g3] at e
        simp only [Run.ret.injEq, Prod.mk.injEq] at e
        obtain ⟨x1, x2⟩ := e
        subst x1
        exact ⟨le_refl _, h1, rfl, fun _ => rfl⟩
      rw [if_neg g3] at e
      by_cases g4 : (c.bits.index : Int) > c.maxEncodedLen
      · rw [if_pos g4] at e
        simp only [Run.ret.injEq, Prod.mk.injEq] at e
        obtain ⟨x1, x2⟩ := e
        subst x1
        exact ⟨le_refl _, h1, rfl, fun _ => rfl⟩
      rw [if_neg g4] at e
      obtain ⟨q1, q2, q3, _, q5⟩ := huffmanLoop_decodedLen _ _ _ _ _ _ _ e rfl h0 h1
      exact ⟨q1, q2, q3, q5⟩

/-- The method `doHuffman` under the budgets `m1 ≤ m2`. -/
theorem doHuffman_mono (m1 m2 : Int) (h0 : 0 ≤ m1) (h12 : m1 ≤ m2) (h2 : m2 ≤ 1073741824)
    (fuel : Nat) (c c1 : cutter) (l d : List Nat) (e1 : Option Error)
    (e : (c.withBudget m1).doHuffman fuel l d = Run.ret (c1, e1))
    (hd0 : 0 ≤ c.decodedLen) (hd1 : c.decodedLen < 2147483648) :
    (e1 ≠ some errInternalNoProgress → e1 ≠ some errInternalSomeProgress →
      (c.withBudget m2).doHuffman fuel l d = Run.ret (c1.withBudget m2, e1)) ∧
    (e1 = some errInternalSomeProgress → ∀ c2 e2,
      (c.withBudget m2).doHuffman fuel l d = Run.ret (c2, e2) →
        e2 ≠ some errInternalNoProgress ∧ c1.decodedLen ≤ c2.decodedLen) := by
  unfold cutter.doHuffman at e ⊢
  simp only [cutter.withBudget] at e ⊢
  cases hl : c.lHuff.construct l with
  | panic => rw [hl] at e; simp at e
  | outOfFuel => rw [hl] at e; simp at e
  | ret x =>
    obtain ⟨lh, eb, en, err⟩ := x
    rw [hl] at e
    simp only at e ⊢
    by_cases g1 : err ≠ none
    · rw [if_pos g1] at e
      rw [if_pos g1]
      simp only [Run.ret.injEq, Prod.mk.injEq] at e
      obtain ⟨x1, x2⟩ := e
      subst x1 x2
      refine ⟨fun _ _ => rfl, fun hs c2 e2 h => ?_⟩
      simp only [Run.ret.injEq, Prod.mk.injEq] at h
      obtain ⟨y1, y2⟩ := h
      subst y1 y2
      rw [hs]
      exact ⟨by simp, le_refl _⟩
    rw [if_neg g1] at e
    rw [if_neg g1]
    by_cases g2 : en = 0
    · rw [if_pos g2] at e
      rw [if_pos g2]
      simp only [Run.ret.injEq, Prod.mk.injEq] at e
      obtain ⟨x1, x2⟩ := e
      subst x1 x2
      refine ⟨fun _ _ => rfl, fun hs c2 e2 h => ?_⟩
      simp at hs
    rw [if_neg g2] at e
    rw [if_neg g2]
    cases hdc : c.dHuff.construct d with
    | panic => rw [hdc] at e; simp at e
    | outOfFuel => rw [hdc] at e; simp at e
    | ret y =>
      obtain ⟨dh, _, _, err1⟩ := y
      rw [hdc] at e
      simp only at e ⊢
      by_cases g3 : err1 ≠ none
      · rw [if_pos g3] at e
        rw [if_pos g3]
        simp only [Run.ret.injEq, Prod.mk.injEq] at e
        obtain ⟨x1, x2⟩ := e
        subst x1 x2
        refine ⟨fun _ _ => rfl, fun hs c2 e2 h => ?_⟩
        simp only [Run.ret.injEq, Prod.mk.injEq] at h
        obtain ⟨y1, y2⟩ := h
        subst y1 y2
        rw [hs]
        exact ⟨by simp, le_refl _⟩
      rw [if_neg g3] at e
      rw [if_neg g3]
      by_cases g4 : (c.bits.index : Int) > m1
      · rw [if_pos g4] at e
        simp only [Run.ret.injEq, Prod.mk.injEq] at e
        obtain ⟨x1, x2⟩ := e
        subst x1 x2
        exact ⟨fun n _ => absurd rfl n, fun hs => by simp at hs⟩
      rw [if_neg g4] at e
      rw [if_neg (by omega : ¬ ((c.bits.index : Int) > m2))]
      exact huffmanLoop_mono m1 m2 h0 h12 h2 fuel
        { c with lHuff := lh, endCodeBits := eb, endCodeNBits := en, dHuff := dh } c1 (-1) 0
        c.decodedLen e1 e rfl hd0 hd1

/-- What `doStored` does to the decoded length and to the budget. -/
theorem doStored_spec (c c1 : cutter) (err : Option Error)
    (e : c.doStored = Run.ret (c1, err)) (hwf : IsBytes c.bits.bytes)
    (h0 : 0 ≤ c.decodedLen) (h1 : c.decodedLen < 2147483648)
    (hM : c.maxEncodedLen ≤ c.bits.bytes.length) :
    c.decodedLen ≤ c1.decodedLen ∧ c1.decodedLen < 2147483648 ∧
      c1.maxEncodedLen = c.maxEncodedLen ∧
      (err = some errInternalNoProgress → c1.decodedLen = c.decodedLen) := by
  rw [doStored_eq c hwf ⟨h0, h1⟩ hM] at e
  split_ifs at e with g1 g2 g3 g4 g5 <;>
    simp only [Run.ret.injEq, Prod.mk.injEq] at e <;> obtain ⟨x1, x2⟩ := e <;> subst x1 x2
  · exact ⟨le_refl _, h1, rfl, fun _ => rfl⟩
  · exact ⟨le_refl _, h1, rfl, fun _ => rfl⟩
  · exact ⟨le_refl _, h1, rfl, fun _ => rfl⟩
  · refine ⟨?_, ?_, rfl, fun h => by simp at h⟩
    · show c.decodedLen ≤ c.decodedLen + _
      omega
    · show c.decodedLen + _ < _
      omega
  · exact ⟨le_refl _, h1, rfl, fun _ => rfl⟩
  · refine ⟨?_, ?_, rfl, fun h => by simp at h⟩
    · show c.decodedLen ≤ c.decodedLen + _
      omega
    · show c.decodedLen + _ < _
      omega

/-- The method `doStored` under the budgets `m1 ≤ m2`. -/
theorem doStored_mono (m1 m2 : Int) (h12 : m1 ≤ m2)
    (c c1 : cutter) (e1 : Option Error)
    (e : (c.withBudget m1).doStored = Run.ret (c1, e1)) (hwf : IsBytes c.bits.bytes)
    (hd0 : 0 ≤ c.decodedLen) (hd1 : c.decodedLen < 2147483648)
    (hM : m2 ≤ c.bits.bytes.length) :
    (e1 ≠ some errInternalNoProgress → e1 ≠ some errInternalSomeProgress →
      (c.withBudget m2).doStored = Run.ret (c1.withBudget m2, e1)) ∧
    (e1 = some errInternalSomeProgress → ∀ c2 e2,
      (c.withBudget m2).doStored = Run.ret (c2, e2) →
        e2 ≠ some errInternalNoProgress ∧ c1.decodedLen ≤ c2.decodedLen) := by
  have hM1 : (c.withBudget m1).maxEncodedLen ≤ (c.withBudget m1).bits.bytes.length := by
    show m1 ≤ (c.bits.bytes.length : Int)
    omega
  rw [doStored_eq (c.withBudget m1) hwf ⟨hd0, hd1⟩ hM1] at e
  clear hM1
  rw [doStored_eq (c.withBudget m2) hwf ⟨hd0, hd1⟩ hM]
  simp only [cutter.withBudget] at e ⊢
  split_ifs at e with g1 g2 g3 g4 g5 <;>
    simp only [Run.ret.injEq, Prod.mk.injEq] at e <;> obtain ⟨x1, x2⟩ := e <;> subst x1 x2
  · exact ⟨fun n _ => absurd rfl n, fun hs => by simp at hs⟩
  · refine ⟨fun _ _ => ?_, fun hs => by simp at hs⟩
    rw [if_neg (by omega), if_pos g2]
  · exact ⟨fun n _ => absurd rfl n, fun hs => by simp at hs⟩
  · refine ⟨fun _ _ => ?_, fun hs => by simp at hs⟩
    rw [if_neg (by omega), if_neg g2, if_neg g3, if_pos (by omega)]
  · exact ⟨fun n _ => absurd rfl n, fun hs => by simp at hs⟩
  · refine ⟨fun _ n => absurd rfl n, fun _ c2 e2 h => ?_⟩
    rw [if_neg (by omega), if_neg g2, if_neg g3] at h
    split_ifs at h with k1 k2 <;>
      simp only [Run.ret.injEq, Prod.mk.injEq] at h <;> obtain ⟨y1, y2⟩ := h <;> subst y1 y2
    · refine ⟨by simp, ?_⟩
      show c.decodedLen + _ ≤ c.decodedLen + _
      omega
    · omega
    · refine ⟨by simp, ?_⟩
      show c.decodedLen + _ ≤ c.decodedLen + _
      omega

theorem repeatTail_withBudget (c : cutter) (m n i : Int) (l : List Nat) (v : Nat) (k : Int) :
    (c.withBudget m).repeatTail n i l v k
      = (c.repeatTail n i l v k).map (fun s => s.withBudget m) := by
  unfold cutter.repeatTail
  split_ifs
  · rfl
  · rfl
  · cases repeatLength v k.toNat i l with
    | none => rfl
    | some x => rfl

theorem readCodeLength_withBudget (c : cutter) (m n i : Int) (l : List Nat) :
    (c.withBudget m).readCodeLength n i l
      = (c.readCodeLength n i l).map (fun s => s.withBudget m) := by
  unfold cutter.readCodeLength
  rw [Run.map_bind]
  simp only [cutter.withBudget]
  congr 1
  funext r
  split_ifs
  · simp only [Run.map, Run.bind, LengthStep.withBudget, cutter.withBudget]
  · simp only [Run.map, Run.bind, LengthStep.withBudget, cutter.withBudget]
  · cases readByte l (i - 1) with
    | none => rfl
    | some value =>
      simp only
      have h := repeatTail_withBudget { c with bits := (r.2.take 2).2 } m n i l value
        (wrap32 (3 + (r.2.take 2).1))
      simp only [cutter.withBudget] at h
      exact h
  · have h := repeatTail_withBudget { c with bits := (r.2.take 3).2 } m n i l 0
      (wrap32 (3 + (r.2.take 3).1))
    simp only [cutter.withBudget] at h
    exact h
  · have h := repeatTail_withBudget { c with bits := (r.2.take 7).2 } m n i l 0
      (wrap32 (11 + (r.2.take 7).1))
    simp only [cutter.withBudget] at h
    exact h
  · simp only [Run.map, Run.bind, LengthStep.withBudget, cutter.withBudget]
  · rfl

theorem readCodeLengths_withBudget (fuel : Nat) (c : cutter) (m n i : Int) (l : List Nat) :
    (c.withBudget m).readCodeLengths fuel n i l
      = (c.readCodeLengths fuel n i l).map (fun r => (r.1.withBudget m, r.2)) := by
  induction fuel generalizing c i l with
  | zero => rfl
  | succ fuel ih =>
    rw [cutter.readCodeLengths, cutter.readCodeLengths]
    split_ifs
    · rw [readCodeLength_withBudget]
      cases c.readCodeLength n i l with
      | panic => rfl
      | outOfFuel => rfl
      | ret s =>
        cases s with
        | stop c1 l1 err => rfl
        | next c1 l1 i1 =>
          simp only [Run.map, LengthStep.withBudget]
          exact ih c1 i1 l1
    · rfl

/-- The frame of `repeatTail`: only the lengths change. -/
theorem repeatTail_frame (c : cutter) (n i : Int) (l : List Nat) (v : Nat) (k : Int)
    (s : LengthStep) (e : c.repeatTail n i l v k = Run.ret s) : s.cutter = c := by
  unfold cutter.repeatTail at e
  split_ifs at e
  · simp only [Run.ret.injEq] at e
    subst e
    rfl
  · simp only [Run.ret.injEq] at e
    subst e
    rfl
  · split at e
    · simp at e
    · simp only [Run.ret.injEq] at e
      subst e
      rfl

/-- The frame of `readCodeLength`: of the cutter only the reader changes. -/
theorem readCodeLength_frame (c : cutter) (n i : Int) (l : List Nat) (s : LengthStep)
    (e : c.readCodeLength n i l = Run.ret s) :
    s.cutter.decodedLen = c.decodedLen ∧ s.cutter.maxEncodedLen = c.maxEncodedLen := by
  unfold cutter.readCodeLength at e
  obtain ⟨r, _, e⟩ := Run.bind_eq_ret _ _ _ e
  simp only at e
  split_ifs at e
  · simp only [Run.ret.injEq] at e
    subst e
    exact ⟨rfl, rfl⟩
  · simp only [Run.ret.injEq] at e
    subst e
    exact ⟨rfl, rfl⟩
  · split at e
    · simp at e
    · rw [repeatTail_frame _ _ _ _ _ _ _ e]
      exact ⟨rfl, rfl⟩
  · rw [repeatTail_frame _ _ _ _ _ _ _ e]
    exact ⟨rfl, rfl⟩
  · rw [repeatTail_frame _ _ _ _ _ _ _ e]
    exact ⟨rfl, rfl⟩
  · simp only [Run.ret.injEq] at e
    subst e
    exact ⟨rfl, rfl⟩

theorem readCodeLengths_frame (fuel : Nat) (c : cutter) (n i : Int) (l : List Nat)
    (r : cutter × List Nat × Option Error) (e : c.readCodeLengths fuel n i l = Run.ret r) :
    r.1.decodedLen = c.decodedLen ∧ r.1.maxEncodedLen = c.maxEncodedLen := by
  induction fuel generalizing c i l with
  | zero => simp [cutter.readCodeLengths] at e
  | succ fuel ih =>
    rw [cutter.readCodeLengths] at e
    split_ifs at e
    · cases hs : c.readCodeLength n i l with
      | panic => rw [hs] at e; simp at e
      | outOfFuel => rw [hs] at e; simp at e
      | ret s =>
        rw [hs] at e
        have hf := readCodeLength_frame _ _ _ _ _ hs
        cases s with
        | stop c1 l1 err =>
          simp only [Run.ret.injEq] at e
          subst e
          exact hf
        | next c1 l1 i1 =>
          simp only at e
          have := ih c1 i1 l1 e
          simp only [LengthStep.cutter] at hf
          exact ⟨this.1.trans hf.1, this.2.trans hf.2⟩
    · simp only [Run.ret.injEq] at e
      subst e
      exact ⟨rfl, rfl⟩

/-- What `doDynamicLengths` does to the decoded length and to the budget. -/
theorem doDynamicLengths_spec (fuel : Nat) (c c1 : cutter) (nl nd nc : Int)
    (err : Option Error) (e : c.doDynamicLengths fuel nl nd nc = Run.ret (c1, err))
    (h0 : 0 ≤ c.decodedLen) (h1 : c.decodedLen < 2147483648) :
    c.decodedLen ≤ c1.decodedLen ∧ c1.decodedLen < 2147483648 ∧
      c1.maxEncodedLen = c.maxEncodedLen ∧
      (err = some errInternalNoProgress → c1.decodedLen = c.decodedLen) := by
  unfold cutter.doDynamicLengths at e
  simp only at e
  obtain ⟨r, _, e⟩ := Run.bind_eq_ret _ _ _ e
  by_cases g1 : r.2.2 = false
  · rw [if_pos g1] at e
    simp only [Run.ret.injEq, Prod.mk.injEq] at e
    obtain ⟨x1, x2⟩ := e
    subst x1 x2
    exact ⟨le_refl _, h1, rfl, fun _ => rfl⟩
  rw [if_neg g1] at e
  obtain ⟨h, _, e⟩ := Run.bind_eq_ret _ _ _ e
  by_cases g2 : h.2.2.2 ≠ none
  · rw [if_pos g2] at e
    simp only [Run.ret.injEq, Prod.mk.injEq] at e
    obtain ⟨x1, x2⟩ := e
    subst x1
    exact ⟨le_refl _, h1, rfl, fun _ => rfl⟩
  rw [if_neg g2] at e
  obtain ⟨q, hq, e⟩ := Run.bind_eq_ret _ _ _ e
  obtain ⟨f1, f2⟩ := readCodeLengths_frame _ _ _ _ _ _ hq
  simp only at f1 f2
  by_cases g3 : q.2.2 ≠ none
  · rw [if_pos g3] at e
    simp only [Run.ret.injEq, Prod.mk.injEq] at e
    obtain ⟨x1, x2⟩ := e
    subst x1
    exact ⟨by omega, by omega, f2, fun _ => f1⟩
  rw [if_neg g3] at e
  obtain ⟨p1, p2, p3, p4⟩ := doHuffman_spec _ _ _ _ _ _ e (by omega) (by omega)
  exact ⟨by omega, p2, p3.trans f2, fun h => (p4 h).trans f1⟩

/-- The code-length part of `doDynamicHuffman` under the budgets `m1 ≤ m2`. -/
theorem doDynamicLengths_mono (m1 m2 : Int) (h0 : 0 ≤ m1) (h12 : m1 ≤ m2)
    (h2 : m2 ≤ 1073741824) (fuel : Nat) (c c1 : cutter) (nl nd nc : Int) (e1 : Option Error)
    (e : (c.withBudget m1).doDynamicLengths fuel nl nd nc = Run.ret (c1, e1))
    (hd0 : 0 ≤ c.decodedLen) (hd1 : c.decodedLen < 2147483648) :
    (e1 ≠ some errInternalNoProgress → e1 ≠ some errInternalSomeProgress →
      (c.withBudget m2).doDynamicLengths fuel nl nd nc = Run.ret (c1.withBudget m2, e1)) ∧
    (e1 = some errInternalSomeProgress → ∀ c2 e2,
      (c.withBudget m2).doDynamicLengths fuel nl nd nc = Run.ret (c2, e2) →
        e2 ≠ some errInternalNoProgress ∧ c1.decodedLen ≤ c2.decodedLen) := by
  unfold cutter.doDynamicLengths at e ⊢
  simp only [cutter.withBudget] at e ⊢
  cases hr : readCodeLengthLengths nc.toNat 0 c.bits
      (List.replicate (wrap32 (nl + nd)).toNat 0) with
  | panic => rw [hr] at e; simp [Run.bind] at e
  | outOfFuel => rw [hr] at e; simp [Run.bind] at e
  | ret r =>
    rw [hr] at e
    rw [Run.bind_ret] at e ⊢
    by_cases g1 : r.2.2 = false
    · rw [if_pos g1] at e
      rw [if_pos g1]
      simp only [Run.ret.injEq, Prod.mk.injEq] at e
      obtain ⟨x1, x2⟩ := e
      subst x1 x2
      exact ⟨fun _ _ => rfl, fun hs => by simp at hs⟩
    rw [if_neg g1] at e
    rw [if_neg g1]
    cases hh : c.lHuff.construct r.2.1 with
    | panic => rw [hh] at e; simp [Run.bind] at e
    | outOfFuel => rw [hh] at e; simp [Run.bind] at e
    | ret h =>
      rw [hh] at e
      rw [Run.bind_ret] at e ⊢
      by_cases g2 : h.2.2.2 ≠ none
      · rw [if_pos g2] at e
        rw [if_pos g2]
        simp only [Run.ret.injEq, Prod.mk.injEq] at e
        obtain ⟨x1, x2⟩ := e
        subst x1 x2
        refine ⟨fun _ _ => rfl, fun hs c2 e2 hc => ?_⟩
        simp only [Run.ret.injEq, Prod.mk.injEq] at hc
        obtain ⟨y1, y2⟩ := hc
        subst y1 y2
        rw [hs]
        exact ⟨by simp, le_refl _⟩
      rw [if_neg g2] at e
      rw [if_neg g2]
      have k1 := readCodeLengths_withBudget fuel { c with bits := r.1, lHuff := h.1 } m1
        (wrap32 (nl + nd)) 0 r.2.1
      have k2 := readCodeLengths_withBudget fuel { c with bits := r.1, lHuff := h.1 } m2
        (wrap32 (nl + nd)) 0 r.2.1
      simp only [cutter.withBudget] at k1 k2
      rw [k1] at e
      rw [k2]
      cases hq : cutter.readCodeLengths fuel { c with bits := r.1, lHuff := h.1 }
          (wrap32 (nl + nd)) 0 r.2.1 with
      | panic => rw [hq] at e; simp [Run.bind, Run.map] at e
      | outOfFuel => rw [hq] at e; simp [Run.bind, Run.map] at e
      | ret q =>
        rw [hq] at e
        rw [Run.map_ret, Run.bind_ret] at e ⊢
        obtain ⟨f1, f2⟩ := readCodeLengths_frame _ _ _ _ _ _ hq
        simp only at f1 f2 e ⊢
        by_cases g3 : q.2.2 ≠ none
        · rw [if_pos g3] at e
          rw [if_pos g3]
          simp only [Run.ret.injEq, Prod.mk.injEq] at e
          obtain ⟨x1, x2⟩ := e
          subst x1 x2
          refine ⟨fun _ _ => rfl, fun hs c2 e2 hc => ?_⟩
          simp only [Run.ret.injEq, Prod.mk.injEq] at hc
          obtain ⟨y1, y2⟩ := hc
          subst y1 y2
          rw [hs]
          exact ⟨by simp, le_refl _⟩
        rw [if_neg g3] at e
        rw [if_neg g3]
        exact doHuffman_mono m1 m2 h0 h12 h2 fuel q.1 c1 _ _ e1 e (by omega) (by omega)

/-- What `doDynamicHuffman` does to the decoded length and to the budget. -/
theorem doDynamicHuffman_spec (fuel : Nat) (c c1 : cutter)
    (err : Option Error) (e : c.doDynamicHuffman fuel = Run.ret (c1, err))
    (h0 : 0 ≤ c.decodedLen) (h1 : c.decodedLen < 2147483648) :
    c.decodedLen ≤ c1.decodedLen ∧ c1.decodedLen < 2147483648 ∧
      c1.maxEncodedLen = c.maxEncodedLen ∧
      (err = some errInternalNoProgress → c1.decodedLen = c.decodedLen) := by
  unfold cutter.doDynamicHuffman at e
  simp only at e
  split_ifs at e
  · simp only [Run.ret.injEq, Prod.mk.injEq] at e
    obtain ⟨x1, x2⟩ := e
    subst x1 x2
    exact ⟨le_refl _, h1, rfl, fun _ => rfl⟩
  · simp only [Run.ret.injEq, Prod.mk.injEq] at e
    obtain ⟨x1, x2⟩ := e
    subst x1 x2
    exact ⟨le_refl _, h1, rfl, fun _ => rfl⟩
  · simp only [Run.ret.injEq, Prod.mk.injEq] at e
    obtain ⟨x1, x2⟩ := e
    subst x1 x2
    exact ⟨le_refl _, h1, rfl, fun _ => rfl⟩
  · simp only [Run.ret.injEq, Prod.mk.injEq] at e
    obtain ⟨x1, x2⟩ := e
    subst x1 x2
    exact ⟨le_refl _, h1, rfl, fun _ => rfl⟩
  · have h := doDynamicLengths_spec _ _ _ _ _ _ _ e h0 h1
    exact h

/-- The method `doDynamicHuffman` under the budgets `m1 ≤ m2`. -/
theorem doDynamicHuffman_mono (m1 m2 : Int) (h0 : 0 ≤ m1) (h12 : m1 ≤ m2)
    (h2 : m2 ≤ 1073741824) (fuel : Nat) (c c1 : cutter) (e1 : Option Error)
    (e : (c.withBudget m1).doDynamicHuffman fuel = Run.ret (c1, e1))
    (hd0 : 0 ≤ c.decodedLen) (hd1 : c.decodedLen < 2147483648) :
    (e1 ≠ some errInternalNoProgress → e1 ≠ some errInternalSomeProgress →
      (c.withBudget m2).doDynamicHuffman fuel = Run.ret (c1.withBudget m2, e1)) ∧
    (e1 = some errInternalSomeProgress → ∀ c2 e2,
      (c.withBudget m2).doDynamicHuffman fuel = Run.ret (c2, e2) →
        e2 ≠ some errInternalNoProgress ∧ c1.decodedLen ≤ c2.decodedLen) := by
  unfold cutter.doDynamicHuffman at e ⊢
  simp only [cutter.withBudget] at e ⊢
  split_ifs at e ⊢
  · simp only [Run.ret.injEq, Prod.mk.injEq] at e
    obtain ⟨x1, x2⟩ := e
    subst x1 x2
    exact ⟨fun _ _ => rfl, fun hs => by simp at hs⟩
  · simp only [Run.ret.injEq, Prod.mk.injEq] at e
    obtain ⟨x1, x2⟩ := e
    subst x1 x2
    exact ⟨fun _ _ => rfl, fun hs => by simp at hs⟩
  · simp only [Run.ret.injEq, Prod.mk.injEq] at e
    obtain ⟨x1, x2⟩ := e
    subst x1 x2
    exact ⟨fun _ _ => rfl, fun hs => by simp at hs⟩
  · simp only [Run.ret.injEq, Prod.mk.injEq] at e
    obtain ⟨x1, x2⟩ := e
    subst x1 x2
    exact ⟨fun _ _ => rfl, fun hs => by simp at hs⟩
  · exact doDynamicLengths_mono m1 m2 h0 h12 h2 fuel
      { c with bits := (((c.bits.take 5).2.take 5).2.take 4).2 } c1 _ _ _ e1 e hd0 hd1

/-- What a block reader does to the decoded length and to the budget. -/
theorem doBlock_spec (fuel : Nat) (c c1 : cutter) (t : Int)
    (err : Option Error) (e : c.doBlock fuel t = Run.ret (c1, err))
    (hwf : IsBytes c.bits.bytes)
    (h0 : 0 ≤ c.decodedLen) (h1 : c.decodedLen < 2147483648)
    (hM : c.maxEncodedLen ≤ c.bits.bytes.length) :
    c.decodedLen ≤ c1.decodedLen ∧ c1.decodedLen < 2147483648 ∧
      c1.maxEncodedLen = c.maxEncodedLen ∧
      (err = some errInternalNoProgress → c1.decodedLen = c.decodedLen) := by
  unfold cutter.doBlock at e
  split_ifs at e
  · exact doStored_spec _ _ _ e hwf h0 h1 hM
  · exact doHuffman_spec _ _ _ _ _ _ e h0 h1
  · exact doDynamicHuffman_spec _ _ _ _ e h0 h1
  · simp only [Run.ret.injEq, Prod.mk.injEq] at e
    obtain ⟨x1, x2⟩ := e
    subst x1 x2
    exact ⟨le_refl _, h1, rfl, fun _ => rfl⟩

/-- A block reader under the budgets `m1 ≤ m2`: what is returned under `m1`,
other than the two internal signals, is returned under `m2` too, and after some
progress under `m1` there is at least as much progress under `m2`. -/
theorem doBlock_mono (m1 m2 : Int) (h0 : 0 ≤ m1) (h12 : m1 ≤ m2)
    (h2 : m2 ≤ 1073741824) (fuel : Nat) (c c1 : cutter) (t : Int) (e1 : Option Error)
    (e : (c.withBudget m1).doBlock fuel t = Run.ret (c1, e1))
    (hwf : IsBytes c.bits.bytes)
    (hd0 : 0 ≤ c.decodedLen) (hd1 : c.decodedLen < 2147483648)
    (hM : m2 ≤ c.bits.bytes.length) :
    (e1 ≠ some errInternalNoProgress → e1 ≠ some errInternalSomeProgress →
      (c.withBudget m2).doBlock fuel t = Run.ret (c1.withBudget m2, e1)) ∧
    (e1 = some errInternalSomeProgress → ∀ c2 e2,
      (c.withBudget m2).doBlock fuel t = Run.ret (c2, e2) →
        e2 ≠ some errInternalNoProgress ∧ c1.decodedLen ≤ c2.decodedLen) := by
  unfold cutter.doBlock at e ⊢
  split_ifs at e ⊢
  · exact doStored_mono m1 m2 h12 c c1 e1 e hwf hd0 hd1 hM
  · exact doHuffman_mono m1 m2 h0 h12 h2 fuel c c1 _ _ e1 e hd0 hd1
  · exact doDynamicHuffman_mono m1 m2 h0 h12 h2 fuel c c1 e1 e hd0 hd1
  · simp only [Run.ret.injEq, Prod.mk.injEq] at e
    obtain ⟨x1, x2⟩ := e
    subst x1 x2
    exact ⟨fun _ _ => rfl, fun hs => by simp at hs⟩

theorem cutEpilogue_decodedLen (bytes : List Nat) (index : Int) (nBits : Nat) (d : Int)
    (r : CutResult) (e : cutEpilogue bytes index nBits d = Run.ret r) : r.decodedLen = d := by
  unfold cutEpilogue at e
  split_ifs at e
  · simp only at e
    split at e
    · simp at e
    · simp only [Run.ret.injEq] at e
      rw [← e]
  · simp only [Run.ret.injEq] at e
    rw [← e]

theorem cutEmpty_decodedLen (bytes : List Nat) (M : Int) (r : CutResult)
    (e : cutEmpty bytes M = Run.ret r) : r.decodedLen = 0 := by
  unfold cutEmpty at e
  split_ifs at e
  simp only [Run.ret.injEq] at e
  rw [← e]

/-- The decoded length returned by the statement `switch err` of `cut`. -/
theorem afterBlock_decodedLen (c1 : cutter) (err : Option Error) (fb fbi : Int) (fbn : Nat)
    (pfi : Int) (pfn : Nat) (s : CutStep)
    (e : cutter.afterBlock c1 err fb fbi fbn pfi pfn = Run.ret s) :
    (∀ c2 i n, s = CutStep.again c2 i n → err = none ∧ c2 = c1 ∧ i = fbi) ∧
    (∀ r, s = CutStep.done r → r.retErr = none →
      (err = none ∧ r.decodedLen = c1.decodedLen) ∨
      (err = some errInternalSomeProgress ∧ r.decodedLen = c1.decodedLen) ∨
      (err = some errInternalNoProgress ∧
        ((0 ≤ pfi ∧ r.decodedLen = c1.decodedLen) ∨ (pfi < 0 ∧ r.decodedLen = 0)))) := by
  cases err with
  | none =>
    simp only [cutter.afterBlock] at e
    split_ifs at e
    · simp only [Run.ret.injEq] at e
      subst e
      refine ⟨fun c2 i n h => ?_, fun r h => by simp at h⟩
      simp only [CutStep.again.injEq] at h
      exact ⟨rfl, h.1.symm, h.2.1.symm⟩
    · obtain ⟨x, hx, hxs⟩ := Run.map_eq_ret _ _ _ e
      subst hxs
      refine ⟨fun c2 i n h => by simp at h, fun r h _ => Or.inl ⟨rfl, ?_⟩⟩
      simp only [CutStep.done.injEq] at h
      subst h
      exact cutEpilogue_decodedLen _ _ _ _ _ hx
  | some x =>
    cases x <;> simp only [cutter.afterBlock] at e
    case errInternalNoProgress =>
      split_ifs at e with hp
      · obtain ⟨x, hx, hxs⟩ := Run.map_eq_ret _ _ _ e
        subst hxs
        refine ⟨fun c2 i n h => by simp at h, fun r h _ => Or.inr (Or.inr ⟨rfl, Or.inr ⟨hp, ?_⟩⟩)⟩
        simp only [CutStep.done.injEq] at h
        subst h
        exact cutEmpty_decodedLen _ _ _ hx
      all_goals
        split at e
        · simp at e
        · obtain ⟨x, hx, hxs⟩ := Run.map_eq_ret _ _ _ e
          subst hxs
          refine ⟨fun c2 i n h => by simp at h,
            fun r h _ => Or.inr (Or.inr ⟨rfl, Or.inl ⟨by omega, ?_⟩⟩)⟩
          simp only [CutStep.done.injEq] at h
          subst h
          exact cutEpilogue_decodedLen _ _ _ _ _ hx
    case errInternalSomeProgress =>
      split at e
      · simp at e
      · obtain ⟨x, hx, hxs⟩ := Run.map_eq_ret _ _ _ e
        subst hxs
        refine ⟨fun c2 i n h => by simp at h, fun r h _ => Or.inr (Or.inl ⟨rfl, ?_⟩)⟩
        simp only [CutStep.done.injEq] at h
        subst h
        exact cutEpilogue_decodedLen _ _ _ _ _ hx
    all_goals
      simp only [Run.ret.injEq] at e
      subst e
      refine ⟨fun c2 i n h => by simp at h, fun r h hr => ?_⟩
      simp only [CutStep.done.injEq] at h
      subst h
      simp at hr

/-- The header of a block does not depend on the budget: either every budget
gives the same error, or every budget reads the same block type at the same
place. -/
theorem cutStep_budget (fuel : Nat) (c : cutter) (pfi : Int) (pfn : Nat) :
    (∃ r, r.retErr ≠ none ∧
      ∀ m, (c.withBudget m).cutStep fuel pfi pfn = Run.ret (CutStep.done r)) ∨
    (∃ (b : bitstream) (t fb fbi : Int) (fbn : Nat), b.bytes = c.bits.bytes ∧ 0 ≤ fbi ∧
      ∀ m, (c.withBudget m).cutStep fuel pfi pfn =
        (cutter.doBlock fuel (cutter.withBudget { c with bits := b } m) t).bind fun r =>
          cutter.afterBlock r.1 r.2 fb fbi fbn pfi pfn) := by
  by_cases g1 : (c.bits.take 1).1 < 0
  · left
    refine ⟨CutResult.mk (c.bits.take 1).2.bytes 0 0 (some errInvalidNotEnoughData),
      by simp, fun m => ?_⟩
    unfold cutter.cutStep
    simp only [cutter.withBudget]
    rw [if_pos g1]
  by_cases g2 : ((c.bits.take 1).2.take 2).1 < 0
  · left
    refine ⟨CutResult.mk ((c.bits.take 1).2.take 2).2.bytes 0 0 (some errInvalidNotEnoughData),
      by simp, fun m => ?_⟩
    unfold cutter.cutStep
    simp only [cutter.withBudget]
    rw [if_neg g1, if_pos g2]
  by_cases g3 : ((c.bits.take 1).2.take 2).1 = 3
  · left
    refine ⟨CutResult.mk ((c.bits.take 1).2.take 2).2.bytes 0 0 (some errInvalidBadBlockType),
      by simp, fun m => ?_⟩
    unfold cutter.cutStep
    simp only [cutter.withBudget]
    rw [if_neg g1, if_neg g2, if_pos g3]
  right
  refine ⟨((c.bits.take 1).2.take 2).2, ((c.bits.take 1).2.take 2).1, (c.bits.take 1).1,
    ((c.bits.take 1).2.index : Int), (c.bits.take 1).2.nBits, ?_, ?_, fun m => ?_⟩
  · rw [bitstream.take_bytes, bitstream.take_bytes]
  · omega
  · unfold cutter.cutStep
    simp only [cutter.withBudget]
    rw [if_neg g1, if_neg g2, if_neg g3]

/-- The decoded length returned by `cut` is at least the decoded length with
which a pass through its loop starts. -/
theorem cutLoop_decodedLen_ge (fuel k : Nat) (c : cutter) (pfi : Int) (pfn : Nat)
    (r : CutResult) (e : cutter.cutLoop fuel k c pfi pfn = Run.ret r) (hr : r.retErr = none)
    (hwf : IsBytes c.bits.bytes) (h0 : 0 ≤ c.decodedLen) (h1 : c.decodedLen < 2147483648)
    (hM : c.maxEncodedLen ≤ c.bits.bytes.length) (hp : pfi < 0 → c.decodedLen = 0) :
    c.decodedLen ≤ r.decodedLen := by
  induction k generalizing c pfi pfn with
  | zero => simp [cutter.cutLoop] at e
  | succ k ih =>
    rw [cutLoop_succ] at e
    obtain ⟨s, hs, e⟩ := Run.bind_eq_ret _ _ _ e
    rcases cutStep_budget fuel c pfi pfn with
      ⟨r0, hr0, hall⟩ | ⟨b, t, fb, fbi, fbn, hb, hfbi, hall⟩
    · have h := hall c.maxEncodedLen
      rw [withBudget_self c _ rfl, hs] at h
      simp only [Run.ret.injEq] at h
      subst h
      simp only [Run.ret.injEq] at e
      subst e
      exact absurd hr hr0
    · have h := hall c.maxEncodedLen
      rw [withBudget_self c _ rfl,
        withBudget_self { c with bits := b } c.maxEncodedLen rfl, hs] at h
      obtain ⟨x, hx, hx2⟩ := Run.bind_eq_ret _ _ _ h.symm
      obtain ⟨c1, err⟩ := x
      have hwfb : IsBytes (cutter.bits { c with bits := b }).bytes := by
        show IsBytes b.bytes
        rw [hb]
        exact hwf
      have hMb : (cutter.maxEncodedLen { c with bits := b })
          ≤ ((cutter.bits { c with bits := b }).bytes.length : Int) := by
        show c.maxEncodedLen ≤ (b.bytes.length : Int)
        rw [hb]
        exact hM
      obtain ⟨p1, p2, p3, p4⟩ := doBlock_spec fuel _ c1 t err hx hwfb h0 h1 hMb
      obtain ⟨a1, a2⟩ := afterBlock_decodedLen _ _ _ _ _ _ _ _ hx2
      simp only at p1 p3 p4 a1 a2
      cases s with
      | again c2 i n =>
        obtain ⟨z1, z2, z3⟩ := a1 _ _ _ rfl
        subst z1 z2 z3
        simp only at e
        have hbytes : c2.bits.bytes = c.bits.bytes :=
          (doBlock_bytes fuel _ _ _ _ hx (by simp)).trans hb
        have := ih c2 i n e (by rw [hbytes]; exact hwf) (by omega) p2
          (by rw [hbytes, p3]; exact hM) (fun hneg => absurd hneg (by omega))
        omega
      | done r1 =>
        simp only [Run.ret.injEq] at e
        subst e
        rcases a2 _ rfl hr with ⟨_, h⟩ | ⟨_, h⟩ | ⟨he, ⟨_, h⟩ | ⟨hneg, h⟩⟩
        · omega
        · omega
        · omega
        · have := hp hneg
          omega

/-- The loop of `cut` under the budgets `m1 ≤ m2`: when both runs return no
error, the larger budget gives at least as much decoded data. -/
theorem cutLoop_mono (m1 m2 : Int) (h0 : 0 ≤ m1) (h12 : m1 ≤ m2) (h2 : m2 ≤ 1073741824)
    (fuel k : Nat) (c : cutter) (pfi : Int) (pfn : Nat) (r1 r2 : CutResult)
    (e1 : cutter.cutLoop fuel k (c.withBudget m1) pfi pfn = Run.ret r1)
    (e2 : cutter.cutLoop fuel k (c.withBudget m2) pfi pfn = Run.ret r2)
    (hr1 : r1.retErr = none) (hr2 : r2.retErr = none)
    (hwf : IsBytes c.bits.bytes) (hd0 : 0 ≤ c.decodedLen) (hd1 : c.decodedLen < 2147483648)
    (hM : m2 ≤ c.bits.bytes.length) (hp : pfi < 0 → c.decodedLen = 0) :
    r1.decodedLen ≤ r2.decodedLen := by
  induction k generalizing c pfi pfn with
  | zero => simp [cutter.cutLoop] at e1
  | succ k ih =>
    have hge2 := cutLoop_decodedLen_ge fuel (k + 1) (c.withBudget m2) pfi pfn r2 e2 hr2 hwf hd0
      hd1 hM hp
    rw [withBudget_decodedLen] at hge2
    rw [cutLoop_succ] at e1 e2
    obtain ⟨s1, hs1, e1⟩ := Run.bind_eq_ret _ _ _ e1
    obtain ⟨s2, hs2, e2⟩ := Run.bind_eq_ret _ _ _ e2
    rcases cutStep_budget fuel c pfi pfn with
      ⟨r0, hr0, hall⟩ | ⟨b, t, fb, fbi, fbn, hb, hfbi, hall⟩
    · rw [hall m1] at hs1
      simp only [Run.ret.injEq] at hs1
      subst hs1
      simp only [Run.ret.injEq] at e1
      subst e1
      exact absurd hr1 hr0
    · rw [hall m1] at hs1
      rw [hall m2] at hs2
      obtain ⟨x1, hx1, ha1⟩ := Run.bind_eq_ret _ _ _ hs1
      obtain ⟨x2, hx2, ha2⟩ := Run.bind_eq_ret _ _ _ hs2
      obtain ⟨c1, err1⟩ := x1
      obtain ⟨c2, err2⟩ := x2
      have hwfb : IsBytes (cutter.bits { c with bits := b }).bytes := by
        show IsBytes b.bytes
        rw [hb]
        exact hwf
      have hMb : m2 ≤ ((cutter.bits { c with bits := b }).bytes.length : Int) := by
        show m2 ≤ (b.bytes.length : Int)
        rw [hb]
        exact hM
      have hMb1 : m1 ≤ ((cutter.bits { c with bits := b }).bytes.length : Int) := by omega
      obtain ⟨k1, k2⟩ := doBlock_mono m1 m2 h0 h12 h2 fuel _ c1 t err1 hx1 hwfb hd0 hd1 hMb
      obtain ⟨p1, p2, p3, p4⟩ := doBlock_spec fuel _ c1 t err1 hx1 hwfb hd0 hd1 hMb1
      obtain ⟨q1, q2, q3, q4⟩ := doBlock_spec fuel _ c2 t err2 hx2 hwfb hd0 hd1 hMb
      obtain ⟨a1, a2⟩ := afterBlock_decodedLen _ _ _ _ _ _ _ _ ha1
      obtain ⟨b1, b2⟩ := afterBlock_decodedLen _ _ _ _ _ _ _ _ ha2
      simp only [cutter.withBudget] at p1 p3 p4 q1 q3 q4
      simp only at a1 a2 b1 b2
      cases s1 with
      | again c3 i n =>
        obtain ⟨z1, z2, z3⟩ := a1 _ _ _ rfl
        subst z1 z2 z3
        simp only at e1
        have hk := k1 (by simp) (by simp)
        rw [hx2] at hk
        simp only [Run.ret.injEq, Prod.mk.injEq] at hk
        obtain ⟨y1, y2⟩ := hk
        subst y1 y2
        simp only [cutter.afterBlock] at ha2
        have hfb : fb = 0 := by
          simp only [cutter.afterBlock] at ha1
          by_contra hne
          rw [if_neg hne] at ha1
          obtain ⟨_, _, h⟩ := Run.map_eq_ret _ _ _ ha1
          simp at h
        rw [if_pos hfb] at ha2
        simp only [Run.ret.injEq] at ha2
        subst ha2
        simp only [cutter.afterBlock] at ha1
        rw [if_pos hfb] at ha1
        simp only [Run.ret.injEq, CutStep.again.injEq] at ha1
        obtain ⟨_, _, hn⟩ := ha1
        subst hn
        simp only at e2
        have hbytes : c3.bits.bytes = c.bits.bytes :=
          (doBlock_bytes fuel _ _ _ _ hx1 (by simp)).trans hb
        rw [← withBudget_self c3 m1 p3] at e1
        exact ih c3 i _ e1 e2 (by rw [hbytes]; exact hwf) (by omega) p2
          (by rw [hbytes]; exact hM) (fun hneg => absurd hneg (by omega))
      | done r =>
        simp only [Run.ret.injEq] at e1
        subst e1
        rcases a2 _ rfl hr1 with ⟨he, h⟩ | ⟨he, h⟩ | ⟨he, ⟨_, h⟩ | ⟨hneg, h⟩⟩
        · subst he
          have hk := k1 (by simp) (by simp)
          rw [hx2] at hk
          simp only [Run.ret.injEq, Prod.mk.injEq] at hk
          obtain ⟨y1, y2⟩ := hk
          subst y1 y2
          have hfb : fb ≠ 0 := by
            simp only [cutter.afterBlock] at ha1
            intro hz
            rw [if_pos hz] at ha1
            simp at ha1
          simp only [cutter.afterBlock] at ha2
          rw [if_neg hfb] at ha2
          obtain ⟨x, hx, hxs⟩ := Run.map_eq_ret _ _ _ ha2
          subst hxs
          simp only [Run.ret.injEq] at e2
          subst e2
          have := cutEpilogue_decodedLen _ _ _ _ _ hx
          rw [this, h]
          exact le_refl _
        · obtain ⟨n1, n2⟩ := k2 he c2 err2 hx2
          rw [h]
          cases s2 with
          | again c4 i n =>
            obtain ⟨z1, z2, z3⟩ := b1 _ _ _ rfl
            subst z1 z2 z3
            simp only at e2
            have hbytes : c4.bits.bytes = c.bits.bytes :=
              (doBlock_bytes fuel _ _ _ _ hx2 (by simp)).trans hb
            have := cutLoop_decodedLen_ge fuel k c4 i n r2 e2 hr2 (by rw [hbytes]; exact hwf)
              (by omega) q2 (by rw [hbytes, q3]; exact hM) (fun hneg => absurd hneg (by omega))
            omega
          | done r3 =>
            simp only [Run.ret.injEq] at e2
            subst e2
            rcases b2 _ rfl hr2 with ⟨_, h3⟩ | ⟨_, h3⟩ | ⟨he3, _⟩
            · omega
            · omega
            · exact absurd he3 n1
        · have := p4 he
          omega
        · have := hp hneg
          omega

/-- The clamped budget is monotone in the budget and never beyond `1 << 30`. -/
theorem clampMaxEncodedLen_mono (X : List Nat) (M1 M2 : Int) (h1 : 2 ≤ M1) (h12 : M1 ≤ M2)
    (h2 : M2 < 9223372036854775808) :
    clampMaxEncodedLen X M1 ≤ clampMaxEncodedLen X M2 ∧
      clampMaxEncodedLen X M2 ≤ 1073741824 ∧
      clampMaxEncodedLen X M2 ≤ X.length := by
  unfold clampMaxEncodedLen toUint64
  have e1 : (M1 % 18446744073709551616).toNat = M1.toNat := by
    rw [Int.emod_eq_of_lt (by omega) (by omega)]
  have e2 : (M2 % 18446744073709551616).toNat = M2.toNat := by
    rw [Int.emod_eq_of_lt (by omega) (by omega)]
  simp only [e1, e2]
  split_ifs <;> omega

theorem start_withBudget (X : List Nat) (m : Int) :
    cutter.start X m = (cutter.start X 0).withBudget m := rfl

/-- C5. Monotonicity in the budget: for every byte buffer `X` and all budgets
`2 ≤ M1 ≤ M2` (in the range of a Go `int`), if `Cut` run on `X` with budget `M1`
and `Cut` run on `X` with budget `M2` both return no error, then the
`decodedLen` returned for `M1` is at most the `decodedLen` returned for `M2`. -/
theorem Cut_decodedLen_mono (X : List Nat) (M1 M2 : Int) (r1 r2 : CutResult)
    (hX : IsBytes X) (h1 : 2 ≤ M1) (h12 : M1 ≤ M2) (h2 : M2 < 9223372036854775808)
    (e1 : Cut X M1 = Run.ret r1) (e2 : Cut X M2 = Run.ret r2)
    (hr1 : r1.retErr = none) (hr2 : r2.retErr = none) :
    r1.decodedLen ≤ r2.decodedLen := by
  obtain ⟨c12, c2, c3⟩ := clampMaxEncodedLen_mono X M1 M2 h1 h12 h2
  unfold Cut CutFuel at e1 e2
  rw [if_neg (by unfold SmallestValidMaxEncodedLen; omega)] at e1 e2
  by_cases g1 : clampMaxEncodedLen X M1 < SmallestValidMaxEncodedLen
  · rw [if_pos g1] at e1
    simp only [Run.ret.injEq] at e1
    subst e1
    simp at hr1
  by_cases g2 : clampMaxEncodedLen X M2 < SmallestValidMaxEncodedLen
  · rw [if_pos g2] at e2
    simp only [Run.ret.injEq] at e2
    subst e2
    simp at hr2
  rw [if_neg g1] at e1
  rw [if_neg g2] at e2
  unfold SmallestValidMaxEncodedLen at g1
  rw [start_withBudget] at e1 e2
  exact cutLoop_mono _ _ (by omega) c12 c2 _ _ (cutter.start X 0) (-1) 0 r1 r2 e1 e2 hr1 hr2
    hX (le_refl _) (by show (0 : Int) < 2147483648; decide) c3 (fun _ => rfl)

theorem Cut_decodedLen_mono_witness :
    (CutResult.mk [0x01, 0x01, 0x00, 0xFE, 0xFF, 0x41, 0x42, 0x43] 6 1 none).decodedLen ≤
      (CutResult.mk [0x01, 0x03, 0x00, 0xFC, 0xFF, 0x41, 0x42, 0x43] 8 3 none).decodedLen :=
  Cut_decodedLen_mono [0x01, 0x03, 0x00, 0xFC, 0xFF, 0x41, 0x42, 0x43] 6 8 _ _
    (by unfold IsBytes; decide) (by decide) (by decide) (by decide) (by decide!) (by decide!)
    rfl rfl

theorem codeVal_lt (bytes : List Nat) (p n : Nat) : Rfc1951.codeVal bytes p n < 2 ^ n := by
  induction n with
  | zero => simp [Rfc1951.codeVal]
  | succ n ih =>
    have := bitAt_lt bytes (p + n)
    rw [Rfc1951.codeVal, pow_succ]
    omega

theorem bitsVal_succ_mod (bytes : List Nat) (p n : Nat) :
    bitsVal bytes p (n + 1) % 2 = bitAt bytes p := by
  have := bitAt_lt bytes p
  rw [bitsVal]
  omega

theorem bitsVal_succ_div (bytes : List Nat) (p n : Nat) :
    bitsVal bytes p (n + 1) / 2 = bitsVal bytes (p + 1) n := by
  have := bitAt_lt bytes p
  rw [bitsVal]
  omega

/-- One bit is read at the bit position `p`. -/
theorem nextBit_cursorAt (bytes : List Nat) (p : Nat) (hwf : IsBytes bytes)
    (hp : p ≤ 8 * bytes.length) :
    (cursorAt bytes p).nextBit =
      if p < 8 * bytes.length then some (bitAt bytes p, cursorAt bytes (p + 1)) else none := by
  unfold bitstream.nextBit
  by_cases h0 : (cursorAt bytes p).nBits = 0
  · have hp8 : p = 8 * (p / 8) := by
      simp only [cursorAt] at h0
      omega
    have hi : (cursorAt bytes p).index = p / 8 := by
      simp only [cursorAt]
      omega
    by_cases hlt : p < 8 * bytes.length
    · rw [if_neg (by rw [hi, cursorAt_bytes]; omega), if_pos hlt, if_pos h0]
      simp only [cursorAt_bytes, hi]
      have hx : bytes.getD (p / 8) 0 < 256 := IsBytes.getD_lt hwf _
      have e7 : sub32 8 1 = 7 := by decide
      rw [e7]
      have hb : bitAt bytes p = bytes.getD (p / 8) 0 % 2 := by
        unfold bitAt
        have : p % 8 = 0 := by omega
        rw [this]
        simp
      have hc : cursorAt bytes (p + 1)
          = { bytes := bytes, index := p / 8 + 1, bits := bytes.getD (p / 8) 0 >>> 1,
              nBits := 7 } := by
        have h1 : (p + 1 + 7) / 8 = p / 8 + 1 := by omega
        have h2 : 8 * (p / 8 + 1) - (p + 1) = 7 := by omega
        simp only [cursorAt, h1, h2]
        have h3 : p + 1 = 8 * (p / 8) + 1 := by omega
        rw [h3, bitsVal_in_byte bytes (p / 8) 1 7 rfl hx, Nat.shiftRight_eq_div_pow]
      rw [hc, hb, Nat.and_one_is_mod]
    · rw [if_pos ⟨h0, by rw [hi]; simp only [cursorAt_bytes]; omega⟩, if_neg hlt]
  · have hn7 := cursorAt_nBits_le bytes p
    have hlt : p < 8 * bytes.length := by
      simp only [cursorAt] at h0
      omega
    rw [if_neg (fun h => h0 h.1), if_pos hlt, if_neg h0]
    obtain ⟨m, hm⟩ : ∃ m, (cursorAt bytes p).nBits = m + 1 := ⟨_, (Nat.succ_pred h0).symm⟩
    have hbits : (cursorAt bytes p).bits = bitsVal bytes p (m + 1) := by
      rw [← hm]
      rfl
    have hs : sub32 (cursorAt bytes p).nBits 1 = m := by
      rw [hm, sub32_of_le (by omega) (by omega)]
      rfl
    simp only
    rw [hs, hbits, Nat.and_one_is_mod, bitsVal_succ_mod, Nat.shiftRight_eq_div_pow, pow_one,
      bitsVal_succ_div]
    have hc : cursorAt bytes (p + 1)
        = { bytes := bytes, index := (cursorAt bytes p).index,
            bits := bitsVal bytes (p + 1) m, nBits := m } := by
      simp only [cursorAt] at hm ⊢
      have h1 : (p + 1 + 7) / 8 = (p + 7) / 8 := by omega
      have h2 : 8 * ((p + 7) / 8) - (p + 1) = m := by omega
      rw [h1, h2]
    rw [hc]
    rfl

theorem firstCode_succ (counts : List Nat) (i : Nat) (hi : 1 ≤ i) :
    huffman.firstCode counts (i + 1) = 2 * (huffman.firstCode counts i + counts.getD i 0) := by
  rw [huffman.firstCode, if_neg (by omega)]

theorem symStart_succ (counts : List Nat) (i : Nat) (hi : 1 ≤ i) :
    huffman.symStart counts (i + 1) = huffman.symStart counts i + counts.getD i 0 := by
  rw [huffman.symStart, if_neg (by omega)]

theorem symStart_le (counts : List Nat) (B : Nat) (hB : ∀ j, counts.getD j 0 ≤ B) (i : Nat) :
    huffman.symStart counts i ≤ B * i := by
  induction i with
  | zero => simp [huffman.symStart]
  | succ i ih =>
    rw [huffman.symStart]
    split_ifs
    · omega
    · have := hB i
      rw [Nat.mul_succ]
      omega

/-- The loop of `decode` in terms of the bits: in the pass `i` the local `code`
holds the `i - 1` bits read so far, most significant bit first. -/
theorem decodeLoop_cursorAt (h : huffman) (bytes : List Nat) (p : Nat) (hwf : IsBytes bytes)
    (hB : ∀ j, h.counts.getD j 0 ≤ 65536) (k i : Nat) (hi : 1 ≤ i) (hk : i + k = 16)
    (hp : p + (i - 1) ≤ 8 * bytes.length)
    (hF : huffman.firstCode h.counts i ≤ 2 * Rfc1951.codeVal bytes p (i - 1)) :
    h.decodeLoop k i (2 * Rfc1951.codeVal bytes p (i - 1)) (huffman.firstCode h.counts i)
        (huffman.symStart h.counts i) (cursorAt bytes (p + (i - 1)))
      = (h.decodeAt bytes p k i).map (fun r => (r.1, cursorAt bytes r.2)) := by
  induction k generalizing i with
  | zero => rfl
  | succ k ih =>
    obtain ⟨n, rfl⟩ : ∃ n, i = n + 1 := ⟨i - 1, by omega⟩
    simp only [Nat.add_sub_cancel] at hp hF ⊢
    rw [huffman.decodeLoop, huffman.decodeAt, nextBit_cursorAt bytes (p + n) hwf hp]
    by_cases hlt : p + n < 8 * bytes.length
    · rw [if_pos hlt, if_neg (by omega)]
      simp only
      have hcv := codeVal_lt bytes p n
      have h2n : 2 ^ n ≤ 2 ^ 15 := two_pow_le_of_le (by omega)
      have hbit := bitAt_lt bytes (p + n)
      have hc1 : 2 * Rfc1951.codeVal bytes p n ||| bitAt bytes (p + n)
          = Rfc1951.codeVal bytes p (n + 1) := by
        rw [Rfc1951.codeVal]
        have := Nat.mul_add_lt_is_or (show bitAt bytes (p + n) < 2 ^ 1 by simpa using hbit)
          (Rfc1951.codeVal bytes p n)
        rw [pow_one] at this
        exact this.symm
      rw [hc1]
      have hv : Rfc1951.codeVal bytes p (n + 1)
          = 2 * Rfc1951.codeVal bytes p n + bitAt bytes (p + n) := rfl
      have hcnt := hB (n + 1)
      have hS := symStart_le h.counts 65536 hB (n + 1)
      rw [u32_of_lt (show h.counts.getD (n + 1) 0 + huffman.firstCode h.counts (n + 1)
        < 4294967296 by omega), Nat.add_comm (h.counts.getD (n + 1) 0)]
      by_cases hm : Rfc1951.codeVal bytes p (n + 1)
          < huffman.firstCode h.counts (n + 1) + h.counts.getD (n + 1) 0
      · rw [if_pos hm, if_pos hm]
        have hj : sub32 (u32 (huffman.symStart h.counts (n + 1)
              + Rfc1951.codeVal bytes p (n + 1))) (huffman.firstCode h.counts (n + 1))
            = huffman.symStart h.counts (n + 1) + Rfc1951.codeVal bytes p (n + 1)
              - huffman.firstCode h.counts (n + 1) := by
          rw [u32_of_lt (by omega), sub32_of_le (by omega) (by omega)]
        rw [hj]
        split_ifs
        · rfl
        · rfl
      · rw [if_neg hm, if_neg hm]
        have e1 : u32 (Rfc1951.codeVal bytes p (n + 1) <<< 1)
            = 2 * Rfc1951.codeVal bytes p (n + 1) := by
          rw [Nat.shiftLeft_eq, pow_one, u32_of_lt (by omega)]
          omega
        have e2 : u32 (u32 (huffman.firstCode h.counts (n + 1) + h.counts.getD (n + 1) 0) <<< 1)
            = huffman.firstCode h.counts (n + 1 + 1) := by
          have a0 : u32 (huffman.firstCode h.counts (n + 1) + h.counts.getD (n + 1) 0)
              = huffman.firstCode h.counts (n + 1) + h.counts.getD (n + 1) 0 :=
            u32_of_lt (by omega)
          rw [firstCode_succ h.counts (n + 1) (by omega), a0, Nat.shiftLeft_eq,
            pow_one, u32_of_lt (by omega)]
          omega
        have e3 : u32 (huffman.symStart h.counts (n + 1) + h.counts.getD (n + 1) 0)
            = huffman.symStart h.counts (n + 1 + 1) := by
          rw [symStart_succ h.counts (n + 1) (by omega), u32_of_lt (by omega)]
        rw [e1, e2, e3]
        have := ih (n + 1 + 1) (by omega) (by omega) (by simp only [Nat.add_sub_cancel]; omega)
          (by
            simp only [Nat.add_sub_cancel]
            rw [firstCode_succ h.counts (n + 1) (by omega)]
            omega)
        simp only [Nat.add_sub_cancel] at this
        rw [← Nat.add_assoc] at this
        exact this
    · rw [if_neg hlt, if_pos (by omega)]
      rfl

/-- The method `decode` in terms of the bits. -/
theorem decode_cursorAt (h : huffman) (bytes : List Nat) (p : Nat) (hwf : IsBytes bytes)
    (hB : ∀ j, h.counts.getD j 0 ≤ 65536) (hp : p ≤ 8 * bytes.length) :
    h.decode (cursorAt bytes p)
      = (h.decodeAt bytes p 15 1).map (fun r => (r.1, cursorAt bytes r.2)) := by
  have := decodeLoop_cursorAt h bytes p hwf hB 15 1 (le_refl _) rfl (by simpa using hp)
    (by simp [huffman.firstCode])
  simpa [huffman.decode, maxCodeBits, huffman.firstCode, huffman.symStart, Rfc1951.codeVal]
    using this

theorem construct_staticL_zero :
    huffman.zero.construct (staticLengths.take 288) = Run.ret (staticLHuff, 0, 7, none) := by
  decide!

theorem construct_staticL_again :
    staticLHuff.construct (staticLengths.take 288) = Run.ret (staticLHuff, 0, 7, none) := by
  decide!

theorem construct_staticD_zero :
    (huffman.zero.construct (staticLengths.drop 288)).map (fun r => (r.1, r.2.2.2))
      = Run.ret (staticDHuff, none) := by
  decide!

theorem construct_staticD_again :
    (staticDHuff.construct (staticLengths.drop 288)).map (fun r => (r.1, r.2.2.2))
      = Run.ret (staticDHuff, none) := by
  decide!

theorem staticLHuff_symbols_256 :
    ∀ j, j < 288 → staticLHuff.symbols.getD j 0 = 256 → j = 0 := by
  decide!

theorem staticLHuff_counts (j : Nat) : staticLHuff.counts.getD j 0 ≤ 320 := by
  by_cases h : j < 16
  · interval_cases j <;> decide
  · have hl : staticLHuff.counts.length = 16 := rfl
    rw [List.getD_eq_default _ _ (by omega)]
    omega

theorem staticDHuff_counts (j : Nat) : staticDHuff.counts.getD j 0 ≤ 320 := by
  by_cases h : j < 16
  · interval_cases j <;> decide
  · have hl : staticDHuff.counts.length = 16 := rfl
    rw [List.getD_eq_default _ _ (by omega)]
    omega

/-- What `decodeAt` returns: the sentinel, or the symbol of the first length
`n` at which the `n` bits read are below `first + count`. -/
theorem decodeAt_ret (h : huffman) (bytes : List Nat) (p k i : Nat) (s : Int) (q : Nat)
    (e : h.decodeAt bytes p k i = Run.ret (s, q)) :
    (s = mostNegativeInt32 ∧ p + (i - 1) ≤ q) ∨
    (∃ n, i ≤ n ∧ n < i + k ∧ q = p + n ∧ p + n ≤ 8 * bytes.length ∧
      Rfc1951.codeVal bytes p n < huffman.firstCode h.counts n + h.counts.getD n 0 ∧
      s = h.symbols.getD
        (huffman.symStart h.counts n + Rfc1951.codeVal bytes p n - huffman.firstCode h.counts n) 0 ∧
      ∀ m, i ≤ m → m < n →
        ¬ Rfc1951.codeVal bytes p m < huffman.firstCode h.counts m + h.counts.getD m 0) := by
  induction k generalizing i with
  | zero =>
    simp only [huffman.decodeAt, Run.ret.injEq, Prod.mk.injEq] at e
    exact Or.inl ⟨e.1.symm, by omega⟩
  | succ k ih =>
    rw [huffman.decodeAt] at e
    split_ifs at e with h1 h2 h3
    · simp only [Run.ret.injEq, Prod.mk.injEq] at e
      exact Or.inl ⟨e.1.symm, by omega⟩
    · simp only [Run.ret.injEq, Prod.mk.injEq] at e
      exact Or.inr ⟨i, le_refl _, by omega, e.2.symm, by omega, h2, e.1.symm,
        fun m hm1 hm2 => absurd hm1 (by omega)⟩
    · rcases ih (i + 1) e with ⟨a, b⟩ | ⟨n, a1, a2, a3, a4, a5, a6, a7⟩
      · exact Or.inl ⟨a, by omega⟩
      · refine Or.inr ⟨n, by omega, by omega, a3, a4, a5, a6, fun m hm1 hm2 => ?_⟩
        by_cases hmi : m = i
        · subst hmi
          exact h2
        · exact a7 m (by omega) hm2

theorem codeVal_succ (bytes : List Nat) (p n : Nat) :
    Rfc1951.codeVal bytes p (n + 1) = 2 * Rfc1951.codeVal bytes p n + bitAt bytes (p + n) := rfl

theorem staticLHuff_first :
    huffman.firstCode staticLHuff.counts 7 = 0 ∧ huffman.firstCode staticLHuff.counts 8 = 48 ∧
    huffman.firstCode staticLHuff.counts 9 = 400 ∧
    huffman.symStart staticLHuff.counts 7 = 0 ∧ huffman.symStart staticLHuff.counts 8 = 24 ∧
    huffman.symStart staticLHuff.counts 9 = 176 ∧
    (∀ n, n < 7 → huffman.firstCode staticLHuff.counts n + staticLHuff.counts.getD n 0 = 0) := by
  decide

/-- A symbol of the static literal/length code has at least 7 bits, and the
end-of-block code is 7 zero bits. -/
theorem staticLHuff_decodeAt (bytes : List Nat) (p : Nat) (s : Int) (q : Nat)
    (e : staticLHuff.decodeAt bytes p 15 1 = Run.ret (s, q)) :
    s < 0 ∨ (p + 7 ≤ q ∧ q ≤ 8 * bytes.length ∧
      (s = 256 → q = p + 7 ∧ Rfc1951.codeVal bytes p 7 = 0)) := by
  obtain ⟨f7, f8, f9, s7, s8, s9, hz⟩ := staticLHuff_first
  rcases decodeAt_ret _ _ _ _ _ _ _ e with ⟨a, _⟩ | ⟨n, a1, a2, a3, a4, a5, a6, a7⟩
  · left
    rw [a]
    decide
  · right
    have hn7 : 7 ≤ n := by
      by_contra hlt
      have := hz n (by omega)
      omega
    refine ⟨by omega, by omega, fun h256 => ?_⟩
    have c7 : staticLHuff.counts.getD 7 0 = 24 := rfl
    have c8 : staticLHuff.counts.getD 8 0 = 152 := rfl
    have c9 : staticLHuff.counts.getD 9 0 = 112 := rfl
    have v8 : Rfc1951.codeVal bytes p 8
        = 2 * Rfc1951.codeVal bytes p 7 + bitAt bytes (p + 7) := rfl
    have v9 : Rfc1951.codeVal bytes p 9
        = 2 * Rfc1951.codeVal bytes p 8 + bitAt bytes (p + 8) := rfl
    have b7 := bitAt_lt bytes (p + 7)
    have b8 := bitAt_lt bytes (p + 8)
    have l9 := codeVal_lt bytes p 9
    rw [a6] at h256
    by_cases h7 : n = 7
    · subst h7
      rw [f7, c7] at a5
      rw [f7, s7] at h256
      have := staticLHuff_symbols_256 _ (by omega) h256
      exact ⟨a3, by omega⟩
    · have n7 := a7 7 (by omega) (by omega)
      rw [f7, c7] at n7
      by_cases h8 : n = 8
      · subst h8
        rw [f8, c8] at a5
        rw [f8, s8] at h256
        have := staticLHuff_symbols_256 _ (by omega) h256
        omega
      · have n8 := a7 8 (by omega) (by omega)
        rw [f8, c8] at n8
        by_cases h9 : n = 9
        · subst h9
          rw [f9, c9] at a5
          rw [f9, s9] at h256
          have := staticLHuff_symbols_256 _ (by omega) h256
          omega
        · have n9 := a7 9 (by omega) (by omega)
          rw [f9, c9] at n9
          norm_num at l9
          omega


/-- C11. For every buffer `X`, the empty one included, and every
`maxEncodedLen` below 2, `Cut` returns `(0, 0)` and
`errMaxEncodedLenTooSmall`, whatever the buffer holds, and leaves the buffer
alone. -/
theorem Cut_budget_too_small (X : List Nat) (M : Int) (hM : M < 2) :
    Cut X M = Run.ret { encoded := X, encodedLen := 0, decodedLen := 0,
                        retErr := some errMaxEncodedLenTooSmall } := by
  unfold Cut CutFuel
  rw [if_pos (by unfold SmallestValidMaxEncodedLen; exact hM)]

theorem Cut_budget_too_small_witness :
    Cut [0x07, 0x00] 1 = Run.ret { encoded := [0x07, 0x00], encodedLen := 0, decodedLen := 0,
                                   retErr := some errMaxEncodedLenTooSmall } :=
  Cut_budget_too_small [0x07, 0x00] 1 (by decide)


/-- C20, counterexample. The entry 29 of `lBases` is the valid base 258 (the
length symbol 285), and the entry 0 is the sentinel: the valid entries are not
the entries 0 to 28. -/
theorem lBases_counterexample :
    lBases.getD 29 0 = 258 ∧ lExtras.getD 29 0 = 0 ∧ lBases.getD 0 0 = mostNegativeInt32 ∧
      lBases.getD 28 0 = 227 := by
  decide

theorem lTable_facts :
    ∀ li, li < 32 →
      ((1 ≤ li ∧ li ≤ 29) →
        lBases.getD li 0 = ((Rfc1951.lengthBase.getD (li - 1) 0 : Nat) : Int) ∧
          lExtras.getD li 0 = Rfc1951.lengthExtra.getD (li - 1) 0 ∧
          3 ≤ lBases.getD li 0 ∧ lBases.getD li 0 ≤ 258 ∧ lExtras.getD li 0 ≤ 5) ∧
      ((li = 0 ∨ 30 ≤ li) → lBases.getD li 0 = mostNegativeInt32) := by
  decide

/-- C20 (amended). The tables `lBases` and `lExtras` are indexed by
`li = S - 256`. For `li` in 1..29 (the length symbols 257..285) they hold the
base length and the number of extra bits of RFC 1951 section 3.2.5 (bases
3..258, extra bits 0..5), and the copy goes on to its distance unless the
data ends in the extra bits. For `li` in 30..31 (the symbols 286 and 287), as
for the unused entry 0, `lBases[li]` is the sentinel, and exactly these symbols
are answered with `errInvalidBadSymbol`. -/
theorem lBases_spec (c : cutter) (d : Int) (li : Nat) (h1 : 1 ≤ li) (h2 : li < 32) :
    (li ≤ 29 →
      lBases.getD li 0 = ((Rfc1951.lengthBase.getD (li - 1) 0 : Nat) : Int) ∧
      lExtras.getD li 0 = Rfc1951.lengthExtra.getD (li - 1) 0 ∧
      3 ≤ lBases.getD li 0 ∧ lBases.getD li 0 ≤ 258 ∧ lExtras.getD li 0 ≤ 5 ∧
      c.readCopy d (256 + li) =
        if (c.bits.take (lExtras.getD li 0)).1 < 0 then
          Run.ret (SymbolStep.stop { c with bits := (c.bits.take (lExtras.getD li 0)).2 }
            (some errInvalidNotEnoughData))
        else
          cutter.readDistance { c with bits := (c.bits.take (lExtras.getD li 0)).2 } d
            (lBases.getD li 0 + (c.bits.take (lExtras.getD li 0)).1)) ∧
    (30 ≤ li →
      lBases.getD li 0 = mostNegativeInt32 ∧ lBases.getD 0 0 = mostNegativeInt32 ∧
      c.readCopy d (256 + li) =
        Run.ret (SymbolStep.stop { c with bits := (c.bits.take (lExtras.getD li 0)).2 }
          (some errInvalidBadSymbol))) := by
  obtain ⟨f1, f2⟩ := lTable_facts li h2
  have hli : ((256 + (li : Int) - 256).toNat) = li := by omega
  constructor
  · intro h29
    obtain ⟨a1, a2, a3, a4, a5⟩ := f1 ⟨h1, h29⟩
    refine ⟨a1, a2, a3, a4, a5, ?_⟩
    unfold cutter.readCopy
    rw [if_neg (by omega)]
    simp only [hli]
    rcases take_value c.bits (lExtras.getD li 0) (by omega) with hv | ⟨hv1, hv2⟩
    · have hw : wrap32 (lBases.getD li 0 + (c.bits.take (lExtras.getD li 0)).1)
          = lBases.getD li 0 + (c.bits.take (lExtras.getD li 0)).1 := by
        rw [hv]
        unfold mostNegativeInt32
        exact wrap32_of_range (by omega) (by omega)
      rw [hw]
      have hneg : lBases.getD li 0 + (c.bits.take (lExtras.getD li 0)).1 < 0 := by
        rw [hv]
        unfold mostNegativeInt32
        omega
      rw [if_pos hneg, if_neg (by omega), if_pos (by rw [hv]; decide)]
    · have h32 : (2 : Int) ^ lExtras.getD li 0 ≤ 2 ^ 5 :=
        pow_le_pow_right₀ (by decide) a5
      have hw : wrap32 (lBases.getD li 0 + (c.bits.take (lExtras.getD li 0)).1)
          = lBases.getD li 0 + (c.bits.take (lExtras.getD li 0)).1 :=
        wrap32_of_range (by omega) (by omega)
      rw [hw, if_neg (by omega), if_neg (by omega)]
  · intro h30
    have a := f2 (Or.inr h30)
    refine ⟨a, by decide, ?_⟩
    unfold cutter.readCopy
    rw [if_neg (by omega)]
    simp only [hli]
    have hx : lExtras.getD li 0 = 0 := by
      have : li = 30 ∨ li = 31 := by omega
      rcases this with h | h <;> subst h <;> rfl
    have hw : wrap32 (lBases.getD li 0 + (c.bits.take (lExtras.getD li 0)).1) < 0 := by
      rw [hx, take_zero, a]
      decide
    rw [if_pos hw, if_pos (by rw [a]; decide)]

theorem lBases_spec_witness :
    lBases.getD 29 0 = ((Rfc1951.lengthBase.getD (29 - 1) 0 : Nat) : Int) ∧
      lBases.getD 29 0 ≤ 258 :=
  ⟨((lBases_spec (cutter.start [] 2) 0 29 (by decide) (by decide)).1 (by decide)).1,
   ((lBases_spec (cutter.start [] 2) 0 29 (by decide) (by decide)).1 (by decide)).2.2.2.1⟩


/-- C18, counterexample. A reader state with `nBits ≤ 7` and `bits < 2^nBits`
whose buffered bits are not the bits of the stream: over the byte `0xFF`, at bit
position 4 with the buffer `bits = 0`, `take(2)` returns 0 while the two
stream bits at positions 4 and 5 make 3. -/
theorem take_counterexample :
    (4 : Nat) ≤ 7 ∧ (0 : Nat) < 2 ^ 4 ∧ 8 * 1 - 4 + 2 ≤ 8 * [0xFF].length ∧
      (bitstream.take { bytes := [0xFF], index := 1, bits := 0, nBits := 4 } 2).1 = 0 ∧
      bitsVal [0xFF] (8 * 1 - 4) 2 = 3 := by
  decide

/-- C18 (amended). The bit reader: for a reader over a byte slice at bit
position `p = 8*index - nBits`, with `nBits ≤ 7` and with `bits` holding the
next `nBits` bits of the stream (the invariant `Ok`), and for `n ≤ 15`: when
`n` bits remain, `take(n)` returns the number made of the stream bits
`p, ..., p + n - 1`, least significant first, and leaves the reader at
position `p + n` with the same invariant; when fewer than `n` bits remain it
returns the sentinel `-2^31`. -/
theorem take_spec (b : bitstream) (n : Nat) (hwf : IsBytes b.bytes) (hb : b.Ok)
    (h7 : b.nBits ≤ 7) (hn : n ≤ 15) :
    (b.pos + n ≤ 8 * b.bytes.length →
      (b.take n).1 = (bitsVal b.bytes b.pos n : Int) ∧ 0 ≤ (b.take n).1 ∧
      (b.take n).2.bytes = b.bytes ∧ (b.take n).2.pos = b.pos + n ∧
      (b.take n).2.Ok ∧ (b.take n).2.nBits ≤ 7 ∧
      (b.take n).2.bits < 2 ^ (b.take n).2.nBits) ∧
    (8 * b.bytes.length < b.pos + n → (b.take n).1 = mostNegativeInt32) := by
  have hc := hb.eq_cursorAt h7
  have hp : b.pos ≤ 8 * b.bytes.length := by
    obtain ⟨h1, h2, _⟩ := hb
    unfold bitstream.pos
    omega
  constructor
  · intro hlen
    have ht := take_cursorAt b.bytes b.pos n hwf (by omega) hlen
    rw [← hc] at ht
    rw [ht]
    refine ⟨rfl, by positivity, rfl, cursorAt_pos _ _, cursorAt_ok _ _ hlen,
      cursorAt_nBits_le _ _, ?_⟩
    exact bitsVal_lt _ _ _
  · intro hlen
    have ht := take_cursorAt_eof b.bytes b.pos n (by omega) hp hlen
    rw [← hc] at ht
    exact ht

theorem take_spec_witness :
    (bitstream.take { bytes := [0xA5, 0x3C], index := 1, bits := 0x14, nBits := 5 } 6).1
      = (bitsVal [0xA5, 0x3C] 3 6 : Int) :=
  ((take_spec { bytes := [0xA5, 0x3C], index := 1, bits := 0x14, nBits := 5 } 6
    (by unfold IsBytes; decide) (by unfold bitstream.Ok; decide) (by decide) (by decide)).1
    (by decide)).1


theorem cursorAt_one (X : List Nat) :
    (cursorAt X 1).index = 1 ∧ (cursorAt X 1).nBits = 7 := by
  simp [cursorAt]

/-- C13. Stored-block truncation: for a buffer `X` that starts with a stored
block (bits 1 and 2 of `X[0]` are 0) whose length field is `L`, whose
complement field is `0xFFFF - L` and whose `L` data bytes are in the buffer,
and for `5 < M < 5 + L`, `Cut(X, M)` returns `(M, M - 5)` with no error. After
the call bit 0 of `X[0]` is set, the bytes 1..2 hold `M - 5` little-endian,
the bytes 3..4 hold `0xFFFF - (M - 5)` little-endian and every other byte, as
every other bit of `X[0]`, is unchanged. -/
theorem Cut_stored_truncation (X : List Nat) (M : Int) (hX : IsBytes X)
    (h0 : X.getD 0 0 / 2 % 4 = 0) (hc : le16 X 3 = 65535 - le16 X 1)
    (hlen : 5 + le16 X 1 ≤ X.length) (hM1 : 5 < M) (hM2 : M < 5 + le16 X 1) :
    Cut X M = Run.ret
      { encoded := (setLe16 (setLe16 X 1 (M - 5).toNat) 3 (65535 - (M - 5).toNat)).set 0
          (X.getD 0 0 ||| 1)
        encodedLen := M, decodedLen := M - 5, retErr := none } := by
  have hL := le16_lt hX 1
  obtain ⟨R, hR⟩ : ∃ R : Nat, M = ((R + 6 : Nat) : Int) := ⟨(M - 6).toNat, by omega⟩
  subst hR
  have hR5 : (((R + 6 : Nat) : Int) - 5).toNat = R + 1 := by omega
  rw [hR5]
  have hclamp : clampMaxEncodedLen X ((R + 6 : Nat) : Int) = ((R + 6 : Nat) : Int) :=
    (clampMaxEncodedLen_spec X _ (by omega)).2.2.2 (by omega) (by omega)
  rw [Cut_eq_cutLoop X _ (by omega) (by omega), hclamp]
  apply cutLoop_done
  rw [cutStep_header _ _ _ _ 0 hX (start_bits _ _) (by simp only [cutter.start]; omega)]
  simp only [cutter.start, Nat.zero_add]
  rw [if_neg (by rw [blockType_first]; omega), blockType_first, h0]
  simp only [cutter.doBlock, Nat.cast_zero, if_true]
  rw [doStored_eq _ hX (by simp) (by simp only [cursorAt_bytes]; omega)]
  simp only [cursorAt_three_index, cursorAt_bytes]
  rw [if_neg (by omega), if_neg (by rw [hc]; omega), if_neg (by omega), if_neg (by omega),
    if_neg (by omega)]
  have e1 : (((R + 6 : Nat) : Int) - ((1 : Nat) + 4 : Int)).toNat = R + 1 := by omega
  have e2 : (0 : Int) + (((R + 6 : Nat) : Int) - ((1 : Nat) + 4 : Int)) = ((R + 6 : Nat) : Int) - 5 := by
    omega
  rw [e1, e2]
  simp only [Run.bind, cutter.afterBlock, (cursorAt_one X).1, (cursorAt_one X).2]
  rw [setFinalBit_eq _ _ 7 (by omega) (by simp only [setLe16_length]; omega) (by omega)]
  simp only [Nat.cast_one, Int.sub_self, Int.toNat_zero, Nat.sub_self, pow_zero]
  rw [getD_setLe16 _ _ _ _ (by omega) (by omega), getD_setLe16 _ _ _ _ (by omega) (by omega)]
  simp only [Int.toNat_ofNat, cutEpilogue_aligned, Run.map, Run.bind]

theorem Cut_stored_truncation_witness :
    Cut [0x00, 4, 0, 0xFB, 0xFF, 1, 2, 3, 4] 7
      = Run.ret { encoded := [0x01, 2, 0, 0xFD, 0xFF, 1, 2, 3, 4], encodedLen := 7,
                  decodedLen := 2, retErr := none } :=
  Cut_stored_truncation [0x00, 4, 0, 0xFB, 0xFF, 1, 2, 3, 4] 7 (by unfold IsBytes; decide)
    (by decide) (by decide) (by decide) (by decide) (by decide)


/-- The decoded length returned by `cut` stays below `2^31`. -/
theorem cutLoop_decodedLen_lt (fuel k : Nat) (c : cutter) (pfi : Int) (pfn : Nat)
    (r : CutResult) (e : cutter.cutLoop fuel k c pfi pfn = Run.ret r) (hr : r.retErr = none)
    (hwf : IsBytes c.bits.bytes) (h0 : 0 ≤ c.decodedLen) (h1 : c.decodedLen < 2147483648)
    (hM : c.maxEncodedLen ≤ c.bits.bytes.length) :
    r.decodedLen < 2147483648 := by
  induction k generalizing c pfi pfn with
  | zero => simp [cutter.cutLoop] at e
  | succ k ih =>
    rw [cutLoop_succ] at e
    obtain ⟨s, hs, e⟩ := Run.bind_eq_ret _ _ _ e
    rcases cutStep_budget fuel c pfi pfn with
      ⟨r0, hr0, hall⟩ | ⟨b, t, fb, fbi, fbn, hb, hfbi, hall⟩
    · have h := hall c.maxEncodedLen
      rw [withBudget_self c _ rfl, hs] at h
      simp only [Run.ret.injEq] at h
      subst h
      simp only [Run.ret.injEq] at e
      subst e
      exact absurd hr hr0
    · have h := hall c.maxEncodedLen
      rw [withBudget_self c _ rfl,
        withBudget_self { c with bits := b } c.maxEncodedLen rfl, hs] at h
      obtain ⟨x, hx, hx2⟩ := Run.bind_eq_ret _ _ _ h.symm
      obtain ⟨c1, err⟩ := x
      have hwfb : IsBytes (cutter.bits { c with bits := b }).bytes := by
        show IsBytes b.bytes
        rw [hb]
        exact hwf
      have hMb : (cutter.maxEncodedLen { c with bits := b })
          ≤ ((cutter.bits { c with bits := b }).bytes.length : Int) := by
        show c.maxEncodedLen ≤ (b.bytes.length : Int)
        rw [hb]
        exact hM
      obtain ⟨p1, p2, p3, p4⟩ := doBlock_spec fuel _ c1 t err hx hwfb h0 h1 hMb
      obtain ⟨a1, a2⟩ := afterBlock_decodedLen _ _ _ _ _ _ _ _ hx2
      simp only at p1 p3 p4 a1 a2
      cases s with
      | again c2 i n =>
        obtain ⟨z1, z2, z3⟩ := a1 _ _ _ rfl
        subst z1 z2 z3
        simp only at e
        have hbytes : c2.bits.bytes = c.bits.bytes :=
          (doBlock_bytes fuel _ _ _ _ hx (by simp)).trans hb
        exact ih c2 i n e (by rw [hbytes]; exact hwf) (by omega) p2
          (by rw [hbytes, p3]; exact hM)
      | done r1 =>
        simp only [Run.ret.injEq] at e
        subst e
        rcases a2 _ rfl hr with ⟨_, h⟩ | ⟨_, h⟩ | ⟨he, ⟨_, h⟩ | ⟨hneg, h⟩⟩ <;> omega

/-- C17. Overflow safety of the decoded-length counter: for every buffer `X`
and every `M`, if `Cut(X, M)` returns no error then the returned `decodedLen`
lies in `0 .. 2^31 - 1`. The counter `c.decodedLen` starts at 0 and every block
reader takes it from `0 .. 2^31 - 1` to a value of the same range that is not
smaller (`doBlock_spec`): a stored block or a Huffman symbol that would wrap
the 32-bit counter is refused before the value is committed. -/
theorem Cut_decodedLen_range (X : List Nat) (M : Int) (r : CutResult) (hX : IsBytes X)
    (e : Cut X M = Run.ret r) (hr : r.retErr = none) :
    0 ≤ r.decodedLen ∧ r.decodedLen ≤ 2147483647 := by
  unfold Cut CutFuel at e
  split_ifs at e with g1 g2
  · simp only [Run.ret.injEq] at e
    subst e
    simp at hr
  · simp only [Run.ret.injEq] at e
    subst e
    simp at hr
  · unfold SmallestValidMaxEncodedLen at g1
    have hcl := (clampMaxEncodedLen_spec X M (by omega)).1
    have hge := cutLoop_decodedLen_ge _ _ _ _ _ _ e hr hX (le_refl _)
      (by show (0 : Int) < 2147483648; decide) hcl (fun _ => rfl)
    have hlt := cutLoop_decodedLen_lt _ _ _ _ _ _ e hr hX (le_refl _)
      (by show (0 : Int) < 2147483648; decide) hcl
    have h0 : (cutter.start X (clampMaxEncodedLen X M)).decodedLen = 0 := rfl
    omega

theorem Cut_decodedLen_range_witness :
    0 ≤ (CutResult.mk [0x01, 0x01, 0x00, 0xFE, 0xFF, 0x41, 0x42, 0x43] 6 1 none).decodedLen ∧
      (CutResult.mk [0x01, 0x01, 0x00, 0xFE, 0xFF, 0x41, 0x42, 0x43] 6 1 none).decodedLen
        ≤ 2147483647 :=
  Cut_decodedLen_range [0x01, 0x03, 0x00, 0xFC, 0xFF, 0x41, 0x42, 0x43] 6 _
    (by unfold IsBytes; decide) (by decide!) rfl


theorem testBit_255 (s : Nat) (hs : s < 8) : Nat.testBit 255 s = true := by
  interval_cases s <;> decide

/-- The byte written by one pass of the loop of `writeEndCode`: bit `r` is
replaced by `bit`, the other bits stay. -/
theorem patch_bit (r : Nat) (hr : r < 8) (bit : Nat) (hbit : bit < 2) (x : Nat)
    (hx : x < 256) :
    (x &&& (255 ^^^ u8 (u32 (1 <<< r)))) ||| u8 (u32 (u32 (1 <<< r) * bit)) < 256 ∧
    ∀ s, s < 8 →
      ((x &&& (255 ^^^ u8 (u32 (1 <<< r)))) ||| u8 (u32 (u32 (1 <<< r) * bit))) / 2 ^ s % 2
        = if s = r then bit else x / 2 ^ s % 2 := by
  have h2r : 2 ^ r ≤ 2 ^ 7 := two_pow_le_of_le (by omega)
  have e1 : u8 (u32 (1 <<< r)) = 2 ^ r := by
    rw [Nat.one_shiftLeft, u32_of_lt (by omega)]
    exact Nat.mod_eq_of_lt (by omega)
  have e0 : u32 (1 <<< r) = 2 ^ r := by
    rw [Nat.one_shiftLeft, u32_of_lt (by omega)]
  have e2 : u8 (u32 (u32 (1 <<< r) * bit)) = 2 ^ r * bit := by
    have : 2 ^ r * bit < 256 := by interval_cases bit <;> omega
    rw [e0, u32_of_lt (by omega)]
    exact Nat.mod_eq_of_lt this
  rw [e1, e2]
  constructor
  · apply Nat.or_lt_two_pow (n := 8)
    · exact lt_of_le_of_lt Nat.and_le_left hx
    · interval_cases bit <;> omega
  · intro s hs
    rw [← Nat.toNat_testBit, ← Nat.toNat_testBit x s]
    simp only [Nat.testBit_or, Nat.testBit_and, Nat.testBit_xor, testBit_255 s hs]
    interval_cases bit
    · by_cases hsr : s = r
      · subst hsr
        simp [Nat.testBit_two_pow_self]
      · simp [Nat.testBit_two_pow, hsr, Ne.symm hsr]
    · by_cases hsr : s = r
      · subst hsr
        simp [Nat.testBit_two_pow_self]
      · simp [Nat.testBit_two_pow, hsr, Ne.symm hsr]

theorem bitAt_set (bytes : List Nat) (i y q : Nat) (hi : i < bytes.length) :
    bitAt (bytes.set i y) q = if q / 8 = i then y / 2 ^ (q % 8) % 2 else bitAt bytes q := by
  unfold bitAt
  by_cases h : q / 8 = i
  · rw [if_pos h, h, List.getD_eq_getElem?_getD, List.getElem?_set_self hi]
    rfl
  · rw [if_neg h, List.getD_eq_getElem?_getD, List.getD_eq_getElem?_getD,
      List.getElem?_set_ne (Ne.symm h)]

theorem IsBytes.set {bytes : List Nat} (h : IsBytes bytes) (i y : Nat) (hy : y < 256) :
    IsBytes (bytes.set i y) := by
  intro x hx
  rcases List.mem_or_eq_of_mem_set hx with h1 | h1
  · exact h x h1
  · omega


/-- One pass of the loop of `writeEndCode`: the bit at the position of the
cursor is replaced and the cursor moves on by one bit. -/
theorem writeEndCodeLoop_step (ecb j : Nat) (b : bitstream) (h7 : b.nBits ≤ 7)
    (hi : b.nBits ≤ 8 * b.index) (hlen : 8 * b.index - b.nBits < 8 * b.bytes.length)
    (hj : j < 32) :
    cutter.writeEndCodeLoop ecb (j + 1) b =
      cutter.writeEndCodeLoop ecb j
        { bytes := b.bytes.set ((8 * b.index - b.nBits) / 8)
            ((b.bytes.getD ((8 * b.index - b.nBits) / 8) 0
                &&& (255 ^^^ u8 (u32 (1 <<< ((8 * b.index - b.nBits) % 8)))))
              ||| u8 (u32 (u32 (1 <<< ((8 * b.index - b.nBits) % 8)) * (ecb / 2 ^ j % 2)))),
          index := (8 * b.index - b.nBits) / 8 + 1,
          bits := b.bits,
          nBits := 7 - (8 * b.index - b.nBits) % 8 } := by
  have hbit : (ecb >>> sub32 (j + 1) 1) &&& 1 = ecb / 2 ^ j % 2 := by
    rw [sub32_of_le (by omega) (by omega), Nat.add_sub_cancel, Nat.shiftRight_eq_div_pow,
      Nat.and_one_is_mod]
  rw [cutter.writeEndCodeLoop]
  simp only [hbit]
  by_cases h0 : b.nBits = 0
  · have e1 : (8 * b.index - b.nBits) / 8 = b.index := by omega
    have e2 : (8 * b.index - b.nBits) % 8 = 0 := by omega
    have hl : b.index < b.bytes.length := by omega
    rw [if_pos h0, e1, e2]
    simp only
    have e3 : sub32 8 1 = 7 := by decide
    have e4 : sub32 7 7 = 0 := by decide
    rw [e3, e4]
    have e5 : ((b.index + 1 : Nat) : Int) - 1 = (b.index : Int) := by omega
    rw [e5]
    unfold readByte
    rw [if_pos ⟨by omega, by omega⟩]
    simp only [Int.toNat_ofNat]
  · obtain ⟨m, hm⟩ : ∃ m, b.nBits = m + 1 := ⟨b.nBits - 1, by omega⟩
    have hidx : 1 ≤ b.index := by omega
    have e1 : (8 * b.index - b.nBits) / 8 = b.index - 1 := by omega
    have e2 : (8 * b.index - b.nBits) % 8 = 7 - m := by omega
    have hl : b.index - 1 < b.bytes.length := by omega
    rw [if_neg h0, e1, e2]
    have e3 : sub32 b.nBits 1 = m := by
      rw [hm, sub32_of_le (by omega) (by omega)]
      rfl
    have e4 : sub32 7 m = 7 - m := sub32_of_le (by omega) (by omega)
    rw [e3, e4]
    unfold readByte
    rw [if_pos ⟨by omega, by omega⟩]
    have e5 : ((b.index : Int) - 1).toNat = b.index - 1 := by omega
    have e6 : b.index - 1 + 1 = b.index := by omega
    have e7 : 7 - (7 - m) = m := by omega
    simp only [e5, e6, e7]

/-- The loop of `writeEndCode`: the `n` bits from the position `p` of the cursor
on become the low `n` bits of `endCodeBits`, most significant first, every other
bit of the buffer is unchanged and the cursor ends at `p + n`. -/
theorem writeEndCodeLoop_spec (ecb n : Nat) (b : bitstream) (hwf : IsBytes b.bytes)
    (h7 : b.nBits ≤ 7) (hi : b.nBits ≤ 8 * b.index)
    (hlen : 8 * b.index - b.nBits + n ≤ 8 * b.bytes.length) (hn : n ≤ 32) :
    ∃ b1, cutter.writeEndCodeLoop ecb n b = some b1 ∧ b1.nBits ≤ 7 ∧
      b1.nBits ≤ 8 * b1.index ∧ 8 * b1.index - b1.nBits = 8 * b.index - b.nBits + n ∧
      b1.bytes.length = b.bytes.length ∧ IsBytes b1.bytes ∧ b1.bits = b.bits ∧
      (∀ t, t < n →
        bitAt b1.bytes (8 * b.index - b.nBits + t) = ecb / 2 ^ (n - 1 - t) % 2) ∧
      (∀ q, q < 8 * b.index - b.nBits ∨ 8 * b.index - b.nBits + n ≤ q →
        bitAt b1.bytes q = bitAt b.bytes q) := by
  induction n generalizing b with
  | zero =>
    exact ⟨b, rfl, h7, hi, rfl, rfl, hwf, rfl, fun t ht => absurd ht (by omega), fun _ _ => rfl⟩
  | succ j ih =>
    rw [writeEndCodeLoop_step ecb j b h7 hi (by omega) (by omega)]
    generalize hp : 8 * b.index - b.nBits = p at *
    have hr : p % 8 < 8 := Nat.mod_lt _ (by omega)
    have hbit : ecb / 2 ^ j % 2 < 2 := Nat.mod_lt _ (by omega)
    have hx : b.bytes.getD (p / 8) 0 < 256 := IsBytes.getD_lt hwf _
    obtain ⟨y1, y2⟩ := patch_bit (p % 8) hr (ecb / 2 ^ j % 2) hbit _ hx
    have hpl : p / 8 < b.bytes.length := by omega
    obtain ⟨b1, a1, a2, a3, a4, a5, a6, a7, a8, a9⟩ := ih
      { bytes := b.bytes.set (p / 8)
          ((b.bytes.getD (p / 8) 0 &&& (255 ^^^ u8 (u32 (1 <<< (p % 8)))))
            ||| u8 (u32 (u32 (1 <<< (p % 8)) * (ecb / 2 ^ j % 2)))),
        index := p / 8 + 1, bits := b.bits, nBits := 7 - p % 8 }
      (hwf.set _ _ y1) (by simp only; omega) (by simp only; omega)
      (by simp only [List.length_set]; omega) (by omega)
    simp only [List.length_set] at a4 a5 a8 a9
    have hpos : 8 * (p / 8 + 1) - (7 - p % 8) = p + 1 := by omega
    rw [hpos] at a4 a8 a9
    refine ⟨b1, a1, a2, a3, by omega, a5, a6, a7, fun t ht => ?_, fun q hq => ?_⟩
    · by_cases ht0 : t = 0
      · subst ht0
        rw [Nat.add_zero, a9 p (Or.inl (by omega)), bitAt_set _ _ _ _ hpl, if_pos rfl,
          y2 _ hr, if_pos rfl]
        simp
      · obtain ⟨u, rfl⟩ : ∃ u, t = u + 1 := ⟨t - 1, by omega⟩
        have := a8 u (by omega)
        rw [show p + (u + 1) = p + 1 + u by omega, this]
        congr 3
        omega
    · rw [a9 q (by omega), bitAt_set _ _ _ _ hpl]
      by_cases hq8 : q / 8 = p / 8
      · rw [if_pos hq8, y2 _ (Nat.mod_lt _ (by omega)), if_neg (by omega)]
        unfold bitAt
        rw [hq8]
      · rw [if_neg hq8]


/-- C16. The end-code writer: for every content of the buffer, every cursor
`(index, nBits)` with `nBits ≤ 7` at the bit position `p = 8*index - nBits` and
every end code `(endCodeBits, n)` with `1 ≤ n ≤ 15` and `p + n ≤ 8*len`,
`writeEndCode` returns, the stream bit at `p + t` is afterwards bit `n - 1 - t`
of `endCodeBits` for every `t < n`, whatever it was before, every other bit of
the buffer is unchanged, and the cursor is at bit position `p + n`. -/
theorem writeEndCode_spec (c : cutter) (hwf : IsBytes c.bits.bytes)
    (h7 : c.bits.nBits ≤ 7) (hi : c.bits.nBits ≤ 8 * c.bits.index)
    (hn1 : 1 ≤ c.endCodeNBits) (hn : c.endCodeNBits ≤ 15)
    (hlen : 8 * c.bits.index - c.bits.nBits + c.endCodeNBits ≤ 8 * c.bits.bytes.length) :
    ∃ c1, c.writeEndCode = some c1 ∧
      (∀ t, t < c.endCodeNBits →
        bitAt c1.bits.bytes (8 * c.bits.index - c.bits.nBits + t)
          = c.endCodeBits / 2 ^ (c.endCodeNBits - 1 - t) % 2) ∧
      (∀ q, q < 8 * c.bits.index - c.bits.nBits ∨
          8 * c.bits.index - c.bits.nBits + c.endCodeNBits ≤ q →
        bitAt c1.bits.bytes q = bitAt c.bits.bytes q) ∧
      c1.bits.bytes.length = c.bits.bytes.length ∧ IsBytes c1.bits.bytes ∧
      c1.bits.nBits ≤ 7 ∧ c1.bits.nBits ≤ 8 * c1.bits.index ∧
      8 * c1.bits.index - c1.bits.nBits
        = 8 * c.bits.index - c.bits.nBits + c.endCodeNBits ∧
      c1 = { c with bits := c1.bits } := by
  obtain ⟨b1, a1, a2, a3, a4, a5, a6, a7, a8, a9⟩ :=
    writeEndCodeLoop_spec c.endCodeBits c.endCodeNBits c.bits hwf h7 hi hlen (by omega)
  refine ⟨{ c with bits := b1 }, ?_, a8, a9, a5, a6, a2, a3, a4, rfl⟩
  unfold cutter.writeEndCode
  rw [a1]

theorem writeEndCode_spec_witness :
    ∃ c1, cutter.writeEndCode
        { bits := { bytes := [0xFF, 0xFF], index := 1, bits := 0, nBits := 3 },
          maxEncodedLen := 2, decodedLen := 0, endCodeBits := 0x2A, endCodeNBits := 7,
          lHuff := huffman.zero, dHuff := huffman.zero } = some c1 ∧
      c1.bits.bytes.length = 2 ∧
      8 * c1.bits.index - c1.bits.nBits = 8 * 1 - 3 + 7 := by
  obtain ⟨c1, h1, _, _, h4, _, _, _, h8, _⟩ :=
    writeEndCode_spec
      { bits := { bytes := [0xFF, 0xFF], index := 1, bits := 0, nBits := 3 },
        maxEncodedLen := 2, decodedLen := 0, endCodeBits := 0x2A, endCodeNBits := 7,
        lHuff := huffman.zero, dHuff := huffman.zero }
      (by unfold IsBytes; decide) (by decide) (by decide) (by decide) (by decide) (by decide)
  exact ⟨c1, h1, h4, h8⟩


theorem getD_set_eq_ite (l : List Nat) (i j v : Nat) (hi : i < l.length) :
    (l.set i v).getD j 0 = if j = i then v else l.getD j 0 := by
  by_cases h : j = i
  · subst h
    rw [if_pos rfl, List.getD_eq_getElem?_getD, List.getElem?_set_self hi]
    rfl
  · rw [if_neg h, List.getD_eq_getElem?_getD, List.getD_eq_getElem?_getD,
      List.getElem?_set_ne (Ne.symm h)]

/-- The first loop of `construct` counts the lengths. -/
theorem countLengths_spec (L acc : List Nat) (hL : ∀ x ∈ L, x ≤ 15) (hacc : acc.length = 16)
    (hb : ∀ i, acc.getD i 0 + L.count i < 4294967296) :
    ∃ counts, countLengths L acc = some counts ∧ counts.length = 16 ∧
      ∀ i, counts.getD i 0 = acc.getD i 0 + L.count i := by
  induction L generalizing acc with
  | nil => exact ⟨acc, rfl, hacc, fun i => by simp⟩
  | cons x xs ih =>
    have hx : x ≤ 15 := hL x (List.mem_cons_self _ _)
    rw [countLengths, if_pos (by omega)]
    have hbx := hb x
    rw [List.count_cons_self] at hbx
    have e : u32 (acc.getD x 0 + 1) = acc.getD x 0 + 1 := u32_of_lt (by omega)
    rw [e]
    obtain ⟨counts, h1, h2, h3⟩ := ih (acc.set x (acc.getD x 0 + 1))
      (fun y hy => hL y (List.mem_cons_of_mem _ hy)) (by simp [hacc])
      (fun i => by
        rw [getD_set_eq_ite _ _ _ _ (by omega)]
        have := hb i
        rw [List.count_cons] at this
        by_cases hix : i = x
        · subst hix
          simp only [if_true, beq_self_eq_true] at this ⊢
          omega
        · have hxi : ¬ x = i := fun h => hix h.symm
          simp only [if_neg hix, beq_iff_eq, if_neg hxi] at this ⊢
          omega)
    refine ⟨counts, h1, h2, fun i => ?_⟩
    rw [h3 i, getD_set_eq_ite _ _ _ _ (by omega), List.count_cons]
    by_cases hix : i = x
    · subst hix
      simp only [if_true, beq_self_eq_true]
      omega
    · have hxi : ¬ x = i := fun h => hix h.symm
      simp only [if_neg hix, beq_iff_eq, if_neg hxi]
      omega

theorem getD_replicate_zero (n i : Nat) : (List.replicate n 0).getD i 0 = 0 := by
  by_cases h : i < n
  · rw [List.getD_eq_getElem?_getD, List.getElem?_replicate_of_lt h]
    rfl
  · rw [List.getD_eq_default _ _ (by simp; omega)]

/-- The counts of `construct`: `counts[i]` is the number of lengths equal to `i`. -/
theorem countLengths_replicate (L : List Nat) (hL : ∀ x ∈ L, x ≤ 15)
    (hlen : L.length < 4294967296) :
    ∃ counts, countLengths L (List.replicate 16 0) = some counts ∧ counts.length = 16 ∧
      ∀ i, counts.getD i 0 = L.count i := by
  obtain ⟨counts, h1, h2, h3⟩ := countLengths_spec L (List.replicate 16 0) hL (by simp)
    (fun i => by
      rw [getD_replicate_zero]
      have := List.count_le_length (a := i) (l := L)
      omega)
  refine ⟨counts, h1, h2, fun i => ?_⟩
  rw [h3 i, getD_replicate_zero]
  omega


theorem kraftAt_succ (L : List Nat) (i : Nat) :
    kraftAt L (i + 1) = 2 * kraftAt L i + L.count (i + 1) := rfl

theorem nextCode_add_blCount (L : List Nat) (n : Nat) :
    Rfc1951.nextCode L n + Rfc1951.blCount L n = kraftAt L n := by
  induction n with
  | zero => simp [Rfc1951.nextCode, Rfc1951.blCount, kraftAt]
  | succ n ih =>
    rw [Rfc1951.nextCode, ih, kraftAt_succ, Rfc1951.blCount, if_neg (by omega)]

theorem nextCode_succ (L : List Nat) (n : Nat) :
    Rfc1951.nextCode L (n + 1) = 2 * kraftAt L n := by
  rw [Rfc1951.nextCode, nextCode_add_blCount]

/-- The local `first` of `decode` is the `next_code` of RFC 1951. -/
theorem firstCode_eq_nextCode (L counts : List Nat) (hc : ∀ i, counts.getD i 0 = L.count i)
    (n : Nat) (hn : 1 ≤ n) : huffman.firstCode counts n = Rfc1951.nextCode L n := by
  induction n with
  | zero => omega
  | succ n ih =>
    by_cases h0 : n = 0
    · subst h0
      simp [huffman.firstCode, Rfc1951.nextCode, Rfc1951.blCount]
    · rw [huffman.firstCode, if_neg h0, ih (by omega), hc, Rfc1951.nextCode, Rfc1951.blCount,
        if_neg h0]

theorem firstCode_add_count (L counts : List Nat) (hc : ∀ i, counts.getD i 0 = L.count i)
    (n : Nat) (hn : 1 ≤ n) : huffman.firstCode counts n + counts.getD n 0 = kraftAt L n := by
  rw [firstCode_eq_nextCode L counts hc n hn, hc, ← nextCode_add_blCount, Rfc1951.blCount,
    if_neg (by omega)]

theorem kraftAt_mono (L : List Nat) (i j : Nat) (hij : i ≤ j) :
    2 ^ (j - i) * kraftAt L i ≤ kraftAt L j := by
  induction j with
  | zero =>
    have : i = 0 := by omega
    subst this
    simp
  | succ j ih =>
    by_cases h : i = j + 1
    · subst h
      simp
    · have := ih (by omega)
      rw [kraftAt_succ, show j + 1 - i = (j - i) + 1 by omega, pow_succ]
      nlinarith

theorem kraftAt_over (L : List Nat) (i : Nat) (hi : i ≤ 15) (h : 2 ^ i < kraftAt L i) :
    2 ^ 15 < kraftAt L 15 := by
  have h1 := kraftAt_mono L i 15 hi
  have h2 : (2 : Nat) ^ 15 = 2 ^ (15 - i) * 2 ^ i := by
    rw [← pow_add]
    congr 1
    omega
  rw [h2]
  have h3 : 0 < 2 ^ (15 - i) := Nat.two_pow_pos _
  calc 2 ^ (15 - i) * 2 ^ i < 2 ^ (15 - i) * kraftAt L i :=
        Nat.mul_lt_mul_of_pos_left h h3
    _ ≤ kraftAt L 15 := h1

theorem countEndCode_spec (ecl : Nat) (l : List Nat) (r : Nat)
    (h : r + l.count ecl < 4294967296) : countEndCode ecl l r = r + l.count ecl := by
  induction l generalizing r with
  | nil => simp [countEndCode]
  | cons x xs ih =>
    rw [countEndCode]
    rw [List.count_cons] at h ⊢
    by_cases hx : x = ecl
    · subst hx
      simp only [if_true, beq_self_eq_true] at h ⊢
      rw [u32_of_lt (by omega), ih _ (by omega)]
      omega
    · simp only [if_neg hx, beq_iff_eq] at h ⊢
      rw [ih _ (by omega)]
      omega


/-- The second loop of `construct`: it fails when the code is over-subscribed
and otherwise returns what is left of the code space, with the end-of-block
code when the length `ecl` of the symbol 256 is one of `i, ..., 15`. -/
theorem kraftLoop_spec (L counts : List Nat) (hc : ∀ i, counts.getD i 0 = L.count i)
    (ecl k i : Nat) (hi : 1 ≤ i) (hk : i + k = 16)
    (rem ecb ecn : Nat) (hrem : rem + kraftAt L (i - 1) = 2 ^ (i - 1)) :
    kraftLoop counts L ecl k i rem ecb ecn =
      if kraftAt L 15 ≤ 2 ^ 15 then
        some (2 ^ 15 - kraftAt L 15,
          if i ≤ ecl ∧ ecl ≤ 15 then
            sub32 (sub32 (u32 (1 <<< ecl)) 1)
              (countEndCode ecl (L.drop 257) (2 ^ ecl - kraftAt L ecl))
          else ecb,
          if i ≤ ecl ∧ ecl ≤ 15 then ecl else ecn)
      else none := by
  induction k generalizing i rem ecb ecn with
  | zero =>
    have : i = 16 := by omega
    subst this
    simp only [Nat.reduceSub] at hrem
    rw [kraftLoop, if_pos (by omega), if_neg (by omega), if_neg (by omega)]
    congr 2
    omega
  | succ k ih =>
    obtain ⟨n, rfl⟩ : ∃ n, i = n + 1 := ⟨i - 1, by omega⟩
    simp only [Nat.add_sub_cancel] at hrem
    have h2n : 2 ^ n ≤ 2 ^ 15 := two_pow_le_of_le (by omega)
    have hcnt := List.count_le_length (a := n + 1) (l := L)
    rw [kraftLoop]
    simp only
    have e1 : u32 (rem * 2) = 2 * rem := by
      rw [u32_of_lt (by omega)]
      omega
    rw [e1, hc (n + 1)]
    have hK := kraftAt_succ L n
    have hp : 2 ^ (n + 1) = 2 * 2 ^ n := by rw [pow_succ]; omega
    by_cases hlt : 2 * rem < L.count (n + 1)
    · rw [if_pos hlt]
      have := kraftAt_over L (n + 1) (by omega) (by omega)
      rw [if_neg (by omega)]
    · rw [if_neg hlt]
      have e2 : sub32 (2 * rem) (L.count (n + 1)) = 2 ^ (n + 1) - kraftAt L (n + 1) := by
        rw [sub32_of_le (by omega) (by omega)]
        omega
      rw [e2]
      have hrem2 : 2 ^ (n + 1) - kraftAt L (n + 1) + kraftAt L (n + 1 + 1 - 1)
          = 2 ^ (n + 1 + 1 - 1) := by
        simp only [Nat.add_sub_cancel]
        omega
      by_cases he : n + 1 = ecl
      · rw [if_pos he, ih (n + 1 + 1) (by omega) (by omega) _ _ _ hrem2]
        subst he
        by_cases hK15 : kraftAt L 15 ≤ 2 ^ 15
        · rw [if_pos hK15, if_pos hK15, if_neg (by omega), if_neg (by omega),
            if_pos ⟨le_refl _, by omega⟩, if_pos ⟨le_refl _, by omega⟩]
        · rw [if_neg hK15, if_neg hK15]
      · rw [if_neg he, ih (n + 1 + 1) (by omega) (by omega) _ _ _ hrem2]
        by_cases hK15 : kraftAt L 15 ≤ 2 ^ 15
        · rw [if_pos hK15, if_pos hK15]
          by_cases hcond : n + 1 ≤ ecl ∧ ecl ≤ 15
          · rw [if_pos hcond, if_pos hcond, if_pos ⟨by omega, hcond.2⟩,
              if_pos ⟨by omega, hcond.2⟩]
          · rw [if_neg hcond, if_neg hcond, if_neg (fun h => hcond ⟨by omega, h.2⟩),
              if_neg (fun h => hcond ⟨by omega, h.2⟩)]
        · rw [if_neg hK15, if_neg hK15]

theorem kraftAt_nil (i : Nat) : kraftAt [] i = 0 := by
  induction i with
  | zero => rfl
  | succ i ih => simp [kraftAt, ih]

theorem kraftAt_cons (x : Nat) (L : List Nat) (i : Nat) :
    kraftAt (x :: L) i = kraftAt L i + (if 1 ≤ x ∧ x ≤ i then 2 ^ (i - x) else 0) := by
  induction i with
  | zero =>
    rw [if_neg (by omega)]
    rfl
  | succ i ih =>
    rw [kraftAt_succ, kraftAt_succ, ih, List.count_cons]
    by_cases h1 : x = i + 1
    · subst h1
      simp
      omega
    · have h2 : ¬ (x == i + 1) = true := by simpa using h1
      rw [if_neg h2]
      by_cases h3 : 1 ≤ x ∧ x ≤ i
      · rw [if_pos h3, if_pos ⟨h3.1, by omega⟩, show i + 1 - x = (i - x) + 1 by omega, pow_succ]
        omega
      · rw [if_neg h3, if_neg (fun h => h3 ⟨h.1, by omega⟩)]
        omega

/-- The Kraft sum as the loop of `construct` computes it. -/
theorem kraftAt_eq_kraftSum (L : List Nat) (hL : ∀ x ∈ L, x ≤ 15) :
    kraftAt L 15 = kraftSum L := by
  induction L with
  | nil => simp [kraftAt_nil, kraftSum]
  | cons x xs ih =>
    have hx : x ≤ 15 := hL x (List.mem_cons_self _ _)
    rw [kraftAt_cons, ih (fun y hy => hL y (List.mem_cons_of_mem _ hy))]
    unfold kraftSum
    by_cases h0 : x = 0
    · subst h0
      simp
    · rw [if_pos ⟨by omega, hx⟩, List.filter_cons_of_pos (by simpa using h0)]
      simp only [List.map_cons, List.sum_cons]
      omega


theorem symStart_eq_symStartL (L counts : List Nat) (hc : ∀ i, counts.getD i 0 = L.count i)
    (n : Nat) : huffman.symStart counts n = symStartL L n := by
  induction n with
  | zero => rfl
  | succ n ih => rw [huffman.symStart, symStartL, ih, hc]

theorem symStartL_succ (L : List Nat) (i : Nat) (hi : 1 ≤ i) :
    symStartL L (i + 1) = symStartL L i + L.count i := by
  rw [symStartL, if_neg (by omega)]

theorem symStartL_mono (L : List Nat) (i j : Nat) (hi : 1 ≤ i) (hij : i < j) :
    symStartL L i + L.count i ≤ symStartL L j := by
  induction j with
  | zero => omega
  | succ j ih =>
    by_cases h : i = j
    · subst h
      rw [symStartL_succ L i hi]
    · have := ih (by omega)
      rw [symStartL_succ L j (by omega)]
      omega

theorem symStartL_nil (i : Nat) : symStartL [] i = 0 := by
  induction i with
  | zero => rfl
  | succ i ih =>
    rw [symStartL]
    split_ifs
    · rfl
    · simp [ih]

theorem symStartL_cons (x : Nat) (L : List Nat) (i : Nat) :
    symStartL (x :: L) i = symStartL L i + (if 1 ≤ x ∧ x < i then 1 else 0) := by
  induction i with
  | zero =>
    rw [if_neg (by omega)]
    rfl
  | succ i ih =>
    by_cases h0 : i = 0
    · subst h0
      have e1 : symStartL (x :: L) (0 + 1) = 0 := rfl
      have e2 : symStartL L (0 + 1) = 0 := rfl
      rw [e1, e2, if_neg (by omega)]
    · rw [symStartL_succ _ _ (by omega), symStartL_succ _ _ (by omega), ih, List.count_cons]
      by_cases h1 : x = i
      · subst h1
        rw [if_neg (show ¬ (1 ≤ x ∧ x < x) by omega),
          if_pos (show 1 ≤ x ∧ x < x + 1 by omega)]
        simp
        omega
      · have h2 : ¬ (x == i) = true := by simpa using h1
        rw [if_neg h2]
        by_cases h3 : 1 ≤ x ∧ x < i
        · rw [if_pos h3, if_pos ⟨h3.1, by omega⟩]
          omega
        · rw [if_neg h3, if_neg (fun h => h3 ⟨h.1, by omega⟩)]
          omega

/-- The codes of at most 15 bits are the non-zero lengths. -/
theorem symStartL_total (L : List Nat) (hL : ∀ x ∈ L, x ≤ 15) :
    symStartL L 16 = (L.filter (fun l => l ≠ 0)).length := by
  induction L with
  | nil => simp [symStartL_nil]
  | cons x xs ih =>
    have hx : x ≤ 15 := hL x (List.mem_cons_self _ _)
    rw [symStartL_cons, ih (fun y hy => hL y (List.mem_cons_of_mem _ hy))]
    by_cases h0 : x = 0
    · subst h0
      simp
    · rw [if_pos ⟨by omega, by omega⟩, List.filter_cons_of_pos (by simpa using h0)]
      simp

theorem symStartL_le_total (L : List Nat) (i : Nat) (hi : 1 ≤ i) (hi2 : i ≤ 15) :
    symStartL L i + L.count i ≤ symStartL L 16 :=
  symStartL_mono L i 16 hi (by omega)

/-- The loop that fills `offsets`. -/
theorem offsetsLoop_spec (counts : List Nat) (B : Nat) (hB : ∀ j, counts.getD j 0 ≤ B)
    (hB2 : 16 * B < 4294967296) (k i : Nat) (hi : 1 ≤ i) (hk : i + k = 15) (offs : List Nat)
    (hlen : offs.length = 16)
    (hinv : ∀ j, j ≤ i → offs.getD j 0 = huffman.symStart counts j) :
    (offsetsLoop counts k i offs).length = 16 ∧
      ∀ j, j ≤ 15 → (offsetsLoop counts k i offs).getD j 0 = huffman.symStart counts j := by
  induction k generalizing i offs with
  | zero =>
    have : i = 15 := by omega
    subst this
    exact ⟨hlen, hinv⟩
  | succ k ih =>
    rw [offsetsLoop]
    have hs := symStart_le counts B hB i
    have hbi := hB i
    have e : u32 (offs.getD i 0 + counts.getD i 0) = huffman.symStart counts (i + 1) := by
      rw [hinv i (le_refl _), symStart_succ counts i hi, u32_of_lt]
      have : B * i ≤ B * 15 := Nat.mul_le_mul_left _ (by omega)
      omega
    rw [e]
    apply ih (i + 1) (by omega) (by omega)
    · simp [hlen]
    · intro j hj
      rw [getD_set_eq_ite _ _ _ _ (by omega)]
      by_cases hji : j = i + 1
      · rw [if_pos hji, hji]
      · rw [if_neg hji]
        exact hinv j (by omega)

theorem offsetsLoop_init (counts : List Nat) (B : Nat) (hB : ∀ j, counts.getD j 0 ≤ B)
    (hB2 : 16 * B < 4294967296) :
    (offsetsLoop counts 14 1 (List.replicate 16 0)).length = 16 ∧
      ∀ j, j ≤ 15 →
        (offsetsLoop counts 14 1 (List.replicate 16 0)).getD j 0 = huffman.symStart counts j := by
  apply offsetsLoop_spec counts B hB hB2 14 1 (le_refl _) rfl _ (by simp)
  intro j hj
  rw [getD_replicate_zero]
  have : j = 0 ∨ j = 1 := by omega
  rcases this with h | h <;> subst h <;> rfl


theorem take_succ_getD (L : List Nat) (s : Nat) (hs : s < L.length) :
    L.take (s + 1) = L.take s ++ [L.getD s 0] := by
  rw [List.take_succ, List.getD_eq_getElem?_getD, List.getElem?_eq_getElem hs]
  rfl

theorem count_take_succ (L : List Nat) (s l : Nat) (hs : s < L.length) :
    (L.take (s + 1)).count l = (L.take s).count l + if L.getD s 0 = l then 1 else 0 := by
  rw [take_succ_getD L s hs, List.count_append, List.count_singleton]
  simp only [beq_iff_eq]

theorem count_take_mono (L : List Nat) (l s t : Nat) (h : s ≤ t) :
    (L.take s).count l ≤ (L.take t).count l := by
  apply List.Sublist.count_le
  exact List.take_sublist_take_left L h

theorem count_take_lt (L : List Nat) (l s t : Nat) (h : s < t) (hs : s < L.length)
    (hl : L.getD s 0 = l) : (L.take s).count l < (L.take t).count l := by
  have h1 := count_take_succ L s l hs
  rw [if_pos hl] at h1
  have h2 := count_take_mono L l (s + 1) t h
  omega

theorem count_take_lt_count (L : List Nat) (l s : Nat) (hs : s < L.length)
    (hl : L.getD s 0 = l) : (L.take s).count l < L.count l := by
  have := count_take_lt L l s L.length hs hs hl
  rwa [List.take_length] at this

theorem symPos_lt (L : List Nat) (s : Nat) (hs : s < L.length) (h1 : 1 ≤ L.getD s 0)
    (h15 : L.getD s 0 ≤ 15) : symPos L s < symStartL L 16 := by
  have a := count_take_lt_count L _ s hs rfl
  have b := symStartL_le_total L _ h1 h15
  unfold symPos
  omega

/-- Two symbols of non-zero length have different places in `symbols`. -/
theorem symPos_ne (L : List Nat) (s t : Nat) (hst : s < t) (ht : t < L.length)
    (hs1 : 1 ≤ L.getD s 0) (ht1 : 1 ≤ L.getD t 0) : symPos L s ≠ symPos L t := by
  unfold symPos
  have a := count_take_lt_count L _ s (by omega) rfl
  have b := count_take_lt_count L _ t ht rfl
  rcases Nat.lt_trichotomy (L.getD s 0) (L.getD t 0) with h | h | h
  · have := symStartL_mono L _ _ hs1 h
    omega
  · have := count_take_lt L _ s t hst (by omega) rfl
    rw [h] at this ⊢
    omega
  · have := symStartL_mono L _ _ ht1 h
    omega

theorem getD_set_int (l : List Int) (i j : Nat) (v : Int) (hi : i < l.length) :
    (l.set i v).getD j 0 = if j = i then v else l.getD j 0 := by
  by_cases h : j = i
  · subst h
    rw [if_pos rfl, List.getD_eq_getElem?_getD, List.getElem?_set_self hi]
    rfl
  · rw [if_neg h, List.getD_eq_getElem?_getD, List.getD_eq_getElem?_getD,
      List.getElem?_set_ne (Ne.symm h)]

/-- The last loop of `construct`, entered at the symbol `m`: every symbol of
non-zero length from `m` on is written at its place, and nothing else is
written. -/
theorem placeSymbols_spec (L : List Nat) (hL : ∀ x ∈ L, x ≤ 15)
    (hnz : symStartL L 16 ≤ 288) (hlen : L.length < 2147483648)
    (rest : List Nat) (m : Nat) (offs : List Nat) (syms : List Int)
    (hrest : L.drop m = rest) (hoffs : offs.length = 16)
    (hinv : ∀ l, 1 ≤ l → l ≤ 15 → offs.getD l 0 = symStartL L l + (L.take m).count l)
    (hsyms : syms.length = 288) :
    ∃ syms1, placeSymbols rest m offs syms = some syms1 ∧ syms1.length = 288 ∧
      (∀ s, m ≤ s → s < L.length → L.getD s 0 ≠ 0 → syms1.getD (symPos L s) 0 = (s : Int)) ∧
      (∀ j, (∀ s, m ≤ s → s < L.length → L.getD s 0 ≠ 0 → symPos L s ≠ j) →
        syms1.getD j 0 = syms.getD j 0) := by
  induction rest generalizing m offs syms with
  | nil =>
    have hm : L.length ≤ m := by
      have := congrArg List.length hrest
      simp at this
      omega
    exact ⟨syms, rfl, hsyms, fun s h1 h2 => absurd h2 (by omega), fun _ _ => rfl⟩
  | cons x xs ih =>
    have hm : m < L.length := by
      have := congrArg List.length hrest
      simp at this
      omega
    have hxm : L.getD m 0 = x := by
      rw [List.getD_eq_getElem?_getD, ← List.head?_drop, hrest]
      rfl
    have hrest1 : L.drop (m + 1) = xs := by
      rw [← List.drop_drop 1 m, hrest]
      rfl
    have hx15 : x ≤ 15 := by
      rw [← hxm]
      apply hL
      rw [List.getD_eq_getElem?_getD, List.getElem?_eq_getElem hm]
      exact List.getElem_mem _
    rw [placeSymbols]
    by_cases hx0 : x = 0
    · rw [if_neg (by simpa using hx0)]
      obtain ⟨syms1, a1, a2, a3, a4⟩ := ih (m + 1) offs syms hrest1 hoffs
        (fun l h1 h15 => by
          rw [hinv l h1 h15, count_take_succ L m l hm, hxm, if_neg (by omega)]
          rfl) hsyms
      refine ⟨syms1, a1, a2, fun s h1 h2 h3 => ?_, fun j hj => ?_⟩
      · by_cases hsm : s = m
        · subst hsm
          exact absurd (hxm.trans hx0) h3
        · exact a3 s (by omega) h2 h3
      · exact a4 j (fun s h1 h2 h3 => hj s (by omega) h2 h3)
    · rw [if_pos (by simpa using hx0)]
      have hpos : offs.getD x 0 = symPos L m := by
        rw [hinv x (by omega) hx15]
        unfold symPos
        rw [hxm]
      have hlt := symPos_lt L m hm (by omega) (by omega)
      rw [hpos, if_pos (by unfold maxNumCodes; omega)]
      have e1 : u32 (symPos L m + 1) = symPos L m + 1 := u32_of_lt (by omega)
      have e2 : toInt32 m = (m : Int) := by
        unfold toInt32
        exact wrap32_of_range (by omega) (by omega)
      rw [e1, e2]
      obtain ⟨syms1, a1, a2, a3, a4⟩ := ih (m + 1) (offs.set x (symPos L m + 1))
        (syms.set (symPos L m) (m : Int)) hrest1 (by simp [hoffs])
        (fun l h1 h15 => by
          rw [getD_set_eq_ite _ _ _ _ (by omega), count_take_succ L m l hm, hxm]
          by_cases hlx : l = x
          · subst hlx
            rw [if_pos rfl, if_pos rfl]
            unfold symPos
            rw [hxm]
            omega
          · rw [if_neg hlx, if_neg (fun h => hlx h.symm), hinv l h1 h15]
            rfl) (by simp [hsyms])
      have hset : ∀ j, (syms.set (symPos L m) (m : Int)).getD j 0
          = if j = symPos L m then (m : Int) else syms.getD j 0 :=
        fun j => getD_set_int syms (symPos L m) j (m : Int)
          (by rw [hsyms]; exact lt_of_lt_of_le hlt hnz)
      have hm1 : 1 ≤ L.getD m 0 := by
        rw [hxm]
        exact Nat.one_le_iff_ne_zero.mpr hx0
      refine ⟨syms1, a1, a2, fun s h1 h2 h3 => ?_, fun j hj => ?_⟩
      · by_cases hsm : s = m
        · have hne : ∀ t, m + 1 ≤ t → t < L.length → L.getD t 0 ≠ 0 →
              symPos L t ≠ symPos L m :=
            fun t ht1 ht2 ht3 =>
              (symPos_ne L m t (Nat.lt_of_succ_le ht1) ht2 hm1
                (Nat.one_le_iff_ne_zero.mpr ht3)).symm
          rw [hsm, a4 _ hne, hset, if_pos rfl]
        · exact a3 s (Nat.lt_of_le_of_ne h1 (Ne.symm hsm)) h2 h3
      · have hjm : j ≠ symPos L m :=
          fun h => hj m (le_refl _) hm (Nat.one_le_iff_ne_zero.mp hm1) h.symm
        rw [a4 j (fun s h1 h2 h3 => hj s (Nat.le_of_succ_le h1) h2 h3), hset, if_neg hjm]


theorem count_split_256 (L : List Nat) (l : Nat) (h : 256 < L.length) (hl : L.getD 256 0 = l) :
    L.count l = (L.take 256).count l + 1 + (L.drop 257).count l := by
  have e : L = L.take 257 ++ L.drop 257 := (List.take_append_drop 257 L).symm
  have e2 := count_take_succ L 256 l h
  rw [if_pos hl] at e2
  conv_lhs => rw [e]
  rw [List.count_append, e2]

/-- The end-of-block code computed by `construct` is the canonical code of the
symbol 256. -/
theorem endCode_eq (L : List Nat) (l : Nat) (h : 256 < L.length) (hl : L.getD 256 0 = l)
    (h1 : 1 ≤ l) (h15 : l ≤ 15) (hK : kraftAt L 15 ≤ 2 ^ 15) :
    sub32 (sub32 (u32 (1 <<< l)) 1) (countEndCode l (L.drop 257) (2 ^ l - kraftAt L l))
      = Rfc1951.codeOf L 256 := by
  have hKl : kraftAt L l ≤ 2 ^ l := by
    by_contra hc
    have := kraftAt_over L l h15 (by omega)
    omega
  have h2l : 2 ^ l ≤ 2 ^ 15 := two_pow_le_of_le h15
  have hpos : 0 < 2 ^ l := Nat.two_pow_pos l
  have hsplit := count_split_256 L l h hl
  have hnc := nextCode_add_blCount L l
  rw [Rfc1951.blCount, if_neg (by omega)] at hnc
  have hdrop : (L.drop 257).count l ≤ L.count l := by omega
  have e1 : sub32 (2 ^ l) 1 = 2 ^ l - 1 := sub32_of_le (by omega) (by omega)
  rw [countEndCode_spec _ _ _ (by omega), Nat.one_shiftLeft, u32_of_lt (by omega), e1,
    sub32_of_le (by omega) (by omega)]
  unfold Rfc1951.codeOf
  rw [hl]
  omega

theorem all_zero_iff (L : List Nat) : L.count 0 = L.length ↔ ∀ x ∈ L, x = 0 := by
  rw [List.count_eq_length]
  constructor
  · intro h x hx
    exact (h x hx).symm
  · intro h x hx
    exact (h x hx).symm


theorem getD_le_15 (L : List Nat) (hL : ∀ x ∈ L, x ≤ 15) (s : Nat) : L.getD s 0 ≤ 15 := by
  by_cases h : s < L.length
  · rw [List.getD_eq_getElem?_getD, List.getElem?_eq_getElem h]
    exact hL _ (List.getElem_mem _)
  · rw [List.getD_eq_default _ _ (by omega)]
    omega

/-- The method `construct` on lengths that are all zero or whose Kraft sum is
not `2^15`. -/
theorem construct_bad (h : huffman) (L : List Nat) (hL : ∀ x ∈ L, x ≤ 15)
    (hlen : L.length ≤ 65536) (hbad : (∀ x ∈ L, x = 0) ∨ kraftSum L ≠ 2 ^ 15) :
    ∃ counts, counts.length = 16 ∧ (∀ i, counts.getD i 0 = L.count i) ∧
      h.construct L = Run.ret ({ h with counts := counts }, 0, 0, some errInvalidBadHuffmanTree) := by
  obtain ⟨counts, c1, c2, c3⟩ := countLengths_replicate L hL (by omega)
  refine ⟨counts, c2, c3, ?_⟩
  unfold huffman.construct maxCodeBits
  rw [c1]
  simp only
  by_cases hz : ∀ x ∈ L, x = 0
  · rw [if_pos (by rw [c3 0, u32_of_lt (by omega)]; exact (all_zero_iff L).mpr hz)]
  · rw [if_neg (by
      rw [c3 0, u32_of_lt (by omega)]
      exact fun h0 => hz ((all_zero_iff L).mp h0))]
    have hK : kraftAt L 15 ≠ 2 ^ 15 := by
      rw [kraftAt_eq_kraftSum L hL]
      rcases hbad with h1 | h1
      · exact absurd h1 hz
      · exact h1
    rw [kraftLoop_spec L counts c3 _ 15 1 (le_refl _) rfl 1 0 0 (by simp [kraftAt])]
    by_cases hle : kraftAt L 15 ≤ 2 ^ 15
    · rw [if_pos hle]
      simp only
      rw [if_pos (by omega)]
    · rw [if_neg hle]

/-- The method `construct` on a complete code: the counts, the sorted symbols
and the end-of-block code. -/
theorem construct_ok (h : huffman) (L : List Nat) (hL : ∀ x ∈ L, x ≤ 15)
    (hlen : L.length ≤ 65536) (hnz : (L.filter (fun l => l ≠ 0)).length ≤ 288)
    (hs : h.symbols.length = 288) (hne : ∃ x ∈ L, x ≠ 0) (hk : kraftSum L = 2 ^ 15) :
    ∃ counts syms, counts.length = 16 ∧ (∀ i, counts.getD i 0 = L.count i) ∧
      syms.length = 288 ∧
      h.construct L = Run.ret
        ({ counts := counts, symbols := syms },
          (if 256 < L.length ∧ 1 ≤ L.getD 256 0 then Rfc1951.codeOf L 256 else 0),
          (if 256 < L.length then L.getD 256 0 else 0), none) ∧
      (∀ s, s < L.length → L.getD s 0 ≠ 0 → syms.getD (symPos L s) 0 = (s : Int)) ∧
      (∀ j, symStartL L 16 ≤ j → syms.getD j 0 = h.symbols.getD j 0) := by
  obtain ⟨counts, c1, c2, c3⟩ := countLengths_replicate L hL (by omega)
  have hK : kraftAt L 15 = 2 ^ 15 := by rw [kraftAt_eq_kraftSum L hL, hk]
  have hB : ∀ j, counts.getD j 0 ≤ 65536 := fun j => by
    rw [c3 j]
    exact le_trans (List.count_le_length _ _) hlen
  obtain ⟨o1, o2⟩ := offsetsLoop_init counts 65536 hB (by decide)
  have htot := symStartL_total L hL
  obtain ⟨syms, p1, p2, p3, p4⟩ := placeSymbols_spec L hL (by omega) (by omega) L 0
    (offsetsLoop counts 14 1 (List.replicate 16 0)) h.symbols rfl o1
    (fun l h1 h15 => by
      rw [o2 l h15, symStart_eq_symStartL L counts c3]
      simp) hs
  refine ⟨counts, syms, c2, c3, p2, ?_, fun s hs1 hs2 => p3 s (Nat.zero_le _) hs1 hs2,
    fun j hj => p4 j (fun s _ hs1 hs2 hp => ?_)⟩
  · unfold huffman.construct maxCodeBits
    rw [c1]
    simp only
    rw [if_neg (by
      rw [c3 0, u32_of_lt (by omega)]
      obtain ⟨x, hx, hx0⟩ := hne
      exact fun h0 => hx0 ((all_zero_iff L).mp h0 x hx))]
    rw [kraftLoop_spec L counts c3 _ 15 1 (le_refl _) rfl 1 0 0 (by simp [kraftAt]),
      if_pos (by omega)]
    simp only
    rw [if_neg (by omega), p1]
    simp only
    by_cases h256 : 256 < L.length
    · simp only [gt_iff_lt, if_pos h256]
      have h15 := getD_le_15 L hL 256
      by_cases h1 : 1 ≤ L.getD 256 0
      · rw [if_pos ⟨h1, h15⟩, if_pos ⟨h1, h15⟩, if_pos ⟨h256, h1⟩,
          endCode_eq L _ h256 rfl h1 h15 (by omega)]
      · rw [if_neg (fun hh => h1 hh.1), if_neg (fun hh => h1 hh.1), if_neg (fun hh => h1 hh.2)]
        have : L.getD 256 0 = 0 := by omega
        rw [this]
    · simp only [gt_iff_lt, if_neg h256]
      rw [if_neg (by omega), if_neg (by omega), if_neg (fun hh => h256 hh.1)]
  · have h15 := getD_le_15 L hL s
    have := symPos_lt L s hs1 (Nat.one_le_iff_ne_zero.mpr hs2) h15
    omega


theorem codeVal_prefix (bytes : List Nat) (p i d : Nat) :
    Rfc1951.codeVal bytes p (i + d) / 2 ^ d = Rfc1951.codeVal bytes p i := by
  induction d with
  | zero => simp
  | succ d ih =>
    have hb := bitAt_lt bytes (p + (i + d))
    rw [← Nat.add_assoc, Rfc1951.codeVal, pow_succ, Nat.mul_comm (2 ^ d) 2,
      ← Nat.div_div_eq_div_mul]
    have : (2 * Rfc1951.codeVal bytes p (i + d) + bitAt bytes (p + (i + d))) / 2
        = Rfc1951.codeVal bytes p (i + d) := by omega
    rw [this, ih]

/-- A code of `n` bits is not below `first + count` at a shorter length: the
canonical codes are prefix-free. -/
theorem codeVal_not_short (L : List Nat) (bytes : List Nat) (p n i : Nat) (hi : i < n)
    (hcode : Rfc1951.nextCode L n ≤ Rfc1951.codeVal bytes p n) :
    kraftAt L i ≤ Rfc1951.codeVal bytes p i := by
  obtain ⟨d, rfl⟩ : ∃ d, n = i + (d + 1) := ⟨n - i - 1, by omega⟩
  rw [← codeVal_prefix bytes p i (d + 1)]
  have h1 : Rfc1951.nextCode L (i + (d + 1)) = 2 * kraftAt L (i + d) := by
    rw [← Nat.add_assoc, nextCode_succ]
  have h2 := kraftAt_mono L i (i + d) (by omega)
  rw [Nat.add_sub_cancel_left] at h2
  rw [Nat.le_div_iff_mul_le (Nat.two_pow_pos _)]
  calc kraftAt L i * 2 ^ (d + 1) = 2 * (2 ^ d * kraftAt L i) := by rw [pow_succ]; ring
    _ ≤ 2 * kraftAt L (i + d) := Nat.mul_le_mul_left _ h2
    _ = Rfc1951.nextCode L (i + (d + 1)) := h1.symm
    _ ≤ _ := hcode

/-- The passes of `decode` that come before the length of the code go on to the
next pass, and the pass of that length returns the symbol. -/
theorem decodeAt_skip (h : huffman) (bytes : List Nat) (p n : Nat) (hn : n ≤ 15)
    (hp : p + n ≤ 8 * bytes.length)
    (hshort : ∀ m, 1 ≤ m → m < n →
      ¬ Rfc1951.codeVal bytes p m < huffman.firstCode h.counts m + h.counts.getD m 0)
    (hcode : Rfc1951.codeVal bytes p n < huffman.firstCode h.counts n + h.counts.getD n 0)
    (hj : huffman.symStart h.counts n + Rfc1951.codeVal bytes p n - huffman.firstCode h.counts n
      < 288)
    (k i : Nat) (hi1 : 1 ≤ i) (hin : i ≤ n) (hk : i + k = 16) :
    h.decodeAt bytes p k i = Run.ret
      (h.symbols.getD
        (huffman.symStart h.counts n + Rfc1951.codeVal bytes p n - huffman.firstCode h.counts n) 0,
        p + n) := by
  induction k generalizing i with
  | zero => omega
  | succ k ih =>
    rw [huffman.decodeAt, if_neg (by omega)]
    by_cases h : i = n
    · subst h
      rw [if_pos hcode, if_pos (by unfold maxNumCodes; exact hj)]
    · rw [if_neg (hshort i hi1 (by omega))]
      exact ih (i + 1) (by omega) (by omega) (by omega)

/-- The decoder inverts the canonical code: stated for the table that
`construct` builds from the lengths `L`. -/
theorem decode_canonical_aux (L counts : List Nat) (syms : List Int)
    (hL : ∀ x ∈ L, x ≤ 15) (hlen : L.length ≤ 65536)
    (hnz : (L.filter (fun l => l ≠ 0)).length ≤ 288)
    (c3 : ∀ i, counts.getD i 0 = L.count i)
    (hsym : ∀ s, s < L.length → L.getD s 0 ≠ 0 → syms.getD (symPos L s) 0 = (s : Int))
    (bytes : List Nat) (hwf : IsBytes bytes) (p s n : Nat) (hs : s < L.length)
    (hsn : L.getD s 0 = n) (hn0 : 0 < n) (hp : p + n ≤ 8 * bytes.length)
    (hcode : Rfc1951.codeVal bytes p n = Rfc1951.codeOf L s) :
    huffman.decode { counts := counts, symbols := syms } (cursorAt bytes p)
      = Run.ret ((s : Int), cursorAt bytes (p + n)) := by
  have hn15 : n ≤ 15 := by
    rw [← hsn]
    exact getD_le_15 L hL s
  have hB : ∀ j, (huffman.mk counts syms).counts.getD j 0 ≤ 65536 := fun j => by
    show counts.getD j 0 ≤ 65536
    rw [c3 j]
    exact le_trans (List.count_le_length _ _) hlen
  rw [decode_cursorAt _ bytes p hwf hB (by omega)]
  have hF := firstCode_eq_nextCode L counts c3 n hn0
  have hFc := firstCode_add_count L counts c3 n hn0
  have hS := symStart_eq_symStartL L counts c3 n
  have hrank := count_take_lt_count L n s hs hsn
  have hcv : Rfc1951.codeVal bytes p n = huffman.firstCode counts n + (L.take s).count n := by
    rw [hcode, hF]
    unfold Rfc1951.codeOf
    rw [hsn]
  have hj : huffman.symStart counts n + Rfc1951.codeVal bytes p n - huffman.firstCode counts n
      = symPos L s := by
    unfold symPos
    rw [hsn, hcv, hS]
    omega
  have hlt := symPos_lt L s hs (by omega) (by omega)
  have htot := symStartL_total L hL
  rw [decodeAt_skip _ bytes p n hn15 hp _ _ _ 15 1 (le_refl _) hn0 rfl]
  · show Run.ret (syms.getD _ 0, cursorAt bytes (p + n)) = _
    rw [hj, hsym s hs (by omega)]
  · intro m hm1 hmn
    show ¬ Rfc1951.codeVal bytes p m < huffman.firstCode counts m + counts.getD m 0
    rw [firstCode_add_count L counts c3 m hm1]
    have := codeVal_not_short L bytes p n m hmn (by rw [hcv, hF]; omega)
    omega
  · show Rfc1951.codeVal bytes p n < huffman.firstCode counts n + counts.getD n 0
    rw [hcv, c3 n]
    omega
  · show huffman.symStart counts n + Rfc1951.codeVal bytes p n - huffman.firstCode counts n < 288
    rw [hj]
    omega


theorem filter_length_le (L : List Nat) : (L.filter (fun l => l ≠ 0)).length ≤ L.length :=
  List.length_filter_le _ _

/-- What a successful `construct` returns. -/
theorem construct_none (h h1 : huffman) (L : List Nat) (ecb ecn : Nat)
    (hs : h.symbols.length = 288) (hL : ∀ x ∈ L, x ≤ 15) (hlen : L.length ≤ 65536)
    (hnz : (L.filter (fun l => l ≠ 0)).length ≤ 288)
    (hc : h.construct L = Run.ret (h1, ecb, ecn, none)) :
    (∃ x ∈ L, x ≠ 0) ∧ kraftSum L = 2 ^ 15 ∧ h1.counts.length = 16 ∧
      (∀ i, h1.counts.getD i 0 = L.count i) ∧ h1.symbols.length = 288 ∧
      ecb = (if 256 < L.length ∧ 1 ≤ L.getD 256 0 then Rfc1951.codeOf L 256 else 0) ∧
      ecn = (if 256 < L.length then L.getD 256 0 else 0) ∧
      (∀ s, s < L.length → L.getD s 0 ≠ 0 → h1.symbols.getD (symPos L s) 0 = (s : Int)) ∧
      (∀ j, symStartL L 16 ≤ j → h1.symbols.getD j 0 = h.symbols.getD j 0) := by
  by_cases hgood : (∃ x ∈ L, x ≠ 0) ∧ kraftSum L = 2 ^ 15
  · obtain ⟨counts, syms, a1, a2, a3, a4, a5, a6⟩ := construct_ok h L hL hlen hnz hs hgood.1 hgood.2
    rw [a4] at hc
    simp only [Run.ret.injEq, Prod.mk.injEq] at hc
    obtain ⟨e1, e2, e3, _⟩ := hc
    subst e1
    exact ⟨hgood.1, hgood.2, a1, a2, a3, e2.symm, e3.symm, a5, a6⟩
  · have hbad : (∀ x ∈ L, x = 0) ∨ kraftSum L ≠ 2 ^ 15 := by
      by_cases hz : ∀ x ∈ L, x = 0
      · exact Or.inl hz
      · right
        intro hk
        apply hgood
        refine ⟨?_, hk⟩
        by_contra hne
        apply hz
        intro x hx
        by_contra hx0
        exact hne ⟨x, hx, hx0⟩
    obtain ⟨counts, _, _, a3⟩ := construct_bad h L hL hlen hbad
    rw [a3] at hc
    simp at hc

/-- C12, counterexample. A code-length vector with entries in `0..15` that is
exactly Kraft-saturated, 512 lengths of 9, on which `construct` does not
return: the write to `h.symbols[288]` is out of range. -/
theorem construct_kraft_counterexample :
    (∀ x ∈ List.replicate 512 9, x ≤ 15) ∧ kraftSum (List.replicate 512 9) = 2 ^ 15 ∧
      huffman.zero.construct (List.replicate 512 9) = Run.panic := by
  decide!

/-- C12 (amended). Kraft validation: for every code-length vector `L` with every
entry in `0..15`, at most 288 non-zero entries (the capacity of `h.symbols`) and
at most 65536 entries in all, `construct(L)` returns no error if some entry of
`L` is non-zero and the sum of `2^(15 - L[s])` over the non-zero entries is
exactly `2^15`, and then `counts[i]` is the number of entries of `L` equal to
`i`; in every other case it returns `errInvalidBadHuffmanTree`. -/
theorem construct_kraft (h : huffman) (L : List Nat) (hs : h.symbols.length = 288)
    (hL : ∀ x ∈ L, x ≤ 15) (hlen : L.length ≤ 65536)
    (hnz : (L.filter (fun l => l ≠ 0)).length ≤ 288) :
    ((∃ x ∈ L, x ≠ 0) ∧ kraftSum L = 2 ^ 15 →
      ∃ h1 ecb ecn, h.construct L = Run.ret (h1, ecb, ecn, none) ∧
        ∀ i, h1.counts.getD i 0 = L.count i) ∧
    (¬ ((∃ x ∈ L, x ≠ 0) ∧ kraftSum L = 2 ^ 15) →
      ∃ h1, h.construct L = Run.ret (h1, 0, 0, some errInvalidBadHuffmanTree)) := by
  constructor
  · intro hgood
    obtain ⟨counts, syms, a1, a2, a3, a4, a5, a6⟩ :=
      construct_ok h L hL hlen hnz hs hgood.1 hgood.2
    exact ⟨_, _, _, a4, a2⟩
  · intro hgood
    have hbad : (∀ x ∈ L, x = 0) ∨ kraftSum L ≠ 2 ^ 15 := by
      by_cases hz : ∀ x ∈ L, x = 0
      · exact Or.inl hz
      · right
        intro hk
        apply hgood
        refine ⟨?_, hk⟩
        by_contra hne
        apply hz
        intro x hx
        by_contra hx0
        exact hne ⟨x, hx, hx0⟩
    obtain ⟨counts, _, _, a3⟩ := construct_bad h L hL hlen hbad
    exact ⟨_, a3⟩

theorem zero_symbols_length : huffman.zero.symbols.length = 288 := List.length_replicate _ _

theorem construct_kraft_witness :
    ∃ h1 ecb ecn, huffman.zero.construct [3, 3, 3, 3, 3, 2, 4, 4] = Run.ret (h1, ecb, ecn, none) ∧
      ∀ i, h1.counts.getD i 0 = [3, 3, 3, 3, 3, 2, 4, 4].count i :=
  (construct_kraft huffman.zero [3, 3, 3, 3, 3, 2, 4, 4] zero_symbols_length (by decide)
    (by decide) (by decide)).1
    (by decide)


/-- C14. Decode inverts the canonical Huffman code: for every vector `L` of at
most 288 code lengths in `0..15` on which `construct` succeeds and every symbol
`s` with `L[s] = n > 0`, if the next `n` bits of the stream, most significant
bit of the code first, are the code that RFC 1951 section 3.2.2 assigns to
`s`, then `decode` returns `s` and leaves the reader `n` bits further. -/
theorem decode_canonical (h h1 : huffman) (L : List Nat) (ecb ecn : Nat)
    (hs : h.symbols.length = 288) (hL : ∀ x ∈ L, x ≤ 15) (hlen : L.length ≤ 288)
    (hc : h.construct L = Run.ret (h1, ecb, ecn, none))
    (s n : Nat) (hsl : s < L.length) (hsn : L.getD s 0 = n) (hn0 : 0 < n)
    (b : bitstream) (hwf : IsBytes b.bytes) (hb : b.Ok) (h7 : b.nBits ≤ 7)
    (hp : b.pos + n ≤ 8 * b.bytes.length)
    (hcode : Rfc1951.codeVal b.bytes b.pos n = Rfc1951.codeOf L s) :
    h1.decode b = Run.ret ((s : Int), cursorAt b.bytes (b.pos + n)) := by
  have hnz := le_trans (filter_length_le L) hlen
  obtain ⟨_, _, _, a2, _, _, _, a5, _⟩ := construct_none h h1 L ecb ecn hs hL (by omega) hnz hc
  have hcur := hb.eq_cursorAt h7
  have := decode_canonical_aux L h1.counts h1.symbols hL (by omega) hnz a2 a5 b.bytes hwf b.pos
    s n hsl hsn hn0 hp hcode
  rw [← hcur] at this
  exact this

/-- C14, the example of the doc comment of `huffman`: for the lengths
`(3,3,3,3,3,2,4,4)` of `A..H`, `construct` yields the counts `{2:1, 3:5, 4:2}`
and the symbols `F,A,B,C,D,E,G,H`, and the bits `1,1,1,0` decode to `G`. -/
theorem decode_canonical_witness :
    huffman.zero.construct [3, 3, 3, 3, 3, 2, 4, 4]
        = Run.ret (⟨[0, 0, 1, 5, 2, 0, 0, 0, 0, 0, 0, 0, 0, 0, 0, 0],
            [5, 0, 1, 2, 3, 4, 6, 7] ++ List.replicate 280 0⟩, 0, 0, none) ∧
      huffman.decode ⟨[0, 0, 1, 5, 2, 0, 0, 0, 0, 0, 0, 0, 0, 0, 0, 0],
          [5, 0, 1, 2, 3, 4, 6, 7] ++ List.replicate 280 0⟩
          { bytes := [0x07], index := 0, bits := 0, nBits := 0 }
        = Run.ret (6, cursorAt [0x07] 4) :=
  ⟨by decide!,
   decode_canonical huffman.zero _ [3, 3, 3, 3, 3, 2, 4, 4] 0 0 zero_symbols_length (by decide)
    (by decide) (by decide!) 6 4 (by decide) (by decide) (by decide)
    { bytes := [0x07], index := 0, bits := 0, nBits := 0 } (by unfold IsBytes; decide)
    (by unfold bitstream.Ok; decide) (by decide) (by decide) (by decide)⟩

/-- The occurrence number `r` of the length `n`: the symbol of that rank. -/
theorem exists_rank (L : List Nat) (n r : Nat) (h : r < L.count n) :
    ∃ s, s < L.length ∧ L.getD s 0 = n ∧ (L.take s).count n = r := by
  induction L generalizing r with
  | nil => simp at h
  | cons x xs ih =>
    rw [List.count_cons] at h
    by_cases hx : x = n
    · subst hx
      simp only [beq_self_eq_true, if_true] at h
      by_cases hr : r = 0
      · subst hr
        exact ⟨0, by simp, rfl, by simp⟩
      · obtain ⟨s, h1, h2, h3⟩ := ih (r - 1) (by omega)
        refine ⟨s + 1, by simp; omega, ?_, ?_⟩
        · simpa using h2
        · rw [List.take_succ_cons, List.count_cons_self, h3]
          omega
    · have hx2 : ¬ (x == n) = true := by simpa using hx
      rw [if_neg hx2] at h
      obtain ⟨s, h1, h2, h3⟩ := ih r (by omega)
      refine ⟨s + 1, by simp; omega, ?_, ?_⟩
      · simpa using h2
      · rw [List.take_succ_cons, List.count_cons_of_ne (fun h => hx h.symm), h3]

/-- When a pass of `decode` is reached, the bits read so far are not below
`first`. -/
theorem codeVal_ge_first (counts bytes : List Nat) (p n : Nat) (hn : 1 ≤ n)
    (hshort : ∀ m, 1 ≤ m → m < n →
      ¬ Rfc1951.codeVal bytes p m < huffman.firstCode counts m + counts.getD m 0) :
    huffman.firstCode counts n ≤ Rfc1951.codeVal bytes p n := by
  obtain ⟨k, rfl⟩ : ∃ k, n = k + 1 := ⟨n - 1, by omega⟩
  by_cases hk : k = 0
  · subst hk
    simp [huffman.firstCode]
  · have := hshort k (by omega) (by omega)
    rw [firstCode_succ counts k (by omega), Rfc1951.codeVal]
    omega

theorem decodeAt_total (h : huffman) (bytes : List Nat) (p k i : Nat) (hi : 1 ≤ i)
    (hp : p + (i - 1) ≤ 8 * bytes.length) :
    (∃ q, h.decodeAt bytes p k i = Run.ret (mostNegativeInt32, q) ∧ p ≤ q ∧
      q ≤ 8 * bytes.length) ∨
    (∃ n, i ≤ n ∧ n < i + k ∧ p + n ≤ 8 * bytes.length ∧
      Rfc1951.codeVal bytes p n < huffman.firstCode h.counts n + h.counts.getD n 0 ∧
      (∀ m, i ≤ m → m < n →
        ¬ Rfc1951.codeVal bytes p m < huffman.firstCode h.counts m + h.counts.getD m 0) ∧
      h.decodeAt bytes p k i =
        if huffman.symStart h.counts n + Rfc1951.codeVal bytes p n - huffman.firstCode h.counts n
            < maxNumCodes then
          Run.ret (h.symbols.getD (huffman.symStart h.counts n + Rfc1951.codeVal bytes p n
            - huffman.firstCode h.counts n) 0, p + n)
        else Run.panic) := by
  induction k generalizing i with
  | zero => exact Or.inl ⟨_, rfl, by omega, hp⟩
  | succ k ih =>
    rw [huffman.decodeAt]
    by_cases h1 : 8 * bytes.length < p + i
    · rw [if_pos h1]
      exact Or.inl ⟨_, rfl, by omega, hp⟩
    · rw [if_neg h1]
      by_cases h2 : Rfc1951.codeVal bytes p i < huffman.firstCode h.counts i + h.counts.getD i 0
      · rw [if_pos h2]
        exact Or.inr ⟨i, le_refl _, by omega, by omega, h2,
          fun m hm1 hm2 => absurd hm1 (by omega), rfl⟩
      · rw [if_neg h2]
        rcases ih (i + 1) (by omega) (by simp only [Nat.add_sub_cancel]; omega) with
          ⟨q, a1, a2, a3⟩ | ⟨n, a1, a2, a3, a4, a5, a6⟩
        · exact Or.inl ⟨q, a1, a2, a3⟩
        · refine Or.inr ⟨n, by omega, by omega, a3, a4, fun m hm1 hm2 => ?_, a6⟩
          by_cases hmi : m = i
          · subst hmi
            exact h2
          · exact a5 m (by omega) hm2

/-- The method `decode` with a table built by `construct` never indexes out of
range: it returns the sentinel, or a symbol of non-zero length whose canonical
code are the bits read. -/
theorem decode_safe (h : huffman) (L : List Nat) (ht : TableOk h L) (bytes : List Nat)
    (hwf : IsBytes bytes) (p : Nat) (hp : p ≤ 8 * bytes.length) :
    (∃ q, h.decode (cursorAt bytes p) = Run.ret (mostNegativeInt32, cursorAt bytes q) ∧
      p ≤ q ∧ q ≤ 8 * bytes.length) ∨
    (∃ s, s < L.length ∧ L.getD s 0 ≠ 0 ∧ p + L.getD s 0 ≤ 8 * bytes.length ∧
      Rfc1951.codeVal bytes p (L.getD s 0) = Rfc1951.codeOf L s ∧
      h.decode (cursorAt bytes p) = Run.ret ((s : Int), cursorAt bytes (p + L.getD s 0))) := by
  obtain ⟨hL, hlen, hnz, hK, c3, hsl, hsym⟩ := ht
  have hB : ∀ j, h.counts.getD j 0 ≤ 65536 := fun j => by
    rw [c3 j]
    exact le_trans (List.count_le_length _ _) (le_trans hlen (by decide))
  rw [decode_cursorAt h bytes p hwf hB hp]
  rcases decodeAt_total h bytes p 15 1 (le_refl _) (by simpa using hp) with
    ⟨q, a1, a2, a3⟩ | ⟨n, a1, a2, a3, a4, a5, a6⟩
  · left
    exact ⟨q, by rw [a1]; rfl, a2, a3⟩
  · right
    have hF := codeVal_ge_first h.counts bytes p n a1 (fun m hm1 hm2 => a5 m hm1 hm2)
    have hFn := firstCode_eq_nextCode L h.counts c3 n a1
    have hr : Rfc1951.codeVal bytes p n - huffman.firstCode h.counts n < L.count n := by
      rw [c3 n] at a4
      omega
    obtain ⟨s, s1, s2, s3⟩ := exists_rank L n _ hr
    have hpos : huffman.symStart h.counts n + Rfc1951.codeVal bytes p n
        - huffman.firstCode h.counts n = symPos L s := by
      unfold symPos
      rw [s2, s3, symStart_eq_symStartL L h.counts c3]
      omega
    have hlt := symPos_lt L s s1 (by omega) (by omega)
    have htot := symStartL_total L hL
    refine ⟨s, s1, by omega, by rw [s2]; exact a3, ?_, ?_⟩
    · unfold Rfc1951.codeOf
      rw [s2, s3, ← hFn]
      omega
    · rw [a6, hpos, if_pos (by unfold maxNumCodes; omega), hsym s s1 (by omega), s2]
      rfl


theorem dTable_facts :
    ∀ i, i < 32 →
      (i < 30 → 1 ≤ dBases.getD i 0 ∧ dBases.getD i 0 ≤ 24577 ∧ dExtras.getD i 0 ≤ 13) ∧
      (30 ≤ i → dBases.getD i 0 = mostNegativeInt32 ∧ dExtras.getD i 0 = 0) := by
  decide

/-- The reader at bit `p` takes `n` bits: the two cases. -/
theorem take_cases (bytes : List Nat) (p n : Nat) (hwf : IsBytes bytes) (hn : n ≤ 25)
    (hp : p ≤ 8 * bytes.length) :
    (p + n ≤ 8 * bytes.length ∧
      (cursorAt bytes p).take n = ((bitsVal bytes p n : Int), cursorAt bytes (p + n))) ∨
    (8 * bytes.length < p + n ∧ ((cursorAt bytes p).take n).1 = mostNegativeInt32) := by
  by_cases h : p + n ≤ 8 * bytes.length
  · exact Or.inl ⟨h, take_cursorAt bytes p n hwf hn h⟩
  · exact Or.inr ⟨by omega, take_cursorAt_eof bytes p n hn hp (by omega)⟩

/-- The distance of a copy is read without a run-time panic, and a copy that is
accepted leaves the reader further on. -/
theorem readDistance_safe (c : cutter) (X : List Nat) (p : Nat) (hwf : IsBytes X)
    (hc : c.bits = cursorAt X p) (hp : p ≤ 8 * X.length) (L2 : List Nat)
    (ht : TableOk c.dHuff L2) (hl2 : L2.length ≤ 32) (d l : Int) :
    ∃ s, c.readDistance d l = Run.ret s ∧
      (∀ c1 e, s = SymbolStep.stop c1 e → e ≠ none) ∧
      (∀ c1 d1, s = SymbolStep.next c1 d1 →
        ∃ q, p < q ∧ q ≤ 8 * X.length ∧ c1 = { c with bits := cursorAt X q } ∧
          d1 = wrap32 (d + l)) := by
  unfold cutter.readDistance
  rw [hc]
  rcases decode_safe c.dHuff L2 ht X hwf p hp with ⟨q, a1, a2, a3⟩ | ⟨s, s1, s2, s3, s4, s5⟩
  · rw [a1, Run.bind_ret]
    simp only
    rw [if_pos (by decide)]
    exact ⟨_, rfl, fun c1 e h => by simp at h; rw [← h.2]; simp, fun c1 d1 h => by simp at h⟩
  · rw [s5, Run.bind_ret]
    simp only
    rw [if_neg (by omega), if_neg (by omega)]
    have hs32 : s < 32 := by omega
    obtain ⟨f1, f2⟩ := dTable_facts s hs32
    simp only [Int.toNat_ofNat]
    have hn1 : 1 ≤ L2.getD s 0 := by omega
    by_cases h30 : s < 30
    · obtain ⟨b1, b2, b3⟩ := f1 h30
      rcases take_cases X (p + L2.getD s 0) (dExtras.getD s 0) hwf (by omega) s3 with
        ⟨t1, t2⟩ | ⟨t1, t2⟩
      · rw [t2]
        simp only
        have hv := bitsVal_lt X (p + L2.getD s 0) (dExtras.getD s 0)
        have h2e : 2 ^ dExtras.getD s 0 ≤ 2 ^ 13 := two_pow_le_of_le b3
        have hw : wrap32 (dBases.getD s 0 + (bitsVal X (p + L2.getD s 0) (dExtras.getD s 0) : Int))
            = dBases.getD s 0 + (bitsVal X (p + L2.getD s 0) (dExtras.getD s 0) : Int) :=
          wrap32_of_range (by omega) (by omega)
        rw [hw, if_neg (by omega)]
        refine ⟨_, rfl, fun c1 e h => by simp at h, fun c1 d1 h => ?_⟩
        simp only [SymbolStep.next.injEq] at h
        exact ⟨p + L2.getD s 0 + dExtras.getD s 0, by omega, t1, h.1.symm, h.2.symm⟩
      · have hw : wrap32 (dBases.getD s 0
            + ((cursorAt X (p + L2.getD s 0)).take (dExtras.getD s 0)).1) < 0 := by
          rw [t2]
          unfold mostNegativeInt32
          rw [wrap32_of_range (by omega) (by omega)]
          omega
        rw [if_pos hw, if_neg (by omega)]
        exact ⟨_, rfl, fun c1 e h => by simp at h; rw [← h.2]; simp,
          fun c1 d1 h => by simp at h⟩
    · obtain ⟨b1, b2⟩ := f2 (by omega)
      have hw : wrap32 (dBases.getD s 0
          + ((cursorAt X (p + L2.getD s 0)).take (dExtras.getD s 0)).1) < 0 := by
        rw [b2, take_zero, b1]
        decide
      rw [if_pos hw, if_pos (by rw [b1]; decide)]
      exact ⟨_, rfl, fun c1 e h => by simp at h; rw [← h.2]; simp,
        fun c1 d1 h => by simp at h⟩


/-- A length/distance copy is read without a run-time panic. -/
theorem readCopy_safe (c : cutter) (X : List Nat) (p : Nat) (hwf : IsBytes X)
    (hc : c.bits = cursorAt X p) (hp : p ≤ 8 * X.length) (L2 : List Nat)
    (ht : TableOk c.dHuff L2) (hl2 : L2.length ≤ 32) (d : Int) (S : Nat) (hS1 : 256 < S)
    (hS2 : S < 288) :
    ∃ s, c.readCopy d (S : Int) = Run.ret s ∧
      (∀ c1 e, s = SymbolStep.stop c1 e → e ≠ none) ∧
      (∀ c1 d1, s = SymbolStep.next c1 d1 →
        ∃ q, p < q ∧ q ≤ 8 * X.length ∧ c1 = { c with bits := cursorAt X q }) := by
  unfold cutter.readCopy
  rw [if_neg (by omega), hc]
  have hli : ((S : Int) - 256).toNat = S - 256 := by omega
  rw [hli]
  obtain ⟨f1, f2⟩ := lTable (S - 256) (by omega)
  simp only
  rcases take_cases X p (lExtras.getD (S - 256) 0) hwf (by omega) hp with ⟨t1, t2⟩ | ⟨t1, t2⟩
  · rw [t2]
    simp only
    have hv := bitsVal_lt X p (lExtras.getD (S - 256) 0)
    have h2e : 2 ^ lExtras.getD (S - 256) 0 ≤ 2 ^ 5 := two_pow_le_of_le f1
    rcases f2 with ⟨g1, g2⟩ | ⟨g1, g2⟩
    · have hw : wrap32 (lBases.getD (S - 256) 0
          + (bitsVal X p (lExtras.getD (S - 256) 0) : Int)) < 0 := by
        rw [g2]
        simp only [bitsVal, Nat.cast_zero, add_zero, g1]
        decide
      rw [if_pos hw, if_pos (by rw [g1]; decide)]
      exact ⟨_, rfl, fun c1 e h => by simp at h; rw [← h.2]; simp,
        fun c1 d1 h => by simp at h⟩
    · have hw : wrap32 (lBases.getD (S - 256) 0
          + (bitsVal X p (lExtras.getD (S - 256) 0) : Int))
          = lBases.getD (S - 256) 0 + (bitsVal X p (lExtras.getD (S - 256) 0) : Int) :=
        wrap32_of_range (by omega) (by omega)
      rw [hw, if_neg (by omega)]
      obtain ⟨s, r1, r2, r3⟩ := readDistance_safe
        { c with bits := cursorAt X (p + lExtras.getD (S - 256) 0) } X
        (p + lExtras.getD (S - 256) 0) hwf rfl t1 L2 ht hl2 d
        (lBases.getD (S - 256) 0 + (bitsVal X p (lExtras.getD (S - 256) 0) : Int))
      refine ⟨s, r1, r2, fun c1 d1 h => ?_⟩
      obtain ⟨q, q1, q2, q3, _⟩ := r3 c1 d1 h
      exact ⟨q, by omega, q2, q3⟩
  · have hne : lBases.getD (S - 256) 0 ≠ mostNegativeInt32 := by
      rcases f2 with ⟨g1, g2⟩ | ⟨g1, g2⟩
      · rw [g2] at t1
        omega
      · unfold mostNegativeInt32
        omega
    have hb : 3 ≤ lBases.getD (S - 256) 0 ∧ lBases.getD (S - 256) 0 ≤ 258 := by
      rcases f2 with ⟨g1, g2⟩ | ⟨g1, g2⟩
      · exact absurd g1 hne
      · exact ⟨g1, g2⟩
    have hw : wrap32 (lBases.getD (S - 256) 0
        + ((cursorAt X p).take (lExtras.getD (S - 256) 0)).1) < 0 := by
      rw [t2]
      unfold mostNegativeInt32
      rw [wrap32_of_range (by omega) (by omega)]
      omega
    rw [if_pos hw, if_neg (by omega)]
    exact ⟨_, rfl, fun c1 e h => by simp at h; rw [← h.2]; simp,
      fun c1 d1 h => by simp at h⟩

/-- One symbol of a Huffman block is read without a run-time panic; a literal or
a copy leaves the reader further on, and the end-of-block code is the canonical
code of the symbol 256. -/
theorem readSymbol_safe (c : cutter) (X : List Nat) (p : Nat) (hwf : IsBytes X)
    (hc : c.bits = cursorAt X p) (hp : p ≤ 8 * X.length) (L1 L2 : List Nat)
    (ht1 : TableOk c.lHuff L1) (hl1 : L1.length ≤ 288)
    (ht2 : TableOk c.dHuff L2) (hl2 : L2.length ≤ 32) (d : Int) :
    ∃ s, c.readSymbol d = Run.ret s ∧
      (∀ c1 e, s = SymbolStep.stop c1 e → e = none →
        256 < L1.length ∧ L1.getD 256 0 ≠ 0 ∧ p + L1.getD 256 0 ≤ 8 * X.length ∧
        Rfc1951.codeVal X p (L1.getD 256 0) = Rfc1951.codeOf L1 256 ∧
        c1 = { c with bits := cursorAt X (p + L1.getD 256 0) }) ∧
      (∀ c1 d1, s = SymbolStep.next c1 d1 →
        ∃ q, p < q ∧ q ≤ 8 * X.length ∧ c1 = { c with bits := cursorAt X q }) := by
  unfold cutter.readSymbol
  rw [hc]
  rcases decode_safe c.lHuff L1 ht1 X hwf p hp with ⟨q, a1, a2, a3⟩ | ⟨s, s1, s2, s3, s4, s5⟩
  · rw [a1, Run.bind_ret]
    simp only
    rw [if_pos (by decide)]
    exact ⟨_, rfl, fun c1 e h he => by simp at h; rw [← h.2] at he; simp at he,
      fun c1 d1 h => by simp at h⟩
  · rw [s5, Run.bind_ret]
    simp only
    rw [if_neg (by omega)]
    by_cases hlit : s < 256
    · rw [if_pos (by omega)]
      refine ⟨_, rfl, fun c1 e h => by simp at h, fun c1 d1 h => ?_⟩
      simp only [SymbolStep.next.injEq] at h
      exact ⟨p + L1.getD s 0, by omega, s3, h.1.symm⟩
    · rw [if_neg (by omega)]
      by_cases h256 : s = 256
      · subst h256
        rw [if_neg (by omega)]
        refine ⟨_, rfl, fun c1 e h _ => ?_, fun c1 d1 h => by simp at h⟩
        simp only [SymbolStep.stop.injEq] at h
        exact ⟨s1, s2, s3, s4, h.1.symm⟩
      · rw [if_pos (by omega)]
        obtain ⟨r, r1, r2, r3⟩ := readCopy_safe { c with bits := cursorAt X (p + L1.getD s 0) }
          X (p + L1.getD s 0) hwf rfl s3 L2 ht2 hl2 d s (by omega) (by omega)
        refine ⟨r, r1, fun c1 e h he => absurd he (r2 c1 e h), fun c1 d1 h => ?_⟩
        obtain ⟨q, q1, q2, q3⟩ := r3 c1 d1 h
        exact ⟨q, by omega, q2, q3⟩


theorem cursorAt_index_nBits (X : List Nat) (q : Nat) :
    (cursorAt X q).nBits ≤ 8 * (cursorAt X q).index ∧
      8 * (cursorAt X q).index - (cursorAt X q).nBits = q ∧
      (cursorAt X q).index = (q + 7) / 8 := by
  refine ⟨?_, ?_, rfl⟩
  · show 8 * ((q + 7) / 8) - q ≤ 8 * ((q + 7) / 8)
    omega
  · show 8 * ((q + 7) / 8) - (8 * ((q + 7) / 8) - q) = q
    omega

/-- The code after the loop of `doHuffman` does not panic: the checkpoint lies
within the budget, with room for the end-of-block code. -/
theorem afterBreak_safe (c : cutter) (hwf : IsBytes c.bits.bytes)
    (he1 : 1 ≤ c.endCodeNBits) (he2 : c.endCodeNBits ≤ 15)
    (hM : c.maxEncodedLen ≤ c.bits.bytes.length) (ci : Int) (cn : Nat)
    (ck : ci < 0 ∨ (0 ≤ ci ∧ cn ≤ 7 ∧ cn ≤ 8 * ci.toNat ∧
      ((8 * ci.toNat - cn + c.endCodeNBits : Nat) : Int) ≤ 8 * c.maxEncodedLen)) :
    ∃ c1 err, c.afterBreak ci cn = Run.ret (c1, err) ∧
      (err = some errInternalNoProgress ∨ err = some errInternalSomeProgress) ∧
      (err = some errInternalSomeProgress →
        c1.bits.nBits ≤ 7 ∧ c1.bits.nBits ≤ 8 * c1.bits.index ∧
        ((8 * c1.bits.index - c1.bits.nBits : Nat) : Int) ≤ 8 * c.maxEncodedLen ∧
        c1.bits.bytes.length = c.bits.bytes.length ∧ IsBytes c1.bits.bytes) := by
  unfold cutter.afterBreak
  by_cases hneg : ci < 0
  · rw [if_pos hneg]
    exact ⟨_, _, rfl, Or.inl rfl, fun h => by simp at h⟩
  · rw [if_neg hneg]
    rcases ck with h | ⟨k0, k1, k2, k3⟩
    · exact absurd h hneg
    · obtain ⟨b1, a1, a2, a3, a4, a5, a6, a7, a8, a9⟩ :=
        writeEndCodeLoop_spec c.endCodeBits c.endCodeNBits
          { c.bits with index := ci.toNat, nBits := cn } hwf k1 k2
          (by simp only; omega) (by omega)
      simp only [cutter.writeEndCode, a1]
      refine ⟨_, _, rfl, Or.inr rfl, fun _ => ⟨a2, a3, ?_, a5, a6⟩⟩
      simp only at a4 ⊢
      rw [a4]
      exact k3

/-- The budget check of `doHuffman` does not panic, and a new checkpoint lies
within the budget. -/
theorem checkpoint_safe (c : cutter) (X : List Nat) (q : Nat) (hwf : IsBytes X)
    (hc : c.bits = cursorAt X q) (hq : q ≤ 8 * X.length)
    (hX : X.length < 1152921504606846976)
    (he1 : 1 ≤ c.endCodeNBits) (he2 : c.endCodeNBits ≤ 15)
    (hM0 : 0 ≤ c.maxEncodedLen) (hM : c.maxEncodedLen ≤ X.length) (ci : Int) (cn : Nat)
    (ck : ci < 0 ∨ (0 ≤ ci ∧ cn ≤ 7 ∧ cn ≤ 8 * ci.toNat ∧
      ((8 * ci.toNat - cn + c.endCodeNBits : Nat) : Int) ≤ 8 * c.maxEncodedLen)) (d1 : Int) :
    ∃ s, c.checkpoint ci cn d1 = Run.ret s ∧
      (∀ c1 err, s = HuffmanStep.exit c1 err →
        (err = some errInternalNoProgress ∨ err = some errInternalSomeProgress) ∧
        (err = some errInternalSomeProgress →
          c1.bits.nBits ≤ 7 ∧ c1.bits.nBits ≤ 8 * c1.bits.index ∧
          ((8 * c1.bits.index - c1.bits.nBits : Nat) : Int) ≤ 8 * c.maxEncodedLen ∧
          c1.bits.bytes.length = X.length ∧ IsBytes c1.bits.bytes)) ∧
      (∀ c1 i n d', s = HuffmanStep.again c1 i n d' →
        c1 = { c with decodedLen := d1 } ∧ d' = d1 ∧ 0 ≤ i ∧ n ≤ 7 ∧ n ≤ 8 * i.toNat ∧
        ((8 * i.toNat - n + c.endCodeNBits : Nat) : Int) ≤ 8 * c.maxEncodedLen) := by
  have hbytes : c.bits.bytes = X := by rw [hc]; rfl
  have hab := afterBreak_safe c (by rw [hbytes]; exact hwf) he1 he2 (by rw [hbytes]; exact hM)
    ci cn ck
  obtain ⟨c1, err, b1, b2, b3⟩ := hab
  rw [hbytes] at b3
  unfold cutter.checkpoint
  by_cases hd : d1 < 0
  · rw [if_pos hd, b1]
    refine ⟨_, rfl, fun c2 e h => ?_, fun _ _ _ _ h => by simp [Run.map, Run.bind] at h⟩
    simp only [Run.map, Run.bind, Run.ret.injEq, HuffmanStep.exit.injEq] at h
    obtain ⟨h1, h2⟩ := h
    subst h1 h2
    exact ⟨b2, b3⟩
  · rw [if_neg hd]
    simp only
    obtain ⟨i1, i2, i3⟩ := cursorAt_index_nBits X q
    have i4 := cursorAt_nBits_le X q
    rw [hc]
    have eb : sub64 (u64 (8 * u64 (cursorAt X q).index)) (u64 (cursorAt X q).nBits) = q := by
      unfold sub64 u64
      omega
    obtain ⟨m, hm⟩ : ∃ m : Nat, c.maxEncodedLen = (m : Int) := ⟨c.maxEncodedLen.toNat, by omega⟩
    have em : u64 (8 * toUint64 c.maxEncodedLen) = 8 * m := by
      rw [hm]
      unfold u64 toUint64
      omega
    have en : u64 (q + u64 c.endCodeNBits) = q + c.endCodeNBits := by
      unfold u64
      omega
    rw [eb, em, en]
    by_cases hover : q + c.endCodeNBits > 8 * m
    · rw [if_pos hover, b1]
      refine ⟨_, rfl, fun c2 e h => ?_, fun _ _ _ _ h => by simp [Run.map, Run.bind] at h⟩
      simp only [Run.map, Run.bind, Run.ret.injEq, HuffmanStep.exit.injEq] at h
      obtain ⟨h1, h2⟩ := h
      subst h1 h2
      exact ⟨b2, b3⟩
    · rw [if_neg hover]
      refine ⟨_, rfl, fun _ _ h => by simp at h, fun c2 i n d' h => ?_⟩
      simp only [Run.ret.injEq, HuffmanStep.again.injEq] at h
      obtain ⟨h1, h2, h3, h4⟩ := h
      subst h1 h2 h3 h4
      refine ⟨by rw [← hc], rfl, by omega, i4, by simpa using i1, ?_⟩
      simp only [Int.toNat_ofNat]
      rw [hm, i2]
      omega


/-- The loop of `doHuffman` returns, without a run-time panic, when the fuel
exceeds the number of bits that are left. -/
theorem huffmanLoop_safe (X : List Nat) (hwf : IsBytes X)
    (hX : X.length < 1152921504606846976) (L1 L2 : List Nat) (hl1 : L1.length ≤ 288)
    (hl2 : L2.length ≤ 32) (fuel : Nat) (c : cutter) (p : Nat)
    (hc : c.bits = cursorAt X p) (hp : p ≤ 8 * X.length)
    (ht1 : TableOk c.lHuff L1) (ht2 : TableOk c.dHuff L2)
    (he1 : 1 ≤ c.endCodeNBits) (he2 : c.endCodeNBits ≤ 15)
    (hM0 : 0 ≤ c.maxEncodedLen) (hM : c.maxEncodedLen ≤ X.length) (ci : Int) (cn : Nat)
    (ck : ci < 0 ∨ (0 ≤ ci ∧ cn ≤ 7 ∧ cn ≤ 8 * ci.toNat ∧
      ((8 * ci.toNat - cn + c.endCodeNBits : Nat) : Int) ≤ 8 * c.maxEncodedLen)) (d : Int)
    (hfuel : 8 * X.length - p < fuel) :
    ∃ c1 err, c.huffmanLoop fuel ci cn d = Run.ret (c1, err) ∧
      (err = none → ∃ q, p < q ∧ q ≤ 8 * X.length ∧ c1.bits = cursorAt X q ∧
        c1.lHuff = c.lHuff ∧ c1.dHuff = c.dHuff) ∧
      (err = some errInternalSomeProgress →
        c1.bits.nBits ≤ 7 ∧ c1.bits.nBits ≤ 8 * c1.bits.index ∧
        ((8 * c1.bits.index - c1.bits.nBits : Nat) : Int) ≤ 8 * c.maxEncodedLen ∧
        c1.bits.bytes.length = X.length ∧ IsBytes c1.bits.bytes) := by
  induction fuel generalizing c p ci cn d with
  | zero => omega
  | succ fuel ih =>
    rw [cutter.huffmanLoop]
    unfold cutter.huffmanStep
    obtain ⟨s, r1, r2, r3⟩ := readSymbol_safe c X p hwf hc hp L1 L2 ht1 hl1 ht2 hl2 d
    rw [r1, Run.bind_ret]
    cases s with
    | stop c1 err =>
      simp only
      refine ⟨c1, err, rfl, fun he => ?_, fun he => ?_⟩
      · obtain ⟨_, _, a3, _, a5⟩ := r2 c1 err rfl he
        refine ⟨p + L1.getD 256 0, by omega, a3, ?_, ?_, ?_⟩ <;> rw [a5]
      · rcases readSymbol_stop c d c1 err r1 with h | h | h <;> rw [h] at he <;> simp at he
    | next c1 d1 =>
      simp only
      obtain ⟨q, q1, q2, q3⟩ := r3 c1 d1 rfl
      subst q3
      obtain ⟨s2, k1, k2, k3⟩ := checkpoint_safe { c with bits := cursorAt X q } X q hwf rfl q2
        hX he1 he2 hM0 hM ci cn ck d1
      rw [k1]
      cases s2 with
      | exit c2 err =>
        simp only
        obtain ⟨x1, x2⟩ := k2 c2 err rfl
        refine ⟨c2, err, rfl, fun he => ?_, fun he => x2 he⟩
        rcases x1 with h | h <;> rw [h] at he <;> simp at he
      | again c2 i n d' =>
        simp only
        obtain ⟨y1, y2, y3, y4, y5, y6⟩ := k3 c2 i n d' rfl
        subst y1
        obtain ⟨c3, err, z1, z2, z3⟩ := ih
          { c with bits := cursorAt X q, decodedLen := d1 } q rfl q2 ht1 ht2 he1 he2 hM0 hM
          i n (Or.inr ⟨y3, y4, y5, y6⟩) d' (by omega)
        refine ⟨c3, err, z1, fun he => ?_, z3⟩
        obtain ⟨q', w1, w2, w3, w4, w5⟩ := z2 he
        exact ⟨q', by omega, w2, w3, w4, w5⟩


/-- The method `construct` returns, without a run-time panic, on at most 288
non-zero lengths. -/
theorem construct_safe (h : huffman) (L : List Nat) (hs : h.symbols.length = 288)
    (hL : ∀ x ∈ L, x ≤ 15) (hlen : L.length ≤ 320)
    (hnz : (L.filter (fun l => l ≠ 0)).length ≤ 288) :
    ∃ h1 ecb ecn err, h.construct L = Run.ret (h1, ecb, ecn, err) ∧
      h1.symbols.length = 288 ∧
      (err = none ∨ err = some errInvalidBadHuffmanTree) ∧
      (err = none → TableOk h1 L ∧ ecn ≤ 15 ∧ ecn = (if 256 < L.length then L.getD 256 0 else 0) ∧
        ecb = (if 256 < L.length ∧ 1 ≤ L.getD 256 0 then Rfc1951.codeOf L 256 else 0)) := by
  by_cases hgood : (∃ x ∈ L, x ≠ 0) ∧ kraftSum L = 2 ^ 15
  · obtain ⟨counts, syms, a1, a2, a3, a4, a5, a6⟩ :=
      construct_ok h L hL (by omega) hnz hs hgood.1 hgood.2
    refine ⟨_, _, _, _, a4, a3, Or.inl rfl, fun _ => ⟨⟨hL, hlen, hnz, ?_, a2, a3, a5⟩, ?_, rfl, rfl⟩⟩
    · rw [kraftAt_eq_kraftSum L hL, hgood.2]
    · split_ifs
      · exact getD_le_15 L hL 256
      · omega
  · have hbad : (∀ x ∈ L, x = 0) ∨ kraftSum L ≠ 2 ^ 15 := by
      by_cases hz : ∀ x ∈ L, x = 0
      · exact Or.inl hz
      · right
        intro hk
        apply hgood
        refine ⟨?_, hk⟩
        by_contra hne
        apply hz
        intro x hx
        by_contra hx0
        exact hne ⟨x, hx, hx0⟩
    obtain ⟨counts, _, _, a3⟩ := construct_bad h L hL (by omega) hbad
    exact ⟨_, _, _, _, a3, hs, Or.inr rfl, fun h => by simp at h⟩

/-- The method `doHuffman` returns, without a run-time panic. -/
theorem doHuffman_safe (X : List Nat) (hwf : IsBytes X)
    (hX : X.length < 1152921504606846976) (fuel : Nat) (c : cutter) (p : Nat)
    (hc : c.bits = cursorAt X p) (hp : p ≤ 8 * X.length)
    (hsl : c.lHuff.symbols.length = 288) (hsd : c.dHuff.symbols.length = 288)
    (lL dL : List Nat) (hlL : ∀ x ∈ lL, x ≤ 15) (hdL : ∀ x ∈ dL, x ≤ 15)
    (hl1 : lL.length ≤ 288) (hl2 : dL.length ≤ 32)
    (hM0 : 0 ≤ c.maxEncodedLen) (hM : c.maxEncodedLen ≤ X.length)
    (hfuel : 8 * X.length - p < fuel) :
    ∃ c1 err, c.doHuffman fuel lL dL = Run.ret (c1, err) ∧
      (err = none → ∃ q, p < q ∧ q ≤ 8 * X.length ∧ c1.bits = cursorAt X q ∧
        c1.lHuff.symbols.length = 288 ∧ c1.dHuff.symbols.length = 288) ∧
      (err = some errInternalSomeProgress →
        c1.bits.nBits ≤ 7 ∧ c1.bits.nBits ≤ 8 * c1.bits.index ∧
        ((8 * c1.bits.index - c1.bits.nBits : Nat) : Int) ≤ 8 * c.maxEncodedLen ∧
        c1.bits.bytes.length = X.length ∧ IsBytes c1.bits.bytes) := by
  unfold cutter.doHuffman
  obtain ⟨h1, ecb, ecn, err, a1, a2, a3, a4⟩ := construct_safe c.lHuff lL hsl hlL (by omega)
    (le_trans (filter_length_le lL) hl1)
  rw [a1]
  simp only
  by_cases g1 : err ≠ none
  · rw [if_pos g1]
    refine ⟨_, _, rfl, fun h => absurd h g1, fun h => ?_⟩
    rcases a3 with h3 | h3 <;> rw [h3] at h <;> simp at h
  rw [if_neg g1]
  have herr : err = none := by simpa using g1
  obtain ⟨t1, e15, _, _⟩ := a4 herr
  by_cases g2 : ecn = 0
  · rw [if_pos g2]
    exact ⟨_, _, rfl, fun h => by simp at h, fun h => by simp at h⟩
  rw [if_neg g2]
  obtain ⟨h2, ecb2, ecn2, err2, b1, b2, b3, b4⟩ := construct_safe c.dHuff dL hsd hdL (by omega)
    (le_trans (filter_length_le dL) (by omega))
  rw [b1]
  simp only
  by_cases g3 : err2 ≠ none
  · rw [if_pos g3]
    refine ⟨_, _, rfl, fun h => absurd h g3, fun h => ?_⟩
    rcases b3 with h3 | h3 <;> rw [h3] at h <;> simp at h
  rw [if_neg g3]
  have herr2 : err2 = none := by simpa using g3
  obtain ⟨t2, _, _, _⟩ := b4 herr2
  by_cases g4 : (c.bits.index : Int) > c.maxEncodedLen
  · rw [if_pos g4]
    exact ⟨_, _, rfl, fun h => by simp at h, fun h => by simp at h⟩
  rw [if_neg g4]
  obtain ⟨c1, e, z1, z2, z3⟩ := huffmanLoop_safe X hwf hX lL dL hl1 hl2 fuel
    { c with lHuff := h1, endCodeBits := ecb, endCodeNBits := ecn, dHuff := h2 } p hc hp t1 t2
    (by show 1 ≤ ecn; omega) e15 hM0 hM (-1) 0 (Or.inl (by decide)) c.decodedLen hfuel
  refine ⟨c1, e, z1, fun he => ?_, z3⟩
  obtain ⟨q, w1, w2, w3, w4, w5⟩ := z2 he
  exact ⟨q, w1, w2, w3, by rw [w4]; exact a2, by rw [w5]; exact b2⟩


theorem codeOrder_lt : ∀ i, i < 19 → codeOrder.getD i 0 < 19 := by decide

theorem mem_set_le (l : List Nat) (i v B : Nat) (h : ∀ x ∈ l, x ≤ B) (hv : v ≤ B) :
    ∀ x ∈ l.set i v, x ≤ B := by
  intro x hx
  rcases List.mem_or_eq_of_mem_set hx with h1 | h1
  · exact h x h1
  · omega

theorem toUint32_ofNat (v : Nat) (h : v < 4294967296) : toUint32 (v : Int) = v := by
  unfold toUint32
  omega

/-- The loop that reads the lengths of the code length code returns without a
run-time panic: the lengths are at most 7 and sit at the indices below 19. -/
theorem readCodeLengthLengths_safe (X : List Nat) (hwf : IsBytes X) (k i p : Nat)
    (hk : i + k ≤ 19) (hp : p ≤ 8 * X.length) (lengths : List Nat)
    (hlen : 19 ≤ lengths.length) (h7 : ∀ x ∈ lengths, x ≤ 7)
    (h19 : ∀ j, 19 ≤ j → lengths.getD j 0 = 0) :
    ∃ b1 l1 flag, readCodeLengthLengths k i (cursorAt X p) lengths = Run.ret (b1, l1, flag) ∧
      (flag = true → ∃ q, p ≤ q ∧ q ≤ 8 * X.length ∧ b1 = cursorAt X q ∧
        l1.length = lengths.length ∧ (∀ x ∈ l1, x ≤ 7) ∧ ∀ j, 19 ≤ j → l1.getD j 0 = 0) := by
  induction k generalizing i p lengths with
  | zero => exact ⟨_, _, _, rfl, fun _ => ⟨p, le_refl _, hp, rfl, rfl, h7, h19⟩⟩
  | succ k ih =>
    rw [readCodeLengthLengths]
    rcases take_cases X p 3 hwf (by omega) hp with ⟨t1, t2⟩ | ⟨t1, t2⟩
    · rw [t2]
      simp only
      have hv : bitsVal X p 3 < 8 := bitsVal_lt X p 3
      have hco := codeOrder_lt i (by omega)
      rw [if_neg (by omega), if_neg (by omega), if_neg (by omega),
        toUint32_ofNat _ (by omega)]
      obtain ⟨b1, l1, flag, a1, a2⟩ := ih (i + 1) (p + 3) (by omega) t1
        (lengths.set (codeOrder.getD i 0) (bitsVal X p 3)) (by simp; omega)
        (mem_set_le _ _ _ 7 h7 (by omega))
        (fun j hj => by
          rw [getD_set_eq_ite _ _ _ _ (by omega), if_neg (by omega)]
          exact h19 j hj)
      refine ⟨b1, l1, flag, a1, fun hf => ?_⟩
      obtain ⟨q, q1, q2, q3, q4, q5, q6⟩ := a2 hf
      exact ⟨q, by omega, q2, q3, by rw [q4]; simp, q5, q6⟩
    · rw [if_pos (by rw [t2]; decide)]
      exact ⟨_, _, _, rfl, fun h => by simp at h⟩

/-- The loop that repeats a length stays within the slice. -/
theorem repeatLength_spec (value B : Nat) (hv : value ≤ B) (count : Nat) (i : Int)
    (lengths : List Nat) (hi : 0 ≤ i) (hlen : i + count ≤ lengths.length)
    (hlen2 : lengths.length < 2147483648) (hB : ∀ x ∈ lengths, x ≤ B) :
    ∃ l1, repeatLength value count i lengths = some (l1, i + count) ∧
      l1.length = lengths.length ∧ ∀ x ∈ l1, x ≤ B := by
  induction count generalizing i lengths with
  | zero => exact ⟨lengths, by simp [repeatLength], rfl, hB⟩
  | succ count ih =>
    rw [repeatLength, if_pos ⟨hi, by omega⟩]
    have hw : wrap32 (i + 1) = i + 1 := wrap32_of_range (by omega) (by omega)
    rw [hw]
    obtain ⟨l1, a1, a2, a3⟩ := ih (i + 1) (lengths.set i.toNat value) (by omega)
      (by simp; omega) (by simpa using hlen2) (mem_set_le _ _ _ B hB hv)
    refine ⟨l1, ?_, by rw [a2]; simp, a3⟩
    rw [a1]
    congr 2
    push_cast
    omega


/-- The tail of a pass that repeats a length returns without a run-time panic. -/
theorem repeatTail_safe (c : cutter) (n i : Int) (lengths : List Nat) (value : Nat)
    (count : Int) (hv : value ≤ 15) (hi : 0 ≤ i) (hin : i < n) (hn : n = lengths.length)
    (hn2 : lengths.length ≤ 320) (hB : ∀ x ∈ lengths, x ≤ 15)
    (hc : count < 0 ∨ (1 ≤ count ∧ count ≤ 200)) :
    ∃ s, cutter.repeatTail c n i lengths value count = Run.ret s ∧
      ∀ c1 l1 i1, s = LengthStep.next c1 l1 i1 →
        c1 = c ∧ l1.length = lengths.length ∧ (∀ x ∈ l1, x ≤ 15) ∧ i < i1 ∧ i1 ≤ n := by
  unfold cutter.repeatTail
  rcases hc with hc | ⟨hc1, hc2⟩
  · rw [if_pos hc]
    exact ⟨_, rfl, fun _ _ _ h => by simp at h⟩
  · rw [if_neg (by omega)]
    have hw : wrap32 (i + count) = i + count := wrap32_of_range (by omega) (by omega)
    rw [hw]
    by_cases h1 : i + count > n
    · rw [if_pos h1]
      exact ⟨_, rfl, fun _ _ _ h => by simp at h⟩
    · rw [if_neg h1]
      obtain ⟨l1, a1, a2, a3⟩ := repeatLength_spec value 15 hv count.toNat i lengths hi
        (by omega) (by omega) hB
      rw [a1]
      refine ⟨_, rfl, fun c1 l2 i1 h => ?_⟩
      simp only [LengthStep.next.injEq] at h
      obtain ⟨e1, e2, e3⟩ := h
      subst e1 e2 e3
      exact ⟨rfl, a2, a3, by omega, by omega⟩

theorem readByte_some (l : List Nat) (i : Int) (h0 : 0 ≤ i) (h1 : i < l.length) :
    readByte l i = some (l.getD i.toNat 0) := by
  unfold readByte
  rw [if_pos ⟨h0, h1⟩]

theorem getD_le_of_forall (l : List Nat) (B : Nat) (h : ∀ x ∈ l, x ≤ B) (j : Nat) :
    l.getD j 0 ≤ B := by
  by_cases hj : j < l.length
  · rw [List.getD_eq_getElem _ _ hj]
    exact h _ (List.getElem_mem _)
  · rw [List.getD_eq_default _ _ (by omega)]
    omega

/-- One pass of the loop that reads the code lengths returns without a run-time
panic, and a pass that goes on has consumed at least one bit. -/
theorem readCodeLength_safe (c : cutter) (X : List Nat) (hwf : IsBytes X) (p : Nat)
    (hc : c.bits = cursorAt X p) (hp : p ≤ 8 * X.length) (CL : List Nat)
    (ht : TableOk c.lHuff CL) (h19 : ∀ j, 19 ≤ j → CL.getD j 0 = 0)
    (n i : Int) (lengths : List Nat) (hi : 0 ≤ i) (hin : i < n) (hn : n = lengths.length)
    (hn2 : lengths.length ≤ 320) (hB : ∀ x ∈ lengths, x ≤ 15) :
    ∃ s, c.readCodeLength n i lengths = Run.ret s ∧
      ∀ c1 l1 i1, s = LengthStep.next c1 l1 i1 →
        (∃ q, p < q ∧ q ≤ 8 * X.length ∧ c1 = { c with bits := cursorAt X q }) ∧
        l1.length = lengths.length ∧ (∀ x ∈ l1, x ≤ 15) ∧ i < i1 ∧ i1 ≤ n := by
  unfold cutter.readCodeLength
  rw [hc]
  rcases decode_safe c.lHuff CL ht X hwf p hp with ⟨q, d1, _, _⟩ | ⟨s, s1, s2, s3, _, d1⟩
  · rw [d1]
    simp only [Run.bind]
    rw [if_pos (by decide)]
    exact ⟨_, rfl, fun _ _ _ h => by simp at h⟩
  · rw [d1]
    simp only [Run.bind]
    have hs19 : s < 19 := by
      by_contra hh
      exact s2 (h19 s (by omega))
    have hpos : 0 < CL.getD s 0 := Nat.pos_of_ne_zero s2
    generalize hq : p + CL.getD s 0 = q at *
    rw [if_neg (by omega)]
    by_cases e16 : s = 16
    · subst e16
      rw [if_pos (show ((16 : Nat) : Int) = 16 from rfl)]
      by_cases i0 : i = 0
      · rw [if_pos i0]
        exact ⟨_, rfl, fun _ _ _ h => by simp at h⟩
      · rw [if_neg i0, readByte_some lengths (i - 1) (by omega) (by omega)]
        simp only
        have hv := getD_le_of_forall lengths 15 hB (i - 1).toNat
        rcases take_cases X q 2 hwf (by omega) s3 with ⟨t1, t2⟩ | ⟨t1, t2⟩
        · have hb : bitsVal X q 2 < 4 := bitsVal_lt X q 2
          obtain ⟨r, r1, r2⟩ := repeatTail_safe
            { c with bits := ((cursorAt X q).take 2).2 } n i lengths
            (lengths.getD (i - 1).toNat 0) (wrap32 (3 + ((cursorAt X q).take 2).1)) hv hi hin
            hn hn2 hB (Or.inr (by
              rw [t2]
              simp only
              rw [wrap32_of_range (by omega) (by omega)]
              omega))
          refine ⟨r, r1, fun c1 l1 i1 h => ?_⟩
          obtain ⟨u1, u2, u3, u4, u5⟩ := r2 c1 l1 i1 h
          refine ⟨⟨q + 2, by omega, t1, ?_⟩, u2, u3, u4, u5⟩
          rw [u1, t2]
        · obtain ⟨r, r1, r2⟩ := repeatTail_safe
            { c with bits := ((cursorAt X q).take 2).2 } n i lengths
            (lengths.getD (i - 1).toNat 0) (wrap32 (3 + ((cursorAt X q).take 2).1)) hv hi hin
            hn hn2 hB (Or.inl (by rw [t2]; decide))
          refine ⟨r, r1, fun c1 l1 i1 h => ?_⟩
          exfalso
          unfold cutter.repeatTail at r1
          rw [if_pos (by rw [t2]; decide)] at r1
          rw [h] at r1
          simp at r1
    · have n16 : ¬ ((s : Int) = 16) := by omega
      rw [if_neg n16]
      by_cases e17 : s = 17
      · subst e17
        rw [if_pos (show ((17 : Nat) : Int) = 17 from rfl)]
        rcases take_cases X q 3 hwf (by omega) s3 with ⟨t1, t2⟩ | ⟨t1, t2⟩
        · have hb : bitsVal X q 3 < 8 := bitsVal_lt X q 3
          obtain ⟨r, r1, r2⟩ := repeatTail_safe
            { c with bits := ((cursorAt X q).take 3).2 } n i lengths
            0 (wrap32 (3 + ((cursorAt X q).take 3).1)) (by omega) hi hin
            hn hn2 hB (Or.inr (by
              rw [t2]
              simp only
              rw [wrap32_of_range (by omega) (by omega)]
              omega))
          refine ⟨r, r1, fun c1 l1 i1 h => ?_⟩
          obtain ⟨u1, u2, u3, u4, u5⟩ := r2 c1 l1 i1 h
          refine ⟨⟨q + 3, by omega, t1, ?_⟩, u2, u3, u4, u5⟩
          rw [u1, t2]
        · obtain ⟨r, r1, r2⟩ := repeatTail_safe
            { c with bits := ((cursorAt X q).take 3).2 } n i lengths
            0 (wrap32 (3 + ((cursorAt X q).take 3).1)) (by omega) hi hin
            hn hn2 hB (Or.inl (by rw [t2]; decide))
          refine ⟨r, r1, fun c1 l1 i1 h => ?_⟩
          exfalso
          unfold cutter.repeatTail at r1
          rw [if_pos (by rw [t2]; decide)] at r1
          rw [h] at r1
          simp at r1
      · have n17 : ¬ ((s : Int) = 17) := by omega
        rw [if_neg n17]
        by_cases e18 : s = 18
        · subst e18
          rw [if_pos (show ((18 : Nat) : Int) = 18 from rfl)]
          rcases take_cases X q 7 hwf (by omega) s3 with ⟨t1, t2⟩ | ⟨t1, t2⟩
          · have hb : bitsVal X q 7 < 128 := bitsVal_lt X q 7
            obtain ⟨r, r1, r2⟩ := repeatTail_safe
              { c with bits := ((cursorAt X q).take 7).2 } n i lengths
              0 (wrap32 (11 + ((cursorAt X q).take 7).1)) (by omega) hi hin
              hn hn2 hB (Or.inr (by
                rw [t2]
                simp only
                rw [wrap32_of_range (by omega) (by omega)]
                omega))
            refine ⟨r, r1, fun c1 l1 i1 h => ?_⟩
            obtain ⟨u1, u2, u3, u4, u5⟩ := r2 c1 l1 i1 h
            refine ⟨⟨q + 7, by omega, t1, ?_⟩, u2, u3, u4, u5⟩
            rw [u1, t2]
          · obtain ⟨r, r1, r2⟩ := repeatTail_safe
              { c with bits := ((cursorAt X q).take 7).2 } n i lengths
              0 (wrap32 (11 + ((cursorAt X q).take 7).1)) (by omega) hi hin
              hn hn2 hB (Or.inl (by rw [t2]; decide))
            refine ⟨r, r1, fun c1 l1 i1 h => ?_⟩
            exfalso
            unfold cutter.repeatTail at r1
            rw [if_pos (by rw [t2]; decide)] at r1
            rw [h] at r1
            simp at r1
        · have n18 : ¬ ((s : Int) = 18) := by omega
          rw [if_neg n18, if_pos ⟨hi, by omega⟩]
          refine ⟨_, rfl, fun c1 l1 i1 h => ?_⟩
          simp only [LengthStep.next.injEq] at h
          obtain ⟨e1, e2, e3⟩ := h
          subst e1 e2 e3
          rw [toUint32_ofNat _ (by omega), wrap32_of_range (by omega) (by omega)]
          exact ⟨⟨q, by omega, s3, rfl⟩, by simp,
            mem_set_le _ _ _ 15 hB (by omega), by omega, by omega⟩


theorem repeatTail_stop (c : cutter) (n i : Int) (lengths : List Nat) (value : Nat)
    (count : Int) (c1 : cutter) (l1 : List Nat) (err : Error)
    (e : cutter.repeatTail c n i lengths value count = Run.ret (LengthStep.stop c1 l1 err)) :
    err ≠ errInternalSomeProgress := by
  unfold cutter.repeatTail at e
  split_ifs at e
  · simp only [Run.ret.injEq, LengthStep.stop.injEq] at e
    rw [← e.2.2]
    decide
  · simp only [Run.ret.injEq, LengthStep.stop.injEq] at e
    rw [← e.2.2]
    decide
  · cases h : repeatLength value count.toNat i lengths with
    | none => rw [h] at e; simp at e
    | some r => rw [h] at e; simp at e

theorem readCodeLength_stop (c : cutter) (n i : Int) (lengths : List Nat)
    (c1 : cutter) (l1 : List Nat) (err : Error)
    (e : c.readCodeLength n i lengths = Run.ret (LengthStep.stop c1 l1 err)) :
    err ≠ errInternalSomeProgress := by
  unfold cutter.readCodeLength at e
  cases hd : c.lHuff.decode c.bits with
  | panic => rw [hd] at e; simp [Run.bind] at e
  | outOfFuel => rw [hd] at e; simp [Run.bind] at e
  | ret r =>
    rw [hd] at e
    simp only [Run.bind] at e
    split_ifs at e
    · simp only [Run.ret.injEq, LengthStep.stop.injEq] at e
      rw [← e.2.2]
      decide
    · simp only [Run.ret.injEq, LengthStep.stop.injEq] at e
      rw [← e.2.2]
      decide
    · cases hb : readByte lengths (i - 1) with
      | none => rw [hb] at e; simp at e
      | some v =>
        rw [hb] at e
        exact repeatTail_stop _ _ _ _ _ _ _ _ _ e
    · exact repeatTail_stop _ _ _ _ _ _ _ _ _ e
    · exact repeatTail_stop _ _ _ _ _ _ _ _ _ e
    · simp at e

theorem readCodeLengths_err (fuel : Nat) (c : cutter) (n i : Int) (l : List Nat)
    (c1 : cutter) (l1 : List Nat) (err : Option Error)
    (e : c.readCodeLengths fuel n i l = Run.ret (c1, l1, err)) :
    err ≠ some errInternalSomeProgress := by
  induction fuel generalizing c i l with
  | zero => simp [cutter.readCodeLengths] at e
  | succ fuel ih =>
    rw [cutter.readCodeLengths] at e
    split_ifs at e
    · cases hs : c.readCodeLength n i l with
      | panic => rw [hs] at e; simp at e
      | outOfFuel => rw [hs] at e; simp at e
      | ret s =>
        rw [hs] at e
        cases s with
        | stop c2 l2 err2 =>
          simp only [Run.ret.injEq, Prod.mk.injEq] at e
          rw [← e.2.2]
          have := readCodeLength_stop _ _ _ _ _ _ _ hs
          intro h
          apply this
          simpa using h
        | next c2 l2 i2 => exact ih c2 i2 l2 e
    · simp only [Run.ret.injEq, Prod.mk.injEq] at e
      rw [← e.2.2]
      simp


theorem filter_length_le_of_zero_beyond (l : List Nat) (k : Nat)
    (h : ∀ j, k ≤ j → l.getD j 0 = 0) : (l.filter (fun x => x ≠ 0)).length ≤ k := by
  have e : l = l.take k ++ l.drop k := (List.take_append_drop k l).symm
  have hz : (l.drop k).filter (fun x => x ≠ 0) = [] := by
    rw [List.filter_eq_nil_iff]
    intro x hx
    obtain ⟨j, hj, rfl⟩ := List.getElem_of_mem hx
    have hj2 : k + j < l.length := by
      rw [List.length_drop] at hj
      omega
    have := h (k + j) (by omega)
    rw [List.getD_eq_getElem _ _ hj2] at this
    rw [List.getElem_drop]
    simp [this]
  rw [e, List.filter_append, hz, List.append_nil]
  exact le_trans (filter_length_le _) (by rw [List.length_take]; omega)

/-- The loop that reads the code lengths returns without a run-time panic when
the fuel exceeds the number of bits left. -/
theorem readCodeLengths_safe (X : List Nat) (hwf : IsBytes X) (CL : List Nat)
    (h19 : ∀ j, 19 ≤ j → CL.getD j 0 = 0) (n : Int) (fuel : Nat) (c : cutter) (p : Nat)
    (hc : c.bits = cursorAt X p) (hp : p ≤ 8 * X.length) (ht : TableOk c.lHuff CL)
    (i : Int) (lengths : List Nat) (hi : 0 ≤ i) (hn : n = lengths.length)
    (hn2 : lengths.length ≤ 320) (hB : ∀ x ∈ lengths, x ≤ 15)
    (hfuel : 8 * X.length - p < fuel) :
    ∃ c1 l1 err, c.readCodeLengths fuel n i lengths = Run.ret (c1, l1, err) ∧
      (err = none → ∃ q, p ≤ q ∧ q ≤ 8 * X.length ∧ c1 = { c with bits := cursorAt X q } ∧
        l1.length = lengths.length ∧ ∀ x ∈ l1, x ≤ 15) := by
  induction fuel generalizing c p i lengths with
  | zero => omega
  | succ fuel ih =>
    rw [cutter.readCodeLengths]
    by_cases hin : i < n
    · rw [if_pos hin]
      obtain ⟨s, s1, s2⟩ := readCodeLength_safe c X hwf p hc hp CL ht h19 n i lengths hi hin hn
        hn2 hB
      rw [s1]
      cases s with
      | stop c1 l1 err => exact ⟨_, _, _, rfl, fun h => by simp at h⟩
      | next c1 l1 i1 =>
        obtain ⟨⟨q, q1, q2, q3⟩, u2, u3, u4, u5⟩ := s2 c1 l1 i1 rfl
        subst q3
        obtain ⟨c2, l2, err, a1, a2⟩ := ih { c with bits := cursorAt X q } q rfl q2 ht i1 l1
          (by omega) (by omega) (by omega) u3 (by omega)
        refine ⟨c2, l2, err, a1, fun h => ?_⟩
        obtain ⟨q4, b1, b2, b3, b4, b5⟩ := a2 h
        exact ⟨q4, by omega, b2, b3, by omega, b5⟩
    · rw [if_neg hin]
      refine ⟨_, _, _, rfl, fun _ => ⟨p, le_refl _, hp, ?_, rfl, hB⟩⟩
      rw [← hc]

theorem mem_le_trans (l : List Nat) (a b : Nat) (h : ∀ x ∈ l, x ≤ a) (hab : a ≤ b) :
    ∀ x ∈ l, x ≤ b := fun x hx => le_trans (h x hx) hab

/-- The code of `doDynamicHuffman` after the three counts returns without a
run-time panic. -/
theorem doDynamicLengths_safe (X : List Nat) (hwf : IsBytes X)
    (hX : X.length < 1152921504606846976) (fuel : Nat) (c : cutter) (p : Nat)
    (hc : c.bits = cursorAt X p) (hp : p ≤ 8 * X.length)
    (hsl : c.lHuff.symbols.length = 288) (hsd : c.dHuff.symbols.length = 288)
    (nl nd nc : Int) (hnl : 257 ≤ nl ∧ nl ≤ 286) (hnd : 1 ≤ nd ∧ nd ≤ 30)
    (hnc : 4 ≤ nc ∧ nc ≤ 19)
    (hM0 : 0 ≤ c.maxEncodedLen) (hM : c.maxEncodedLen ≤ X.length)
    (hfuel : 8 * X.length - p < fuel) :
    ∃ c1 err, cutter.doDynamicLengths fuel c nl nd nc = Run.ret (c1, err) ∧
      (err = none → ∃ q, p < q ∧ q ≤ 8 * X.length ∧ c1.bits = cursorAt X q ∧
        c1.lHuff.symbols.length = 288 ∧ c1.dHuff.symbols.length = 288) ∧
      (err = some errInternalSomeProgress →
        c1.bits.nBits ≤ 7 ∧ c1.bits.nBits ≤ 8 * c1.bits.index ∧
        ((8 * c1.bits.index - c1.bits.nBits : Nat) : Int) ≤ 8 * c.maxEncodedLen ∧
        c1.bits.bytes.length = X.length ∧ IsBytes c1.bits.bytes) := by
  unfold cutter.doDynamicLengths
  have hw : wrap32 (nl + nd) = nl + nd := wrap32_of_range (by omega) (by omega)
  simp only [hw]
  rw [hc]
  obtain ⟨b1, l1, flag, a1, a2⟩ := readCodeLengthLengths_safe X hwf nc.toNat 0 p (by omega) hp
    (List.replicate (nl + nd).toNat 0) (by rw [List.length_replicate]; omega)
    (fun x hx => by rw [List.eq_of_mem_replicate hx]; omega)
    (fun j _ => getD_replicate_zero _ _)
  rw [a1]
  simp only [Run.bind]
  cases flag with
  | false =>
    rw [if_pos rfl]
    exact ⟨_, _, rfl, fun h => by simp at h, fun h => by simp at h⟩
  | true =>
    rw [if_neg (by decide)]
    obtain ⟨q, q1, q2, q3, q4, q5, q6⟩ := a2 rfl
    rw [List.length_replicate] at q4
    subst q3
    obtain ⟨h1, ecb, ecn, err, d1, d2, d3, d4⟩ := construct_safe c.lHuff l1 hsl
      (mem_le_trans l1 7 15 q5 (by omega)) (by omega)
      (le_trans (filter_length_le_of_zero_beyond l1 19 q6) (by omega))
    rw [d1]
    simp only [Run.bind]
    by_cases g1 : err ≠ none
    · rw [if_pos g1]
      refine ⟨_, _, rfl, fun h => absurd h g1, fun h => ?_⟩
      rcases d3 with d3 | d3
      · exact absurd d3 g1
      · rw [d3] at h
        simp at h
    · rw [if_neg g1]
      have g2 : err = none := not_not.mp g1
      obtain ⟨t1, _, _, _⟩ := d4 g2
      obtain ⟨c2, l2, err2, r1, r2⟩ := readCodeLengths_safe X hwf l1 q6 (nl + nd) fuel
        { c with bits := cursorAt X q, lHuff := h1 } q rfl q2 t1 0 l1 (le_refl _) (by omega)
        (by omega) (mem_le_trans l1 7 15 q5 (by omega)) (by omega)
      rw [r1]
      simp only [Run.bind]
      by_cases g3 : err2 ≠ none
      · rw [if_pos g3]
        refine ⟨_, _, rfl, fun h => absurd h g3, fun h => ?_⟩
        exact absurd h (readCodeLengths_err _ _ _ _ _ _ _ _ r1)
      · rw [if_neg g3]
        obtain ⟨q7, s1, s2, s3, s4, s5⟩ := r2 (not_not.mp g3)
        subst s3
        obtain ⟨c3, err3, w1, w2, w3⟩ := doHuffman_safe X hwf hX fuel
          { c with bits := cursorAt X q7, lHuff := h1 } q7 rfl s2 d2 hsd
          (l2.take nl.toNat) (l2.drop nl.toNat)
          (fun x hx => s5 x (List.mem_of_mem_take hx))
          (fun x hx => s5 x (List.mem_of_mem_drop hx))
          (by rw [List.length_take]; omega) (by rw [List.length_drop]; omega)
          hM0 hM (by omega)
        refine ⟨c3, err3, w1, fun h => ?_, w3⟩
        obtain ⟨q8, z1, z2, z3⟩ := w2 h
        exact ⟨q8, by omega, z2, z3⟩


theorem staticLengths_facts :
    (∀ x ∈ staticLengths.take 288, x ≤ 15) ∧ (∀ x ∈ staticLengths.drop 288, x ≤ 15) ∧
      (staticLengths.take 288).length ≤ 288 ∧ (staticLengths.drop 288).length ≤ 32 := by
  have h : ∀ x ∈ staticLengths, x ≤ 15 := by
    intro x hx
    unfold staticLengths at hx
    simp only [List.mem_append, List.mem_replicate] at hx
    omega
  have hl : staticLengths.length = 320 := by
    unfold staticLengths
    simp only [List.length_append, List.length_replicate]
  refine ⟨fun x hx => h x (List.mem_of_mem_take hx), fun x hx => h x (List.mem_of_mem_drop hx),
    ?_, ?_⟩
  · rw [List.length_take]
    omega
  · rw [List.length_drop]
    omega

/-- The method `doDynamicHuffman` returns without a run-time panic. -/
theorem doDynamicHuffman_safe (X : List Nat) (hwf : IsBytes X)
    (hX : X.length < 1152921504606846976) (fuel : Nat) (c : cutter) (p : Nat)
    (hc : c.bits = cursorAt X p) (hp : p ≤ 8 * X.length)
    (hsl : c.lHuff.symbols.length = 288) (hsd : c.dHuff.symbols.length = 288)
    (hM0 : 0 ≤ c.maxEncodedLen) (hM : c.maxEncodedLen ≤ X.length)
    (hfuel : 8 * X.length - p < fuel) :
    ∃ c1 err, c.doDynamicHuffman fuel = Run.ret (c1, err) ∧
      (err = none → ∃ q, p < q ∧ q ≤ 8 * X.length ∧ c1.bits = cursorAt X q ∧
        c1.lHuff.symbols.length = 288 ∧ c1.dHuff.symbols.length = 288) ∧
      (err = some errInternalSomeProgress →
        c1.bits.nBits ≤ 7 ∧ c1.bits.nBits ≤ 8 * c1.bits.index ∧
        ((8 * c1.bits.index - c1.bits.nBits : Nat) : Int) ≤ 8 * c.maxEncodedLen ∧
        c1.bits.bytes.length = X.length ∧ IsBytes c1.bits.bytes) := by
  unfold cutter.doDynamicHuffman
  rw [hc]
  have hneg : ∀ k : Int, 0 ≤ k → k ≤ 1000 → wrap32 (k + mostNegativeInt32) < 0 := by
    intro k h0 h1
    unfold wrap32 mostNegativeInt32
    omega
  rcases take_cases X p 5 hwf (by omega) hp with ⟨t1, t2⟩ | ⟨t1, t2⟩
  swap
  · simp only [t2]
    rw [if_pos (hneg 257 (by omega) (by omega))]
    exact ⟨_, _, rfl, fun h => by simp at h, fun h => by simp at h⟩
  rw [t2]
  simp only
  have hb1 : bitsVal X p 5 < 32 := bitsVal_lt X p 5
  rw [wrap32_of_range (by omega) (by omega), if_neg (by omega)]
  rcases take_cases X (p + 5) 5 hwf (by omega) t1 with ⟨u1, u2⟩ | ⟨u1, u2⟩
  swap
  · simp only [u2]
    rw [if_pos (hneg 1 (by omega) (by omega))]
    exact ⟨_, _, rfl, fun h => by simp at h, fun h => by simp at h⟩
  rw [u2]
  simp only
  have hb2 : bitsVal X (p + 5) 5 < 32 := bitsVal_lt X (p + 5) 5
  rw [wrap32_of_range (by omega) (by omega), if_neg (by omega)]
  rcases take_cases X (p + 5 + 5) 4 hwf (by omega) u1 with ⟨v1, v2⟩ | ⟨v1, v2⟩
  swap
  · simp only [v2]
    rw [if_pos (hneg 4 (by omega) (by omega))]
    exact ⟨_, _, rfl, fun h => by simp at h, fun h => by simp at h⟩
  rw [v2]
  simp only
  have hb3 : bitsVal X (p + 5 + 5) 4 < 16 := bitsVal_lt X (p + 5 + 5) 4
  rw [wrap32_of_range (by omega) (by omega), if_neg (by omega)]
  by_cases g : (257 + (bitsVal X p 5 : Int)) > 286 ∨ (1 + (bitsVal X (p + 5) 5 : Int)) > 30
  · rw [if_pos g]
    exact ⟨_, _, rfl, fun h => by simp at h, fun h => by simp at h⟩
  · rw [if_neg g]
    obtain ⟨c1, err, a1, a2, a3⟩ := doDynamicLengths_safe X hwf hX fuel
      { c with bits := cursorAt X (p + 5 + 5 + 4) } (p + 5 + 5 + 4) rfl v1 hsl hsd
      (257 + (bitsVal X p 5 : Int)) (1 + (bitsVal X (p + 5) 5 : Int))
      (4 + (bitsVal X (p + 5 + 5) 4 : Int)) (by omega) (by omega) (by omega) hM0 hM (by omega)
    refine ⟨c1, err, a1, fun h => ?_, a3⟩
    obtain ⟨q, q1, q2⟩ := a2 h
    exact ⟨q, by omega, q2⟩

/-- The method `doStaticHuffman` returns without a run-time panic. -/
theorem doStaticHuffman_safe (X : List Nat) (hwf : IsBytes X)
    (hX : X.length < 1152921504606846976) (fuel : Nat) (c : cutter) (p : Nat)
    (hc : c.bits = cursorAt X p) (hp : p ≤ 8 * X.length)
    (hsl : c.lHuff.symbols.length = 288) (hsd : c.dHuff.symbols.length = 288)
    (hM0 : 0 ≤ c.maxEncodedLen) (hM : c.maxEncodedLen ≤ X.length)
    (hfuel : 8 * X.length - p < fuel) :
    ∃ c1 err, c.doStaticHuffman fuel = Run.ret (c1, err) ∧
      (err = none → ∃ q, p < q ∧ q ≤ 8 * X.length ∧ c1.bits = cursorAt X q ∧
        c1.lHuff.symbols.length = 288 ∧ c1.dHuff.symbols.length = 288) ∧
      (err = some errInternalSomeProgress →
        c1.bits.nBits ≤ 7 ∧ c1.bits.nBits ≤ 8 * c1.bits.index ∧
        ((8 * c1.bits.index - c1.bits.nBits : Nat) : Int) ≤ 8 * c.maxEncodedLen ∧
        c1.bits.bytes.length = X.length ∧ IsBytes c1.bits.bytes) :=
  doHuffman_safe X hwf hX fuel c p hc hp hsl hsd _ _ staticLengths_facts.1
    staticLengths_facts.2.1 staticLengths_facts.2.2.1 staticLengths_facts.2.2.2 hM0 hM hfuel


/-- The method `doStored` returns without a run-time panic. -/
theorem doStored_safe (X : List Nat) (hwf : IsBytes X) (c : cutter) (p : Nat)
    (hc : c.bits = cursorAt X p)
    (hD : 0 ≤ c.decodedLen ∧ c.decodedLen < 2147483648)
    (hM : c.maxEncodedLen ≤ X.length) :
    ∃ c1 err, c.doStored = Run.ret (c1, err) ∧
      (err = none → ∃ q, p < q ∧ q ≤ 8 * X.length ∧ c1.bits = cursorAt X q ∧
        c1.lHuff = c.lHuff ∧ c1.dHuff = c.dHuff) ∧
      (err = some errInternalSomeProgress →
        c1.bits.nBits ≤ 7 ∧ c1.bits.nBits ≤ 8 * c1.bits.index ∧
        ((8 * c1.bits.index - c1.bits.nBits : Nat) : Int) ≤ 8 * c.maxEncodedLen ∧
        c1.bits.bytes.length = X.length) := by
  have hb : c.bits.bytes = X := by rw [hc]; rfl
  have hidx : c.bits.index = (p + 7) / 8 := by rw [hc]; rfl
  rw [doStored_eq c (by rw [hb]; exact hwf) hD (by rw [hb]; exact hM)]
  by_cases g1 : c.maxEncodedLen - c.bits.index < 4
  · rw [if_pos g1]
    exact ⟨_, _, rfl, fun h => by simp at h, fun h => by simp at h⟩
  rw [if_neg g1]
  by_cases g2 : le16 c.bits.bytes c.bits.index + le16 c.bits.bytes (c.bits.index + 2) ≠ 65535
  · rw [if_pos g2]
    exact ⟨_, _, rfl, fun h => by simp at h, fun h => by simp at h⟩
  rw [if_neg g2]
  by_cases g3 : 2147483648 ≤ c.decodedLen + le16 c.bits.bytes c.bits.index
  · rw [if_pos g3]
    exact ⟨_, _, rfl, fun h => by simp at h, fun h => by simp at h⟩
  rw [if_neg g3]
  by_cases g4 : (le16 c.bits.bytes c.bits.index : Int) ≤ c.maxEncodedLen - (c.bits.index + 4)
  · rw [if_pos g4]
    refine ⟨_, _, rfl, fun _ => ⟨8 * (c.bits.index + 4 + le16 c.bits.bytes c.bits.index),
      by omega, by omega, ?_, rfl, rfl⟩, fun h => by simp at h⟩
    rw [cursorAt_aligned]
    simp only [hb]
  rw [if_neg g4]
  by_cases g5 : c.maxEncodedLen - (c.bits.index + 4) = 0
  · rw [if_pos g5]
    exact ⟨_, _, rfl, fun h => by simp at h, fun h => by simp at h⟩
  rw [if_neg g5]
  refine ⟨_, _, rfl, fun h => by simp at h, fun _ => ⟨?_, ?_, ?_, ?_⟩⟩
  · show 0 ≤ 7
    omega
  · show 0 ≤ 8 * c.maxEncodedLen.toNat
    omega
  · show ((8 * c.maxEncodedLen.toNat - 0 : Nat) : Int) ≤ 8 * c.maxEncodedLen
    omega
  · show (setLe16 _ _ _).length = X.length
    rw [setLe16_length, setLe16_length, hb]


theorem cutEpilogue_safe (bytes : List Nat) (index : Int) (nBits : Nat) (d : Int)
    (h : nBits ≠ 0 → 1 ≤ index ∧ index ≤ bytes.length) :
    ∃ r, cutEpilogue bytes index nBits d = Run.ret r := by
  unfold cutEpilogue
  by_cases h0 : nBits ≠ 0
  · rw [if_pos h0]
    have := h h0
    unfold readByte
    rw [if_pos ⟨by omega, by omega⟩]
    exact ⟨_, rfl⟩
  · rw [if_neg h0]
    exact ⟨_, rfl⟩

theorem cutEmpty_safe (bytes : List Nat) (M : Int) (hM : 2 ≤ M) (hlen : 2 ≤ bytes.length) :
    ∃ r, cutEmpty bytes M = Run.ret r := by
  unfold cutEmpty SmallestValidMaxEncodedLen
  rw [if_neg (by omega), if_neg (by omega)]
  exact ⟨_, rfl⟩

theorem Run.map_ret_done (r : Run CutResult) (h : ∃ x, r = Run.ret x) :
    ∃ s, r.map CutStep.done = Run.ret s ∧
      ∀ c2 a b, s ≠ CutStep.again c2 a b := by
  obtain ⟨x, rfl⟩ := h
  exact ⟨CutStep.done x, rfl, fun _ _ _ h => by simp at h⟩

theorem afterBlock_none (c1 : cutter) (fb fbi : Int) (fbn : Nat) (pfi : Int) (pfn : Nat) :
    cutter.afterBlock c1 none fb fbi fbn pfi pfn =
      if fb = 0 then Run.ret (CutStep.again c1 fbi fbn)
      else (cutEpilogue c1.bits.bytes c1.bits.index c1.bits.nBits c1.decodedLen).map
        CutStep.done := rfl

theorem afterBlock_noProgress (c1 : cutter) (fb fbi : Int) (fbn : Nat) (pfi : Int)
    (pfn : Nat) :
    cutter.afterBlock c1 (some errInternalNoProgress) fb fbi fbn pfi pfn =
      if pfi < 0 then (cutEmpty c1.bits.bytes c1.maxEncodedLen).map CutStep.done
      else
        match setFinalBit c1.bits.bytes pfi pfn with
        | none => Run.panic
        | some bytes =>
          if u32 (fbn + 1) = 8 then
            (cutEpilogue bytes (fbi - 1) 0 c1.decodedLen).map CutStep.done
          else (cutEpilogue bytes fbi (u32 (fbn + 1)) c1.decodedLen).map CutStep.done := rfl

theorem afterBlock_someProgress (c1 : cutter) (fb fbi : Int) (fbn : Nat) (pfi : Int)
    (pfn : Nat) :
    cutter.afterBlock c1 (some errInternalSomeProgress) fb fbi fbn pfi pfn =
      match setFinalBit c1.bits.bytes fbi fbn with
      | none => Run.panic
      | some bytes =>
        (cutEpilogue bytes c1.bits.index c1.bits.nBits c1.decodedLen).map CutStep.done := rfl

/-- The statement `switch err` of `cut` and the code after the loop return without
a run-time panic. -/
theorem afterBlock_safe (X : List Nat) (c1 : cutter) (err : Option Error) (fb fbi : Int)
    (fbn : Nat) (pfi : Int) (pfn : Nat)
    (hlen : c1.bits.bytes.length = X.length)
    (hcur : err = none ∨ err = some errInternalSomeProgress →
      (c1.bits.nBits ≠ 0 → 1 ≤ (c1.bits.index : Int) ∧ (c1.bits.index : Int) ≤ X.length))
    (hM : 2 ≤ c1.maxEncodedLen) (hX : 2 ≤ X.length)
    (hf : 1 ≤ fbi ∧ fbi ≤ X.length ∧ fbn ≤ 7)
    (hpf : pfi < 0 ∨ (1 ≤ pfi ∧ pfi ≤ X.length ∧ pfn ≤ 7)) :
    ∃ s, cutter.afterBlock c1 err fb fbi fbn pfi pfn = Run.ret s ∧
      ∀ c2 a b, s = CutStep.again c2 a b → err = none ∧ c2 = c1 ∧ a = fbi ∧ b = fbn := by
  have hdone : ∀ r : Run CutResult, (∃ x, r = Run.ret x) →
      ∃ s, r.map CutStep.done = Run.ret s ∧
        ∀ c2 a b, s = CutStep.again c2 a b → err = none ∧ c2 = c1 ∧ a = fbi ∧ b = fbn := by
    intro r hr
    obtain ⟨s, s1, s2⟩ := Run.map_ret_done r hr
    exact ⟨s, s1, fun c2 a b h => absurd h (s2 c2 a b)⟩
  cases err with
  | none =>
    rw [afterBlock_none]
    by_cases g : fb = 0
    · rw [if_pos g]
      refine ⟨_, rfl, fun c2 a b h => ?_⟩
      simp only [CutStep.again.injEq] at h
      exact ⟨rfl, h.1.symm, h.2.1.symm, h.2.2.symm⟩
    · rw [if_neg g]
      exact hdone _ (cutEpilogue_safe _ _ _ _ (by rw [hlen]; exact hcur (Or.inl rfl)))
  | some e =>
    cases e with
    | errInternalNoProgress =>
      rw [afterBlock_noProgress]
      by_cases g : pfi < 0
      · rw [if_pos g]
        exact hdone _ (cutEmpty_safe _ _ hM (by omega))
      · rw [if_neg g]
        rcases hpf with hpf | hpf
        · exact absurd hpf g
        rw [setFinalBit_eq _ _ _ hpf.1 (by omega) hpf.2.2]
        simp only
        have hu : u32 (fbn + 1) = fbn + 1 := u32_of_lt (by omega)
        rw [hu]
        by_cases g8 : fbn + 1 = 8
        · rw [if_pos g8]
          exact hdone _ (cutEpilogue_safe _ _ _ _ (fun h => absurd rfl h))
        · rw [if_neg g8]
          exact hdone _ (cutEpilogue_safe _ _ _ _ (fun _ => by
            rw [List.length_set]
            omega))
    | errInternalSomeProgress =>
      rw [afterBlock_someProgress]
      rw [setFinalBit_eq _ _ _ hf.1 (by omega) hf.2.2]
      simp only
      exact hdone _ (cutEpilogue_safe _ _ _ _ (fun h => by
        rw [List.length_set, hlen]
        exact hcur (Or.inr rfl) h))
    | _ => exact ⟨_, rfl, fun _ _ _ h => by simp at h⟩


/-- The dispatch on the block type returns without a run-time panic. -/
theorem doBlock_safe (X : List Nat) (hwf : IsBytes X)
    (hX : X.length < 1152921504606846976) (fuel : Nat) (c : cutter) (p : Nat)
    (hc : c.bits = cursorAt X p) (hp : p ≤ 8 * X.length)
    (hsl : c.lHuff.symbols.length = 288) (hsd : c.dHuff.symbols.length = 288)
    (hD : 0 ≤ c.decodedLen ∧ c.decodedLen < 2147483648)
    (hM0 : 0 ≤ c.maxEncodedLen) (hM : c.maxEncodedLen ≤ X.length)
    (hfuel : 8 * X.length - p < fuel) (t : Int) :
    ∃ c1 err, c.doBlock fuel t = Run.ret (c1, err) ∧
      (err = none → ∃ q, p ≤ q ∧ q ≤ 8 * X.length ∧ c1.bits = cursorAt X q ∧
        c1.lHuff.symbols.length = 288 ∧ c1.dHuff.symbols.length = 288) ∧
      (err = some errInternalSomeProgress →
        c1.bits.nBits ≤ 7 ∧ c1.bits.nBits ≤ 8 * c1.bits.index ∧
        ((8 * c1.bits.index - c1.bits.nBits : Nat) : Int) ≤ 8 * c.maxEncodedLen ∧
        c1.bits.bytes.length = X.length) := by
  unfold cutter.doBlock
  by_cases g0 : t = 0
  · rw [if_pos g0]
    obtain ⟨c1, err, a1, a2, a3⟩ := doStored_safe X hwf c p hc hD hM
    refine ⟨c1, err, a1, fun h => ?_, a3⟩
    obtain ⟨q, q1, q2, q3, q4, q5⟩ := a2 h
    exact ⟨q, by omega, q2, q3, by rw [q4]; exact hsl, by rw [q5]; exact hsd⟩
  rw [if_neg g0]
  by_cases g1 : t = 1
  · rw [if_pos g1]
    obtain ⟨c1, err, a1, a2, a3⟩ := doStaticHuffman_safe X hwf hX fuel c p hc hp hsl hsd hM0 hM
      hfuel
    refine ⟨c1, err, a1, fun h => ?_, fun h => ?_⟩
    · obtain ⟨q, q1, q2⟩ := a2 h
      exact ⟨q, by omega, q2⟩
    · obtain ⟨z1, z2, z3, z4, _⟩ := a3 h
      exact ⟨z1, z2, z3, z4⟩
  rw [if_neg g1]
  by_cases g2 : t = 2
  · rw [if_pos g2]
    obtain ⟨c1, err, a1, a2, a3⟩ := doDynamicHuffman_safe X hwf hX fuel c p hc hp hsl hsd hM0 hM
      hfuel
    refine ⟨c1, err, a1, fun h => ?_, fun h => ?_⟩
    · obtain ⟨q, q1, q2⟩ := a2 h
      exact ⟨q, by omega, q2⟩
    · obtain ⟨z1, z2, z3, z4, _⟩ := a3 h
      exact ⟨z1, z2, z3, z4⟩
  rw [if_neg g2]
  exact ⟨_, _, rfl, fun _ => ⟨p, le_refl _, hp, hc, hsl, hsd⟩, fun h => by simp at h⟩

/-- One pass of the loop of `cut` returns without a run-time panic, and a pass
that goes on has consumed at least three bits and keeps the invariant. -/
theorem cutStep_safe (X : List Nat) (hwf : IsBytes X)
    (hX : X.length < 1152921504606846976) (fuel : Nat) (c : cutter) (p : Nat)
    (pfi : Int) (pfn : Nat)
    (hc : c.bits = cursorAt X p) (hp : p ≤ 8 * X.length)
    (hsl : c.lHuff.symbols.length = 288) (hsd : c.dHuff.symbols.length = 288)
    (hD : 0 ≤ c.decodedLen ∧ c.decodedLen < 2147483648)
    (hM0 : 2 ≤ c.maxEncodedLen) (hM : c.maxEncodedLen ≤ X.length)
    (hpf : pfi < 0 ∨ (1 ≤ pfi ∧ pfi ≤ X.length ∧ pfn ≤ 7))
    (hfuel : 8 * X.length < fuel) :
    ∃ s, c.cutStep fuel pfi pfn = Run.ret s ∧
      ∀ c1 fbi fbn, s = CutStep.again c1 fbi fbn →
        ∃ q, p < q ∧ q ≤ 8 * X.length ∧ c1.bits = cursorAt X q ∧
          c1.lHuff.symbols.length = 288 ∧ c1.dHuff.symbols.length = 288 ∧
          (0 ≤ c1.decodedLen ∧ c1.decodedLen < 2147483648) ∧
          c1.maxEncodedLen = c.maxEncodedLen ∧
          (1 ≤ fbi ∧ fbi ≤ X.length ∧ fbn ≤ 7) := by
  unfold cutter.cutStep
  rw [hc]
  rcases take_cases X p 1 hwf (by omega) hp with ⟨t1, t2⟩ | ⟨t1, t2⟩
  swap
  · simp only [t2]
    rw [if_pos (by decide)]
    exact ⟨_, rfl, fun _ _ _ h => by simp at h⟩
  rw [t2]
  simp only
  rw [if_neg (by omega)]
  rcases take_cases X (p + 1) 2 hwf (by omega) t1 with ⟨u1, u2⟩ | ⟨u1, u2⟩
  swap
  · simp only [u2]
    rw [if_pos (by decide)]
    exact ⟨_, rfl, fun _ _ _ h => by simp at h⟩
  rw [u2]
  simp only
  rw [if_neg (by omega)]
  by_cases g3 : (bitsVal X (p + 1) 2 : Int) = 3
  · rw [if_pos g3]
    exact ⟨_, rfl, fun _ _ _ h => by simp at h⟩
  rw [if_neg g3]
  obtain ⟨c1, err, a1, a2, a3⟩ := doBlock_safe X hwf hX fuel
    { c with bits := cursorAt X (p + 1 + 2) } (p + 1 + 2) rfl u1 hsl hsd hD
    (by show 0 ≤ c.maxEncodedLen; omega) hM (by omega) (bitsVal X (p + 1) 2 : Int)
  have hspec := doBlock_spec fuel _ c1 _ err a1 hwf hD.1 hD.2 hM
  obtain ⟨k1, k2, k3⟩ := cursorAt_index_nBits X (p + 1)
  have k4 := cursorAt_nBits_le X (p + 1)
  have hlen : c1.bits.bytes.length = X.length := by
    by_cases hsp : err = some errInternalSomeProgress
    · exact (a3 hsp).2.2.2
    · rw [doBlock_bytes fuel _ c1 _ err a1 hsp]
      rfl
  have hM1 : c1.maxEncodedLen = c.maxEncodedLen := hspec.2.2.1
  rw [a1]
  simp only [Run.bind]
  obtain ⟨s, s1, s2⟩ := afterBlock_safe X c1 err (bitsVal X p 1 : Int)
    ((cursorAt X (p + 1)).index : Int) (cursorAt X (p + 1)).nBits pfi pfn hlen
    (fun h hn => by
      rcases h with h | h
      · obtain ⟨q, q1, q2, q3, _⟩ := a2 h
        obtain ⟨m1, m2, m3⟩ := cursorAt_index_nBits X q
        rw [q3, m3]
        omega
      · obtain ⟨z1, z2, z3, _⟩ := a3 h
        have z4 : ((8 * c1.bits.index - c1.bits.nBits : Nat) : Int) ≤ 8 * (X.length : Int) := by
          have : c.maxEncodedLen ≤ (X.length : Int) := hM
          exact le_trans z3 (by omega)
        omega)
    (by rw [hM1]; exact hM0) (by omega) ⟨by omega, by omega, k4⟩ hpf
  refine ⟨s, s1, fun c2 fbi fbn h => ?_⟩
  obtain ⟨e1, e2, e3, e4⟩ := s2 c2 fbi fbn h
  subst e2 e3 e4
  obtain ⟨q, q1, q2, q3, q4, q5⟩ := a2 e1
  exact ⟨q, by omega, q2, q3, q4, q5, ⟨le_trans hD.1 hspec.1, hspec.2.1⟩, hM1,
    by omega, by omega, k4⟩

/-- The loop of `cut` returns without a run-time panic and within its fuel. -/
theorem cutLoop_safe (X : List Nat) (hwf : IsBytes X)
    (hX : X.length < 1152921504606846976) (fuel : Nat) (hfuel : 8 * X.length < fuel)
    (k : Nat) (c : cutter) (p : Nat) (pfi : Int) (pfn : Nat)
    (hc : c.bits = cursorAt X p) (hp : p ≤ 8 * X.length)
    (hsl : c.lHuff.symbols.length = 288) (hsd : c.dHuff.symbols.length = 288)
    (hD : 0 ≤ c.decodedLen ∧ c.decodedLen < 2147483648)
    (hM0 : 2 ≤ c.maxEncodedLen) (hM : c.maxEncodedLen ≤ X.length)
    (hpf : pfi < 0 ∨ (1 ≤ pfi ∧ pfi ≤ X.length ∧ pfn ≤ 7))
    (hk : 8 * X.length - p < k) :
    ∃ r, cutter.cutLoop fuel k c pfi pfn = Run.ret r := by
  induction k generalizing c p pfi pfn with
  | zero => omega
  | succ k ih =>
    obtain ⟨s, s1, s2⟩ := cutStep_safe X hwf hX fuel c p pfi pfn hc hp hsl hsd hD hM0 hM hpf
      hfuel
    cases s with
    | done r => exact ⟨r, cutLoop_done fuel k c pfi pfn r s1⟩
    | again c1 fbi fbn =>
      rw [cutLoop_again fuel k c pfi pfn c1 fbi fbn s1]
      obtain ⟨q, q1, q2, q3, q4, q5, q6, q7, q8⟩ := s2 c1 fbi fbn rfl
      exact ih c1 q fbi fbn q3 q2 q4 q5 q6 (by rw [q7]; exact hM0) (by rw [q7]; exact hM)
        (Or.inr q8) (by omega)

theorem clampMaxEncodedLen_le (X : List Nat) (M : Int) :
    clampMaxEncodedLen X M ≤ X.length := by
  unfold clampMaxEncodedLen
  simp only
  split_ifs <;> omega

/-- The function `Cut` returns, for every buffer of bytes and every budget: no
index is out of range, `cutEmpty` is not reached with arguments it rejects and
the fuel of the loops is enough. -/
theorem Cut_returns (X : List Nat) (M : Int) (hwf : IsBytes X)
    (hX : X.length < 1152921504606846976) : ∃ r, Cut X M = Run.ret r := by
  unfold Cut CutFuel SmallestValidMaxEncodedLen
  by_cases g1 : M < 2
  · rw [if_pos g1]
    exact ⟨_, rfl⟩
  rw [if_neg g1]
  by_cases g2 : clampMaxEncodedLen X M < 2
  · rw [if_pos g2]
    exact ⟨_, rfl⟩
  rw [if_neg g2]
  unfold cutter.cut
  exact cutLoop_safe X hwf hX _ (by omega) _ (cutter.start X (clampMaxEncodedLen X M)) 0 (-1) 0
    (by
      have := cursorAt_aligned X 0
      simp only [Nat.mul_zero] at this
      rw [this]
      rfl)
    (by omega) zero_symbols_length zero_symbols_length
    ⟨le_refl _, by show (0 : Int) < 2147483648; decide⟩
    (by show 2 ≤ clampMaxEncodedLen X M; omega) (clampMaxEncodedLen_le X M)
    (Or.inl (by decide)) (by omega)


/-- The loop of `writeEndCode` entered with at most 7 residual bits never
computes `7 - nBits` with `nBits` above 7. -/
theorem writeEndCodeLoopChecked_eq (ecb n : Nat) (b : bitstream) (h7 : b.nBits ≤ 7) :
    cutter.writeEndCodeLoopChecked ecb n b = cutter.writeEndCodeLoop ecb n b := by
  induction n generalizing b with
  | zero => rfl
  | succ j ih =>
    rw [cutter.writeEndCodeLoopChecked, cutter.writeEndCodeLoop]
    have h2 : sub32 (if b.nBits = 0 then ({ b with index := b.index + 1, nBits := 8 } : bitstream)
        else b).nBits 1 ≤ 7 := by
      by_cases h0 : b.nBits = 0
      · rw [if_pos h0]
        show sub32 8 1 ≤ 7
        decide
      · rw [if_neg h0, sub32_of_le (by omega) (by omega)]
        omega
    simp only
    rw [if_neg (by omega)]
    cases hr : readByte (if b.nBits = 0 then
        ({ b with index := b.index + 1, nBits := 8 } : bitstream) else b).bytes
      (((if b.nBits = 0 then ({ b with index := b.index + 1, nBits := 8 } : bitstream)
        else b).index : Int) - 1) with
    | none => rfl
    | some x =>
      simp only
      exact ih _ h2

theorem writeEndCodeChecked_eq (c : cutter) (h7 : c.bits.nBits ≤ 7) :
    c.writeEndCodeChecked = c.writeEndCode := by
  unfold cutter.writeEndCodeChecked cutter.writeEndCode
  rw [writeEndCodeLoopChecked_eq _ _ _ h7]

theorem afterBreakChecked_eq (c : cutter) (ci : Int) (cn : Nat) (h : ci < 0 ∨ cn ≤ 7) :
    c.afterBreakChecked ci cn = c.afterBreak ci cn := by
  unfold cutter.afterBreakChecked cutter.afterBreak
  by_cases g : ci < 0
  · rw [if_pos g, if_pos g]
  · rw [if_neg g, if_neg g, writeEndCodeChecked_eq _ (by
      show cn ≤ 7
      omega)]

theorem checkpointChecked_eq (c : cutter) (ci : Int) (cn : Nat) (d : Int)
    (h : ci < 0 ∨ cn ≤ 7) : c.checkpointChecked ci cn d = c.checkpoint ci cn d := by
  unfold cutter.checkpointChecked cutter.checkpoint
  rw [afterBreakChecked_eq c ci cn h]

theorem huffmanStepChecked_eq (c : cutter) (ci : Int) (cn : Nat) (d : Int)
    (h : ci < 0 ∨ cn ≤ 7) : c.huffmanStepChecked ci cn d = c.huffmanStep ci cn d := by
  unfold cutter.huffmanStepChecked cutter.huffmanStep
  congr 1
  funext s
  cases s with
  | stop c1 err => rfl
  | next c1 d1 => exact checkpointChecked_eq c1 ci cn d1 h

theorem setFinalBitChecked_eq (bytes : List Nat) (i : Int) (n : Nat) (h : n ≤ 7) :
    setFinalBitChecked bytes i n = setFinalBit bytes i n := by
  unfold setFinalBitChecked
  rw [if_neg (by omega)]

theorem cutEpilogueChecked_eq (bytes : List Nat) (i : Int) (n : Nat) (d : Int) (h : n ≤ 8) :
    cutEpilogueChecked bytes i n d = cutEpilogue bytes i n d := by
  unfold cutEpilogueChecked
  rw [if_neg (by omega)]


/-- The loop of `doHuffman` never reaches `writeEndCode` with a checkpoint of
more than 7 residual bits. -/
theorem huffmanLoopChecked_eq (X : List Nat) (hwf : IsBytes X)
    (hX : X.length < 1152921504606846976) (L1 L2 : List Nat) (hl1 : L1.length ≤ 288)
    (hl2 : L2.length ≤ 32) (fuel : Nat) (c : cutter) (p : Nat)
    (hc : c.bits = cursorAt X p) (hp : p ≤ 8 * X.length)
    (ht1 : TableOk c.lHuff L1) (ht2 : TableOk c.dHuff L2)
    (he1 : 1 ≤ c.endCodeNBits) (he2 : c.endCodeNBits ≤ 15)
    (hM0 : 0 ≤ c.maxEncodedLen) (hM : c.maxEncodedLen ≤ X.length) (ci : Int) (cn : Nat)
    (ck : ci < 0 ∨ (0 ≤ ci ∧ cn ≤ 7 ∧ cn ≤ 8 * ci.toNat ∧
      ((8 * ci.toNat - cn + c.endCodeNBits : Nat) : Int) ≤ 8 * c.maxEncodedLen)) (d : Int) :
    c.huffmanLoopChecked fuel ci cn d = c.huffmanLoop fuel ci cn d := by
  induction fuel generalizing c p ci cn d with
  | zero => rfl
  | succ fuel ih =>
    have hck : ci < 0 ∨ cn ≤ 7 := by
      rcases ck with h | h
      · exact Or.inl h
      · exact Or.inr h.2.1
    rw [cutter.huffmanLoopChecked, cutter.huffmanLoop, huffmanStepChecked_eq _ _ _ _ hck]
    unfold cutter.huffmanStep
    obtain ⟨s, r1, r2, r3⟩ := readSymbol_safe c X p hwf hc hp L1 L2 ht1 hl1 ht2 hl2 d
    rw [r1, Run.bind_ret]
    cases s with
    | stop c1 err => rfl
    | next c1 d1 =>
      simp only
      obtain ⟨q, q1, q2, q3⟩ := r3 c1 d1 rfl
      subst q3
      obtain ⟨s2, k1, k2, k3⟩ := checkpoint_safe { c with bits := cursorAt X q } X q hwf rfl q2
        hX he1 he2 hM0 hM ci cn ck d1
      rw [k1]
      cases s2 with
      | exit c2 err => rfl
      | again c2 i n d' =>
        simp only
        obtain ⟨y1, y2, y3, y4, y5, y6⟩ := k3 c2 i n d' rfl
        subst y1
        exact ih { c with bits := cursorAt X q, decodedLen := d1 } q rfl q2 ht1 ht2 he1 he2
          hM0 hM i n (Or.inr ⟨y3, y4, y5, y6⟩) d'

/-- The method `doHuffman`: the shift amount of `writeEndCode` does not wrap
around. -/
theorem doHuffmanChecked_eq (X : List Nat) (hwf : IsBytes X)
    (hX : X.length < 1152921504606846976) (fuel : Nat) (c : cutter) (p : Nat)
    (hc : c.bits = cursorAt X p) (hp : p ≤ 8 * X.length)
    (hsl : c.lHuff.symbols.length = 288) (hsd : c.dHuff.symbols.length = 288)
    (lL dL : List Nat) (hlL : ∀ x ∈ lL, x ≤ 15) (hdL : ∀ x ∈ dL, x ≤ 15)
    (hl1 : lL.length ≤ 288) (hl2 : dL.length ≤ 32)
    (hM0 : 0 ≤ c.maxEncodedLen) (hM : c.maxEncodedLen ≤ X.length) :
    c.doHuffmanChecked fuel lL dL = c.doHuffman fuel lL dL := by
  unfold cutter.doHuffmanChecked cutter.doHuffman
  obtain ⟨h1, ecb, ecn, err, a1, a2, a3, a4⟩ := construct_safe c.lHuff lL hsl hlL (by omega)
    (le_trans (filter_length_le lL) hl1)
  rw [a1]
  simp only
  by_cases g1 : err ≠ none
  · rw [if_pos g1, if_pos g1]
  rw [if_neg g1, if_neg g1]
  have herr : err = none := by simpa using g1
  obtain ⟨t1, e15, _, _⟩ := a4 herr
  by_cases g2 : ecn = 0
  · rw [if_pos g2, if_pos g2]
  rw [if_neg g2, if_neg g2]
  obtain ⟨h2, ecb2, ecn2, err2, b1, b2, b3, b4⟩ := construct_safe c.dHuff dL hsd hdL (by omega)
    (le_trans (filter_length_le dL) (by omega))
  rw [b1]
  simp only
  by_cases g3 : err2 ≠ none
  · rw [if_pos g3, if_pos g3]
  rw [if_neg g3, if_neg g3]
  have herr2 : err2 = none := by simpa using g3
  obtain ⟨t2, _, _, _⟩ := b4 herr2
  by_cases g4 : (c.bits.index : Int) > c.maxEncodedLen
  · rw [if_pos g4, if_pos g4]
  rw [if_neg g4, if_neg g4]
  exact huffmanLoopChecked_eq X hwf hX lL dL hl1 hl2 fuel
    { c with lHuff := h1, endCodeBits := ecb, endCodeNBits := ecn, dHuff := h2 } p hc hp t1 t2
    (by show 1 ≤ ecn; omega) e15 hM0 hM (-1) 0 (Or.inl (by decide)) c.decodedLen

theorem doStaticHuffmanChecked_eq (X : List Nat) (hwf : IsBytes X)
    (hX : X.length < 1152921504606846976) (fuel : Nat) (c : cutter) (p : Nat)
    (hc : c.bits = cursorAt X p) (hp : p ≤ 8 * X.length)
    (hsl : c.lHuff.symbols.length = 288) (hsd : c.dHuff.symbols.length = 288)
    (hM0 : 0 ≤ c.maxEncodedLen) (hM : c.maxEncodedLen ≤ X.length) :
    c.doStaticHuffmanChecked fuel = c.doStaticHuffman fuel :=
  doHuffmanChecked_eq X hwf hX fuel c p hc hp hsl hsd _ _ staticLengths_facts.1
    staticLengths_facts.2.1 staticLengths_facts.2.2.1 staticLengths_facts.2.2.2 hM0 hM


theorem doDynamicLengthsChecked_eq (X : List Nat) (hwf : IsBytes X)
    (hX : X.length < 1152921504606846976) (fuel : Nat) (c : cutter) (p : Nat)
    (hc : c.bits = cursorAt X p) (hp : p ≤ 8 * X.length)
    (hsl : c.lHuff.symbols.length = 288) (hsd : c.dHuff.symbols.length = 288)
    (nl nd nc : Int) (hnl : 257 ≤ nl ∧ nl ≤ 286) (hnd : 1 ≤ nd ∧ nd ≤ 30)
    (hnc : 4 ≤ nc ∧ nc ≤ 19)
    (hM0 : 0 ≤ c.maxEncodedLen) (hM : c.maxEncodedLen ≤ X.length)
    (hfuel : 8 * X.length - p < fuel) :
    cutter.doDynamicLengthsChecked fuel c nl nd nc = cutter.doDynamicLengths fuel c nl nd nc := by
  unfold cutter.doDynamicLengthsChecked cutter.doDynamicLengths
  have hw : wrap32 (nl + nd) = nl + nd := wrap32_of_range (by omega) (by omega)
  simp only [hw]
  rw [hc]
  obtain ⟨b1, l1, flag, a1, a2⟩ := readCodeLengthLengths_safe X hwf nc.toNat 0 p (by omega) hp
    (List.replicate (nl + nd).toNat 0) (by rw [List.length_replicate]; omega)
    (fun x hx => by rw [List.eq_of_mem_replicate hx]; omega)
    (fun j _ => getD_replicate_zero _ _)
  rw [a1]
  simp only [Run.bind]
  cases flag with
  | false => rw [if_pos rfl, if_pos rfl]
  | true =>
    rw [if_neg (by decide), if_neg (by decide)]
    obtain ⟨q, q1, q2, q3, q4, q5, q6⟩ := a2 rfl
    rw [List.length_replicate] at q4
    subst q3
    obtain ⟨h1, ecb, ecn, err, d1, d2, d3, d4⟩ := construct_safe c.lHuff l1 hsl
      (mem_le_trans l1 7 15 q5 (by omega)) (by omega)
      (le_trans (filter_length_le_of_zero_beyond l1 19 q6) (by omega))
    rw [d1]
    simp only [Run.bind]
    by_cases g1 : err ≠ none
    · rw [if_pos g1, if_pos g1]
    · rw [if_neg g1, if_neg g1]
      have g2 : err = none := not_not.mp g1
      obtain ⟨t1, _, _, _⟩ := d4 g2
      obtain ⟨c2, l2, err2, r1, r2⟩ := readCodeLengths_safe X hwf l1 q6 (nl + nd) fuel
        { c with bits := cursorAt X q, lHuff := h1 } q rfl q2 t1 0 l1 (le_refl _) (by omega)
        (by omega) (mem_le_trans l1 7 15 q5 (by omega)) (by omega)
      rw [r1]
      simp only [Run.bind]
      by_cases g3 : err2 ≠ none
      · rw [if_pos g3, if_pos g3]
      · rw [if_neg g3, if_neg g3]
        obtain ⟨q7, s1, s2, s3, s4, s5⟩ := r2 (not_not.mp g3)
        subst s3
        exact doHuffmanChecked_eq X hwf hX fuel
          { c with bits := cursorAt X q7, lHuff := h1 } q7 rfl s2 d2 hsd
          (l2.take nl.toNat) (l2.drop nl.toNat)
          (fun x hx => s5 x (List.mem_of_mem_take hx))
          (fun x hx => s5 x (List.mem_of_mem_drop hx))
          (by rw [List.length_take]; omega) (by rw [List.length_drop]; omega)
          hM0 hM

theorem header_count_range (b v : Nat) (hb : b ≤ 257) (hv : v < 32) :
    wrap32 ((b : Int) + (v : Int)) = (b : Int) + (v : Int) ∧ ¬ ((b : Int) + (v : Int) < 0) := by
  unfold wrap32
  omega

theorem header_count_eof (b : Nat) (hb : b ≤ 257) : wrap32 ((b : Int) + mostNegativeInt32) < 0 := by
  unfold wrap32 mostNegativeInt32
  omega

theorem header_counts_ok (a b d : Nat) (ha : a < 32) (hb : b < 32) (hd : d < 16)
    (g : ¬ (((257 : Nat) : Int) + (a : Int) > 286 ∨ ((1 : Nat) : Int) + (b : Int) > 30)) :
    (257 ≤ ((257 : Nat) : Int) + (a : Int) ∧ ((257 : Nat) : Int) + (a : Int) ≤ 286) ∧
      (1 ≤ ((1 : Nat) : Int) + (b : Int) ∧ ((1 : Nat) : Int) + (b : Int) ≤ 30) ∧
      (4 ≤ ((4 : Nat) : Int) + (d : Int) ∧ ((4 : Nat) : Int) + (d : Int) ≤ 19) := by
  omega

theorem fuel_le (a p q fuel : Nat) (h : a - p < fuel) (hq : p ≤ q) : a - q < fuel := by
  omega

theorem doDynamicHuffmanChecked_eq (X : List Nat) (hwf : IsBytes X)
    (hX : X.length < 1152921504606846976) (fuel : Nat) (c : cutter) (p : Nat)
    (hc : c.bits = cursorAt X p) (hp : p ≤ 8 * X.length)
    (hsl : c.lHuff.symbols.length = 288) (hsd : c.dHuff.symbols.length = 288)
    (hM0 : 0 ≤ c.maxEncodedLen) (hM : c.maxEncodedLen ≤ X.length)
    (hfuel : 8 * X.length - p < fuel) :
    c.doDynamicHuffmanChecked fuel = c.doDynamicHuffman fuel := by
  unfold cutter.doDynamicHuffmanChecked cutter.doDynamicHuffman
  rw [hc]
  have c257 : (257 : Int) = ((257 : Nat) : Int) := rfl
  have c1 : (1 : Int) = ((1 : Nat) : Int) := rfl
  have c4 : (4 : Int) = ((4 : Nat) : Int) := rfl
  rw [c257, c1, c4]
  rcases take_cases X p 5 hwf (by decide) hp with ⟨t1, t2⟩ | ⟨t1, t2⟩
  swap
  · simp only [t2, if_pos (header_count_eof 257 (le_refl _))]
  have hb1 : bitsVal X p 5 < 32 := bitsVal_lt X p 5
  have w1 := header_count_range 257 _ (le_refl _) hb1
  simp only [t2, w1.1, if_neg w1.2]
  clear w1
  rcases take_cases X (p + 5) 5 hwf (by decide) t1 with ⟨u1, u2⟩ | ⟨u1, u2⟩
  swap
  · simp only [u2, if_pos (header_count_eof 1 (by decide))]
  have hb2 : bitsVal X (p + 5) 5 < 32 := bitsVal_lt X (p + 5) 5
  have w2 := header_count_range 1 _ (by decide) hb2
  simp only [u2, w2.1, if_neg w2.2]
  clear w2
  rcases take_cases X (p + 5 + 5) 4 hwf (by decide) u1 with ⟨v1, v2⟩ | ⟨v1, v2⟩
  swap
  · simp only [v2, if_pos (header_count_eof 4 (by decide))]
  have hb3 : bitsVal X (p + 5 + 5) 4 < 16 := bitsVal_lt X (p + 5 + 5) 4
  have w3 := header_count_range 4 _ (by decide) (lt_trans hb3 (by decide))
  simp only [v2, w3.1, if_neg w3.2]
  clear w3
  by_cases g : (((257 : Nat) : Int) + (bitsVal X p 5 : Int)) > 286 ∨
      (((1 : Nat) : Int) + (bitsVal X (p + 5) 5 : Int)) > 30
  · simp only [if_pos g]
  · simp only [if_neg g]
    obtain ⟨r1, r2, r3⟩ := header_counts_ok _ _ _ hb1 hb2 hb3 g
    exact doDynamicLengthsChecked_eq X hwf hX fuel
      { c with bits := cursorAt X (p + 5 + 5 + 4) } (p + 5 + 5 + 4) rfl v1 hsl hsd
      _ _ _ r1 r2 r3 hM0 hM
      (fuel_le _ _ _ _ hfuel (Nat.le_add_right_of_le (Nat.le_add_right_of_le
        (Nat.le_add_right p 5))))

theorem doBlockChecked_eq (X : List Nat) (hwf : IsBytes X)
    (hX : X.length < 1152921504606846976) (fuel : Nat) (c : cutter) (p : Nat)
    (hc : c.bits = cursorAt X p) (hp : p ≤ 8 * X.length)
    (hsl : c.lHuff.symbols.length = 288) (hsd : c.dHuff.symbols.length = 288)
    (hM0 : 0 ≤ c.maxEncodedLen) (hM : c.maxEncodedLen ≤ X.length)
    (hfuel : 8 * X.length - p < fuel) (t : Int) :
    c.doBlockChecked fuel t = c.doBlock fuel t := by
  unfold cutter.doBlockChecked cutter.doBlock
  rw [doStaticHuffmanChecked_eq X hwf hX fuel c p hc hp hsl hsd hM0 hM,
    doDynamicHuffmanChecked_eq X hwf hX fuel c p hc hp hsl hsd hM0 hM hfuel]


theorem afterBlockChecked_none (c1 : cutter) (fb fbi : Int) (fbn : Nat) (pfi : Int)
    (pfn : Nat) :
    cutter.afterBlockChecked c1 none fb fbi fbn pfi pfn =
      if fb = 0 then Run.ret (CutStep.again c1 fbi fbn)
      else (cutEpilogueChecked c1.bits.bytes c1.bits.index c1.bits.nBits c1.decodedLen).map
        CutStep.done := rfl

theorem afterBlockChecked_noProgress (c1 : cutter) (fb fbi : Int) (fbn : Nat) (pfi : Int)
    (pfn : Nat) :
    cutter.afterBlockChecked c1 (some errInternalNoProgress) fb fbi fbn pfi pfn =
      if pfi < 0 then (cutEmpty c1.bits.bytes c1.maxEncodedLen).map CutStep.done
      else
        match setFinalBitChecked c1.bits.bytes pfi pfn with
        | none => Run.panic
        | some bytes =>
          if u32 (fbn + 1) = 8 then
            (cutEpilogueChecked bytes (fbi - 1) 0 c1.decodedLen).map CutStep.done
          else
            (cutEpilogueChecked bytes fbi (u32 (fbn + 1)) c1.decodedLen).map CutStep.done :=
  rfl

theorem afterBlockChecked_someProgress (c1 : cutter) (fb fbi : Int) (fbn : Nat) (pfi : Int)
    (pfn : Nat) :
    cutter.afterBlockChecked c1 (some errInternalSomeProgress) fb fbi fbn pfi pfn =
      match setFinalBitChecked c1.bits.bytes fbi fbn with
      | none => Run.panic
      | some bytes =>
        (cutEpilogueChecked bytes c1.bits.index c1.bits.nBits c1.decodedLen).map
          CutStep.done := rfl

theorem u32_succ_le_8 (n : Nat) (h : n ≤ 7) : u32 (n + 1) ≤ 8 := by
  unfold u32
  omega

/-- The statement `switch err` of `cut` and the code after the loop: the shift
amounts `7 - finalBlockNBits` and `8 - c.bits.nBits` do not wrap around when
the bit counts handed over are at most 7. -/
theorem afterBlockChecked_eq (c1 : cutter) (err : Option Error) (fb fbi : Int) (fbn : Nat)
    (pfi : Int) (pfn : Nat) (h1 : fbn ≤ 7) (h2 : pfi < 0 ∨ pfn ≤ 7)
    (h3 : err = none ∨ err = some errInternalSomeProgress → c1.bits.nBits ≤ 8) :
    cutter.afterBlockChecked c1 err fb fbi fbn pfi pfn =
      cutter.afterBlock c1 err fb fbi fbn pfi pfn := by
  cases err with
  | none =>
    rw [afterBlockChecked_none, afterBlock_none, cutEpilogueChecked_eq _ _ _ _ (h3 (Or.inl rfl))]
  | some e =>
    cases e with
    | errInternalNoProgress =>
      rw [afterBlockChecked_noProgress, afterBlock_noProgress]
      by_cases g : pfi < 0
      · rw [if_pos g, if_pos g]
      · rw [if_neg g, if_neg g]
        rcases h2 with h2 | h2
        · exact absurd h2 g
        rw [setFinalBitChecked_eq _ _ _ h2]
        cases setFinalBit c1.bits.bytes pfi pfn with
        | none => rfl
        | some bytes =>
          simp only
          rw [cutEpilogueChecked_eq _ _ _ _ (Nat.zero_le 8),
            cutEpilogueChecked_eq _ _ _ _ (u32_succ_le_8 fbn h1)]
    | errInternalSomeProgress =>
      rw [afterBlockChecked_someProgress, afterBlock_someProgress,
        setFinalBitChecked_eq _ _ _ h1]
      cases setFinalBit c1.bits.bytes fbi fbn with
      | none => rfl
      | some bytes =>
        simp only
        rw [cutEpilogueChecked_eq _ _ _ _ (h3 (Or.inr rfl))]
    | _ => rfl


theorem ofNat_not_neg (n : Nat) : ¬ ((n : Int) < 0) := by omega

theorem sentinel_neg : mostNegativeInt32 < 0 := by decide

/-- One pass of the loop of `cut`: no shift amount wraps around. -/
theorem cutStepChecked_eq (X : List Nat) (hwf : IsBytes X)
    (hX : X.length < 1152921504606846976) (fuel : Nat) (c : cutter) (p : Nat)
    (pfi : Int) (pfn : Nat)
    (hc : c.bits = cursorAt X p) (hp : p ≤ 8 * X.length)
    (hsl : c.lHuff.symbols.length = 288) (hsd : c.dHuff.symbols.length = 288)
    (hD : 0 ≤ c.decodedLen ∧ c.decodedLen < 2147483648)
    (hM0 : 2 ≤ c.maxEncodedLen) (hM : c.maxEncodedLen ≤ X.length)
    (hpf : pfi < 0 ∨ (1 ≤ pfi ∧ pfi ≤ X.length ∧ pfn ≤ 7))
    (hfuel : 8 * X.length < fuel) :
    c.cutStepChecked fuel pfi pfn = c.cutStep fuel pfi pfn := by
  unfold cutter.cutStepChecked cutter.cutStep
  rw [hc]
  rcases take_cases X p 1 hwf (by decide) hp with ⟨t1, t2⟩ | ⟨t1, t2⟩
  swap
  · simp only [t2, if_pos sentinel_neg]
  simp only [t2, if_neg (ofNat_not_neg _)]
  rcases take_cases X (p + 1) 2 hwf (by decide) t1 with ⟨u1, u2⟩ | ⟨u1, u2⟩
  swap
  · simp only [u2, if_pos sentinel_neg]
  simp only [u2, if_neg (ofNat_not_neg _)]
  by_cases g3 : (bitsVal X (p + 1) 2 : Int) = 3
  · simp only [if_pos g3]
  simp only [if_neg g3]
  have hM00 : 0 ≤ c.maxEncodedLen := le_trans (by decide) hM0
  have hf2 : 8 * X.length - (p + 1 + 2) < fuel :=
    lt_of_le_of_lt (Nat.sub_le _ _) hfuel
  rw [doBlockChecked_eq X hwf hX fuel { c with bits := cursorAt X (p + 1 + 2) } (p + 1 + 2)
    rfl u1 hsl hsd hM00 hM hf2]
  obtain ⟨c1, err, a1, a2, a3⟩ := doBlock_safe X hwf hX fuel
    { c with bits := cursorAt X (p + 1 + 2) } (p + 1 + 2) rfl u1 hsl hsd hD hM00 hM hf2
    (bitsVal X (p + 1) 2 : Int)
  rw [a1]
  simp only [Run.bind]
  refine afterBlockChecked_eq c1 err _ _ _ pfi pfn (cursorAt_nBits_le X (p + 1)) ?_ ?_
  · rcases hpf with h | h
    · exact Or.inl h
    · exact Or.inr h.2.2
  · intro h
    rcases h with h | h
    · obtain ⟨q, _, _, q3, _⟩ := a2 h
      rw [q3]
      exact le_trans (cursorAt_nBits_le X q) (by decide)
    · exact le_trans (a3 h).1 (by decide)

/-- The loop of `cut`: no shift amount wraps around. -/
theorem cutLoopChecked_eq (X : List Nat) (hwf : IsBytes X)
    (hX : X.length < 1152921504606846976) (fuel : Nat) (hfuel : 8 * X.length < fuel)
    (k : Nat) (c : cutter) (p : Nat) (pfi : Int) (pfn : Nat)
    (hc : c.bits = cursorAt X p) (hp : p ≤ 8 * X.length)
    (hsl : c.lHuff.symbols.length = 288) (hsd : c.dHuff.symbols.length = 288)
    (hD : 0 ≤ c.decodedLen ∧ c.decodedLen < 2147483648)
    (hM0 : 2 ≤ c.maxEncodedLen) (hM : c.maxEncodedLen ≤ X.length)
    (hpf : pfi < 0 ∨ (1 ≤ pfi ∧ pfi ≤ X.length ∧ pfn ≤ 7)) :
    cutter.cutLoopChecked fuel k c pfi pfn = cutter.cutLoop fuel k c pfi pfn := by
  induction k generalizing c p pfi pfn with
  | zero => rfl
  | succ k ih =>
    rw [cutter.cutLoopChecked, cutter.cutLoop,
      cutStepChecked_eq X hwf hX fuel c p pfi pfn hc hp hsl hsd hD hM0 hM hpf hfuel]
    obtain ⟨s, s1, s2⟩ := cutStep_safe X hwf hX fuel c p pfi pfn hc hp hsl hsd hD hM0 hM hpf
      hfuel
    rw [s1]
    cases s with
    | done r => rfl
    | again c1 fbi fbn =>
      simp only
      obtain ⟨q, q1, q2, q3, q4, q5, q6, q7, q8⟩ := s2 c1 fbi fbn rfl
      exact ih c1 q fbi fbn q3 q2 q4 q5 q6 (by rw [q7]; exact hM0) (by rw [q7]; exact hM)
        (Or.inr q8)

/-- The function `Cut` never computes one of the shift amounts `7 - nBits` and
`8 - nBits` with a bit count that makes it wrap around. -/
theorem CutChecked_eq (X : List Nat) (M : Int) (hwf : IsBytes X)
    (hX : X.length < 1152921504606846976) : CutChecked X M = Cut X M := by
  unfold CutChecked Cut CutFuelChecked CutFuel SmallestValidMaxEncodedLen
  by_cases g1 : M < 2
  · rw [if_pos g1, if_pos g1]
  rw [if_neg g1, if_neg g1]
  by_cases g2 : clampMaxEncodedLen X M < 2
  · rw [if_pos g2, if_pos g2]
  rw [if_neg g2, if_neg g2]
  unfold cutter.cut
  have h0 : (cutter.start X (clampMaxEncodedLen X M)).bits = cursorAt X 0 := by
    have := cursorAt_aligned X 0
    simp only [Nat.mul_zero] at this
    rw [this]
    rfl
  exact cutLoopChecked_eq X hwf hX _ (Nat.lt_add_of_pos_right (by decide)) _
    (cutter.start X (clampMaxEncodedLen X M)) 0 (-1) 0 h0 (Nat.zero_le _)
    zero_symbols_length zero_symbols_length
    ⟨le_refl _, by show (0 : Int) < 2147483648; decide⟩
    (by show 2 ≤ clampMaxEncodedLen X M; exact Int.not_lt.mp g2) (clampMaxEncodedLen_le X M)
    (Or.inl (by decide))

/-- C19. Panic freedom: for every buffer `X` of bytes (of a length below `2^60`)
and every integer `M`, `Cut(X, M)` returns. The run indexes no slice, array or
table out of range and does not reach the `panic` of `cutEmpty`, and the loops
end within their fuel: this is `Cut X M = Run.ret r`. No shift amount
`7 - nBits` or `8 - nBits` wraps around: `CutChecked`, which fails where one of
them would, returns the same result. -/
theorem Cut_panic_free (X : List Nat) (M : Int) (hwf : IsBytes X)
    (hX : X.length < 1152921504606846976) :
    ∃ r, Cut X M = Run.ret r ∧ CutChecked X M = Run.ret r := by
  obtain ⟨r, hr⟩ := Cut_returns X M hwf hX
  exact ⟨r, hr, by rw [CutChecked_eq X M hwf hX, hr]⟩

theorem Cut_panic_free_witness :
    IsBytes [75, 76, 4, 0] ∧ [75, 76, 4, 0].length < 1152921504606846976 ∧
      ∃ r, Cut [75, 76, 4, 0] 3 = Run.ret r ∧ CutChecked [75, 76, 4, 0] 3 = Run.ret r :=
  ⟨by unfold IsBytes; decide, by decide,
    Cut_panic_free [75, 76, 4, 0] 3 (by unfold IsBytes; decide) (by decide)⟩


/-- Every place below the number of codes holds a symbol. -/
theorem exists_symPos (L : List Nat) (j : Nat) (hj : j < symStartL L 16) :
    ∃ s, s < L.length ∧ 1 ≤ L.getD s 0 ∧ L.getD s 0 ≤ 15 ∧ symPos L s = j := by
  have key : ∀ n, j < symStartL L (n + 1) →
      ∃ l, 1 ≤ l ∧ l ≤ n ∧ symStartL L l ≤ j ∧ j < symStartL L l + L.count l := by
    intro n
    induction n with
    | zero =>
      intro h
      have e : symStartL L (0 + 1) = 0 := rfl
      rw [e] at h
      omega
    | succ n ih =>
      intro h
      rw [symStartL_succ L (n + 1) (by omega)] at h
      by_cases h2 : j < symStartL L (n + 1)
      · obtain ⟨l, l1, l2, l3, l4⟩ := ih h2
        exact ⟨l, l1, by omega, l3, l4⟩
      · exact ⟨n + 1, by omega, le_refl _, by omega, h⟩
  obtain ⟨l, l1, l2, l3, l4⟩ := key 15 hj
  obtain ⟨s, s1, s2, s3⟩ := exists_rank L l (j - symStartL L l) (by omega)
  refine ⟨s, s1, by omega, by omega, ?_⟩
  unfold symPos
  rw [s2, s3]
  omega

/-- The loop that sorts the symbols writes out of range when a symbol has a
place beyond the 288 entries of `symbols`. -/
theorem placeSymbols_none (L : List Nat) (hL : ∀ x ∈ L, x ≤ 15)
    (rest : List Nat) (m : Nat) (offs : List Nat) (syms : List Int)
    (hrest : L.drop m = rest) (hoffs : offs.length = 16)
    (hinv : ∀ l, 1 ≤ l → l ≤ 15 → offs.getD l 0 = symStartL L l + (L.take m).count l)
    (hbig : ∃ s, m ≤ s ∧ s < L.length ∧ L.getD s 0 ≠ 0 ∧ 288 ≤ symPos L s) :
    placeSymbols rest m offs syms = none := by
  induction rest generalizing m offs syms with
  | nil =>
    have hm : L.length ≤ m := by
      have := congrArg List.length hrest
      simp at this
      omega
    obtain ⟨s, s1, s2, _⟩ := hbig
    omega
  | cons x xs ih =>
    have hm : m < L.length := by
      have := congrArg List.length hrest
      simp at this
      omega
    have hxm : L.getD m 0 = x := by
      rw [List.getD_eq_getElem?_getD, ← List.head?_drop, hrest]
      rfl
    have hrest1 : L.drop (m + 1) = xs := by
      rw [← List.drop_drop 1 m, hrest]
      rfl
    have hx15 : x ≤ 15 := by
      rw [← hxm]
      apply hL
      rw [List.getD_eq_getElem?_getD, List.getElem?_eq_getElem hm]
      exact List.getElem_mem _
    obtain ⟨s, s1, s2, s3, s4⟩ := hbig
    rw [placeSymbols]
    by_cases hx0 : x = 0
    · rw [if_neg (by simpa using hx0)]
      have hsm : s ≠ m := fun e => s3 (by rw [e, hxm, hx0])
      exact ih (m + 1) offs syms hrest1 hoffs
        (fun l h1 h15 => by
          rw [hinv l h1 h15, count_take_succ L m l hm, hxm, if_neg (by omega)]
          rfl) ⟨s, by omega, s2, s3, s4⟩
    · rw [if_pos (by simpa using hx0)]
      have hpos : offs.getD x 0 = symPos L m := by
        rw [hinv x (by omega) hx15]
        unfold symPos
        rw [hxm]
      rw [hpos]
      by_cases hlt : symPos L m < 288
      · rw [if_pos (by unfold maxNumCodes; omega)]
        have e1 : u32 (symPos L m + 1) = symPos L m + 1 := u32_of_lt (by omega)
        rw [e1]
        have hsm : s ≠ m := fun e => by
          rw [e] at s4
          omega
        exact ih (m + 1) (offs.set x (symPos L m + 1)) _ hrest1 (by simp [hoffs])
          (fun l h1 h15 => by
            rw [getD_set_eq_ite _ _ _ _ (by omega), count_take_succ L m l hm, hxm]
            by_cases hlx : l = x
            · subst hlx
              rw [if_pos rfl, if_pos rfl]
              unfold symPos
              rw [hxm]
              omega
            · rw [if_neg hlx, if_neg (fun h => hlx h.symm), hinv l h1 h15]
              rfl) ⟨s, by omega, s2, s3, s4⟩
      · rw [if_neg (by unfold maxNumCodes; omega)]

/-- A vector on which `construct` succeeds has at most 288 non-zero lengths:
with more of them the write to `h.symbols` is out of range. -/
theorem construct_nz_le (h h1 : huffman) (L : List Nat) (ecb ecn : Nat)
    (hL : ∀ x ∈ L, x ≤ 15) (hlen : L.length ≤ 65536)
    (hc : h.construct L = Run.ret (h1, ecb, ecn, none)) :
    (L.filter (fun l => l ≠ 0)).length ≤ 288 := by
  by_contra hbig
  have htot := symStartL_total L hL
  obtain ⟨s, s1, s2, s3, s4⟩ := exists_symPos L 288 (by omega)
  by_cases hgood : (∃ x ∈ L, x ≠ 0) ∧ kraftSum L = 2 ^ 15
  · obtain ⟨counts, c1, c2, c3⟩ := countLengths_replicate L hL (by omega)
    have hK : kraftAt L 15 = 2 ^ 15 := by rw [kraftAt_eq_kraftSum L hL, hgood.2]
    have hB : ∀ j, counts.getD j 0 ≤ 65536 := fun j => by
      rw [c3 j]
      exact le_trans (List.count_le_length _ _) hlen
    obtain ⟨o1, o2⟩ := offsetsLoop_init counts 65536 hB (by decide)
    have hp := placeSymbols_none L hL L 0
      (offsetsLoop counts 14 1 (List.replicate 16 0)) h.symbols rfl o1
      (fun l h1 h15 => by
        rw [o2 l h15, symStart_eq_symStartL L counts c3]
        simp) ⟨s, Nat.zero_le _, s1, by omega, by omega⟩
    have hpanic : h.construct L = Run.panic := by
      unfold huffman.construct maxCodeBits
      rw [c1]
      simp only
      rw [if_neg (by
        rw [c3 0, u32_of_lt (by omega)]
        obtain ⟨x, hx, hx0⟩ := hgood.1
        exact fun h0 => hx0 ((all_zero_iff L).mp h0 x hx))]
      rw [kraftLoop_spec L counts c3 _ 15 1 (le_refl _) rfl 1 0 0 (by simp [kraftAt]),
        if_pos (by omega)]
      simp only
      rw [if_neg (by omega), hp]
    rw [hpanic] at hc
    simp at hc
  · have hbad : (∀ x ∈ L, x = 0) ∨ kraftSum L ≠ 2 ^ 15 := by
      by_cases hz : ∀ x ∈ L, x = 0
      · exact Or.inl hz
      · right
        intro hk
        apply hgood
        refine ⟨?_, hk⟩
        by_contra hne
        apply hz
        intro x hx
        by_contra hx0
        exact hne ⟨x, hx, hx0⟩
    obtain ⟨counts, _, _, a3⟩ := construct_bad h L hL hlen hbad
    rw [a3] at hc
    simp at hc

/-- C15. The end-of-block code: for every vector `L` of more than 256 code
lengths in `0..15` (at most 65536 of them, far more than the 316 a block can
hold) on which `construct` succeeds, the returned
`endCodeNBits` is `L[256]`, and when `L[256] > 0` the returned `endCodeBits` is
the canonical code of the symbol 256, the first code of that length plus the
number of symbols below 256 of that length, so that the constructed table
decodes these `endCodeNBits` bits, most significant first, to 256. -/
theorem construct_endCode (h h1 : huffman) (L : List Nat) (ecb ecn : Nat)
    (hs : h.symbols.length = 288) (hL : ∀ x ∈ L, x ≤ 15) (h256 : 256 < L.length)
    (hlen : L.length ≤ 65536) (hc : h.construct L = Run.ret (h1, ecb, ecn, none)) :
    ecn = L.getD 256 0 ∧
    (0 < L.getD 256 0 →
      ecb = Rfc1951.nextCode L (L.getD 256 0) + (L.take 256).count (L.getD 256 0) ∧
      ∀ bytes p, IsBytes bytes → p + ecn ≤ 8 * bytes.length →
        Rfc1951.codeVal bytes p ecn = ecb →
        h1.decode (cursorAt bytes p) = Run.ret (256, cursorAt bytes (p + ecn))) := by
  have hnz := construct_nz_le h h1 L ecb ecn hL hlen hc
  obtain ⟨_, _, _, a2, _, a3, a4, a5, _⟩ := construct_none h h1 L ecb ecn hs hL hlen hnz hc
  rw [if_pos h256] at a4
  refine ⟨a4, fun h0 => ?_⟩
  rw [if_pos ⟨h256, h0⟩] at a3
  refine ⟨a3, fun bytes p hwf hp hcode => ?_⟩
  have := decode_canonical_aux L h1.counts h1.symbols hL hlen hnz a2 a5 bytes hwf p
    256 (L.getD 256 0) h256 rfl h0 (by rw [← a4]; exact hp) (by rw [← a4, hcode, a3])
  rw [a4]
  exact this

/-- C15, the static literal/length code: `endCodeBits = 0` and
`endCodeNBits = 7`. -/
theorem construct_endCode_witness :
    huffman.zero.construct (staticLengths.take 288) = Run.ret (staticLHuff, 0, 7, none) ∧
      7 = (staticLengths.take 288).getD 256 0 ∧
      0 = Rfc1951.nextCode (staticLengths.take 288) ((staticLengths.take 288).getD 256 0)
          + ((staticLengths.take 288).take 256).count ((staticLengths.take 288).getD 256 0) :=
  ⟨construct_staticL_zero,
   (construct_endCode huffman.zero staticLHuff (staticLengths.take 288) 0 7 zero_symbols_length
      (by decide!) (by decide!) (by decide!) construct_staticL_zero).1,
   ((construct_endCode huffman.zero staticLHuff (staticLengths.take 288) 0 7
      zero_symbols_length (by decide!) (by decide!) (by decide!) construct_staticL_zero).2
        (by decide!)).1⟩


end Flatecut
